import Mathlib

/-!
# Cuckoo Cycle miner: a shallow embedding of `cuckoo_miner.h`

The definitions below follow `src/cuckoo_miner.h` (the non-HUGEFAST build):
`shrinkingset`, `twice_set`, `cuckoo_hash`, `trim_edges`, `path`, `solution`
and `worker`.  Machine integers are natural numbers with explicit reductions
modulo `2^32` (`node_t`, `nonce_t`, `u32`) and `2^64` (`u64`).  Vectors and
arrays are lists; an access outside the allocated range or a loop that does
not finish yields `none`.
-/

namespace Cuckoo

/-! ## Machine words -/

/-- Modelled from the spec: `node_t`, `nonce_t` and `u32` of the absent `cuckoo.h`
are 32-bit unsigned integers (section 3: u32 suffices when EDGEBITS is at most 31). -/
def W32 : Nat := 2 ^ 32

/-- Range of `u64`. -/
def W64 : Nat := 2 ^ 64

/-! ## Algorithm parameters -/

/-- Compile-time parameters.  `EDGEBITS` and `PROOFSIZE` come from the absent
`cuckoo.h`; `PART_BITS` is the `#ifndef` parameter of `cuckoo_miner.h`. -/
structure Params where
  EDGEBITS : Nat
  PROOFSIZE : Nat
  PART_BITS : Nat
deriving DecidableEq, Repr

/-- Modelled from the spec: `HALFSIZE` of the absent `cuckoo.h` is the number of
nodes per partition, `NNODES = 2^EDGEBITS`. -/
def Params.HALFSIZE (P : Params) : Nat := 2 ^ P.EDGEBITS

/-- Modelled from the spec: `SIZE` of the absent `cuckoo.h` is the full node index
space `N = 2 * NNODES`. -/
def Params.SIZE (P : Params) : Nat := 2 * P.HALFSIZE

/-- `#define MAXPATHLEN 8192` -/
def MAXPATHLEN : Nat := 8192

/-- `#define IDXSHIFT (PART_BITS + 6)` -/
def Params.IDXSHIFT (P : Params) : Nat := P.PART_BITS + 6

/-- `#define CUCKOO_SIZE ((1+SIZE+(1<<IDXSHIFT)-1) >> IDXSHIFT)` -/
def Params.CUCKOO_SIZE (P : Params) : Nat :=
  (1 + P.SIZE + (1 <<< P.IDXSHIFT) - 1) >>> P.IDXSHIFT

/-- `#define CLUMPSHIFT 9` -/
def CLUMPSHIFT : Nat := 9

/-- `#define KEYSHIFT (IDXSHIFT + CLUMPSHIFT)` -/
def Params.KEYSHIFT (P : Params) : Nat := P.IDXSHIFT + CLUMPSHIFT

/-- `#define KEYMASK ((1 << KEYSHIFT) - 1)` -/
def Params.KEYMASK (P : Params) : Nat := (1 <<< P.KEYSHIFT) - 1

/-- `#define PART_MASK ((1 << PART_BITS) - 1)` -/
def Params.PART_MASK (P : Params) : Nat := (1 <<< P.PART_BITS) - 1

/-- `#define ONCE_BITS ((HALFSIZE + PART_MASK) >> PART_BITS)` -/
def Params.ONCE_BITS (P : Params) : Nat := (P.HALFSIZE + P.PART_MASK) >>> P.PART_BITS

/-- `#define TWICE_WORDS ((2UL * ONCE_BITS + 31UL) / 32UL)` -/
def Params.TWICE_WORDS (P : Params) : Nat := (2 * P.ONCE_BITS + 31) / 32

/-! ## `shrinkingset`: the live-edge bitset -/

/-- `class shrinkingset`: `bits` is a vector of `u32`, `cnt` a vector of `u64`. -/
structure shrinkingset where
  bits : List Nat
  cnt : List Nat
deriving DecidableEq, Repr

/-- `shrinkingset(nonce_t size, int nthreads)`: `bits.resize((size+31)/32)`,
`cnt.resize(nthreads)`, `cnt[0] = size`.  The sum `size+31` is computed in `nonce_t`.
Writing `cnt[0]` of an empty vector is outside the vector. -/
def shrinkingset.new (size nthreads : Nat) : Option shrinkingset :=
  if 0 < nthreads then
    some { bits := List.replicate (((size + 31) % W32) / 32) 0,
           cnt := (List.replicate nthreads 0).set 0 size }
  else none

/-- `u64 count()`: the sum of all counters, in `u64`. -/
def shrinkingset.count (s : shrinkingset) : Nat :=
  s.cnt.foldl (fun sum c => (sum + c) % W64) 0

/-- `void reset(nonce_t n, int thread)`: `bits[n/32] |= 1 << (n%32); cnt[thread]--;` -/
def shrinkingset.reset (s : shrinkingset) (n thread : Nat) : Option shrinkingset :=
  match s.bits[n / 32]?, s.cnt[thread]? with
  | some w, some c =>
      some { bits := s.bits.set (n / 32) (w ||| ((1 <<< (n % 32)) % W32)),
             cnt := s.cnt.set thread ((c + W64 - 1) % W64) }
  | _, _ => none

/-- `bool test(node_t n)`: `!((bits[n/32] >> (n%32)) & 1)`. -/
def shrinkingset.test (s : shrinkingset) (n : Nat) : Option Bool :=
  match s.bits[n / 32]? with
  | some w => some (((w >>> (n % 32)) &&& 1) == 0)
  | none => none

/-! ## `twice_set`: two-bit node counters -/

/-- `class twice_set`: `TWICE_WORDS` words of `u32`. -/
structure twice_set where
  bits : List Nat
deriving DecidableEq, Repr

/-- `twice_set()`: `calloc(TWICE_WORDS, sizeof(au32))`. -/
def twice_set.new (P : Params) : twice_set := { bits := List.replicate P.TWICE_WORDS 0 }

/-- `void reset()`: stores 0 in each of the `TWICE_WORDS` words. -/
def twice_set.reset (P : Params) (t : twice_set) : Option twice_set :=
  if P.TWICE_WORDS ≤ t.bits.length then
    some { bits := List.replicate P.TWICE_WORDS 0 ++ t.bits.drop P.TWICE_WORDS }
  else none

/-- `void set(node_t u)`: fetch-or of the low bit of the pair; when it was already set,
fetch-or of the high bit. -/
def twice_set.set (t : twice_set) (u : Nat) : Option twice_set :=
  let idx := u / 16
  let bit := (1 <<< (2 * (u % 16))) % W32
  match t.bits[idx]? with
  | some old =>
      let w1 := old ||| bit
      if old &&& bit ≠ 0 then some { bits := t.bits.set idx (w1 ||| ((bit <<< 1) % W32)) }
      else some { bits := t.bits.set idx w1 }
  | none => none

/-- `u32 test(node_t u)`: `(bits[u/16] >> (2 * (u%16))) & 2`. -/
def twice_set.test (t : twice_set) (u : Nat) : Option Nat :=
  match t.bits[u / 16]? with
  | some w => some ((w >>> (2 * (u % 16))) &&& 2)
  | none => none

/-! ## `cuckoo_hash`: the node-to-node map -/

/-- `class cuckoo_hash`: `CUCKOO_SIZE` slots of `u64`. -/
structure cuckoo_hash where
  cuckoo : List Nat
deriving DecidableEq, Repr

/-- `cuckoo_hash()`: `calloc(CUCKOO_SIZE, sizeof(au64))`. -/
def cuckoo_hash.new (P : Params) : cuckoo_hash := { cuckoo := List.replicate P.CUCKOO_SIZE 0 }

/-- The word `(u64)v << KEYSHIFT | (u & KEYMASK)` stored by `set`. -/
def niew (P : Params) (u v : Nat) : Nat :=
  ((v <<< P.KEYSHIFT) % W64) ||| (u &&& P.KEYMASK)

/-- The probe loop of `cuckoo_hash::set`, started at slot `ui`.  The compare-exchange
stores `niew` when the slot holds 0; a slot with the same key bits is overwritten;
otherwise `++ui` (in `node_t`), wrapping to 0 at `CUCKOO_SIZE`. -/
def cuckoo_hash.setLoop (P : Params) (u v : Nat) : Nat → Nat → cuckoo_hash → Option cuckoo_hash
  | 0, _, _ => none
  | fuel + 1, ui, c =>
    match c.cuckoo[ui]? with
    | none => none
    | some old =>
      if old = 0 then some { cuckoo := c.cuckoo.set ui (niew P u v) }
      else if (u ^^^ old) &&& P.KEYMASK = 0 then some { cuckoo := c.cuckoo.set ui (niew P u v) }
      else cuckoo_hash.setLoop P u v fuel
        (if (ui + 1) % W32 = P.CUCKOO_SIZE then 0 else (ui + 1) % W32) c

/-- `void set(node_t u, node_t v)`: the probe starts at `u >> IDXSHIFT`. -/
def cuckoo_hash.set (P : Params) (fuel : Nat) (c : cuckoo_hash) (u v : Nat) : Option cuckoo_hash :=
  cuckoo_hash.setLoop P u v fuel (u >>> P.IDXSHIFT) c

/-- The probe loop of `cuckoo_hash::get`, started at slot `ui`. -/
def cuckoo_hash.getLoop (P : Params) (c : cuckoo_hash) (u : Nat) : Nat → Nat → Option Nat
  | 0, _ => none
  | fuel + 1, ui =>
    match c.cuckoo[ui]? with
    | none => none
    | some cu =>
      if cu = 0 then some 0
      else if (u ^^^ cu) &&& P.KEYMASK = 0 then some ((cu >>> P.KEYSHIFT) % W32)
      else cuckoo_hash.getLoop P c u fuel
        (if (ui + 1) % W32 = P.CUCKOO_SIZE then 0 else (ui + 1) % W32)

/-- `node_t get(node_t u)`: the probe starts at `u >> IDXSHIFT`. -/
def cuckoo_hash.get (P : Params) (fuel : Nat) (c : cuckoo_hash) (u : Nat) : Option Nat :=
  cuckoo_hash.getLoop P c u fuel (u >>> P.IDXSHIFT)

/-! ## The edge oracle -/

/-- Modelled from the spec: `sipedge_u` of the absent `cuckoo.h`.  Section 4.A gives
`SipHash24(keys, 2*nonce + side) & (NNODES - 1)`; the keyed hash is the parameter `h`. -/
def sipedge_u (P : Params) (h : Nat → Nat) (nonce : Nat) : Nat := h (2 * nonce) % P.HALFSIZE

/-- Modelled from the spec: `sipedge_v` of the absent `cuckoo.h` (side 1 of section 4.A). -/
def sipedge_v (P : Params) (h : Nat → Nat) (nonce : Nat) : Nat := h (2 * nonce + 1) % P.HALFSIZE

/-! ## The solver context and the nonce loop -/

/-- `class cuckoo_ctx` (non-HUGEFAST): `cuckoo` is a pointer, null until worker 0
allocates the map; `nonleaf` is a pointer, null after worker 0 deletes the set;
`sols` has `maxsols` rows of `PROOFSIZE` nonces. -/
structure cuckoo_ctx where
  easiness : Nat
  alive : shrinkingset
  nonleaf : Option twice_set
  cuckoo : Option cuckoo_hash
  sols : List (List Nat)
  maxsols : Nat
  nsols : Nat
  nthreads : Nat
  ntrims : Nat
deriving DecidableEq, Repr

/-- How a piece of code ends: it falls through (`next`) or the thread leaves through
`pthread_exit` or `exit(0)` (`exit`). -/
inductive Step (σ : Type) where
  | next : σ → Step σ
  | exit : σ → Step σ

/-- The state held by a `Step`. -/
def Step.state {σ : Type} : Step σ → σ
  | Step.next s => s
  | Step.exit s => s

/-- Inner loop of `FORALL_LIVE_NONCES`:
`for (NONCE = block; NONCE < block+32 && NONCE < easiness; NONCE++) if (alive->test(NONCE)) body`.
`blockEnd` is `block+32` in `nonce_t`. -/
def forallNonces {σ : Type} (alive : σ → shrinkingset) (body : Nat → σ → Option (Step σ))
    (easiness blockEnd : Nat) : Nat → Nat → σ → Option (Step σ)
  | 0, _, _ => none
  | fuel + 1, nonce, s =>
    if nonce < blockEnd ∧ nonce < easiness then
      match (alive s).test nonce with
      | none => none
      | some false => forallNonces alive body easiness blockEnd fuel ((nonce + 1) % W32) s
      | some true =>
        match body nonce s with
        | none => none
        | some (Step.exit s1) => some (Step.exit s1)
        | some (Step.next s1) =>
          forallNonces alive body easiness blockEnd fuel ((nonce + 1) % W32) s1
    else some (Step.next s)

/-- Outer loop of `FORALL_LIVE_NONCES`:
`for (block = id*32; block < easiness; block += nthreads*32)`.  The inner loop runs at
most 32 times, so it is given 33 steps. -/
def forallBlocks {σ : Type} (alive : σ → shrinkingset) (body : Nat → σ → Option (Step σ))
    (easiness nthreads : Nat) : Nat → Nat → σ → Option (Step σ)
  | 0, _, _ => none
  | fuel + 1, block, s =>
    if block < easiness then
      match forallNonces alive body easiness ((block + 32) % W32) 33 block s with
      | none => none
      | some (Step.exit s1) => some (Step.exit s1)
      | some (Step.next s1) =>
        forallBlocks alive body easiness nthreads fuel ((block + nthreads * 32) % W32) s1
    else some (Step.next s)

/-- `FORALL_LIVE_NONCES(NONCE) body }}}` for the thread `id`. -/
def FORALL_LIVE_NONCES {σ : Type} (alive : σ → shrinkingset)
    (body : Nat → σ → Option (Step σ)) (easiness nthreads id fuel : Nat) (s : σ) :
    Option (Step σ) :=
  forallBlocks alive body easiness nthreads fuel ((id * 32) % W32) s

/-! ## `trim_edges` -/

/-- Body of the first pass of a half of `trim_edges`:
`if ((u & PART_MASK) == part) ctx->nonleaf->set(u >> PART_BITS);` with `u` the endpoint
`side nonce`. -/
def trimSetBody (P : Params) (side : Nat → Nat) (part nonce : Nat) (ctx : cuckoo_ctx) :
    Option (Step cuckoo_ctx) :=
  let u := side nonce
  if u &&& P.PART_MASK = part then
    match ctx.nonleaf with
    | none => none
    | some nl =>
      match nl.set (u >>> P.PART_BITS) with
      | none => none
      | some nl1 => some (Step.next { ctx with nonleaf := some nl1 })
  else some (Step.next ctx)

/-- Body of the second pass of a half of `trim_edges`:
`if ((u & PART_MASK) == part && !ctx->nonleaf->test(u >> PART_BITS)) ctx->alive->reset(nonce, tp->id);` -/
def trimKillBody (P : Params) (side : Nat → Nat) (part id nonce : Nat) (ctx : cuckoo_ctx) :
    Option (Step cuckoo_ctx) :=
  let u := side nonce
  if u &&& P.PART_MASK = part then
    match ctx.nonleaf with
    | none => none
    | some nl =>
      match nl.test (u >>> P.PART_BITS) with
      | none => none
      | some t =>
        if t = 0 then
          match ctx.alive.reset nonce id with
          | none => none
          | some a1 => some (Step.next { ctx with alive := a1 })
        else some (Step.next ctx)
  else some (Step.next ctx)

/-- One half of `trim_edges` for the endpoint function `side`, run by thread `id` with
the barriers passed at once (one thread): thread 0 resets `nonleaf`, then the set pass,
then the kill pass. -/
def trimHalf (P : Params) (side : Nat → Nat) (part id fuel : Nat) (ctx : cuckoo_ctx) :
    Option cuckoo_ctx :=
  let ctx0 : Option cuckoo_ctx :=
    if id = 0 then
      match ctx.nonleaf with
      | none => none
      | some nl => (nl.reset P).map fun nl1 => { ctx with nonleaf := some nl1 }
    else some ctx
  match ctx0 with
  | none => none
  | some c0 =>
    match FORALL_LIVE_NONCES cuckoo_ctx.alive (trimSetBody P side part)
        c0.easiness c0.nthreads id fuel c0 with
    | none => none
    | some r1 =>
      match FORALL_LIVE_NONCES cuckoo_ctx.alive (trimKillBody P side part id)
          r1.state.easiness r1.state.nthreads id fuel r1.state with
      | none => none
      | some r2 => some r2.state

/-- `void trim_edges(thread_ctx *tp, unsigned part)`: the U half, then the V half. -/
def trim_edges (P : Params) (h : Nat → Nat) (id part fuel : Nat) (ctx : cuckoo_ctx) :
    Option cuckoo_ctx :=
  (trimHalf P (sipedge_u P h) part id fuel ctx).bind
    (trimHalf P (sipedge_v P h) part id fuel)

/-! ## `path` and `solution` -/

/-- Read of a stack array `node_t us[MAXPATHLEN]`. -/
def rdPath (us : Nat → Nat) (i : Nat) : Option Nat :=
  if i < MAXPATHLEN then some (us i) else none

/-- Write of a stack array `node_t us[MAXPATHLEN]`. -/
def wrPath (us : Nat → Nat) (i v : Nat) : Option (Nat → Nat) :=
  if i < MAXPATHLEN then some (Function.update us i v) else none

/-- Result of `path`: it returns `nu` (with the array as written), or it leaves the
thread through `pthread_exit`. -/
inductive PathResult where
  | ret : Nat → (Nat → Nat) → PathResult
  | aborted : PathResult

/-- The loop of `path`, `for (nu = 0; u; u = cuckoo->get(u))`, entered with the
current `u` and `nu`.  When `++nu >= MAXPATHLEN` the code scans `us` downwards
(reads only, all below `MAXPATHLEN`), prints and calls `pthread_exit`. -/
def pathLoop (P : Params) (c : cuckoo_hash) (gfuel : Nat) :
    Nat → Nat → (Nat → Nat) → Nat → Option PathResult
  | 0, _, _, _ => none
  | fuel + 1, u, us, nu =>
    if u = 0 then some (PathResult.ret nu us)
    else if nu + 1 ≥ MAXPATHLEN then some PathResult.aborted
    else
      match c.get P gfuel u with
      | none => none
      | some u1 => pathLoop P c gfuel fuel u1 (Function.update us (nu + 1) u) (nu + 1)

/-- `int path(cuckoo_hash *cuckoo, node_t u, node_t *us)`. -/
def path (P : Params) (fuel : Nat) (c : cuckoo_hash) (u : Nat) (us : Nat → Nat) :
    Option PathResult :=
  pathLoop P c fuel fuel u us 0

/-- `typedef std::pair<node_t,node_t> edge;` -/
structure edge where
  first : Nat
  second : Nat
deriving DecidableEq, Repr

/-- `while (nu--) cycle.insert(edge(us[(nu+1)&~1], us[nu|1]));` on a `std::set<edge>`,
kept as a list without repetition.  The argument is the value of `nu` before the test. -/
def cycleInsertU (us : Nat → Nat) : Nat → List edge → Option (List edge)
  | 0, cyc => some cyc
  | nu + 1, cyc =>
    match rdPath us ((nu + 1) &&& (W32 - 2)), rdPath us (nu ||| 1) with
    | some a, some b => cycleInsertU us nu (List.insert (edge.mk a b) cyc)
    | _, _ => none

/-- `while (nv--) cycle.insert(edge(vs[nv|1], vs[(nv+1)&~1]));` -/
def cycleInsertV (vs : Nat → Nat) : Nat → List edge → Option (List edge)
  | 0, cyc => some cyc
  | nv + 1, cyc =>
    match rdPath vs (nv ||| 1), rdPath vs ((nv + 1) &&& (W32 - 2)) with
    | some a, some b => cycleInsertV vs nv (List.insert (edge.mk a b) cyc)
    | _, _ => none

/-- The cycle set built at the start of `solution`. -/
def cycleSet (us : Nat → Nat) (nu : Nat) (vs : Nat → Nat) (nv : Nat) : Option (List edge) :=
  match rdPath us 0, rdPath vs 0 with
  | some a, some b => (cycleInsertU us nu [edge.mk a b]).bind (cycleInsertV vs nv)
  | _, _ => none

/-- The edge `e(1+sipedge_u(nonce), 1+HALFSIZE+sipedge_v(nonce))` of a nonce, as a pair
of `node_t`. -/
def nonceEdge (P : Params) (h : Nat → Nat) (nonce : Nat) : edge :=
  edge.mk ((1 + sipedge_u P h nonce) % W32) ((1 + P.HALFSIZE + sipedge_v P h nonce) % W32)

/-- Write `sols[soli][n] = nonce`; rows have `PROOFSIZE` entries. -/
def writeSol (sols : List (List Nat)) (soli n nonce : Nat) : Option (List (List Nat)) :=
  match sols[soli]? with
  | none => none
  | some row => if n < row.length then some (sols.set soli (row.set n nonce)) else none

/-- State of the scan of `solution`: the rows, the count `n`, and the cycle set. -/
structure ScanState where
  sols : List (List Nat)
  n : Nat
  cycle : List edge
deriving DecidableEq, Repr

/-- One pass through the body of `for (nonce = n = 0; nonce < ctx->easiness; nonce++)`
in `solution`. -/
def scanStep (P : Params) (h : Nat → Nat) (alive : shrinkingset) (soli : Nat)
    (st : ScanState) (nonce : Nat) : Option ScanState :=
  match alive.test nonce with
  | none => none
  | some false => some st
  | some true =>
    let e := nonceEdge P h nonce
    if e ∈ st.cycle then
      match writeSol st.sols soli st.n nonce with
      | none => none
      | some sols1 => some { sols := sols1, n := st.n + 1, cycle := st.cycle.erase e }
    else some st

/-- The scan loop of `solution` over the nonces of a list, in order. -/
def scanNonces (P : Params) (h : Nat → Nat) (alive : shrinkingset) (soli : Nat) :
    List Nat → ScanState → Option ScanState
  | [], st => some st
  | nonce :: rest, st =>
    match scanStep P h alive soli st nonce with
    | none => none
    | some st1 => scanNonces P h alive soli rest st1

/-- `void solution(cuckoo_ctx *ctx, node_t *us, int nu, node_t *vs, int nv)`: build the
cycle set, claim row `soli = nsols++`, scan the nonces `0 .. easiness-1`. -/
def solution (P : Params) (h : Nat → Nat) (ctx : cuckoo_ctx) (us : Nat → Nat) (nu : Nat)
    (vs : Nat → Nat) (nv : Nat) : Option cuckoo_ctx :=
  match cycleSet us nu vs nv with
  | none => none
  | some cyc =>
    let soli := ctx.nsols
    match scanNonces P h ctx.alive soli (List.range ctx.easiness)
        { sols := ctx.sols, n := 0, cycle := cyc } with
    | none => none
    | some st => some { ctx with nsols := (ctx.nsols + 1) % W32, sols := st.sols }

/-! ## `worker` -/

/-- Locals of `worker` that live across iterations: the context and the two stack
arrays `us`, `vs`. -/
structure WorkerState where
  ctx : cuckoo_ctx
  us : Nat → Nat
  vs : Nat → Nat

/-- `for (nu -= min, nv -= min; us[nu] != vs[nv]; nu++, nv++) ;` entered with the
current indices. -/
def alignLoop (us vs : Nat → Nat) : Nat → Nat → Nat → Option (Nat × Nat)
  | 0, _, _ => none
  | fuel + 1, nu, nv =>
    match rdPath us nu, rdPath vs nv with
    | some a, some b => if a ≠ b then alignLoop us vs fuel (nu + 1) (nv + 1) else some (nu, nv)
    | _, _ => none

/-- `while (nu--) cuckoo->set(us[nu+1], us[nu]);`  The argument is the value of `nu`
before the test. -/
def reversePath (P : Params) (fuel : Nat) (us : Nat → Nat) :
    Nat → cuckoo_hash → Option cuckoo_hash
  | 0, c => some c
  | nu + 1, c =>
    match rdPath us (nu + 1), rdPath us nu with
    | some a, some b =>
      match c.set P fuel a b with
      | none => none
      | some c1 => reversePath P fuel us nu c1
    | _, _ => none

/-- Body of the cycle-finding loop of `worker` for one live nonce. -/
def cycleBody (P : Params) (h : Nat → Nat) (fuel nonce : Nat) (w : WorkerState) :
    Option (Step WorkerState) :=
  match w.ctx.cuckoo with
  | none => none
  | some cuckoo =>
    let u0 := (sipedge_u P h nonce + 1) % W32
    let v0 := (sipedge_v P h nonce + (1 + P.HALFSIZE)) % W32
    match cuckoo.get P fuel u0, cuckoo.get P fuel v0 with
    | some u, some v =>
      if u = v0 ∨ v = u0 then some (Step.next w)
      else
        let us0 := Function.update w.us 0 u0
        let vs0 := Function.update w.vs 0 v0
        match path P fuel cuckoo u us0 with
        | none => none
        | some PathResult.aborted => some (Step.exit { w with us := us0, vs := vs0 })
        | some (PathResult.ret nu us) =>
          match path P fuel cuckoo v vs0 with
          | none => none
          | some PathResult.aborted => some (Step.exit { w with us := us, vs := vs0 })
          | some (PathResult.ret nv vs) =>
            match rdPath us nu, rdPath vs nv with
            | some a, some b =>
              if a = b then
                let min := if nu < nv then nu else nv
                match alignLoop us vs fuel (nu - min) (nv - min) with
                | none => none
                | some (nu1, nv1) =>
                  let len := nu1 + nv1 + 1
                  if len = P.PROOFSIZE ∧ w.ctx.nsols < w.ctx.maxsols then
                    match solution P h w.ctx us nu1 vs nv1 with
                    | none => none
                    | some ctx1 => some (Step.next { ctx := ctx1, us := us, vs := vs })
                  else some (Step.next { w with us := us, vs := vs })
              else if nu < nv then
                match (reversePath P fuel us nu cuckoo).bind (fun c => c.set P fuel u0 v0) with
                | none => none
                | some c1 =>
                  some (Step.next { ctx := { w.ctx with cuckoo := some c1 }, us := us, vs := vs })
              else
                match (reversePath P fuel vs nv cuckoo).bind (fun c => c.set P fuel v0 u0) with
                | none => none
                | some c1 =>
                  some (Step.next { ctx := { w.ctx with cuckoo := some c1 }, us := us, vs := vs })
            | _, _ => none
    | _, _ => none

/-- The cast `(int)x` of a `u64` value. -/
def toInt32 (x : Nat) : Int :=
  if x % W32 < 2 ^ 31 then (x % W32 : Nat) else ((x % W32 : Nat) : Int) - (W32 : Nat)

/-- `(int)(100 * ctx->alive->count() / CUCKOO_SIZE)`. -/
def loadOf (P : Params) (alive : shrinkingset) : Int :=
  toInt32 ((100 * alive.count) % W64 / P.CUCKOO_SIZE)

/-- `for (unsigned part = 0; part <= PART_MASK; part++) trim_edges(tp, part);` over the
listed parts. -/
def trimParts (P : Params) (h : Nat → Nat) (id fuel : Nat) :
    List Nat → cuckoo_ctx → Option cuckoo_ctx
  | [], ctx => some ctx
  | part :: rest, ctx =>
    match trim_edges P h id part fuel ctx with
    | none => none
    | some ctx1 => trimParts P h id fuel rest ctx1

/-- The trim rounds of `worker`, `for (int round=1; round <= ctx->ntrims; round++)`,
with the number of rounds still to run; `load` is the local of that name. -/
def trimRounds (P : Params) (h : Nat → Nat) (id fuel : Nat) :
    Nat → cuckoo_ctx → Int → Option (cuckoo_ctx × Int)
  | 0, ctx, load => some (ctx, load)
  | rounds + 1, ctx, load =>
    match trimParts P h id fuel (List.range (P.PART_MASK + 1)) ctx with
    | none => none
    | some ctx1 =>
      trimRounds P h id fuel rounds ctx1 (if id = 0 then loadOf P ctx1.alive else load)

/-- How a run of `worker` ends. -/
inductive Outcome where
  | overloaded : Outcome
  | aborted : Outcome
  | finished : Outcome
deriving DecidableEq, Repr

/-- The cycle-finding part of `worker`: `FORALL_LIVE_NONCES(nonce) { ... }}}` followed by
`pthread_exit(NULL)`; a `pthread_exit` inside `path` ends the thread early. -/
def cyclePhase (P : Params) (h : Nat → Nat) (id fuel : Nat) (w : WorkerState) :
    Option (Outcome × cuckoo_ctx) :=
  match FORALL_LIVE_NONCES (fun w : WorkerState => w.ctx.alive) (cycleBody P h fuel)
      w.ctx.easiness w.ctx.nthreads id fuel w with
  | none => none
  | some (Step.exit w1) => some (Outcome.aborted, w1.ctx)
  | some (Step.next w1) => some (Outcome.finished, w1.ctx)

/-- `void *worker(void *vp)` (non-HUGEFAST, not SINGLE), run by thread `id` with the
barriers passed at once.  `us0`, `vs0` are the contents of the stack arrays at entry.
Thread 0 leaves through `exit(0)` when `load >= 90`, else it deletes `nonleaf` and
allocates the map. -/
def worker (P : Params) (h : Nat → Nat) (id fuel : Nat) (ctx : cuckoo_ctx)
    (us0 vs0 : Nat → Nat) : Option (Outcome × cuckoo_ctx) :=
  match trimRounds P h id fuel ctx.ntrims ctx 100 with
  | none => none
  | some (c1, load) =>
    if id = 0 ∧ load ≥ 90 then some (Outcome.overloaded, c1)
    else
      let c2 : cuckoo_ctx :=
        if id = 0 then { c1 with nonleaf := none, cuckoo := some (cuckoo_hash.new P) } else c1
      cyclePhase P h id fuel { ctx := c2, us := us0, vs := vs0 }

/-- The constructor `cuckoo_ctx(header, easy_ness, n_threads, n_trims, max_sols)`
(non-HUGEFAST); the header only keys the hash, which is a parameter of the model.
A fresh live set, a zeroed `twice_set`, `max_sols` zeroed rows; `cuckoo` is taken
as null until worker 0 allocates the map. -/
def cuckoo_ctx.new (P : Params) (easiness nthreads ntrims maxsols : Nat) : Option cuckoo_ctx :=
  (shrinkingset.new easiness nthreads).map fun a =>
    { easiness := easiness, alive := a, nonleaf := some (twice_set.new P), cuckoo := none,
      sols := List.replicate maxsols (List.replicate P.PROOFSIZE 0), maxsols := maxsols,
      nsols := 0, nthreads := nthreads, ntrims := ntrims }

/-! ## Definitions used to state the properties -/

/-- Setting several nodes one after another. -/
def twice_set.setAll : twice_set → List Nat → Option twice_set
  | t, [] => some t
  | t, u :: rest =>
    match t.set u with
    | none => none
    | some t1 => twice_set.setAll t1 rest


/-- The counters of the first `N` words of `t` record the multiplicities of the list
`l`: the low bit of a pair is set iff the node occurs, the high bit iff it occurs at
least twice. -/
def twice_set.Counts (t : twice_set) (l : List Nat) (N : Nat) : Prop :=
  ∀ u, u / 16 < N →
    ∃ w, t.bits[u / 16]? = some w ∧
      (w.testBit (2 * (u % 16)) = true ↔ 1 ≤ l.count u) ∧
      (w.testBit (2 * (u % 16) + 1) = true ↔ 2 ≤ l.count u)

/-- The body of `FORALL_LIVE_NONCES` run over the nonces of a list, in order: the
reference form of the loop, used to state what the two nested loops visit. -/
def foldNonces {σ : Type} (alive : σ → shrinkingset) (body : Nat → σ → Option (Step σ)) :
    List Nat → σ → Option (Step σ)
  | [], s => some (Step.next s)
  | nonce :: rest, s =>
    match (alive s).test nonce with
    | none => none
    | some false => foldNonces alive body rest s
    | some true =>
      match body nonce s with
      | none => none
      | some (Step.exit s1) => some (Step.exit s1)
      | some (Step.next s1) => foldNonces alive body rest s1

/-- A live set over `size` nonces for `nthreads` threads: `bits` has the length the
constructor gives it, that length provides a bit for every nonce below `size`, and there
is one counter per thread. -/
def shrinkingset.LiveSet (a : shrinkingset) (size nthreads : Nat) : Prop :=
  a.bits.length = ((size + 31) % W32) / 32 ∧ size ≤ 32 * a.bits.length ∧
    a.cnt.length = nthreads

/-- The nonces of a list that the set pass feeds to `nonleaf`: live and in the part. -/
def partLive (P : Params) (side : Nat → Nat) (part : Nat) (a : shrinkingset) (l : List Nat) :
    List Nat :=
  l.filter fun n => (a.test n == some true) && (side n &&& P.PART_MASK == part)


/-- The kill condition of the second pass for the counters `nl`. -/
def killCond (P : Params) (side : Nat → Nat) (part : Nat) (nl : twice_set) (n : Nat) : Bool :=
  (side n &&& P.PART_MASK == part) && (nl.test (side n >>> P.PART_BITS) == some 0)

/-- A context in which one thread can trim: a single thread, a live set over
`easiness` nonces, and the `twice_set` as allocated. -/
def cuckoo_ctx.TrimReady (P : Params) (ctx : cuckoo_ctx) : Prop :=
  ctx.nthreads = 1 ∧ ctx.alive.LiveSet ctx.easiness 1 ∧
    ∃ nl, ctx.nonleaf = some nl ∧ nl.bits.length = P.TWICE_WORDS

/-- Two contexts agree on everything but `alive` and `nonleaf`. -/
def cuckoo_ctx.SameFrame (c c1 : cuckoo_ctx) : Prop :=
  c1.easiness = c.easiness ∧ c1.cuckoo = c.cuckoo ∧ c1.sols = c.sols ∧
    c1.maxsols = c.maxsols ∧ c1.nsols = c.nsols ∧ c1.nthreads = c.nthreads ∧
    c1.ntrims = c.ntrims

/-- Nonce `n` is live in `a`. -/
def shrinkingset.live (a : shrinkingset) (n : Nat) : Prop := a.test n = some true

/-- Nonce `n` shares its `side` endpoint with another live nonce below `easiness`. -/
def sharedEndpoint (side : Nat → Nat) (a : shrinkingset) (easiness n : Nat) : Prop :=
  ∃ m, m < easiness ∧ m ≠ n ∧ a.live m ∧ side m = side n

/-! ## A small instance

`EDGEBITS = 8`, `PROOFSIZE = 4`, no partitioning, six nonces: the edges of nonces 0..3
form a 4-cycle, nonce 4 is a leaf edge and nonce 5 repeats the edge of nonce 0. -/

/-- Parameters of the small instance. -/
def exParams : Params := { EDGEBITS := 8, PROOFSIZE := 4, PART_BITS := 0 }

/-- Keyed hash of the small instance: the endpoints of nonce `n` are the entries
`2n` and `2n+1`. -/
def exHash : Nat → Nat := fun k => [0, 0, 1, 0, 1, 1, 0, 1, 5, 7, 0, 0].getD k 9

/-- Context of the small instance as the constructor leaves it (one thread, one trim
round, two solution rows). -/
def exCtx : cuckoo_ctx :=
  { easiness := 6, alive := { bits := [0], cnt := [6] },
    nonleaf := some { bits := List.replicate 16 0 }, cuckoo := none,
    sols := [[0, 0, 0, 0], [0, 0, 0, 0]], maxsols := 2, nsols := 0, nthreads := 1, ntrims := 1 }

/-- No killed nonce of the first context is live in the second. -/
def cuckoo_ctx.KilledStay (c c1 : cuckoo_ctx) : Prop :=
  ∀ m, c.alive.test m = some false → c1.alive.test m = some false

/-- Number of nonces below `size` that test live. -/
def liveCount (a : shrinkingset) (size : Nat) : Nat :=
  ((List.range size).filter fun n => a.test n == some true).length

/-- The counters of `a` add up to the number of live nonces below `size`. -/
def shrinkingset.Counted (a : shrinkingset) (size : Nat) : Prop :=
  a.count = liveCount a size

/-- A sequence of calls `reset(n, t)`, each with `n < size`, `t < nthreads` and `test(n)`
true just before the call; the result is the final set. -/
def shrinkingset.resetSeq (size nthreads : Nat) :
    shrinkingset → List (Nat × Nat) → Option shrinkingset
  | a, [] => some a
  | a, (n, t) :: rest =>
    if n < size ∧ t < nthreads ∧ a.test n = some true then
      match a.reset n t with
      | none => none
      | some a1 => shrinkingset.resetSeq size nthreads a1 rest
    else none

/-- Keyed hash of a second small instance: four nonces with the edges
(0,0), (0,1), (1,0), (1,0). -/
def exHashB : Nat → Nat := fun k => [0, 0, 0, 1, 1, 0, 1, 0].getD k 0

/-- Context of the second small instance as the constructor leaves it (one thread,
one trim round). -/
def exCtxB : cuckoo_ctx :=
  { easiness := 4, alive := { bits := [0], cnt := [4] },
    nonleaf := some { bits := List.replicate 16 0 }, cuckoo := none,
    sols := [[0, 0, 0, 0]], maxsols := 1, nsols := 0, nthreads := 1, ntrims := 1 }

/-! ## The map held by `cuckoo_hash` -/

/-- Parameters for which the macros are defined: `KEYSHIFT` stays below the width of
`int` (`PART_BITS <= 15`) and every node index fits `node_t`
(`// ok for size up to 2^32`). -/
def Params.Valid (P : Params) : Prop := P.PART_BITS ≤ 15 ∧ P.EDGEBITS ≤ 31

/-- `if (++ui == CUCKOO_SIZE) ui = 0;` -/
def nextSlot (P : Params) (ui : Nat) : Nat :=
  if (ui + 1) % W32 = P.CUCKOO_SIZE then 0 else (ui + 1) % W32

/-- The slot at which the probe loops of `get` and `set` stop for the key `u`: the first
slot from `ui` on that is empty or holds the key bits of `u`. -/
def probeLoop (P : Params) (c : cuckoo_hash) (u : Nat) : Nat → Nat → Option Nat
  | 0, _ => none
  | fuel + 1, ui =>
    match c.cuckoo[ui]? with
    | none => none
    | some w =>
      if w = 0 ∨ (u ^^^ w) &&& P.KEYMASK = 0 then some ui
      else probeLoop P c u fuel (nextSlot P ui)

/-- The value the table holds for the key `u`: the value bits of a non-empty slot with
the key bits of `u`, and 0 when there is none. -/
def lookup (P : Params) (c : cuckoo_hash) (u : Nat) : Nat :=
  match c.cuckoo.find? (fun w => decide (w ≠ 0) && decide (w % 2 ^ P.KEYSHIFT = u % 2 ^ P.KEYSHIFT)) with
  | some w => (w >>> P.KEYSHIFT) % W32
  | none => 0

/-- Slot `i` is reached by the probe for `u`: every slot probed before it is occupied by
another key. -/
def ReachedFirst (P : Params) (c : cuckoo_hash) (u i : Nat) : Prop :=
  ∃ j, i = (u >>> P.IDXSHIFT + j) % P.CUCKOO_SIZE ∧
    ∀ j1, j1 < j → ∃ w, c.cuckoo[(u >>> P.IDXSHIFT + j1) % P.CUCKOO_SIZE]? = some w ∧
      w ≠ 0 ∧ w % 2 ^ P.KEYSHIFT ≠ u % 2 ^ P.KEYSHIFT

/-- A set of keys that the table can tell apart: their start slots lie in the table and
no two of them agree modulo `2^KEYSHIFT`. -/
structure KeySet (P : Params) (S : Nat → Prop) : Prop where
  home : ∀ u, S u → u >>> P.IDXSHIFT < P.CUCKOO_SIZE
  inj : ∀ a b, S a → S b → a % 2 ^ P.KEYSHIFT = b % 2 ^ P.KEYSHIFT → a = b

/-- The probing invariant of the table for the keys `S`: the table has `CUCKOO_SIZE`
slots, and a slot that holds a key of `S` is the first one its probe reaches. -/
structure TableInv (P : Params) (S : Nat → Prop) (c : cuckoo_hash) : Prop where
  len : c.cuckoo.length = P.CUCKOO_SIZE
  first : ∀ u, S u → ∀ i w, c.cuckoo[i]? = some w → w ≠ 0 →
    w % 2 ^ P.KEYSHIFT = u % 2 ^ P.KEYSHIFT → ReachedFirst P c u i

/-- Number of non-empty slots. -/
def cuckoo_hash.used (c : cuckoo_hash) : Nat := (c.cuckoo.filter fun w => w != 0).length

/-- Slot `i` is where the probe for `u` stops: it is empty or holds the key bits of `u`,
and every slot probed before it is occupied by another key. -/
def ProbeStop (P : Params) (c : cuckoo_hash) (u i : Nat) : Prop :=
  ∃ j, i = (u >>> P.IDXSHIFT + j) % P.CUCKOO_SIZE ∧
    (∃ w, c.cuckoo[i]? = some w ∧ (w = 0 ∨ w % 2 ^ P.KEYSHIFT = u % 2 ^ P.KEYSHIFT)) ∧
    ∀ j1, j1 < j → ∃ w, c.cuckoo[(u >>> P.IDXSHIFT + j1) % P.CUCKOO_SIZE]? = some w ∧
      w ≠ 0 ∧ w % 2 ^ P.KEYSHIFT ≠ u % 2 ^ P.KEYSHIFT

/-- A sequence of calls `set(u, v)`, in order. -/
def applySets (P : Params) (fuel : Nat) : cuckoo_hash → List (Nat × Nat) → Option cuckoo_hash
  | c, [] => some c
  | c, (u, v) :: rest =>
    match c.set P fuel u v with
    | none => none
    | some c1 => applySets P fuel c1 rest

/-- The value of the most recent `set(u, .)` in a sequence of calls, 0 if there is none. -/
def lastValue (ops : List (Nat × Nat)) (u : Nat) : Nat :=
  ops.foldl (fun acc kv => if kv.1 = u then kv.2 else acc) 0

/-- The first `n` entries of row `soli` of `sols`: what `solution` has written to
`sols[soli][0..n)`. -/
def writtenRow (sols : List (List Nat)) (soli n : Nat) : List Nat :=
  ((sols[soli]?).getD []).take n

/-! ## Graph notions for the cycle finder -/

/-- The U node `u0` that `worker` computes for a nonce: `sipedge_u + 1` in `node_t`. -/
def nodeU (P : Params) (h : Nat → Nat) (nonce : Nat) : Nat := (sipedge_u P h nonce + 1) % W32

/-- The V node `v0` that `worker` computes for a nonce: `sipedge_v + 1 + HALFSIZE` in
`node_t`. -/
def nodeV (P : Params) (h : Nat → Nat) (nonce : Nat) : Nat :=
  (sipedge_v P h nonce + (1 + P.HALFSIZE)) % W32

/-- The nodes of the bipartite graph: U nodes are `1 .. NNODES`, V nodes are
`NNODES+1 .. 2*NNODES`. -/
def GraphNode (P : Params) (x : Nat) : Prop := 1 ≤ x ∧ x ≤ P.SIZE

/-- No two graph nodes agree modulo `2^KEYSHIFT`. -/
def KeysDistinct (P : Params) : Prop :=
  ∀ a b, GraphNode P a → GraphNode P b → a % 2 ^ P.KEYSHIFT = b % 2 ^ P.KEYSHIFT → a = b

/-- The edge between two adjacent graph nodes, written U node first. -/
def orient (P : Params) (x y : Nat) : edge :=
  if x ≤ P.HALFSIZE then edge.mk x y else edge.mk y x

/-- The edge `e` joins the nodes `a` and `b`. -/
def joins (e : edge) (a b : Nat) : Prop :=
  (e.first = a ∧ e.second = b) ∨ (e.first = b ∧ e.second = a)

/-- The edges form a simple cycle: there is a cyclic sequence `node 0, ..., node (L-1)`
of pairwise different nodes, with `L` the number of edges, such that every two
consecutive nodes are joined by an edge of the list and every edge of the list joins two
consecutive nodes. -/
def SimpleCycle (edges : List edge) : Prop :=
  ∃ node : Nat → Nat,
    (∀ i j, i < edges.length → j < edges.length → node i = node j → i = j) ∧
    (∀ i, i < edges.length → ∃ e ∈ edges, joins e (node i) (node ((i + 1) % edges.length))) ∧
    (∀ e ∈ edges, ∃ i, i < edges.length ∧ joins e (node i) (node ((i + 1) % edges.length)))

/-- A pointer `x -> y` of the map is good: `y` is a graph node on the other side of `x`
and the edge between them is the edge of a live nonce. -/
def GoodPointer (P : Params) (h : Nat → Nat) (alive : shrinkingset) (easiness x y : Nat) :
    Prop :=
  GraphNode P y ∧ (x ≤ P.HALFSIZE ↔ P.HALFSIZE < y) ∧
    ∃ n, n < easiness ∧ alive.test n = some true ∧ nonceEdge P h n = orient P x y

/-- The invariant of the map during cycle finding: the probing invariant for the graph
nodes, and every pointer is good. -/
structure MapInv (P : Params) (h : Nat → Nat) (alive : shrinkingset) (easiness : Nat)
    (c : cuckoo_hash) : Prop where
  table : TableInv P (GraphNode P) c
  good : ∀ x, GraphNode P x → lookup P c x ≠ 0 →
    GoodPointer P h alive easiness x (lookup P c x)

/-- The array `us[0..nu]` is a pointer path of the map that ends at a root. -/
def IsPath (P : Params) (c : cuckoo_hash) (us : Nat → Nat) (nu : Nat) : Prop :=
  nu < MAXPATHLEN ∧ (∀ i, i ≤ nu → GraphNode P (us i)) ∧
    (∀ i, i < nu → lookup P c (us i) = us (i + 1)) ∧ lookup P c (us nu) = 0

/-- A row of `sols` is a valid solution: `PROOFSIZE` live nonces below `easiness`, in
ascending order, whose edges are pairwise different and form a simple cycle. -/
def ValidRow (P : Params) (h : Nat → Nat) (alive : shrinkingset) (easiness : Nat)
    (row : List Nat) : Prop :=
  row.length = P.PROOFSIZE ∧ row.Pairwise (· < ·) ∧
    (∀ n ∈ row, n < easiness ∧ alive.test n = some true) ∧
    (row.map (nonceEdge P h)).Nodup ∧ SimpleCycle (row.map (nonceEdge P h))

/-- The invariant of the worker during cycle finding. -/
structure WorkerInv (P : Params) (h : Nat → Nat) (alive : shrinkingset) (easiness : Nat)
    (w : WorkerState) : Prop where
  alive_eq : w.ctx.alive = alive
  easiness_eq : w.ctx.easiness = easiness
  map : ∃ c, w.ctx.cuckoo = some c ∧ MapInv P h alive easiness c
  sols_len : w.ctx.sols.length = w.ctx.maxsols
  rows_len : ∀ row ∈ w.ctx.sols, row.length = P.PROOFSIZE
  nsols_le : w.ctx.nsols ≤ w.ctx.maxsols
  maxsols_lt : w.ctx.maxsols < W32
  rows_valid : ∀ r, r < w.ctx.nsols →
    ∃ row, w.ctx.sols[r]? = some row ∧ ValidRow P h alive easiness row

/-- Number of edges of the list that have `x` as an endpoint. -/
def degree (edges : List edge) (x : Nat) : Nat :=
  (edges.filter fun e => e.first == x || e.second == x).length

/-- The worker state of the second small instance when the cycle finder starts: the
trim round has killed nonce 1, `nonleaf` is deleted and the map freshly allocated. -/
def exStartB : WorkerState :=
  { ctx := { exCtxB with alive := { bits := [2], cnt := [3] }, nonleaf := none,
                         cuckoo := some (cuckoo_hash.new exParams) },
    us := fun _ => 0, vs := fun _ => 0 }

/-- The state after the cycle finder has run over the nonces 0 and 1 from `exStartB`. -/
def exMidB : WorkerState :=
  match foldNonces (fun w : WorkerState => w.ctx.alive) (cycleBody exParams exHashB 9) [0, 1]
      exStartB with
  | some r => r.state
  | none => exStartB

/-- The state after the cycle-finder step on nonce 2 from `exMidB`. -/
def exAfterB : WorkerState :=
  match cycleBody exParams exHashB 9 2 exMidB with
  | some r => r.state
  | none => exMidB

/-- Parameters with a table of 1025 slots (`EDGEBITS = 15`, no partitioning). -/
def bigParams : Params := { EDGEBITS := 15, PROOFSIZE := 42, PART_BITS := 0 }

/-- A table state of `bigParams`: the slots 0..512 hold the keys 2..514 (value 1), each
at or after its start slot, and the slots 513..1024 are empty. -/
def bigTable : cuckoo_hash :=
  { cuckoo := (List.range 513).map (fun i => niew bigParams (i + 2) 1) ++ List.replicate 512 0 }

/-! ## The queue interface of the plugin (`cuckoo_miner/cuckoo_miner.h`) -/

/-- `int MAX_QUEUE_SIZE=1000;` (a global that the source never assigns again). -/
def MAX_QUEUE_SIZE : Nat := 1000

/-- `extern "C" int cuckoo_is_queue_under_limit()`.  `should_quit` is the global flag and
`size` the value of `INPUT_QUEUE.size_approx()`, the number of queued items when no other
thread is changing the queue:
`if (should_quit) return 0; if (size_approx() <= MAX_QUEUE_SIZE) return 1; else return 0;` -/
def cuckoo_is_queue_under_limit (should_quit : Bool) (size : Nat) : Nat :=
  if should_quit then 0
  else if size ≤ MAX_QUEUE_SIZE then 1
  else 0

/-! ## Plugin properties as JSON (`cuckoo_miner/cuckoo_miner.h`) -/

/-- `#define PROPERTY_RETURN_OK 0` -/
def PROPERTY_RETURN_OK : Nat := 0

/-- `#define PROPERTY_RETURN_BUFFER_TOO_SMALL 3` -/
def PROPERTY_RETURN_BUFFER_TOO_SMALL : Nat := 3

/-- `struct PLUGIN_PROPERTY`: `name` and `description` are the C strings held in the two
character arrays, the three values are `u32`. -/
structure PLUGIN_PROPERTY where
  name : List Char
  description : List Char
  default_value : Nat
  min_value : Nat
  max_value : Nat
deriving DecidableEq, Repr

/-- The terminating byte `'\0'`. -/
def NUL : Char := Char.ofNat 0

/-- What `%d` prints for a `u32` argument: the decimal digits of its value as `int`. -/
def fmtD (v : Nat) : List Char :=
  if v % W32 < 2 ^ 31 then Nat.toDigits 10 (v % W32)
  else Char.ofNat 45 :: Nat.toDigits 10 (W32 - v % W32)

/-- The text `snprintf` formats for one property with the format `property_json`:
an opening brace, `"name":"%s","description":"%s","default_value":%d,"min_value":%d,`
`"max_value":%d`, and a closing brace.  `Char.ofNat 34` is the double quote. -/
def property_json (p : PLUGIN_PROPERTY) : List Char :=
  [Char.ofNat 123, Char.ofNat 34] ++ "name".toList ++ [Char.ofNat 34, ':', Char.ofNat 34] ++
    p.name ++ [Char.ofNat 34, ',', Char.ofNat 34] ++ "description".toList ++
    [Char.ofNat 34, ':', Char.ofNat 34] ++ p.description ++
    [Char.ofNat 34, ',', Char.ofNat 34] ++ "default_value".toList ++ [Char.ofNat 34, ':'] ++
    fmtD p.default_value ++ [',', Char.ofNat 34] ++ "min_value".toList ++
    [Char.ofNat 34, ':'] ++ fmtD p.min_value ++ [',', Char.ofNat 34] ++
    "max_value".toList ++ [Char.ofNat 34, ':'] ++ fmtD p.max_value ++ [Char.ofNat 125]

/-- A store `prop_string[i] = ch` into the caller's buffer; outside the buffer it is
`none`. -/
def wrBuf (buf : List Char) (i : Nat) (ch : Char) : Option (List Char) :=
  if i < buf.length then some (buf.set i ch) else none

/-- Stores of consecutive bytes from position `pos` on. -/
def wrBytes : List Char → Nat → List Char → Option (List Char)
  | buf, _, [] => some buf
  | buf, pos, ch :: rest =>
    match wrBuf buf pos ch with
    | none => none
    | some buf1 => wrBytes buf1 (pos + 1) rest

/-- `snprintf(prop_string + pos, size, ...)` for the formatted text `text` and
`size > 0`: it stores the first `size - 1` characters of the text and a NUL, and returns
the length of the whole text. -/
def snprintfAt (buf : List Char) (pos size : Nat) (text : List Char) : Option (List Char) :=
  wrBytes buf pos (text.take (size - 1) ++ [NUL])

/-- How the `for` loop of `get_properties_as_json` ends: by the `return` inside it, or by
running out of properties with the buffer, `remaining` and `last_write_pos`. -/
inductive JsonLoop where
  | small : List Char → JsonLoop
  | more : List Char → Int → Nat → JsonLoop
deriving DecidableEq, Repr

/-- The loop `for (int i=0;i<allocated_properties;i++)` over the registered properties
still to be written; `i<allocated_properties-1` holds when more properties follow. -/
def jsonLoop : List PLUGIN_PROPERTY → List Char → Int → Nat → Option JsonLoop
  | [], buf, remaining, pos => some (JsonLoop.more buf remaining pos)
  | p :: rest, buf, remaining, pos =>
    let text := property_json p
    match snprintfAt buf pos remaining.toNat text with
    | none => none
    | some buf1 =>
      let remaining1 := remaining - text.length
      let pos1 := pos + text.length
      if remaining1 < 2 then some (JsonLoop.small buf1)
      else if rest ≠ [] then
        match wrBuf buf1 pos1 ',' with
        | none => none
        | some buf2 => jsonLoop rest buf2 remaining1 (pos1 + 1)
      else jsonLoop rest buf1 remaining1 pos1

/-- `int get_properties_as_json(char* prop_string, int* length)`, called with the
registered properties `props`, the buffer `buf` and `*length = buf.length`.  The result
is the return code, the buffer and `*length`; a store outside the buffer is `none`.
The `int` arithmetic is modelled without overflow. -/
def get_properties_as_json (props : List PLUGIN_PROPERTY) (buf : List Char) :
    Option (Nat × List Char × Int) :=
  let length : Int := buf.length
  let remaining : Int := length
  if remaining ≤ 3 then some (PROPERTY_RETURN_BUFFER_TOO_SMALL, buf, length)
  else
    match wrBuf buf 0 '[' with
    | none => none
    | some buf0 =>
      match jsonLoop props buf0 remaining 1 with
      | none => none
      | some (JsonLoop.small buf1) => some (PROPERTY_RETURN_BUFFER_TOO_SMALL, buf1, length)
      | some (JsonLoop.more buf1 remaining1 pos) =>
        if remaining1 < 2 then some (PROPERTY_RETURN_BUFFER_TOO_SMALL, buf1, length)
        else
          match (wrBuf buf1 pos ']').bind (fun b => wrBuf b (pos + 1) NUL) with
          | none => none
          | some buf2 =>
            let length1 : Int := pos + 1
            some (PROPERTY_RETURN_OK, buf2, if length1 = 3 then 2 else length1)

/-- A property with empty name and description and all values 0. -/
def exProp : PLUGIN_PROPERTY :=
  { name := [], description := [], default_value := 0, min_value := 0, max_value := 0 }

/-- The entries `us[0..nu]` are a walk of the pointer function `f` that ends at a root:
every entry is a node (non-zero, 0 being the nil pointer), each entry is the pointer of
the one before, and the pointer of the last entry is 0. -/
def Walk (f : Nat → Nat) (us : Nat → Nat) (nu : Nat) : Prop :=
  (∀ i, i ≤ nu → us i ≠ 0) ∧ (∀ i, i < nu → us (i + 1) = f (us i)) ∧ f (us nu) = 0

/-- The alignment of `worker` after `if (us[nu] == vs[nv])`:
`int min = nu < nv ? nu : nv; for (nu -= min, nv -= min; us[nu] != vs[nv]; nu++, nv++) ;`
`int len = nu + nv + 1;`  The result is the final `nu`, `nv` and `len`. -/
def alignPaths (us vs : Nat → Nat) (fuel nu nv : Nat) : Option (Nat × Nat × Nat) :=
  let min := if nu < nv then nu else nv
  match alignLoop us vs fuel (nu - min) (nv - min) with
  | none => none
  | some (nu1, nv1) => some (nu1, nv1, nu1 + nv1 + 1)

/-- The table holds pointers between graph nodes: the probing invariant for the graph
nodes as keys, and every non-zero value `get` yields for a graph node is a graph node. -/
def PointerTable (P : Params) (c : cuckoo_hash) : Prop :=
  TableInv P (GraphNode P) c ∧
    ∀ x, GraphNode P x → lookup P c x ≠ 0 → GraphNode P (lookup P c x)

/-- The pointer chain `x, get(x), get(get(x)), ...` reaches 0. -/
def Reaches (P : Params) (c : cuckoo_hash) (x : Nat) : Prop :=
  ∃ k, (lookup P c)^[k] x = 0

/-- The map has no pointer cycle: the chain of every graph node reaches 0. -/
def Forest (P : Params) (c : cuckoo_hash) : Prop :=
  ∀ x, GraphNode P x → Reaches P c x

/-- Keyed hash of a third small instance: four nonces with the edges
(0,0), (2,1), (1,1), (1,0). -/
def exHashC : Nat → Nat := fun k => [0, 0, 2, 1, 1, 1, 1, 0].getD k 0

/-- A worker state of the third small instance at the start of the cycle finder: four
live nonces and the map freshly allocated. -/
def exStartC : WorkerState :=
  { ctx := { easiness := 4, alive := { bits := [0], cnt := [4] }, nonleaf := none,
             cuckoo := some (cuckoo_hash.new exParams), sols := [[0, 0, 0, 0]],
             maxsols := 1, nsols := 0, nthreads := 1, ntrims := 1 },
    us := fun _ => 0, vs := fun _ => 0 }

/-- The state after the cycle finder has run over the nonces 0, 1 and 2 from
`exStartC`: the map holds the pointers 257 -> 1, 258 -> 3 and 2 -> 258. -/
def exMidC : WorkerState :=
  match foldNonces (fun w : WorkerState => w.ctx.alive) (cycleBody exParams exHashC 9)
      [0, 1, 2] exStartC with
  | some r => r.state
  | none => exStartC

/-- The map of `exMidC`. -/
def exMapC : cuckoo_hash := { cuckoo := [8454146, 0, 0, 0, 33025, 98562, 0, 0, 0] }

/-- The array `us` after `path` has walked from `get(2)` in `exMapC`. -/
def exUsC : Nat → Nat :=
  match path exParams 9 exMapC (lookup exParams exMapC 2) (Function.update exMidC.us 0 2) with
  | some (PathResult.ret _ us) => us
  | _ => fun _ => 0

/-- The array `vs` after `path` has walked from `get(257)` in `exMapC`. -/
def exVsC : Nat → Nat :=
  match path exParams 9 exMapC (lookup exParams exMapC 257)
      (Function.update exMidC.vs 0 257) with
  | some (PathResult.ret _ vs) => vs
  | _ => fun _ => 0

/-- The live set that the constructor builds for 193273529 nonces and one thread. -/
def exHuge : shrinkingset := { bits := List.replicate 6039798 0, cnt := [193273529] }

/-- The table of `exParams` after the nine calls `set(257 + j, 1 + j)`, `j = 0..8`, that
attach nine disjoint edges `(j, j)`: every slot is taken. -/
def exFull : cuckoo_hash :=
  { cuckoo := [196870, 229639, 262408, 295177, 33025, 65794, 98563, 131332, 164101] }

/-! ## Instances for the cycle set and the nonce strides -/

/-- The array `us` after `path` walked the 4-cycle found at the edge (1, 258):
`us[0..3] = 1, 257, 2, 258` with `nu = 3`; the entries past the path hold zero. -/
def exCycleUs : Nat → Nat := fun i => [1, 257, 2, 258].getD i 0

/-- The array `vs` of the same run: `vs[0] = 258` with `nv = 0`. -/
def exCycleVs : Nat → Nat := fun i => [258].getD i 0

/-- A loop body that records the nonce it is run at. -/
def visitBody (nonce : Nat) (seen : List Nat) : Option (Step (List Nat)) :=
  some (Step.next (seen ++ [nonce]))

/-- The nonces at which the thread `id` runs the body of `FORALL_LIVE_NONCES` over the
live set `a`, in the order of the run. -/
def visited (a : shrinkingset) (easiness nthreads id fuel : Nat) : Option (List Nat) :=
  (FORALL_LIVE_NONCES (fun _ => a) visitBody easiness nthreads id fuel []).map Step.state

/-- The live set of the context built for 70 nonces and 2 threads: no bit is set. -/
def exLive : shrinkingset := { bits := [0, 0, 0], cnt := [70, 0] }

/-! ## Notions for a map with any keys -/

/-- The probe for the key `u` stops at a slot that is not empty. -/
def Occupied (P : Params) (c : cuckoo_hash) (u : Nat) : Prop :=
  ∃ i w, ProbeStop P c u i ∧ c.cuckoo[i]? = some w ∧ w ≠ 0

/-- The worker state of the second small instance under `bigParams` when the cycle finder
starts: nonce 1 is killed as after the trim round, `nonleaf` is deleted and the map of
1025 slots freshly allocated. -/
def exStartD : WorkerState :=
  { ctx := { easiness := 4, alive := { bits := [2], cnt := [3] }, nonleaf := none,
             cuckoo := some (cuckoo_hash.new bigParams), sols := [List.replicate 42 0],
             maxsols := 1, nsols := 0, nthreads := 1, ntrims := 1 },
    us := fun _ => 0, vs := fun _ => 0 }

/-- The state after the cycle finder has run over the nonces 0 and 1 from `exStartD`. -/
def exMidD : WorkerState :=
  match foldNonces (fun w : WorkerState => w.ctx.alive) (cycleBody bigParams exHashB 1025)
      [0, 1] exStartD with
  | some r => r.state
  | none => exStartD

/-- The state after the cycle-finder step on nonce 2 from `exMidD`. -/
def exAfterD : WorkerState :=
  match cycleBody bigParams exHashB 1025 2 exMidD with
  | some r => r.state
  | none => exMidD

/-! # Theorems -/

/-! ## Facts about words -/

theorem W32_eq : W32 = 4294967296 := by decide
theorem W64_eq : W64 = 18446744073709551616 := by decide

theorem and_one_beq_zero (w k : Nat) : (((w >>> k) &&& 1) == 0) = !w.testBit k := by
  simp only [Nat.testBit, Nat.and_comm (w >>> k) 1]
  cases hx : (1 &&& (w >>> k)) == 0 <;> simp_all [bne]

theorem one_shiftLeft_mod (k : Nat) (hk : k < 32) : (1 <<< k) % W32 = 2 ^ k := by
  rw [Nat.one_shiftLeft, Nat.mod_eq_of_lt]
  exact Nat.pow_lt_pow_right (by decide) hk

/-- A nonce is identified by its word index and bit index. -/
theorem nonce_eq_iff (m n : Nat) : m = n ↔ m / 32 = n / 32 ∧ m % 32 = n % 32 := by
  constructor
  · rintro rfl; exact ⟨rfl, rfl⟩
  · rintro ⟨h1, h2⟩; omega

/-! ## `shrinkingset` -/

theorem shrinkingset.test_eq (s : shrinkingset) (n : Nat) :
    s.test n = (s.bits[n / 32]?).map fun w => !w.testBit (n % 32) := by
  unfold shrinkingset.test
  cases s.bits[n / 32]? with
  | none => rfl
  | some w => simp only [Option.map_some', and_one_beq_zero]

theorem shrinkingset.reset_eq_some {s s1 : shrinkingset} {n t : Nat}
    (hr : s.reset n t = some s1) :
    ∃ w c, s.bits[n / 32]? = some w ∧ s.cnt[t]? = some c ∧
      s1.bits = s.bits.set (n / 32) (w ||| 2 ^ (n % 32)) ∧
      s1.cnt = s.cnt.set t ((c + W64 - 1) % W64) := by
  unfold shrinkingset.reset at hr
  split at hr
  · rename_i w c hw hc
    refine ⟨w, c, hw, hc, ?_⟩
    simp only [Option.some.injEq] at hr
    subst hr
    simp [one_shiftLeft_mod _ (Nat.mod_lt n (by decide : 32 > 0))]
  · simp at hr

theorem shrinkingset.reset_test_self {s s1 : shrinkingset} {n t : Nat}
    (hr : s.reset n t = some s1) : s1.test n = some false := by
  obtain ⟨w, c, hw, -, hb, -⟩ := shrinkingset.reset_eq_some hr
  have hlt : n / 32 < s.bits.length := by
    rcases List.getElem?_eq_some.1 hw with ⟨h, -⟩; exact h
  rw [shrinkingset.test_eq, hb]
  simp [List.getElem?_set, hlt, Nat.testBit_two_pow_self]

theorem shrinkingset.reset_test_other {s s1 : shrinkingset} {n t m : Nat}
    (hr : s.reset n t = some s1) (hm : m ≠ n) : s1.test m = s.test m := by
  obtain ⟨w, c, hw, -, hb, -⟩ := shrinkingset.reset_eq_some hr
  have hlt : n / 32 < s.bits.length := by
    rcases List.getElem?_eq_some.1 hw with ⟨h, -⟩; exact h
  rw [shrinkingset.test_eq, shrinkingset.test_eq, hb]
  by_cases hq : n / 32 = m / 32
  · have hr32 : n % 32 ≠ m % 32 := fun h => hm ((nonce_eq_iff m n).2 ⟨hq.symm, h.symm⟩)
    rw [← hq, List.getElem?_set_self hlt, hw]
    simp [Nat.testBit_two_pow_of_ne hr32]
  · rw [List.getElem?_set_ne hq]

theorem shrinkingset.reset_killed {s s1 : shrinkingset} {n t m : Nat}
    (hr : s.reset n t = some s1) (hm : s.test m = some false) : s1.test m = some false := by
  by_cases h : m = n
  · subst h; exact shrinkingset.reset_test_self hr
  · rw [shrinkingset.reset_test_other hr h]; exact hm

theorem shrinkingset.reset_bits_length {s s1 : shrinkingset} {n t : Nat}
    (hr : s.reset n t = some s1) : s1.bits.length = s.bits.length := by
  obtain ⟨w, c, -, -, hb, -⟩ := shrinkingset.reset_eq_some hr
  simp [hb]

theorem shrinkingset.reset_cnt_length {s s1 : shrinkingset} {n t : Nat}
    (hr : s.reset n t = some s1) : s1.cnt.length = s.cnt.length := by
  obtain ⟨w, c, -, -, -, hc⟩ := shrinkingset.reset_eq_some hr
  simp [hc]

theorem shrinkingset.reset_isSome {s : shrinkingset} {n t : Nat}
    (hn : n / 32 < s.bits.length) (ht : t < s.cnt.length) : ∃ s1, s.reset n t = some s1 := by
  unfold shrinkingset.reset
  rw [List.getElem?_eq_getElem hn, List.getElem?_eq_getElem ht]
  exact ⟨_, rfl⟩

theorem shrinkingset.test_isSome {s : shrinkingset} {n : Nat}
    (hn : n / 32 < s.bits.length) : ∃ b, s.test n = some b := by
  unfold shrinkingset.test
  rw [List.getElem?_eq_getElem hn]
  exact ⟨_, rfl⟩

theorem and_two_pow_eq_zero_iff (x j : Nat) : x &&& 2 ^ j = 0 ↔ x.testBit j = false := by
  constructor
  · intro h
    have := congrArg (fun y => Nat.testBit y j) h
    simpa [Nat.testBit_two_pow_self] using this
  · intro h
    apply Nat.eq_of_testBit_eq
    intro i
    by_cases hij : j = i
    · subst hij; simp [h]
    · simp [Nat.testBit_two_pow_of_ne hij]

theorem and_two_pow_of_testBit (x j : Nat) (h : x.testBit j = true) : x &&& 2 ^ j = 2 ^ j := by
  apply Nat.eq_of_testBit_eq
  intro i
  by_cases hij : j = i
  · subst hij; simp [h]
  · simp [Nat.testBit_two_pow_of_ne hij]

theorem and_two_eq (x : Nat) : x &&& 2 = if x.testBit 1 then 2 else 0 := by
  have h2 : x &&& 2 = x &&& 2 ^ 1 := rfl
  rw [h2]
  by_cases hb : x.testBit 1 = true
  · rw [if_pos hb, and_two_pow_of_testBit x 1 hb]; rfl
  · rw [if_neg hb]
    exact (and_two_pow_eq_zero_iff x 1).2 (by simpa using hb)

theorem twice_set.tw_test_eq (t : twice_set) (u : Nat) :
    t.test u = (t.bits[u / 16]?).map fun w => if w.testBit (2 * (u % 16) + 1) then 2 else 0 := by
  unfold twice_set.test
  cases t.bits[u / 16]? with
  | none => rfl
  | some w =>
    simp only [Option.map_some', Option.some.injEq]
    rw [and_two_eq, Nat.testBit_shiftRight]

/-- The word written by `set` for bit pair `k`. -/
theorem twice_set.tw_set_eq_some {t t1 : twice_set} {u : Nat} (hs : t.set u = some t1) :
    ∃ old, t.bits[u / 16]? = some old ∧
      t1.bits = t.bits.set (u / 16)
        (if old.testBit (2 * (u % 16)) then old ||| 2 ^ (2 * (u % 16)) ||| 2 ^ (2 * (u % 16) + 1)
         else old ||| 2 ^ (2 * (u % 16))) := by
  unfold twice_set.set at hs
  have hk : 2 * (u % 16) < 32 := by omega
  have hbit : (1 <<< (2 * (u % 16))) % W32 = 2 ^ (2 * (u % 16)) := by
    rw [Nat.one_shiftLeft, Nat.mod_eq_of_lt]
    exact Nat.pow_lt_pow_right (by decide) hk
  have hbit1 : (2 ^ (2 * (u % 16)) <<< 1) % W32 = 2 ^ (2 * (u % 16) + 1) := by
    rw [Nat.shiftLeft_eq, ← Nat.pow_succ, Nat.mod_eq_of_lt]
    exact Nat.pow_lt_pow_right (by decide) (by omega)
  simp only [hbit, hbit1] at hs
  cases hw : t.bits[u / 16]? with
  | none => simp [hw] at hs
  | some old =>
    refine ⟨old, rfl, ?_⟩
    simp only [hw] at hs
    by_cases hb : old.testBit (2 * (u % 16)) = true
    · have hne : old &&& 2 ^ (2 * (u % 16)) ≠ 0 := by
        rw [Ne, and_two_pow_eq_zero_iff]; simp [hb]
      rw [if_pos hne] at hs
      rw [if_pos hb]
      simp only [Option.some.injEq] at hs
      rw [← hs]
    · have he : old &&& 2 ^ (2 * (u % 16)) = 0 := by
        rw [and_two_pow_eq_zero_iff]; simpa using hb
      rw [if_neg (by simpa using he)] at hs
      rw [if_neg hb]
      simp only [Option.some.injEq] at hs
      rw [← hs]

theorem twice_set.tw_set_isSome {t : twice_set} {u : Nat} (hu : u / 16 < t.bits.length) :
    ∃ t1, t.set u = some t1 := by
  unfold twice_set.set
  simp only [List.getElem?_eq_getElem hu]
  split <;> exact ⟨_, rfl⟩

theorem node_eq_iff (m n : Nat) : m = n ↔ m / 16 = n / 16 ∧ m % 16 = n % 16 := by
  constructor
  · rintro rfl; exact ⟨rfl, rfl⟩
  · rintro ⟨h1, h2⟩; omega

theorem twice_set.tw_set_bits_length {t t1 : twice_set} {u : Nat} (hs : t.set u = some t1) :
    t1.bits.length = t.bits.length := by
  obtain ⟨old, -, hb⟩ := twice_set.tw_set_eq_some hs
  simp [hb]

theorem twice_set.Counts_set {t t1 : twice_set} {l : List Nat} {u N : Nat}
    (hc : t.Counts l N) (hs : t.set u = some t1) : t1.Counts (l ++ [u]) N := by
  obtain ⟨old, hold, hb⟩ := twice_set.tw_set_eq_some hs
  have hlt : u / 16 < t.bits.length := (List.getElem?_eq_some.1 hold).1
  intro x hx
  obtain ⟨w, hw, h1, h2⟩ := hc x hx
  rw [hb]
  by_cases hq : u / 16 = x / 16
  · rw [← hq, List.getElem?_set_self hlt]
    have hwold : w = old := by rw [← hq, hold] at hw; exact (Option.some.inj hw).symm
    subst hwold
    refine ⟨_, rfl, ?_⟩
    by_cases hr : u % 16 = x % 16
    · have hux : u = x := (node_eq_iff u x).2 ⟨hq, hr⟩
      subst hux
      simp only [List.count_append, List.count_singleton_self]
      by_cases hbit : w.testBit (2 * (u % 16)) = true
      · simp only [hbit, if_true, Nat.testBit_or, Nat.testBit_two_pow_self, Bool.or_true,
          true_iff, Bool.true_or]
        have := h1.1 hbit
        constructor <;> omega
      · have hf : w.testBit (2 * (u % 16)) = false := by simpa using hbit
        have h0 : ¬ 1 ≤ List.count u l := fun h => hbit (h1.2 h)
        have h3 : ¬ 2 ≤ List.count u l := fun h => h0 (by omega)
        have h4 : w.testBit (2 * (u % 16) + 1) = false := by
          cases hh : w.testBit (2 * (u % 16) + 1)
          · rfl
          · exact absurd (h2.1 hh) h3
        simp only [hf, Bool.false_eq_true, if_false, Nat.testBit_or, Nat.testBit_two_pow_self,
          Bool.or_true, true_iff, h4, Bool.false_or]
        have hne : 2 * (u % 16) ≠ 2 * (u % 16) + 1 := by omega
        rw [Nat.testBit_two_pow_of_ne hne]
        refine ⟨by omega, ?_⟩
        constructor
        · intro hft; cases hft
        · intro h5; omega
    · have hux : u ≠ x := fun h => hr (by rw [h])
      have hcnt : List.count x (l ++ [u]) = List.count x l := by
        simp [List.count_append, List.count_singleton, hux]
      rw [hcnt]
      have hn1 : 2 * (u % 16) ≠ 2 * (x % 16) := by omega
      have hn2 : 2 * (u % 16) ≠ 2 * (x % 16) + 1 := by omega
      have hn3 : 2 * (u % 16) + 1 ≠ 2 * (x % 16) := by omega
      have hn4 : 2 * (u % 16) + 1 ≠ 2 * (x % 16) + 1 := by omega
      split <;>
        simp only [Nat.testBit_or, Nat.testBit_two_pow_of_ne hn1, Nat.testBit_two_pow_of_ne hn2,
          Nat.testBit_two_pow_of_ne hn3, Nat.testBit_two_pow_of_ne hn4, Bool.or_false] <;>
        exact ⟨h1, h2⟩
  · have hux : u ≠ x := fun h => hq (by rw [h])
    have hcnt : List.count x (l ++ [u]) = List.count x l := by
      simp [List.count_append, List.count_singleton, hux]
    rw [List.getElem?_set_ne hq, hcnt]
    exact ⟨w, hw, h1, h2⟩

theorem twice_set.Counts_test {t : twice_set} {l : List Nat} {N u : Nat}
    (hc : t.Counts l N) (hu : u / 16 < N) :
    ∃ r, t.test u = some r ∧ (r ≠ 0 ↔ 2 ≤ l.count u) := by
  obtain ⟨w, hw, -, h2⟩ := hc u hu
  rw [twice_set.tw_test_eq, hw]
  refine ⟨_, rfl, ?_⟩
  rw [← h2]
  by_cases hb : w.testBit (2 * (u % 16) + 1) = true <;> simp [hb]

theorem twice_set.setAll_counts (N : Nat) (l : List Nat) :
    ∀ (t : twice_set) (acc : List Nat), t.Counts acc N → N ≤ t.bits.length →
      (∀ u ∈ l, u / 16 < N) →
      ∃ t2, t.setAll l = some t2 ∧ t2.Counts (acc ++ l) N ∧ t2.bits.length = t.bits.length := by
  induction l with
  | nil => intro t acc hc _ _; exact ⟨t, rfl, by simpa using hc, rfl⟩
  | cons u rest ih =>
    intro t acc hc hN hl
    have hu : u / 16 < t.bits.length := Nat.lt_of_lt_of_le (hl u (by simp)) hN
    obtain ⟨t1, hs⟩ := twice_set.tw_set_isSome hu
    have hlen := twice_set.tw_set_bits_length hs
    obtain ⟨t2, h2, hc2, hl2⟩ := ih t1 (acc ++ [u]) (twice_set.Counts_set hc hs)
      (by rw [hlen]; exact hN) (fun x hx => hl x (by simp [hx]))
    refine ⟨t2, ?_, ?_, ?_⟩
    · simp only [twice_set.setAll, hs]; exact h2
    · simpa using hc2
    · rw [hl2, hlen]

theorem twice_set.reset_counts {P : Params} {t t1 : twice_set} (hr : t.reset P = some t1) :
    t1.Counts [] P.TWICE_WORDS ∧ P.TWICE_WORDS ≤ t1.bits.length ∧
      t1.bits.length = t.bits.length := by
  unfold twice_set.reset at hr
  split at hr
  · rename_i hle
    simp only [Option.some.injEq] at hr
    subst hr
    refine ⟨?_, by simp, by simp; omega⟩
    intro u hu
    refine ⟨0, ?_, by simp, by simp⟩
    simp only
    rw [List.getElem?_append_left (by simpa using hu)]
    simp [List.getElem?_replicate, hu]
  · simp at hr

/-- C6: starting from the state after `reset()`, after `set` has been called on the nodes
of any list (each below `16*TWICE_WORDS`), `test(u)` is non-zero iff `u` occurs at least
twice in the list. -/
theorem twice_set_counts_to_two (P : Params) (t0 t1 : twice_set)
    (hr : t0.reset P = some t1) (l : List Nat) (hl : ∀ u ∈ l, u < 16 * P.TWICE_WORDS) :
    ∃ t2, t1.setAll l = some t2 ∧
      ∀ u, u < 16 * P.TWICE_WORDS → ∃ r, t2.test u = some r ∧ (r ≠ 0 ↔ 2 ≤ l.count u) := by
  obtain ⟨hc, hN, -⟩ := twice_set.reset_counts hr
  obtain ⟨t2, h2, hc2, -⟩ := twice_set.setAll_counts P.TWICE_WORDS l t1 [] hc hN
    (fun u hu => by have := hl u hu; omega)
  refine ⟨t2, h2, fun u hu => ?_⟩
  have := twice_set.Counts_test hc2 (u := u) (by omega)
  simpa using this

theorem twice_set_counts_to_two_witness :
    ∃ t2, (twice_set.mk (List.replicate 16 0)).setAll [3, 5, 3] = some t2 ∧
      ∀ u, u < 16 * (Params.mk 8 4 0).TWICE_WORDS →
        ∃ r, t2.test u = some r ∧ (r ≠ 0 ↔ 2 ≤ [3, 5, 3].count u) :=
  twice_set_counts_to_two (Params.mk 8 4 0) (twice_set.mk (List.replicate 16 7))
    (twice_set.mk (List.replicate 16 0)) (by decide) [3, 5, 3] (by decide)

/-! ## The nonce loop of one thread -/

theorem shrinkingset.LiveSet.no_wrap {a : shrinkingset} {size nthreads : Nat}
    (h : a.LiveSet size nthreads) : size + 32 ≤ W32 := by
  obtain ⟨h1, h2, -⟩ := h
  have h3 : (size + 31) % W32 < W32 := Nat.mod_lt _ (by decide)
  rw [W32_eq] at h3 ⊢
  rw [W32_eq] at h1
  omega

theorem shrinkingset.LiveSet.bits_length {a : shrinkingset} {size nthreads : Nat}
    (h : a.LiveSet size nthreads) : a.bits.length = (size + 31) / 32 := by
  have hw := h.no_wrap
  obtain ⟨h1, -, -⟩ := h
  rw [h1, Nat.mod_eq_of_lt (by rw [W32_eq] at hw ⊢; omega)]

theorem shrinkingset.LiveSet.in_bounds {a : shrinkingset} {size nthreads n : Nat}
    (h : a.LiveSet size nthreads) (hn : n < size) : n / 32 < a.bits.length := by
  obtain ⟨-, h2, -⟩ := h
  omega

theorem foldNonces_append {σ : Type} (alive : σ → shrinkingset)
    (body : Nat → σ → Option (Step σ)) (l1 l2 : List Nat) :
    ∀ s, foldNonces alive body (l1 ++ l2) s =
      match foldNonces alive body l1 s with
      | none => none
      | some (Step.exit s1) => some (Step.exit s1)
      | some (Step.next s1) => foldNonces alive body l2 s1 := by
  induction l1 with
  | nil => intro s; rfl
  | cons n rest ih =>
    intro s
    simp only [List.cons_append, foldNonces]
    cases (alive s).test n with
    | none => rfl
    | some b =>
      cases b with
      | false => exact ih s
      | true =>
        cases body n s with
        | none => rfl
        | some r =>
          cases r with
          | exit s1 => rfl
          | next s1 => exact ih s1

theorem forallNonces_eq {σ : Type} (alive : σ → shrinkingset)
    (body : Nat → σ → Option (Step σ)) (easiness blockEnd : Nat) (hE : easiness < W32) :
    ∀ fuel nonce s, min blockEnd easiness - nonce < fuel →
      forallNonces alive body easiness blockEnd fuel nonce s =
        foldNonces alive body (List.range' nonce (min blockEnd easiness - nonce)) s := by
  intro fuel
  induction fuel with
  | zero => intro nonce s h; omega
  | succ fuel ih =>
    intro nonce s hf
    unfold forallNonces
    by_cases hc : nonce < blockEnd ∧ nonce < easiness
    · rw [if_pos hc]
      have hm : nonce < min blockEnd easiness := by omega
      obtain ⟨k, hk⟩ : ∃ k, min blockEnd easiness - nonce = k + 1 := ⟨_, (Nat.succ_pred_eq_of_pos (by omega)).symm⟩
      have hk1 : min blockEnd easiness - (nonce + 1) = k := by omega
      have hmod : (nonce + 1) % W32 = nonce + 1 := Nat.mod_eq_of_lt (by omega)
      rw [hk, List.range'_succ, hmod]
      simp only [foldNonces]
      rw [ih (nonce + 1) s (by omega), hk1]
      cases (alive s).test nonce with
      | none => rfl
      | some b =>
        cases b with
        | false => rfl
        | true =>
          cases body nonce s with
          | none => rfl
          | some r =>
            cases r with
            | exit s1 => rfl
            | next s1 =>
              simp only
              rw [ih (nonce + 1) s1 (by omega), hk1]
    · rw [if_neg hc]
      have hm : min blockEnd easiness - nonce = 0 := by omega
      rw [hm]
      rfl

theorem forallBlocks_eq {σ : Type} (alive : σ → shrinkingset)
    (body : Nat → σ → Option (Step σ)) (easiness : Nat) (hE : easiness + 32 ≤ W32) :
    ∀ fuel block s, (easiness - block + 31) / 32 < fuel →
      forallBlocks alive body easiness 1 fuel block s =
        foldNonces alive body (List.range' block (easiness - block)) s := by
  intro fuel
  induction fuel with
  | zero => intro block s h; omega
  | succ fuel ih =>
    intro block s hf
    unfold forallBlocks
    by_cases hc : block < easiness
    · rw [if_pos hc]
      have hmod : (block + 32) % W32 = block + 32 := Nat.mod_eq_of_lt (by omega)
      rw [hmod, forallNonces_eq alive body easiness (block + 32) (by omega) 33 block s
        (by omega)]
      have hsplit : List.range' block (easiness - block) =
          List.range' block (min (block + 32) easiness - block) ++
            List.range' (block + 32) (easiness - (block + 32)) := by
        by_cases hle : block + 32 ≤ easiness
        · rw [Nat.min_eq_left hle]
          have e1 : block + 32 - block = 32 := by omega
          have e2 : easiness - block = 32 + (easiness - (block + 32)) := by omega
          rw [e1, e2, List.range'_append_1]
          congr 1
          omega
        · have e1 : min (block + 32) easiness = easiness := by omega
          have e2 : easiness - (block + 32) = 0 := by omega
          rw [e1, e2]
          simp
      rw [hsplit, foldNonces_append]
      cases foldNonces alive body (List.range' block (min (block + 32) easiness - block)) s with
      | none => rfl
      | some r =>
        cases r with
        | exit s1 => rfl
        | next s1 =>
          simp only
          exact ih (block + 32) s1 (by omega)
    · rw [if_neg hc]
      have hm : easiness - block = 0 := by omega
      rw [hm]
      rfl

/-- With one thread and no wrap of the block counter, `FORALL_LIVE_NONCES` visits the
nonces `0, 1, ..., easiness-1` in order. -/
theorem FORALL_LIVE_NONCES_single {σ : Type} (alive : σ → shrinkingset)
    (body : Nat → σ → Option (Step σ)) (easiness fuel : Nat) (s : σ)
    (hE : easiness + 32 ≤ W32) (hf : easiness / 32 + 2 ≤ fuel) :
    FORALL_LIVE_NONCES alive body easiness 1 0 fuel s =
      foldNonces alive body (List.range easiness) s := by
  unfold FORALL_LIVE_NONCES
  have h0 : (0 * 32) % W32 = 0 := by simp
  rw [h0, forallBlocks_eq alive body easiness hE fuel 0 s (by omega), List.range_eq_range']
  rfl

theorem count_map_ge_two {f : Nat → Nat} {l : List Nat} (hl : l.Nodup) {n : Nat} (hn : n ∈ l) :
    2 ≤ (l.map f).count (f n) ↔ ∃ m ∈ l, m ≠ n ∧ f m = f n := by
  have hcount : (l.map f).count (f n) = (l.filter fun m => f m == f n).length := by
    rw [List.count_eq_countP, List.countP_map, List.countP_eq_length_filter]
    rfl
  have hg : (l.filter fun m => f m == f n).Nodup := hl.filter _
  have hng : n ∈ l.filter fun m => f m == f n := by simp [hn]
  rw [hcount, ← List.toFinset_card_of_nodup hg]
  constructor
  · intro h
    have h1 : 1 < (l.filter fun m => f m == f n).toFinset.card := by omega
    obtain ⟨m, hm, hne⟩ := Finset.exists_mem_ne h1 n
    rw [List.mem_toFinset, List.mem_filter] at hm
    exact ⟨m, hm.1, hne, by simpa using hm.2⟩
  · rintro ⟨m, hm, hne, hfm⟩
    have : 1 < (l.filter fun m => f m == f n).toFinset.card :=
      Finset.one_lt_card.2 ⟨n, by simpa using hn, m, by simp [hm, hfm], fun h => hne h.symm⟩
    omega

theorem PART_MASK_eq (P : Params) : P.PART_MASK = 2 ^ P.PART_BITS - 1 := by
  unfold Params.PART_MASK; rw [Nat.one_shiftLeft]

theorem and_PART_MASK (P : Params) (u : Nat) : u &&& P.PART_MASK = u % 2 ^ P.PART_BITS := by
  rw [PART_MASK_eq, Nat.and_pow_two_sub_one_eq_mod]

theorem twice_in_bounds (P : Params) {u : Nat} (hu : u < P.HALFSIZE) :
    (u >>> P.PART_BITS) / 16 < P.TWICE_WORDS := by
  have hpos : 0 < 2 ^ P.PART_BITS := Nat.pow_pos (by decide)
  have h1 : u >>> P.PART_BITS < P.ONCE_BITS := by
    unfold Params.ONCE_BITS
    rw [PART_MASK_eq, Nat.shiftRight_eq_div_pow, Nat.shiftRight_eq_div_pow]
    have e : P.HALFSIZE + (2 ^ P.PART_BITS - 1) = (P.HALFSIZE - 1) + 2 ^ P.PART_BITS := by omega
    rw [e, Nat.add_div_right _ hpos]
    have : u / 2 ^ P.PART_BITS ≤ (P.HALFSIZE - 1) / 2 ^ P.PART_BITS :=
      Nat.div_le_div_right (by omega)
    omega
  unfold Params.TWICE_WORDS
  omega

theorem node_split (P : Params) {a b : Nat} (h1 : a >>> P.PART_BITS = b >>> P.PART_BITS)
    (h2 : a &&& P.PART_MASK = b &&& P.PART_MASK) : a = b := by
  rw [and_PART_MASK, and_PART_MASK] at h2
  rw [Nat.shiftRight_eq_div_pow, Nat.shiftRight_eq_div_pow] at h1
  rw [← Nat.div_add_mod a (2 ^ P.PART_BITS), ← Nat.div_add_mod b (2 ^ P.PART_BITS), h1, h2]

/-! ## The two passes of a trimming half -/

theorem foldNonces_trimSet (P : Params) (side : Nat → Nat) (part : Nat) (l : List Nat) :
    ∀ (ctx : cuckoo_ctx) (nl : twice_set), ctx.nonleaf = some nl →
      (∀ n ∈ l, n / 32 < ctx.alive.bits.length) →
      (∀ n ∈ l, (side n >>> P.PART_BITS) / 16 < nl.bits.length) →
      ∃ nl2, foldNonces cuckoo_ctx.alive (trimSetBody P side part) l ctx =
          some (Step.next { ctx with nonleaf := some nl2 }) ∧
        nl.setAll ((partLive P side part ctx.alive l).map fun n => side n >>> P.PART_BITS)
          = some nl2 := by
  induction l with
  | nil =>
    intro ctx nl hnl _ _
    refine ⟨nl, ?_, rfl⟩
    simp only [foldNonces]
    rw [← hnl]
  | cons n rest ih =>
    intro ctx nl hnl hb hs
    obtain ⟨b, hb1⟩ := shrinkingset.test_isSome (hb n (by simp))
    simp only [foldNonces, hb1, partLive, List.filter_cons]
    cases b with
    | false =>
      obtain ⟨nl2, h1, h2⟩ := ih ctx nl hnl (fun m hm => hb m (by simp [hm]))
        (fun m hm => hs m (by simp [hm]))
      refine ⟨nl2, h1, ?_⟩
      simpa [partLive] using h2
    | true =>
      simp only [trimSetBody, hnl]
      by_cases hp : side n &&& P.PART_MASK = part
      · obtain ⟨nl1, hs1⟩ := twice_set.tw_set_isSome (hs n (by simp))
        have hlen := twice_set.tw_set_bits_length hs1
        simp only [hp, if_true, hs1]
        obtain ⟨nl2, h1, h2⟩ := ih { ctx with nonleaf := some nl1 } nl1 rfl
          (fun m hm => hb m (by simp [hm])) (fun m hm => by rw [hlen]; exact hs m (by simp [hm]))
        refine ⟨nl2, h1, ?_⟩
        simp only [beq_self_eq_true, Bool.and_self, if_true, List.map_cons, twice_set.setAll, hs1]
        simpa [partLive] using h2
      · simp only [hp, if_false]
        obtain ⟨nl2, h1, h2⟩ := ih ctx nl hnl (fun m hm => hb m (by simp [hm]))
          (fun m hm => hs m (by simp [hm]))
        refine ⟨nl2, h1, ?_⟩
        have : (side n &&& P.PART_MASK == part) = false := by simpa using hp
        simp only [this, Bool.and_false]
        simpa [partLive] using h2

theorem killCond_iff (P : Params) (side : Nat → Nat) (part : Nat) (nl : twice_set) (n : Nat) :
    killCond P side part nl n = true ↔
      side n &&& P.PART_MASK = part ∧ nl.test (side n >>> P.PART_BITS) = some 0 := by
  simp [killCond]

theorem twice_set.tw_test_isSome {t : twice_set} {u : Nat} (hu : u / 16 < t.bits.length) :
    ∃ r, t.test u = some r := by
  unfold twice_set.test
  rw [List.getElem?_eq_getElem hu]
  exact ⟨_, rfl⟩

theorem foldNonces_trimKill (P : Params) (side : Nat → Nat) (part id : Nat) (nl : twice_set)
    (l : List Nat) :
    ∀ (ctx : cuckoo_ctx), ctx.nonleaf = some nl → l.Nodup →
      (∀ n ∈ l, n / 32 < ctx.alive.bits.length) → id < ctx.alive.cnt.length →
      (∀ n ∈ l, (side n >>> P.PART_BITS) / 16 < nl.bits.length) →
      ∃ a2, foldNonces cuckoo_ctx.alive (trimKillBody P side part id) l ctx =
          some (Step.next { ctx with alive := a2 }) ∧
        a2.bits.length = ctx.alive.bits.length ∧ a2.cnt.length = ctx.alive.cnt.length ∧
        ∀ m, a2.test m =
          if m ∈ l ∧ ctx.alive.test m = some true ∧ killCond P side part nl m = true then some false
          else ctx.alive.test m := by
  induction l with
  | nil =>
    intro ctx _ _ _ _ _
    exact ⟨ctx.alive, rfl, rfl, rfl, by simp⟩
  | cons n rest ih =>
    intro ctx hnl hnd hb hid hs
    have hnd1 : rest.Nodup := (List.nodup_cons.1 hnd).2
    have hnr : n ∉ rest := (List.nodup_cons.1 hnd).1
    obtain ⟨b, hb1⟩ := shrinkingset.test_isSome (hb n (by simp))
    have hrest : ∀ m ∈ rest, m / 32 < ctx.alive.bits.length := fun m hm => hb m (by simp [hm])
    have hsrest : ∀ m ∈ rest, (side m >>> P.PART_BITS) / 16 < nl.bits.length :=
      fun m hm => hs m (by simp [hm])
    -- the case where nothing is reset at `n`
    have keep : (ctx.alive.test n = some true → ¬ killCond P side part nl n = true) →
        foldNonces cuckoo_ctx.alive (trimKillBody P side part id) (n :: rest) ctx =
          foldNonces cuckoo_ctx.alive (trimKillBody P side part id) rest ctx →
        ∃ a2, foldNonces cuckoo_ctx.alive (trimKillBody P side part id) (n :: rest) ctx =
          some (Step.next { ctx with alive := a2 }) ∧
        a2.bits.length = ctx.alive.bits.length ∧ a2.cnt.length = ctx.alive.cnt.length ∧
        ∀ m, a2.test m =
          if m ∈ n :: rest ∧ ctx.alive.test m = some true ∧ killCond P side part nl m = true
          then some false else ctx.alive.test m := by
      intro hk he
      obtain ⟨a2, h1, h2, h3, h4⟩ := ih ctx hnl hnd1 hrest hid hsrest
      refine ⟨a2, he.trans h1, h2, h3, fun m => ?_⟩
      rw [h4 m]
      by_cases hmn : m = n
      · subst hmn
        have c1 : ¬ (m ∈ rest ∧ ctx.alive.test m = some true ∧ killCond P side part nl m = true) :=
          fun h => hnr h.1
        have c2 : ¬ (m ∈ m :: rest ∧ ctx.alive.test m = some true ∧
            killCond P side part nl m = true) := fun h => hk h.2.1 h.2.2
        rw [if_neg c1, if_neg c2]
      · simp only [List.mem_cons, hmn, false_or]
    cases b with
    | false =>
      apply keep
      · intro h; rw [hb1] at h; cases h
      · simp only [foldNonces, hb1]
    | true =>
      obtain ⟨r, hr⟩ := twice_set.tw_test_isSome (hs n (by simp))
      by_cases hp : side n &&& P.PART_MASK = part
      · by_cases hr0 : r = 0
        · subst hr0
          obtain ⟨a1, ha1⟩ := shrinkingset.reset_isSome (hb n (by simp)) hid
          have hl1 := shrinkingset.reset_bits_length ha1
          have hc1 := shrinkingset.reset_cnt_length ha1
          obtain ⟨a2, h1, h2, h3, h4⟩ := ih { ctx with alive := a1 } hnl hnd1
            (fun m hm => by simpa [hl1] using hrest m hm) (by simpa [hc1] using hid) hsrest
          refine ⟨a2, ?_, by rw [h2]; exact hl1, by rw [h3]; exact hc1, fun m => ?_⟩
          · simp only [foldNonces, hb1, trimKillBody, hnl, hp, if_true, hr, ha1]
            simp only [hnl] at h1
            exact h1
          · rw [h4 m]
            simp only
            by_cases hmn : m = n
            · subst hmn
              have c1 : ¬ (m ∈ rest ∧ a1.test m = some true ∧ killCond P side part nl m = true) :=
                fun h => hnr h.1
              have c2 : m ∈ m :: rest ∧ ctx.alive.test m = some true ∧
                  killCond P side part nl m = true :=
                ⟨by simp, hb1, (killCond_iff P side part nl m).2 ⟨hp, hr⟩⟩
              rw [if_neg c1, if_pos c2]
              exact shrinkingset.reset_test_self ha1
            · rw [shrinkingset.reset_test_other ha1 hmn]
              simp only [List.mem_cons, hmn, false_or]
        · apply keep
          · intro _ hk
            have hk2 := ((killCond_iff P side part nl n).1 hk).2
            rw [hr] at hk2
            exact hr0 (Option.some.inj hk2)
          · simp only [foldNonces, hb1, trimKillBody, hnl, hp, if_true, hr, hr0, if_false]
      · apply keep
        · intro _ hk; exact hp ((killCond_iff P side part nl n).1 hk).1
        · simp only [foldNonces, hb1, trimKillBody, hnl, hp, if_false]

theorem cuckoo_ctx.SameFrame.refl (c : cuckoo_ctx) : c.SameFrame c :=
  ⟨rfl, rfl, rfl, rfl, rfl, rfl, rfl⟩

theorem cuckoo_ctx.SameFrame.trans {a b c : cuckoo_ctx} (h1 : a.SameFrame b)
    (h2 : b.SameFrame c) : a.SameFrame c := by
  obtain ⟨a1, a2, a3, a4, a5, a6, a7⟩ := h1
  obtain ⟨b1, b2, b3, b4, b5, b6, b7⟩ := h2
  exact ⟨b1.trans a1, b2.trans a2, b3.trans a3, b4.trans a4, b5.trans a5, b6.trans a6,
    b7.trans a7⟩

/-- What one half of `trim_edges` does when run by a single thread. -/
theorem trimHalf_spec (P : Params) (side : Nat → Nat) (hside : ∀ n, side n < P.HALFSIZE)
    (part fuel : Nat) (ctx : cuckoo_ctx) (hctx : ctx.TrimReady P)
    (hfuel : ctx.easiness / 32 + 2 ≤ fuel) :
    ∃ ctx1, trimHalf P side part 0 fuel ctx = some ctx1 ∧ ctx1.TrimReady P ∧
      ctx.SameFrame ctx1 ∧ ctx1.alive.cnt.length = ctx.alive.cnt.length ∧
      (∀ m, ctx.alive.test m = some false → ctx1.alive.test m = some false) ∧
      (∀ m, ctx1.alive.live m → ctx.alive.live m) ∧
      (∀ n, n < ctx.easiness →
        (ctx1.alive.live n ↔ ctx.alive.live n ∧
          (side n % 2 ^ P.PART_BITS ≠ part ∨ sharedEndpoint side ctx.alive ctx.easiness n))) := by
  obtain ⟨hth, hlive, nl, hnl, hnlen⟩ := hctx
  obtain ⟨easiness, alive, nonleaf, cuckoo, sols, maxsols, nsols, nthreads, ntrims⟩ := ctx
  simp only at hth hlive hnl hfuel ⊢
  subst hth hnl
  have hwrap := hlive.no_wrap
  -- reset by thread 0
  have hreset : ∃ nl0, nl.reset P = some nl0 := by
    unfold twice_set.reset; rw [if_pos (by omega)]; exact ⟨_, rfl⟩
  obtain ⟨nl0, hnl0⟩ := hreset
  obtain ⟨hc0, hN0, hlen0⟩ := twice_set.reset_counts hnl0
  have hinb : ∀ n ∈ List.range easiness, n / 32 < alive.bits.length :=
    fun n hn => hlive.in_bounds (List.mem_range.1 hn)
  have hsb : ∀ n ∈ List.range easiness,
      (side n >>> P.PART_BITS) / 16 < nl0.bits.length := fun n _ => by
    rw [hlen0, hnlen]; exact twice_in_bounds P (hside n)
  -- set pass
  obtain ⟨nl2, hset, hall⟩ := foldNonces_trimSet P side part (List.range easiness)
    { easiness := easiness, alive := alive, nonleaf := some nl0, cuckoo := cuckoo, sols := sols, maxsols := maxsols, nsols := nsols, nthreads := 1, ntrims := ntrims } nl0 rfl hinb hsb
  have hsb2 : ∀ u ∈ (partLive P side part alive (List.range easiness)).map
      (fun n => side n >>> P.PART_BITS), u / 16 < P.TWICE_WORDS := by
    intro u hu
    obtain ⟨n, -, rfl⟩ := List.mem_map.1 hu
    exact twice_in_bounds P (hside n)
  obtain ⟨nl2b, hall2, hcnt, hlen2⟩ := twice_set.setAll_counts P.TWICE_WORDS _ nl0 [] hc0 hN0 hsb2
  have hnl2 : nl2b = nl2 := by
    have := hall2.symm.trans hall; exact Option.some.inj this
  subst hnl2
  simp only [List.nil_append] at hcnt
  -- kill pass
  obtain ⟨a2, hkill, hbl, hcl, htest⟩ := foldNonces_trimKill P side part 0 nl2b
    (List.range easiness) { easiness := easiness, alive := alive, nonleaf := some nl2b, cuckoo := cuckoo, sols := sols, maxsols := maxsols, nsols := nsols, nthreads := 1, ntrims := ntrims } rfl (List.nodup_range _)
    hinb (by have := hlive.2.2; simp only; omega)
    (fun n hn => by rw [hlen2]; exact hsb n hn)
  simp only at hkill hbl hcl htest
  refine ⟨{ easiness := easiness, alive := a2, nonleaf := some nl2b, cuckoo := cuckoo, sols := sols, maxsols := maxsols, nsols := nsols, nthreads := 1, ntrims := ntrims }, ?_, ?_, ?_, hcl, ?_, ?_, ?_⟩
  · unfold trimHalf
    simp only [if_true, hnl0, Option.map_some']
    rw [FORALL_LIVE_NONCES_single _ _ _ _ _ hwrap hfuel, hset]
    simp only [Step.state]
    rw [FORALL_LIVE_NONCES_single _ _ _ _ _ hwrap hfuel, hkill]
  · refine ⟨rfl, ⟨?_, ?_, ?_⟩, nl2b, rfl, ?_⟩
    · simp only; rw [hbl]; exact hlive.1
    · simp only; rw [hbl]; exact hlive.2.1
    · simp only; rw [hcl]; exact hlive.2.2
    · rw [hlen2, hlen0, hnlen]
  · exact ⟨rfl, rfl, rfl, rfl, rfl, rfl, rfl⟩
  · intro m hm
    simp only
    rw [htest m]
    split
    · rfl
    · exact hm
  · intro m hm
    simp only [shrinkingset.live] at hm ⊢
    rw [htest m] at hm
    split at hm
    · cases hm
    · exact hm
  · intro n hn
    simp only [shrinkingset.live]
    rw [htest n]
    have hmem : n ∈ List.range easiness := List.mem_range.2 hn
    by_cases hl : alive.test n = some true
    · by_cases hp : side n &&& P.PART_MASK = part
      · -- in the part: killed iff the counter is below two
        have hnin : n ∈ partLive P side part alive (List.range easiness) := by
          simp [partLive, hn, hl, hp]
        have hnd : (partLive P side part alive (List.range easiness)).Nodup :=
          (List.nodup_range _).filter _
        obtain ⟨r, hr, hr2⟩ := twice_set.Counts_test hcnt
          (u := side n >>> P.PART_BITS) (twice_in_bounds P (hside n))
        have hcm := count_map_ge_two (f := fun n => side n >>> P.PART_BITS) hnd hnin
        have hshared : 2 ≤ List.count (side n >>> P.PART_BITS)
            ((partLive P side part alive (List.range easiness)).map
              fun n => side n >>> P.PART_BITS) ↔
            sharedEndpoint side alive easiness n := by
          rw [hcm]
          constructor
          · rintro ⟨m, hm, hne, hfm⟩
            simp only [partLive, List.mem_filter, List.mem_range, Bool.and_eq_true,
              beq_iff_eq] at hm
            exact ⟨m, hm.1, hne, hm.2.1, node_split P hfm (hm.2.2.trans hp.symm)⟩
          · rintro ⟨m, hm, hne, hml, hs⟩
            refine ⟨m, ?_, hne, by simp only [hs]⟩
            simp only [partLive, List.mem_filter, List.mem_range, Bool.and_eq_true,
              beq_iff_eq]
            exact ⟨hm, hml, by rw [hs]; exact hp⟩
        have hpm : side n % 2 ^ P.PART_BITS = part := by rw [← and_PART_MASK]; exact hp
        by_cases hr0 : r = 0
        · have hk : killCond P side part nl2b n = true :=
            (killCond_iff P side part nl2b n).2 ⟨hp, by rw [hr, hr0]⟩
          rw [if_pos ⟨hmem, hl, hk⟩]
          have hns : ¬ sharedEndpoint side alive easiness n := by
            rw [← hshared, ← hr2]; simp [hr0]
          constructor
          · intro h; cases h
          · rintro ⟨-, h | h⟩
            · exact absurd hpm h
            · exact absurd h hns
        · have hk : ¬ killCond P side part nl2b n = true := by
            intro hk
            have := ((killCond_iff P side part nl2b n).1 hk).2
            rw [hr] at this
            exact hr0 (Option.some.inj this)
          rw [if_neg (fun h => hk h.2.2)]
          exact ⟨fun h => ⟨h, Or.inr (hshared.1 (hr2.1 hr0))⟩, fun h => h.1⟩
      · have hk : ¬ killCond P side part nl2b n = true :=
          fun hk => hp ((killCond_iff P side part nl2b n).1 hk).1
        rw [if_neg (fun h => hk h.2.2)]
        have hpm : side n % 2 ^ P.PART_BITS ≠ part := by rw [← and_PART_MASK]; exact hp
        exact ⟨fun h => ⟨h, Or.inl hpm⟩, fun h => h.1⟩
    · rw [if_neg (fun h => hl h.2.1)]
      exact ⟨fun h => absurd h hl, fun h => absurd h.1 hl⟩

theorem sipedge_u_lt (P : Params) (h : Nat → Nat) (n : Nat) : sipedge_u P h n < P.HALFSIZE :=
  Nat.mod_lt _ (Nat.pow_pos (by decide))

theorem sipedge_v_lt (P : Params) (h : Nat → Nat) (n : Nat) : sipedge_v P h n < P.HALFSIZE :=
  Nat.mod_lt _ (Nat.pow_pos (by decide))

theorem exCtx_new : cuckoo_ctx.new exParams 6 1 1 2 = some exCtx := by decide

theorem exCtx_TrimReady : exCtx.TrimReady exParams :=
  ⟨rfl, ⟨by decide, by decide, rfl⟩, _, rfl, by decide⟩

/-- C2: run by one thread, one half of `trim_edges(part)` for the side `S` (U or V)
leaves a nonce `n < easiness` live iff it was live before and either `S(n) mod PARTS` is
not `part` or another nonce `m` that was live before has `S(m) = S(n)`. -/
theorem trim_half_kills_exactly_leaves (P : Params) (h : Nat → Nat) (side : Nat → Nat)
    (hside : side = sipedge_u P h ∨ side = sipedge_v P h) (part fuel : Nat) (ctx : cuckoo_ctx)
    (hctx : ctx.TrimReady P) (hfuel : ctx.easiness / 32 + 2 ≤ fuel) :
    ∃ ctx1, trimHalf P side part 0 fuel ctx = some ctx1 ∧
      ∀ n, n < ctx.easiness →
        (ctx1.alive.test n = some true ↔
          ctx.alive.test n = some true ∧
            (side n % 2 ^ P.PART_BITS ≠ part ∨
              ∃ m, m < ctx.easiness ∧ m ≠ n ∧ ctx.alive.test m = some true ∧
                side m = side n)) := by
  have hs : ∀ n, side n < P.HALFSIZE := by
    rcases hside with rfl | rfl
    · exact sipedge_u_lt P h
    · exact sipedge_v_lt P h
  obtain ⟨ctx1, h1, -, -, -, -, -, h7⟩ := trimHalf_spec P side hs part fuel ctx hctx hfuel
  exact ⟨ctx1, h1, h7⟩

theorem trim_half_kills_exactly_leaves_witness :
    exCtx.TrimReady exParams ∧ exCtx.easiness / 32 + 2 ≤ 2 ∧
    ∃ ctx1, trimHalf exParams (sipedge_u exParams exHash) 0 0 2 exCtx = some ctx1 ∧
      ∀ n, n < exCtx.easiness →
        (ctx1.alive.test n = some true ↔
          exCtx.alive.test n = some true ∧
            (sipedge_u exParams exHash n % 2 ^ exParams.PART_BITS ≠ 0 ∨
              ∃ m, m < exCtx.easiness ∧ m ≠ n ∧ exCtx.alive.test m = some true ∧
                sipedge_u exParams exHash m = sipedge_u exParams exHash n)) :=
  ⟨exCtx_TrimReady, by decide,
    trim_half_kills_exactly_leaves exParams exHash (sipedge_u exParams exHash) (Or.inl rfl)
      0 2 exCtx exCtx_TrimReady (by decide)⟩

/-! ## Invariants of the nonce loop for any thread -/

theorem forallNonces_invariant {σ : Type} (alive : σ → shrinkingset)
    (body : Nat → σ → Option (Step σ)) (easiness blockEnd : Nat) (R : σ → σ → Prop)
    (hrefl : ∀ s, R s s) (htrans : ∀ a b c, R a b → R b c → R a c)
    (hbody : ∀ n s r, n < easiness → (alive s).test n = some true → body n s = some r →
      R s r.state) :
    ∀ fuel nonce s r, forallNonces alive body easiness blockEnd fuel nonce s = some r →
      R s r.state := by
  intro fuel
  induction fuel with
  | zero => intro nonce s r h; simp [forallNonces] at h
  | succ fuel ih =>
    intro nonce s r h
    unfold forallNonces at h
    split at h
    · rename_i hlt
      split at h
      · cases h
      · exact ih _ _ _ h
      · rename_i hlive
        split at h
        · cases h
        · rename_i s1 hb
          simp only [Option.some.injEq] at h
          subst h
          exact hbody _ _ _ hlt.2 hlive hb
        · rename_i s1 hb
          exact htrans _ _ _ (hbody _ _ _ hlt.2 hlive hb) (ih _ _ _ h)
    · simp only [Option.some.injEq] at h
      subst h
      exact hrefl s

theorem forallBlocks_invariant {σ : Type} (alive : σ → shrinkingset)
    (body : Nat → σ → Option (Step σ)) (easiness nthreads : Nat) (R : σ → σ → Prop)
    (hrefl : ∀ s, R s s) (htrans : ∀ a b c, R a b → R b c → R a c)
    (hbody : ∀ n s r, n < easiness → (alive s).test n = some true → body n s = some r →
      R s r.state) :
    ∀ fuel block s r, forallBlocks alive body easiness nthreads fuel block s = some r →
      R s r.state := by
  intro fuel
  induction fuel with
  | zero => intro block s r h; simp [forallBlocks] at h
  | succ fuel ih =>
    intro block s r h
    unfold forallBlocks at h
    split at h
    · split at h
      · cases h
      · rename_i s1 hb
        simp only [Option.some.injEq] at h
        subst h
        exact forallNonces_invariant alive body easiness _ R hrefl htrans hbody _ _ _ _ hb
      · rename_i s1 hb
        exact htrans _ _ _
          (forallNonces_invariant alive body easiness _ R hrefl htrans hbody _ _ _ _ hb)
          (ih _ _ _ h)
    · simp only [Option.some.injEq] at h
      subst h
      exact hrefl s

theorem FORALL_LIVE_NONCES_invariant {σ : Type} (alive : σ → shrinkingset)
    (body : Nat → σ → Option (Step σ)) (easiness nthreads id fuel : Nat) (R : σ → σ → Prop)
    (hrefl : ∀ s, R s s) (htrans : ∀ a b c, R a b → R b c → R a c)
    (hbody : ∀ n s r, n < easiness → (alive s).test n = some true → body n s = some r →
      R s r.state)
    (s : σ) (r : Step σ) (h : FORALL_LIVE_NONCES alive body easiness nthreads id fuel s = some r) :
    R s r.state :=
  forallBlocks_invariant alive body easiness nthreads R hrefl htrans hbody _ _ _ _ h

theorem trimSetBody_alive {P : Params} {side : Nat → Nat} {part n : Nat} {c : cuckoo_ctx}
    {r : Step cuckoo_ctx} (h : trimSetBody P side part n c = some r) :
    r.state.alive = c.alive := by
  unfold trimSetBody at h
  simp only at h
  split at h
  · split at h
    · cases h
    · split at h
      · cases h
      · simp only [Option.some.injEq] at h; subst h; rfl
  · simp only [Option.some.injEq] at h; subst h; rfl

theorem trimKillBody_killedStay {P : Params} {side : Nat → Nat} {part id n : Nat}
    {c : cuckoo_ctx} {r : Step cuckoo_ctx} (h : trimKillBody P side part id n c = some r) :
    c.KilledStay r.state := by
  unfold trimKillBody at h
  simp only at h
  split at h
  · split at h
    · cases h
    · split at h
      · cases h
      · split at h
        · split at h
          · cases h
          · rename_i a1 ha1
            simp only [Option.some.injEq] at h; subst h
            intro m hm
            exact shrinkingset.reset_killed ha1 hm
        · simp only [Option.some.injEq] at h; subst h; exact fun m hm => hm
  · simp only [Option.some.injEq] at h; subst h; exact fun m hm => hm

theorem trimHalf_killedStay {P : Params} {side : Nat → Nat} {part id fuel : Nat}
    {c c1 : cuckoo_ctx} (h : trimHalf P side part id fuel c = some c1) : c.KilledStay c1 := by
  have hrefl : ∀ s : cuckoo_ctx, s.KilledStay s := fun s m hm => hm
  have htrans : ∀ a b c : cuckoo_ctx, a.KilledStay b → b.KilledStay c → a.KilledStay c :=
    fun a b c h1 h2 m hm => h2 m (h1 m hm)
  unfold trimHalf at h
  simp only at h
  split at h
  · cases h
  · rename_i c0 hc0
    have h0 : c.KilledStay c0 := by
      split at hc0
      · split at hc0
        · cases hc0
        · rename_i nl hnl
          cases hr : nl.reset P with
          | none => simp [hr] at hc0
          | some nl1 =>
            simp only [hr, Option.map_some', Option.some.injEq] at hc0
            subst hc0
            exact fun m hm => hm
      · simp only [Option.some.injEq] at hc0; subst hc0; exact hrefl c
    split at h
    · cases h
    · rename_i r1 hr1
      split at h
      · cases h
      · rename_i r2 hr2
        simp only [Option.some.injEq] at h
        subst h
        have h1 : c0.KilledStay r1.state :=
          FORALL_LIVE_NONCES_invariant _ _ _ _ _ _ cuckoo_ctx.KilledStay hrefl htrans
            (fun n s r _ _ hb => by
              intro m hm; rw [trimSetBody_alive hb]; exact hm) _ _ hr1
        have h2 : r1.state.KilledStay r2.state :=
          FORALL_LIVE_NONCES_invariant _ _ _ _ _ _ cuckoo_ctx.KilledStay hrefl htrans
            (fun n s r _ _ hb => trimKillBody_killedStay hb) _ _ hr2
        exact htrans _ _ _ h0 (htrans _ _ _ h1 h2)

theorem trim_edges_killedStay {P : Params} {h : Nat → Nat} {id part fuel : Nat}
    {c c1 : cuckoo_ctx} (ht : trim_edges P h id part fuel c = some c1) : c.KilledStay c1 := by
  unfold trim_edges at ht
  cases h1 : trimHalf P (sipedge_u P h) part id fuel c with
  | none => simp [h1] at ht
  | some cm =>
    simp only [h1, Option.some_bind] at ht
    exact fun m hm => trimHalf_killedStay ht m (trimHalf_killedStay h1 m hm)

theorem trimHalf_U_then_V (P : Params) (h : Nat → Nat) (part fuel : Nat) (ctx : cuckoo_ctx)
    (hctx : ctx.TrimReady P) (hfuel : ctx.easiness / 32 + 2 ≤ fuel) :
    ∃ cm c1, trimHalf P (sipedge_u P h) part 0 fuel ctx = some cm ∧
      trimHalf P (sipedge_v P h) part 0 fuel cm = some c1 ∧
      trim_edges P h 0 part fuel ctx = some c1 ∧ cm.TrimReady P ∧ c1.TrimReady P ∧
      ctx.SameFrame cm ∧ cm.SameFrame c1 := by
  obtain ⟨cm, h1, hr1, hf1, -⟩ :=
    trimHalf_spec P (sipedge_u P h) (sipedge_u_lt P h) part fuel ctx hctx hfuel
  have hfuel1 : cm.easiness / 32 + 2 ≤ fuel := by rw [hf1.1]; exact hfuel
  obtain ⟨c1, h2, hr2, hf2, -⟩ :=
    trimHalf_spec P (sipedge_v P h) (sipedge_v_lt P h) part fuel cm hr1 hfuel1
  refine ⟨cm, c1, h1, h2, ?_, hr1, hr2, hf1, hf2⟩
  unfold trim_edges
  rw [h1, Option.some_bind, h2]

/-- C8: `reset(n, t)` leaves every killed nonce killed and changes the bit of no nonce
other than `n`; `trim_edges`, for every partition and thread id, leaves every killed nonce
killed. -/
theorem liveness_monotone :
    (∀ (s s1 : shrinkingset) (n t : Nat), s.reset n t = some s1 →
      (∀ m, s.test m = some false → s1.test m = some false) ∧
      (∀ m, m ≠ n → s1.test m = s.test m)) ∧
    (∀ (P : Params) (h : Nat → Nat) (id part fuel : Nat) (ctx ctx1 : cuckoo_ctx),
      trim_edges P h id part fuel ctx = some ctx1 →
      ∀ m, ctx.alive.test m = some false → ctx1.alive.test m = some false) :=
  ⟨fun _ _ _ _ hr =>
      ⟨fun _ hm => shrinkingset.reset_killed hr hm,
       fun _ hm => shrinkingset.reset_test_other hr hm⟩,
   fun _ _ _ _ _ _ _ ht => trim_edges_killedStay ht⟩

theorem liveness_monotone_witness :
    (shrinkingset.mk [16] [5]).reset 1 0 = some (shrinkingset.mk [18] [4]) ∧
    trim_edges exParams exHash 0 0 2 (cuckoo_ctx.mk 6 (shrinkingset.mk [3] [4])
        (some (twice_set.mk (List.replicate 16 0))) none [] 0 0 1 1) =
      some (cuckoo_ctx.mk 6 (shrinkingset.mk [63] [0])
        (some (twice_set.mk ([5] ++ List.replicate 15 0))) none [] 0 0 1 1) ∧
    ((∀ m, (shrinkingset.mk [16] [5]).test m = some false →
        (shrinkingset.mk [18] [4]).test m = some false) ∧
      (∀ m, m ≠ 1 → (shrinkingset.mk [18] [4]).test m = (shrinkingset.mk [16] [5]).test m)) ∧
    (∀ m, (shrinkingset.mk [3] [4]).test m = some false →
      (shrinkingset.mk [63] [0]).test m = some false) :=
  ⟨by decide, by decide,
    liveness_monotone.1 (shrinkingset.mk [16] [5]) (shrinkingset.mk [18] [4]) 1 0 (by decide),
    liveness_monotone.2 exParams exHash 0 0 2
      (cuckoo_ctx.mk 6 (shrinkingset.mk [3] [4])
        (some (twice_set.mk (List.replicate 16 0))) none [] 0 0 1 1)
      (cuckoo_ctx.mk 6 (shrinkingset.mk [63] [0])
        (some (twice_set.mk ([5] ++ List.replicate 15 0))) none [] 0 0 1 1) (by decide)⟩

/-! ## The counters of `shrinkingset` -/

theorem foldl_add_mod (l : List Nat) :
    ∀ acc, acc < W64 → l.foldl (fun sum c => (sum + c) % W64) acc = (acc + l.sum) % W64 := by
  induction l with
  | nil => intro acc h; simp [Nat.mod_eq_of_lt h]
  | cons c rest ih =>
    intro acc _
    simp only [List.foldl_cons, List.sum_cons]
    rw [ih _ (Nat.mod_lt _ (by decide)), Nat.mod_add_mod, Nat.add_assoc]

theorem shrinkingset.count_eq (a : shrinkingset) : a.count = a.cnt.sum % W64 := by
  unfold shrinkingset.count
  rw [foldl_add_mod _ 0 (by decide), Nat.zero_add]

theorem sum_set_add (l : List Nat) : ∀ (t c v : Nat), l[t]? = some c →
    (l.set t v).sum + c = l.sum + v := by
  induction l with
  | nil => intro t c v h; simp at h
  | cons x rest ih =>
    intro t c v h
    cases t with
    | zero =>
      simp only [List.getElem?_cons_zero, Option.some.injEq] at h
      subst h
      simp only [List.set_cons_zero, List.sum_cons]
      omega
    | succ t =>
      simp only [List.getElem?_cons_succ] at h
      have := ih t c v h
      simp only [List.set_cons_succ, List.sum_cons]
      omega

theorem shrinkingset.reset_count {a a1 : shrinkingset} {n t : Nat}
    (hr : a.reset n t = some a1) : (a1.count + 1) % W64 = a.count := by
  obtain ⟨w, c, -, hc, -, hcnt⟩ := shrinkingset.reset_eq_some hr
  rw [shrinkingset.count_eq, shrinkingset.count_eq, hcnt]
  have h := sum_set_add a.cnt t c ((c + W64 - 1) % W64) hc
  rw [W64_eq] at h ⊢
  omega

theorem filter_length_flip (p q : Nat → Bool) (n : Nat) (l : List Nat) (hl : l.Nodup)
    (hn : n ∈ l) (hp : p n = true) (hq : q n = false) (hpq : ∀ m, m ≠ n → q m = p m) :
    (l.filter q).length + 1 = (l.filter p).length := by
  induction l with
  | nil => simp at hn
  | cons x rest ih =>
    have hnd := List.nodup_cons.1 hl
    by_cases hx : x = n
    · subst hx
      have hsame : rest.filter q = rest.filter p := by
        apply List.filter_congr
        intro m hm
        exact hpq m (fun h => hnd.1 (h ▸ hm))
      simp [List.filter_cons, hp, hq, hsame]
    · have hn1 : n ∈ rest := by
        rcases List.mem_cons.1 hn with h | h
        · exact absurd h.symm hx
        · exact h
      have := ih hnd.2 hn1
      rw [List.filter_cons, List.filter_cons, hpq x hx]
      cases hpx : p x with
      | true => simp only [if_true, List.length_cons]; omega
      | false => simp only [Bool.false_eq_true, if_false]; exact this

theorem shrinkingset.reset_liveCount {a a1 : shrinkingset} {n t size : Nat}
    (hr : a.reset n t = some a1) (hn : n < size) (hlive : a.test n = some true) :
    liveCount a1 size + 1 = liveCount a size := by
  unfold liveCount
  apply filter_length_flip _ _ n _ (List.nodup_range _) (List.mem_range.2 hn)
  · simp [hlive]
  · simp [shrinkingset.reset_test_self hr]
  · intro m hm
    rw [shrinkingset.reset_test_other hr hm]

theorem liveCount_le (a : shrinkingset) (size : Nat) : liveCount a size ≤ size := by
  unfold liveCount
  calc ((List.range size).filter _).length ≤ (List.range size).length := List.length_filter_le _ _
    _ = size := List.length_range _

theorem shrinkingset.count_lt (a : shrinkingset) : a.count < W64 := by
  rw [shrinkingset.count_eq]; exact Nat.mod_lt _ (by decide)

theorem shrinkingset.reset_Counted {a a1 : shrinkingset} {n t size : Nat}
    (hr : a.reset n t = some a1) (hn : n < size) (hlive : a.test n = some true)
    (hc : a.Counted size) : a1.Counted size := by
  have h1 := shrinkingset.reset_count hr
  have h2 := shrinkingset.reset_liveCount hr hn hlive
  have h3 := liveCount_le a size
  have h4 := a1.count_lt
  unfold shrinkingset.Counted at hc ⊢
  rw [W64_eq] at h1 h4
  omega

theorem shrinkingset.reset_LiveSet {a a1 : shrinkingset} {n t size k : Nat}
    (hr : a.reset n t = some a1) (h : a.LiveSet size k) : a1.LiveSet size k := by
  obtain ⟨h1, h2, h3⟩ := h
  have hb := shrinkingset.reset_bits_length hr
  have hc := shrinkingset.reset_cnt_length hr
  exact ⟨by rw [hb]; exact h1, by rw [hb]; exact h2, by rw [hc]; exact h3⟩

/-- The constructor, when the word count `(size+31)/32` does not wrap in `nonce_t`:
every nonce below `size` tests live and `count()` is `size`. -/
theorem shrinkingset.new_spec (size nthreads : Nat) (hsz : size + 31 < W32)
    (hth : 0 < nthreads) :
    ∃ a, shrinkingset.new size nthreads = some a ∧ a.LiveSet size nthreads ∧
      (∀ n, n < size → a.test n = some true) ∧ a.count = size ∧ a.Counted size := by
  have hlive : ∀ n, n < size →
      (shrinkingset.mk (List.replicate (((size + 31) % W32) / 32) 0)
        ((List.replicate nthreads 0).set 0 size)).test n = some true := by
    intro n hn
    rw [shrinkingset.test_eq]
    have : n / 32 < (size + 31) % W32 / 32 := by
      rw [Nat.mod_eq_of_lt hsz]; omega
    simp [List.getElem?_replicate, this]
  have hcount : (shrinkingset.mk (List.replicate (((size + 31) % W32) / 32) 0)
        ((List.replicate nthreads 0).set 0 size)).count = size := by
    rw [shrinkingset.count_eq]
    have h0 : (List.replicate nthreads 0)[0]? = some 0 := by
      simp [List.getElem?_replicate, hth]
    have := sum_set_add (List.replicate nthreads 0) 0 0 size h0
    simp only [List.sum_replicate, smul_eq_mul, Nat.mul_zero, Nat.add_zero, Nat.zero_add] at this
    simp only
    rw [this, Nat.mod_eq_of_lt]
    rw [W32_eq] at hsz; rw [W64_eq]; omega
  refine ⟨shrinkingset.mk (List.replicate (((size + 31) % W32) / 32) 0)
        ((List.replicate nthreads 0).set 0 size), by simp [shrinkingset.new, hth],
    ⟨by simp, ?_, by simp⟩, hlive, hcount, ?_⟩
  · simp only [List.length_replicate]
    rw [Nat.mod_eq_of_lt hsz]; omega
  · unfold shrinkingset.Counted
    rw [hcount]
    unfold liveCount
    rw [List.filter_eq_self.2, List.length_range]
    intro n hn
    simp [hlive n (List.mem_range.1 hn)]

/-- Away from the wrap of the word count, `count()` tracks the live nonces through any
sequence of `reset` calls on live nonces, whichever thread ids are used. -/
theorem shrinkingset.resetSeq_spec (size nthreads : Nat) (calls : List (Nat × Nat)) :
    ∀ a : shrinkingset, a.LiveSet size nthreads → a.Counted size →
      (∃ a2, shrinkingset.resetSeq size nthreads a calls = some a2) →
      ∃ a2, shrinkingset.resetSeq size nthreads a calls = some a2 ∧
        a2.LiveSet size nthreads ∧ a2.count = liveCount a2 size := by
  induction calls with
  | nil => intro a h1 h2 _; exact ⟨a, rfl, h1, h2⟩
  | cons c rest ih =>
    intro a h1 h2 h3
    obtain ⟨n, t⟩ := c
    obtain ⟨a2, ha2⟩ := h3
    simp only [shrinkingset.resetSeq] at ha2 ⊢
    split at ha2
    · rename_i hpre
      rw [if_pos hpre]
      split at ha2
      · cases ha2
      · rename_i a1 hr
        exact ih a1 (shrinkingset.reset_LiveSet hr h1)
          (shrinkingset.reset_Counted hr hpre.1 hpre.2.2 h2) ⟨a2, ha2⟩
    · cases ha2

/-! ## Counters through trimming, and the trim rounds -/

theorem trimKillBody_counted {P : Params} {side : Nat → Nat} {part id n E : Nat}
    {c : cuckoo_ctx} {r : Step cuckoo_ctx} (hn : n < E) (hlive : c.alive.test n = some true)
    (h : trimKillBody P side part id n c = some r) :
    c.alive.Counted E → r.state.alive.Counted E := by
  unfold trimKillBody at h
  simp only at h
  split at h
  · split at h
    · cases h
    · split at h
      · cases h
      · split at h
        · split at h
          · cases h
          · rename_i a1 ha1
            simp only [Option.some.injEq] at h; subst h
            exact shrinkingset.reset_Counted ha1 hn hlive
        · simp only [Option.some.injEq] at h; subst h; exact fun hc => hc
  · simp only [Option.some.injEq] at h; subst h; exact fun hc => hc

theorem trimHalf_counted {P : Params} {side : Nat → Nat} {part id fuel : Nat}
    {c c1 : cuckoo_ctx} (h : trimHalf P side part id fuel c = some c1) :
    c.alive.Counted c.easiness → c1.alive.Counted c.easiness := by
  have hrefl : ∀ s : cuckoo_ctx, s.alive.Counted c.easiness → s.alive.Counted c.easiness :=
    fun _ h => h
  have htrans : ∀ a b d : cuckoo_ctx,
      (a.alive.Counted c.easiness → b.alive.Counted c.easiness) →
      (b.alive.Counted c.easiness → d.alive.Counted c.easiness) →
      (a.alive.Counted c.easiness → d.alive.Counted c.easiness) :=
    fun _ _ _ h1 h2 h => h2 (h1 h)
  unfold trimHalf at h
  simp only at h
  split at h
  · cases h
  · rename_i c0 hc0
    have h0 : c0.alive = c.alive ∧ c0.easiness = c.easiness := by
      split at hc0
      · split at hc0
        · cases hc0
        · rename_i nl hnl
          cases hr : nl.reset P with
          | none => simp [hr] at hc0
          | some nl1 =>
            simp only [hr, Option.map_some', Option.some.injEq] at hc0
            subst hc0
            exact ⟨rfl, rfl⟩
      · simp only [Option.some.injEq] at hc0; subst hc0; exact ⟨rfl, rfl⟩
    split at h
    · cases h
    · rename_i r1 hr1
      split at h
      · cases h
      · rename_i r2 hr2
        simp only [Option.some.injEq] at h
        subst h
        have h1 : r1.state.alive = c0.alive ∧ r1.state.easiness = c0.easiness :=
          FORALL_LIVE_NONCES_invariant _ _ _ _ _ _
            (fun a b : cuckoo_ctx => b.alive = a.alive ∧ b.easiness = a.easiness)
            (fun _ => ⟨rfl, rfl⟩)
            (fun _ _ _ h1 h2 => ⟨h2.1.trans h1.1, h2.2.trans h1.2⟩)
            (fun n s r _ _ hb => by
              refine ⟨trimSetBody_alive hb, ?_⟩
              unfold trimSetBody at hb
              simp only at hb
              split at hb
              · split at hb
                · cases hb
                · split at hb
                  · cases hb
                  · simp only [Option.some.injEq] at hb; subst hb; rfl
              · simp only [Option.some.injEq] at hb; subst hb; rfl) _ _ hr1
        have h2 := FORALL_LIVE_NONCES_invariant _ _ r1.state.easiness _ _ _
            (fun a b : cuckoo_ctx => a.alive.Counted r1.state.easiness →
              b.alive.Counted r1.state.easiness)
            (fun _ h => h) (fun _ _ _ h1 h2 h => h2 (h1 h))
            (fun n s r hn hl hb => trimKillBody_counted hn hl hb) _ _ hr2
        intro hc
        rw [h1.2, h0.2] at h2
        apply h2
        rw [h1.1, h0.1]
        exact hc

/-- What one call of `trim_edges` does when run by a single thread. -/
theorem trim_edges_spec (P : Params) (h : Nat → Nat) (part fuel : Nat) (ctx : cuckoo_ctx)
    (hctx : ctx.TrimReady P) (hfuel : ctx.easiness / 32 + 2 ≤ fuel) :
    ∃ c1, trim_edges P h 0 part fuel ctx = some c1 ∧ c1.TrimReady P ∧ ctx.SameFrame c1 ∧
      (ctx.alive.Counted ctx.easiness → c1.alive.Counted c1.easiness) := by
  obtain ⟨cm, c1, h1, h2, h3, hr1, hr2, hf1, hf2⟩ := trimHalf_U_then_V P h part fuel ctx hctx hfuel
  refine ⟨c1, h3, hr2, hf1.trans hf2, fun hc => ?_⟩
  have e1 := trimHalf_counted h1 hc
  rw [← hf1.1] at e1
  have e2 := trimHalf_counted h2 e1
  rw [← hf2.1] at e2
  exact e2

theorem trimParts_spec (P : Params) (h : Nat → Nat) (fuel : Nat) (parts : List Nat) :
    ∀ ctx : cuckoo_ctx, ctx.TrimReady P → ctx.easiness / 32 + 2 ≤ fuel →
    ∃ c1, trimParts P h 0 fuel parts ctx = some c1 ∧ c1.TrimReady P ∧ ctx.SameFrame c1 ∧
      (ctx.alive.Counted ctx.easiness → c1.alive.Counted c1.easiness) := by
  induction parts with
  | nil => intro ctx hctx _; exact ⟨ctx, rfl, hctx, cuckoo_ctx.SameFrame.refl ctx, fun h => h⟩
  | cons p rest ih =>
    intro ctx hctx hfuel
    obtain ⟨c1, h1, hr1, hf1, hc1⟩ := trim_edges_spec P h p fuel ctx hctx hfuel
    obtain ⟨c2, h2, hr2, hf2, hc2⟩ := ih c1 hr1 (by rw [hf1.1]; exact hfuel)
    refine ⟨c2, ?_, hr2, hf1.trans hf2, fun hc => hc2 (hc1 hc)⟩
    simp only [trimParts, h1]
    exact h2

/-- The trim rounds of `worker` run by a single thread: they return, and the local
`load` keeps its entry value when there is no round and is `loadOf` of the final live
set otherwise. -/
theorem trimRounds_spec (P : Params) (h : Nat → Nat) (fuel : Nat) (rounds : Nat) :
    ∀ (ctx : cuckoo_ctx) (load0 : Int), ctx.TrimReady P → ctx.easiness / 32 + 2 ≤ fuel →
    ∃ c1, trimRounds P h 0 fuel rounds ctx load0 =
        some (c1, if rounds = 0 then load0 else loadOf P c1.alive) ∧
      c1.TrimReady P ∧ ctx.SameFrame c1 ∧
      (ctx.alive.Counted ctx.easiness → c1.alive.Counted c1.easiness) := by
  induction rounds with
  | zero =>
    intro ctx load0 hctx _
    exact ⟨ctx, rfl, hctx, cuckoo_ctx.SameFrame.refl ctx, fun h => h⟩
  | succ k ih =>
    intro ctx load0 hctx hfuel
    obtain ⟨c1, h1, hr1, hf1, hc1⟩ :=
      trimParts_spec P h fuel (List.range (P.PART_MASK + 1)) ctx hctx hfuel
    obtain ⟨c2, h2, hr2, hf2, hc2⟩ := ih c1 (loadOf P c1.alive) hr1 (by rw [hf1.1]; exact hfuel)
    refine ⟨c2, ?_, hr2, hf1.trans hf2, fun hc => hc2 (hc1 hc)⟩
    simp only [trimRounds, h1, if_true]
    rw [h2]
    cases k with
    | zero =>
      simp only [trimRounds, Option.some.injEq, Prod.mk.injEq] at h2
      simp [h2.1]
    | succ k => simp

/-! ## The overload decision -/

theorem toInt32_of_lt {x : Nat} (hx : x < 2 ^ 31) : toInt32 x = (x : Int) := by
  unfold toInt32
  have h1 : x % W32 = x := Nat.mod_eq_of_lt (by rw [W32_eq]; omega)
  rw [h1, if_pos hx]

theorem loadOf_eq_floor (P : Params) (a : shrinkingset) (size : Nat) (hsize : size < W32)
    (hc : a.Counted size) (hq : 100 * a.count / P.CUCKOO_SIZE < 2 ^ 31) :
    loadOf P a = ((100 * a.count / P.CUCKOO_SIZE : Nat) : Int) := by
  unfold loadOf
  have h1 : a.count ≤ size := by rw [hc]; exact liveCount_le a size
  have h2 : (100 * a.count) % W64 = 100 * a.count := by
    apply Nat.mod_eq_of_lt
    rw [W32_eq] at hsize; rw [W64_eq]; omega
  rw [h2, toInt32_of_lt hq]

theorem cyclePhase_not_overloaded (P : Params) (h : Nat → Nat) (id fuel : Nat)
    (w : WorkerState) (c : cuckoo_ctx) :
    cyclePhase P h id fuel w ≠ some (Outcome.overloaded, c) := by
  unfold cyclePhase
  split
  · simp
  · simp
  · simp

/-- C4, as amended: run by the single thread 0 on a context with a counted live set, the
trim rounds return with the frame untouched (no map allocated, no solution written).
With `ntrims = 0` the local `load` keeps the value 100 and the worker ends as overloaded
whatever the live count is.  With `ntrims >= 1` and a quotient
`floor(100 * alive_count / CUCKOO_SIZE)` below `2^31`, where `alive_count` is
`alive->count()` after the last round, the worker ends as overloaded iff that quotient is
at least 90; otherwise it deletes `nonleaf`, allocates the map and runs the cycle
finder. -/
theorem overload_decision (P : Params) (h : Nat → Nat) (fuel : Nat) (ctx : cuckoo_ctx)
    (us vs : Nat → Nat) (hctx : ctx.TrimReady P) (hcnt : ctx.alive.Counted ctx.easiness)
    (hfuel : ctx.easiness / 32 + 2 ≤ fuel) :
    ∃ c1 load, trimRounds P h 0 fuel ctx.ntrims ctx 100 = some (c1, load) ∧
      ctx.SameFrame c1 ∧
      (ctx.ntrims = 0 → worker P h 0 fuel ctx us vs = some (Outcome.overloaded, c1)) ∧
      (0 < ctx.ntrims → 100 * c1.alive.count / P.CUCKOO_SIZE < 2 ^ 31 →
        ((∃ c, worker P h 0 fuel ctx us vs = some (Outcome.overloaded, c)) ↔
            100 * c1.alive.count / P.CUCKOO_SIZE ≥ 90) ∧
        (100 * c1.alive.count / P.CUCKOO_SIZE ≥ 90 →
          worker P h 0 fuel ctx us vs = some (Outcome.overloaded, c1)) ∧
        (100 * c1.alive.count / P.CUCKOO_SIZE < 90 →
          worker P h 0 fuel ctx us vs =
            cyclePhase P h 0 fuel
              { ctx := { c1 with nonleaf := none, cuckoo := some (cuckoo_hash.new P) },
                us := us, vs := vs })) := by
  obtain ⟨c1, h1, hr1, hf1, hc1⟩ := trimRounds_spec P h fuel ctx.ntrims ctx 100 hctx hfuel
  refine ⟨c1, _, h1, hf1, ?_, ?_⟩
  · intro h0
    unfold worker
    rw [h1]
    simp [h0]
  · intro hpos hq
    have hne : ctx.ntrims ≠ 0 := by omega
    have hsz : c1.easiness < W32 := by
      have := hr1.2.1.no_wrap; omega
    have hload : loadOf P c1.alive = ((100 * c1.alive.count / P.CUCKOO_SIZE : Nat) : Int) :=
      loadOf_eq_floor P c1.alive c1.easiness hsz (hc1 hcnt) hq
    have hge : loadOf P c1.alive ≥ 90 ↔ 100 * c1.alive.count / P.CUCKOO_SIZE ≥ 90 := by
      rw [hload]
      exact Int.ofNat_le
    have hw : worker P h 0 fuel ctx us vs =
        if 100 * c1.alive.count / P.CUCKOO_SIZE ≥ 90 then some (Outcome.overloaded, c1)
        else cyclePhase P h 0 fuel
          { ctx := { c1 with nonleaf := none, cuckoo := some (cuckoo_hash.new P) },
            us := us, vs := vs } := by
      unfold worker
      rw [h1]
      simp only [if_neg hne, true_and, if_true]
      by_cases hg : 100 * c1.alive.count / P.CUCKOO_SIZE ≥ 90
      · rw [if_pos (hge.2 hg), if_pos hg]
      · rw [if_neg (fun hl => hg (hge.1 hl)), if_neg hg]
    refine ⟨?_, ?_, ?_⟩
    · constructor
      · rintro ⟨c, hc⟩
        by_contra hlt
        rw [hw, if_neg hlt] at hc
        exact cyclePhase_not_overloaded _ _ _ _ _ _ hc
      · intro hg
        exact ⟨c1, by rw [hw, if_pos hg]⟩
    · intro hg; rw [hw, if_pos hg]
    · intro hlt; rw [hw, if_neg (by omega)]

theorem exCtx_Counted : exCtx.alive.Counted exCtx.easiness := by
  unfold shrinkingset.Counted; decide

theorem overload_decision_witness :
    (exCtx.TrimReady exParams ∧ exCtx.alive.Counted exCtx.easiness ∧
      exCtx.easiness / 32 + 2 ≤ 2) ∧
    (0 < exCtx.ntrims ∧
      (trimRounds exParams exHash 0 2 exCtx.ntrims exCtx 100).map
          (fun p => (p.1.alive.count, p.2)) = some (5, 55) ∧
      100 * 5 / exParams.CUCKOO_SIZE = 55) ∧
    ∃ c1 load, trimRounds exParams exHash 0 2 exCtx.ntrims exCtx 100 = some (c1, load) ∧
      exCtx.SameFrame c1 ∧
      (exCtx.ntrims = 0 → worker exParams exHash 0 2 exCtx (fun _ => 0) (fun _ => 0) =
        some (Outcome.overloaded, c1)) ∧
      (0 < exCtx.ntrims → 100 * c1.alive.count / exParams.CUCKOO_SIZE < 2 ^ 31 →
        ((∃ c, worker exParams exHash 0 2 exCtx (fun _ => 0) (fun _ => 0) =
            some (Outcome.overloaded, c)) ↔
            100 * c1.alive.count / exParams.CUCKOO_SIZE ≥ 90) ∧
        (100 * c1.alive.count / exParams.CUCKOO_SIZE ≥ 90 →
          worker exParams exHash 0 2 exCtx (fun _ => 0) (fun _ => 0) =
            some (Outcome.overloaded, c1)) ∧
        (100 * c1.alive.count / exParams.CUCKOO_SIZE < 90 →
          worker exParams exHash 0 2 exCtx (fun _ => 0) (fun _ => 0) =
            cyclePhase exParams exHash 0 2
              { ctx := { c1 with nonleaf := none, cuckoo := some (cuckoo_hash.new exParams) },
                us := fun _ => 0, vs := fun _ => 0 })) :=
  ⟨⟨exCtx_TrimReady, exCtx_Counted, by decide⟩, ⟨by decide, by decide, by decide⟩,
    overload_decision exParams exHash 2 exCtx (fun _ => 0) (fun _ => 0) exCtx_TrimReady
      exCtx_Counted (by decide)⟩

/-- With `ntrims = 0` and six live nonces the quotient `100 * 6 / 9` is 66, below 90, and
the worker still ends as overloaded. -/
theorem overload_without_trims :
    worker exParams exHash 0 2 { exCtx with ntrims := 0 } (fun _ => 0) (fun _ => 0) =
        some (Outcome.overloaded, { exCtx with ntrims := 0 }) ∧
      100 * ({ exCtx with ntrims := 0 } : cuckoo_ctx).alive.count / exParams.CUCKOO_SIZE = 66 ∧
      ¬ (100 * ({ exCtx with ntrims := 0 } : cuckoo_ctx).alive.count / exParams.CUCKOO_SIZE
          ≥ 90) := by
  decide

/-! ## Trim soundness -/

/-- After one half, every surviving nonce of the part shares its endpoint with another
surviving nonce. -/
theorem trimHalf_survivors_shared (P : Params) (side : Nat → Nat)
    (hside : ∀ n, side n < P.HALFSIZE) (part fuel : Nat) (ctx : cuckoo_ctx)
    (hctx : ctx.TrimReady P) (hfuel : ctx.easiness / 32 + 2 ≤ fuel) :
    ∃ ctx1, trimHalf P side part 0 fuel ctx = some ctx1 ∧ ctx1.TrimReady P ∧
      ctx.SameFrame ctx1 ∧ (∀ m, ctx1.alive.live m → ctx.alive.live m) ∧
      ∀ n, n < ctx.easiness → ctx1.alive.live n → side n % 2 ^ P.PART_BITS = part →
        sharedEndpoint side ctx1.alive ctx.easiness n := by
  obtain ⟨ctx1, h1, hr, hf, -, -, hsub, hiff⟩ := trimHalf_spec P side hside part fuel ctx hctx hfuel
  refine ⟨ctx1, h1, hr, hf, hsub, ?_⟩
  intro n hn hl hp
  obtain ⟨hl0, hor⟩ := (hiff n hn).1 hl
  rcases hor with hne | ⟨m, hm, hmn, hml, hms⟩
  · exact absurd hp hne
  · refine ⟨m, hm, hmn, ?_, hms⟩
    exact (hiff m hm).2 ⟨hml, Or.inr ⟨n, hn, fun h => hmn h.symm, hl0, hms.symm⟩⟩

theorem range_PART_MASK_zero (P : Params) (hp : P.PART_BITS = 0) :
    List.range (P.PART_MASK + 1) = [0] := by
  rw [PART_MASK_eq, hp]; rfl

/-- The last trim round without partitioning: its V half runs on the context `cm` left
by its U half; the survivors share their V endpoint among themselves and shared their U
endpoint among the nonces live in `cm`. -/
theorem trimRounds_last (P : Params) (h : Nat → Nat) (hp : P.PART_BITS = 0) (fuel : Nat)
    (k : Nat) : ∀ (ctx : cuckoo_ctx) (load0 : Int), ctx.TrimReady P →
      ctx.easiness / 32 + 2 ≤ fuel →
      ∃ cm c1 load, trimRounds P h 0 fuel (k + 1) ctx load0 = some (c1, load) ∧
        trimHalf P (sipedge_v P h) 0 0 fuel cm = some c1 ∧
        (∀ n, n < ctx.easiness → c1.alive.live n →
          sharedEndpoint (sipedge_v P h) c1.alive ctx.easiness n ∧
          sharedEndpoint (sipedge_u P h) cm.alive ctx.easiness n) := by
  induction k with
  | zero =>
    intro ctx load0 hctx hfuel
    obtain ⟨cm, h1, hr1, hf1, -, hsh1⟩ := trimHalf_survivors_shared P (sipedge_u P h)
      (sipedge_u_lt P h) 0 fuel ctx hctx hfuel
    obtain ⟨c1, h2, hr2, hf2, hsub2, hsh2⟩ := trimHalf_survivors_shared P (sipedge_v P h)
      (sipedge_v_lt P h) 0 fuel cm hr1 (by rw [hf1.1]; exact hfuel)
    refine ⟨cm, c1, loadOf P c1.alive, ?_, h2, ?_⟩
    · simp only [trimRounds, range_PART_MASK_zero P hp, trimParts, trim_edges, h1,
        Option.some_bind, h2, if_true]
    · intro n hn hl
      have hmod : ∀ x : Nat, x % 2 ^ P.PART_BITS = 0 := by
        intro x; rw [hp]; simp [Nat.mod_one]
      constructor
      · have := hsh2 n (by rw [hf1.1]; exact hn) hl (hmod _)
        rw [hf1.1] at this
        exact this
      · exact hsh1 n hn (hsub2 n hl) (hmod _)
  | succ k ih =>
    intro ctx load0 hctx hfuel
    obtain ⟨c0, h0, hr0, hf0, -⟩ :=
      trimParts_spec P h fuel (List.range (P.PART_MASK + 1)) ctx hctx hfuel
    obtain ⟨cm, c1, load, h1, h2, h3⟩ := ih c0 (loadOf P c0.alive) hr0
      (by rw [hf0.1]; exact hfuel)
    refine ⟨cm, c1, load, ?_, h2, ?_⟩
    · rw [trimRounds]
      simp only [h0, if_true]
      exact h1
    · intro n hn hl
      have := h3 n (by rw [hf0.1]; exact hn) hl
      rw [hf0.1] at this
      exact this

/-- C9, as amended: without partitioning (`PART_BITS = 0`), run by a single thread, the
`ntrims >= 1` rounds return, and every nonce that is still live has a V endpoint shared
with another nonce that is still live, and a U endpoint shared with another nonce that
was live when the V half of the last round started (that nonce may have been killed by
the V half). -/
theorem trim_soundness (P : Params) (h : Nat → Nat) (hp : P.PART_BITS = 0) (fuel : Nat)
    (ctx : cuckoo_ctx) (hctx : ctx.TrimReady P) (hfuel : ctx.easiness / 32 + 2 ≤ fuel)
    (hntrims : 1 ≤ ctx.ntrims) :
    ∃ cm c1 load, trimRounds P h 0 fuel ctx.ntrims ctx 100 = some (c1, load) ∧
      trimHalf P (sipedge_v P h) 0 0 fuel cm = some c1 ∧
      ∀ n, n < ctx.easiness → c1.alive.test n = some true →
        (∃ m, m < ctx.easiness ∧ m ≠ n ∧ c1.alive.test m = some true ∧
          sipedge_v P h m = sipedge_v P h n) ∧
        (∃ m, m < ctx.easiness ∧ m ≠ n ∧ cm.alive.test m = some true ∧
          sipedge_u P h m = sipedge_u P h n) := by
  obtain ⟨k, hk⟩ : ∃ k, ctx.ntrims = k + 1 := ⟨ctx.ntrims - 1, by omega⟩
  rw [hk]
  exact trimRounds_last P h hp fuel k ctx 100 hctx hfuel

theorem exCtxB_TrimReady : exCtxB.TrimReady exParams :=
  ⟨rfl, ⟨by decide, by decide, rfl⟩, _, rfl, by decide⟩

theorem trim_soundness_witness :
    exParams.PART_BITS = 0 ∧ exCtxB.TrimReady exParams ∧ exCtxB.easiness / 32 + 2 ≤ 2 ∧
    1 ≤ exCtxB.ntrims ∧
    ∃ cm c1 load, trimRounds exParams exHashB 0 2 exCtxB.ntrims exCtxB 100 = some (c1, load) ∧
      trimHalf exParams (sipedge_v exParams exHashB) 0 0 2 cm = some c1 ∧
      ∀ n, n < exCtxB.easiness → c1.alive.test n = some true →
        (∃ m, m < exCtxB.easiness ∧ m ≠ n ∧ c1.alive.test m = some true ∧
          sipedge_v exParams exHashB m = sipedge_v exParams exHashB n) ∧
        (∃ m, m < exCtxB.easiness ∧ m ≠ n ∧ cm.alive.test m = some true ∧
          sipedge_u exParams exHashB m = sipedge_u exParams exHashB n) :=
  ⟨rfl, exCtxB_TrimReady, by decide, by decide,
    trim_soundness exParams exHashB rfl 2 exCtxB exCtxB_TrimReady (by decide) (by decide)⟩

/-- After the one trim round of the second instance nonces 0, 2, 3 are live and nonce 1
is killed; nonce 0 is live and no other live nonce has its U endpoint. -/
theorem trim_leaves_u_leaf :
    trimRounds exParams exHashB 0 2 1 exCtxB 100 =
        some ({ exCtxB with alive := { bits := [2], cnt := [3] },
                            nonleaf := some { bits := [7] ++ List.replicate 15 0 } }, 33) ∧
      (shrinkingset.mk [2] [3]).test 0 = some true ∧
      ¬ ∃ m, m < 4 ∧ m ≠ 0 ∧ (shrinkingset.mk [2] [3]).test m = some true ∧
          sipedge_u exParams exHashB m = sipedge_u exParams exHashB 0 := by
  decide

/-- C7: for `size = 2^32 - 1` and one thread the word count `(size+31)/32`, computed in
`nonce_t`, is 0: the constructor allocates no word at all while `count()` is `size`, so
`test(0)` indexes `bits` outside the vector. -/
theorem shrinkingset_no_words_at_max_size :
    shrinkingset.new 4294967295 1 = some (shrinkingset.mk [] [4294967295]) ∧
      (shrinkingset.mk [] [4294967295]).test 0 = none ∧
      (shrinkingset.mk [] [4294967295]).count = 4294967295 := by
  decide

/-! ## Words of the cuckoo table -/

theorem KEYMASK_eq (P : Params) : P.KEYMASK = 2 ^ P.KEYSHIFT - 1 := by
  unfold Params.KEYMASK; rw [Nat.one_shiftLeft]

theorem xor_mod_two_pow_eq (a b k : Nat) : (a ^^^ b) % 2 ^ k = (a % 2 ^ k) ^^^ (b % 2 ^ k) := by
  apply Nat.eq_of_testBit_eq
  intro i
  simp only [Nat.testBit_mod_two_pow, Nat.testBit_xor]
  by_cases h : i < k <;> simp [h]

theorem key_match_iff (P : Params) (u w : Nat) :
    (u ^^^ w) &&& P.KEYMASK = 0 ↔ w % 2 ^ P.KEYSHIFT = u % 2 ^ P.KEYSHIFT := by
  rw [KEYMASK_eq, Nat.and_pow_two_sub_one_eq_mod, xor_mod_two_pow_eq, Nat.xor_eq_zero]
  exact eq_comm

theorem Params.Valid.keyshift_le {P : Params} (h : P.Valid) : P.KEYSHIFT ≤ 30 := by
  unfold Params.KEYSHIFT Params.IDXSHIFT CLUMPSHIFT
  have := h.1
  omega

theorem niew_eq (P : Params) (hP : P.Valid) (u v : Nat) (hv : v < W32) :
    niew P u v = 2 ^ P.KEYSHIFT * v + u % 2 ^ P.KEYSHIFT := by
  unfold niew
  have hk := hP.keyshift_le
  have hlt : v * 2 ^ P.KEYSHIFT < W64 := by
    have h1 : 2 ^ P.KEYSHIFT ≤ 2 ^ 30 := Nat.pow_le_pow_right (by decide) hk
    calc v * 2 ^ P.KEYSHIFT ≤ v * 2 ^ 30 := Nat.mul_le_mul_left _ h1
      _ < W32 * 2 ^ 30 := Nat.mul_lt_mul_of_pos_right hv (by decide)
      _ ≤ W64 := by decide
  rw [Nat.shiftLeft_eq, Nat.mod_eq_of_lt hlt, KEYMASK_eq, Nat.and_pow_two_sub_one_eq_mod,
    Nat.mul_comm v, ← Nat.mul_add_lt_is_or (Nat.mod_lt _ (Nat.pow_pos (by decide)))]

theorem niew_key (P : Params) (hP : P.Valid) (u v : Nat) (hv : v < W32) :
    niew P u v % 2 ^ P.KEYSHIFT = u % 2 ^ P.KEYSHIFT := by
  rw [niew_eq P hP u v hv, Nat.mul_add_mod, Nat.mod_mod]

theorem niew_val (P : Params) (hP : P.Valid) (u v : Nat) (hv : v < W32) :
    (niew P u v >>> P.KEYSHIFT) % W32 = v := by
  rw [niew_eq P hP u v hv, Nat.shiftRight_eq_div_pow,
    Nat.mul_add_div (Nat.pow_pos (by decide)),
    Nat.div_eq_of_lt (Nat.mod_lt _ (Nat.pow_pos (by decide))), Nat.add_zero,
    Nat.mod_eq_of_lt hv]

theorem niew_ne_zero (P : Params) (hP : P.Valid) (u v : Nat) (hv : v < W32) (hv0 : v ≠ 0) :
    niew P u v ≠ 0 := by
  rw [niew_eq P hP u v hv]
  have : 0 < 2 ^ P.KEYSHIFT * v := Nat.mul_pos (Nat.pow_pos (by decide)) (by omega)
  omega

theorem CUCKOO_SIZE_eq (P : Params) : P.CUCKOO_SIZE = P.SIZE / 2 ^ P.IDXSHIFT + 1 := by
  unfold Params.CUCKOO_SIZE
  rw [Nat.one_shiftLeft, Nat.shiftRight_eq_div_pow]
  have hpos : 0 < 2 ^ P.IDXSHIFT := Nat.pow_pos (by decide)
  have e : 1 + P.SIZE + 2 ^ P.IDXSHIFT - 1 = P.SIZE + 2 ^ P.IDXSHIFT := by omega
  rw [e, Nat.add_div_right _ hpos]

theorem CUCKOO_SIZE_pos (P : Params) : 0 < P.CUCKOO_SIZE := by
  rw [CUCKOO_SIZE_eq]; exact Nat.succ_pos _

theorem Params.Valid.size_le {P : Params} (h : P.Valid) : P.SIZE ≤ W32 := by
  unfold Params.SIZE Params.HALFSIZE
  have h1 : 2 ^ P.EDGEBITS ≤ 2 ^ 31 := Nat.pow_le_pow_right (by decide) h.2
  rw [W32_eq]
  have : (2 : Nat) ^ 31 = 2147483648 := by decide
  omega

theorem Params.Valid.cuckoo_size_lt {P : Params} (h : P.Valid) : P.CUCKOO_SIZE < W32 := by
  rw [CUCKOO_SIZE_eq]
  have h1 := h.size_le
  have h2 : P.SIZE / 2 ^ P.IDXSHIFT ≤ P.SIZE / 2 ^ 6 := by
    apply Nat.div_le_div_left
    · exact Nat.pow_le_pow_right (by decide) (by unfold Params.IDXSHIFT; omega)
    · decide
  rw [W32_eq] at h1 ⊢
  omega

theorem nextSlot_eq (P : Params) (hP : P.Valid) (home j : Nat) :
    nextSlot P ((home + j) % P.CUCKOO_SIZE) = (home + (j + 1)) % P.CUCKOO_SIZE := by
  have hpos := CUCKOO_SIZE_pos P
  have hlt := hP.cuckoo_size_lt
  have e2 : (home + (j + 1)) % P.CUCKOO_SIZE =
      ((home + j) % P.CUCKOO_SIZE + 1) % P.CUCKOO_SIZE := by
    have e3 : home + (j + 1) = (home + j) + 1 := by omega
    rw [e3, Nat.add_mod (home + j) 1, Nat.add_mod ((home + j) % P.CUCKOO_SIZE) 1, Nat.mod_mod]
  rw [e2]
  have hm : (home + j) % P.CUCKOO_SIZE < P.CUCKOO_SIZE := Nat.mod_lt _ hpos
  generalize (home + j) % P.CUCKOO_SIZE = x at hm ⊢
  unfold nextSlot
  have e1 : (x + 1) % W32 = x + 1 := Nat.mod_eq_of_lt (by omega)
  rw [e1]
  by_cases h : x + 1 = P.CUCKOO_SIZE
  · rw [if_pos h, h, Nat.mod_self]
  · rw [if_neg h, Nat.mod_eq_of_lt (by omega)]

/-! ## The probe loop -/

theorem getLoop_eq_probe (P : Params) (c : cuckoo_hash) (u : Nat) :
    ∀ fuel ui, cuckoo_hash.getLoop P c u fuel ui =
      (probeLoop P c u fuel ui).bind fun i =>
        (c.cuckoo[i]?).map fun w => if w = 0 then 0 else (w >>> P.KEYSHIFT) % W32 := by
  intro fuel
  induction fuel with
  | zero => intro ui; rfl
  | succ fuel ih =>
    intro ui
    unfold cuckoo_hash.getLoop probeLoop
    cases hw : c.cuckoo[ui]? with
    | none => rfl
    | some w =>
      simp only
      by_cases h0 : w = 0
      · simp [h0, hw]
      · by_cases hm : (u ^^^ w) &&& P.KEYMASK = 0
        · simp [h0, hm, hw]
        · simp only [h0, hm, if_false, or_self]
          exact ih _

theorem setLoop_eq_probe (P : Params) (c : cuckoo_hash) (u v : Nat) :
    ∀ fuel ui, cuckoo_hash.setLoop P u v fuel ui c =
      (probeLoop P c u fuel ui).map fun i => { cuckoo := c.cuckoo.set i (niew P u v) } := by
  intro fuel
  induction fuel with
  | zero => intro ui; rfl
  | succ fuel ih =>
    intro ui
    unfold cuckoo_hash.setLoop probeLoop
    cases hw : c.cuckoo[ui]? with
    | none => rfl
    | some w =>
      simp only
      by_cases h0 : w = 0
      · simp [h0]
      · by_cases hm : (u ^^^ w) &&& P.KEYMASK = 0
        · simp [h0, hm]
        · simp only [h0, hm, if_false, or_self]
          exact ih _

theorem probe_sound (P : Params) (hP : P.Valid) (c : cuckoo_hash) (u home : Nat) :
    ∀ fuel j0 i, probeLoop P c u fuel ((home + j0) % P.CUCKOO_SIZE) = some i →
      ∃ j, j0 ≤ j ∧ j < j0 + fuel ∧ i = (home + j) % P.CUCKOO_SIZE ∧
        (∃ w, c.cuckoo[i]? = some w ∧ (w = 0 ∨ w % 2 ^ P.KEYSHIFT = u % 2 ^ P.KEYSHIFT)) ∧
        ∀ j1, j0 ≤ j1 → j1 < j →
          ∃ w, c.cuckoo[(home + j1) % P.CUCKOO_SIZE]? = some w ∧ w ≠ 0 ∧
            w % 2 ^ P.KEYSHIFT ≠ u % 2 ^ P.KEYSHIFT := by
  intro fuel
  induction fuel with
  | zero => intro j0 i h; simp [probeLoop] at h
  | succ fuel ih =>
    intro j0 i h
    unfold probeLoop at h
    cases hw : c.cuckoo[(home + j0) % P.CUCKOO_SIZE]? with
    | none => simp [hw] at h
    | some w =>
      simp only [hw] at h
      by_cases hs : w = 0 ∨ (u ^^^ w) &&& P.KEYMASK = 0
      · rw [if_pos hs] at h
        simp only [Option.some.injEq] at h
        subst h
        refine ⟨j0, le_refl _, by omega, rfl, ⟨w, hw, ?_⟩, fun j1 h1 h2 => by omega⟩
        rcases hs with h0 | hm
        · exact Or.inl h0
        · exact Or.inr ((key_match_iff P u w).1 hm)
      · rw [if_neg hs, nextSlot_eq P hP] at h
        obtain ⟨j, hj0, hjf, hi, hstop, hbefore⟩ := ih (j0 + 1) i h
        refine ⟨j, by omega, by omega, hi, hstop, fun j1 h1 h2 => ?_⟩
        by_cases hj1 : j1 = j0
        · subst hj1
          refine ⟨w, hw, fun h0 => hs (Or.inl h0), fun hk => hs (Or.inr ?_)⟩
          exact (key_match_iff P u w).2 hk
        · exact hbefore j1 (by omega) h2

theorem probe_complete (P : Params) (hP : P.Valid) (c : cuckoo_hash) (u home : Nat) :
    ∀ fuel j0 j, j0 ≤ j → j - j0 < fuel →
      (∃ w, c.cuckoo[(home + j) % P.CUCKOO_SIZE]? = some w ∧
        (w = 0 ∨ w % 2 ^ P.KEYSHIFT = u % 2 ^ P.KEYSHIFT)) →
      (∀ j1, j0 ≤ j1 → j1 < j →
          ∃ w, c.cuckoo[(home + j1) % P.CUCKOO_SIZE]? = some w ∧ w ≠ 0 ∧
            w % 2 ^ P.KEYSHIFT ≠ u % 2 ^ P.KEYSHIFT) →
      probeLoop P c u fuel ((home + j0) % P.CUCKOO_SIZE) = some ((home + j) % P.CUCKOO_SIZE) := by
  intro fuel
  induction fuel with
  | zero => intro j0 j _ h; omega
  | succ fuel ih =>
    intro j0 j hle hf hstop hbefore
    unfold probeLoop
    by_cases hj : j0 = j
    · subst hj
      obtain ⟨w, hw, hs⟩ := hstop
      simp only [hw]
      rw [if_pos]
      rcases hs with h0 | hk
      · exact Or.inl h0
      · exact Or.inr ((key_match_iff P u w).2 hk)
    · obtain ⟨w, hw, h0, hk⟩ := hbefore j0 (le_refl _) (by omega)
      simp only [hw]
      rw [if_neg, nextSlot_eq P hP]
      · exact ih (j0 + 1) j (by omega) (by omega) hstop
          (fun j1 h1 h2 => hbefore j1 (by omega) h2)
      · rintro (h | h)
        · exact h0 h
        · exact hk ((key_match_iff P u w).1 h)

/-! ## Reading the table -/

theorem ProbeStop.unique {P : Params} {c : cuckoo_hash} {u i i1 : Nat}
    (h : ProbeStop P c u i) (h1 : ProbeStop P c u i1) : i = i1 := by
  obtain ⟨j, hi, ⟨w, hw, hs⟩, hb⟩ := h
  obtain ⟨j1, hi1, ⟨w1, hw1, hs1⟩, hb1⟩ := h1
  rcases Nat.lt_trichotomy j j1 with hlt | heq | hgt
  · obtain ⟨w2, hw2, h0, hk⟩ := hb1 j hlt
    rw [← hi, hw] at hw2
    cases hw2
    rcases hs with h | h
    · exact absurd h h0
    · exact absurd h hk
  · rw [hi, hi1, heq]
  · obtain ⟨w2, hw2, h0, hk⟩ := hb j1 hgt
    rw [← hi1, hw1] at hw2
    cases hw2
    rcases hs1 with h | h
    · exact absurd h h0
    · exact absurd h hk

theorem TableInv.stored_stop {P : Params} {S : Nat → Prop} {c : cuckoo_hash}
    (hc : TableInv P S c) {u i w : Nat} (hu : S u) (hw : c.cuckoo[i]? = some w) (h0 : w ≠ 0)
    (hk : w % 2 ^ P.KEYSHIFT = u % 2 ^ P.KEYSHIFT) : ProbeStop P c u i := by
  obtain ⟨j, hi, hb⟩ := hc.first u hu i w hw h0 hk
  exact ⟨j, hi, ⟨w, hw, Or.inr hk⟩, hb⟩

theorem probeLoop_stop {P : Params} (hP : P.Valid) {c : cuckoo_hash} {u fuel i : Nat}
    (h : probeLoop P c u fuel (u >>> P.IDXSHIFT) = some i)
    (hhome : u >>> P.IDXSHIFT < P.CUCKOO_SIZE) : ProbeStop P c u i := by
  have e : u >>> P.IDXSHIFT = (u >>> P.IDXSHIFT + 0) % P.CUCKOO_SIZE := by
    rw [Nat.add_zero, Nat.mod_eq_of_lt hhome]
  rw [e] at h
  obtain ⟨j, -, -, hi, hs, hb⟩ := probe_sound P hP c u _ fuel 0 i h
  exact ⟨j, hi, hs, fun j1 h1 => hb j1 (Nat.zero_le _) h1⟩

theorem ProbeStop.probeLoop {P : Params} (hP : P.Valid) {c : cuckoo_hash} {u i : Nat}
    (h : ProbeStop P c u i) (hhome : u >>> P.IDXSHIFT < P.CUCKOO_SIZE)
    (hlen : c.cuckoo.length = P.CUCKOO_SIZE) {fuel : Nat} (hf : P.CUCKOO_SIZE ≤ fuel) :
    probeLoop P c u fuel (u >>> P.IDXSHIFT) = some i := by
  obtain ⟨j, hi, hs, hb⟩ := h
  have hpos := CUCKOO_SIZE_pos P
  -- the stop index can be taken below CUCKOO_SIZE
  have hj : j < P.CUCKOO_SIZE := by
    by_contra hge
    have hge : P.CUCKOO_SIZE ≤ j := by omega
    obtain ⟨w2, hw2, h0, hk⟩ := hb (j - P.CUCKOO_SIZE) (by omega)
    have e : (u >>> P.IDXSHIFT + (j - P.CUCKOO_SIZE)) % P.CUCKOO_SIZE = i := by
      rw [hi]
      have : u >>> P.IDXSHIFT + j = u >>> P.IDXSHIFT + (j - P.CUCKOO_SIZE) + P.CUCKOO_SIZE := by
        omega
      rw [this, Nat.add_mod_right]
    rw [e] at hw2
    obtain ⟨w, hw, hs1⟩ := hs
    rw [hw] at hw2
    cases hw2
    rcases hs1 with h | h
    · exact h0 h
    · exact hk h
  have e : u >>> P.IDXSHIFT = (u >>> P.IDXSHIFT + 0) % P.CUCKOO_SIZE := by
    rw [Nat.add_zero, Nat.mod_eq_of_lt hhome]
  have := probe_complete P hP c u (u >>> P.IDXSHIFT) fuel 0 j (Nat.zero_le _) (by omega)
    (by rw [← hi]; exact hs) (fun j1 _ h1 => hb j1 h1)
  rw [← e, ← hi] at this
  exact this

theorem lookup_stored {P : Params} {S : Nat → Prop} {c : cuckoo_hash}
    (hc : TableInv P S c) {u i w : Nat} (hu : S u) (hw : c.cuckoo[i]? = some w) (h0 : w ≠ 0)
    (hk : w % 2 ^ P.KEYSHIFT = u % 2 ^ P.KEYSHIFT) :
    lookup P c u = (w >>> P.KEYSHIFT) % W32 := by
  unfold lookup
  cases hf : c.cuckoo.find? (fun w => decide (w ≠ 0) && decide (w % 2 ^ P.KEYSHIFT = u % 2 ^ P.KEYSHIFT)) with
  | none =>
    rw [List.find?_eq_none] at hf
    have hmem : w ∈ c.cuckoo := List.getElem?_mem hw
    have := hf w hmem
    simp [h0, hk] at this
  | some w1 =>
    have hp := List.find?_some hf
    have hmem := List.mem_of_find?_eq_some hf
    simp only [Bool.and_eq_true, decide_eq_true_eq] at hp
    obtain ⟨i1, hi1, hget⟩ := List.getElem_of_mem hmem
    have hw1 : c.cuckoo[i1]? = some w1 := by rw [List.getElem?_eq_getElem hi1, hget]
    have := (hc.stored_stop hu hw h0 hk).unique (hc.stored_stop hu hw1 hp.1 hp.2)
    subst this
    rw [hw] at hw1
    cases hw1
    rfl

theorem lookup_absent {P : Params} {c : cuckoo_hash} {u : Nat}
    (h : ∀ (i w : Nat), c.cuckoo[i]? = some w → w ≠ 0 →
      w % 2 ^ P.KEYSHIFT ≠ u % 2 ^ P.KEYSHIFT) :
    lookup P c u = 0 := by
  unfold lookup
  cases hf : c.cuckoo.find? (fun w => decide (w ≠ 0) && decide (w % 2 ^ P.KEYSHIFT = u % 2 ^ P.KEYSHIFT)) with
  | none => rfl
  | some w1 =>
    have hp := List.find?_some hf
    have hmem := List.mem_of_find?_eq_some hf
    simp only [Bool.and_eq_true, decide_eq_true_eq] at hp
    obtain ⟨i1, hi1, hget⟩ := List.getElem_of_mem hmem
    have hw1 : c.cuckoo[i1]? = some w1 := by rw [List.getElem?_eq_getElem hi1, hget]
    exact absurd hp.2 (h i1 w1 hw1 hp.1)

/-- What `get` returns, given the slot at which its probe stops. -/
theorem get_of_stop {P : Params} {S : Nat → Prop}
    {c : cuckoo_hash} (hc : TableInv P S c) {u i : Nat} (hu : S u)
    (hstop : ProbeStop P c u i) : 
    (c.cuckoo[i]?).map (fun w => if w = 0 then 0 else (w >>> P.KEYSHIFT) % W32) =
      some (lookup P c u) := by
  have hstop1 := hstop
  obtain ⟨j, -, ⟨w, hwi, hs⟩, -⟩ := hstop1
  rw [hwi]
  simp only [Option.map_some', Option.some.injEq]
  by_cases h0 : w = 0
  · rw [if_pos h0]
    symm
    apply lookup_absent
    intro i1 w1 hw1 h10 hk1
    have := (hc.stored_stop hu hw1 h10 hk1).unique hstop
    subst this
    rw [hwi] at hw1
    cases hw1
    exact h10 h0
  · rw [if_neg h0]
    rcases hs with h | h
    · exact absurd h h0
    · exact (lookup_stored hc hu hwi h0 h).symm

/-- `get` returns the value the table holds for the key. -/
theorem get_sound {P : Params} (hP : P.Valid) {S : Nat → Prop} (hS : KeySet P S)
    {c : cuckoo_hash} (hc : TableInv P S c) {u fuel r : Nat} (hu : S u)
    (h : c.get P fuel u = some r) : r = lookup P c u := by
  unfold cuckoo_hash.get at h
  rw [getLoop_eq_probe] at h
  cases hp : probeLoop P c u fuel (u >>> P.IDXSHIFT) with
  | none => simp [hp] at h
  | some i =>
    rw [hp, Option.some_bind] at h
    have hstop := probeLoop_stop hP hp (hS.home u hu)
    rw [get_of_stop hc hu hstop] at h
    exact (Option.some.inj h).symm

/-! ## Writing the table -/

theorem exists_probeStop {P : Params} {c : cuckoo_hash} {u : Nat}
    (hlen : c.cuckoo.length = P.CUCKOO_SIZE) (hhome : u >>> P.IDXSHIFT < P.CUCKOO_SIZE)
    (h : ∃ (i0 w : Nat), c.cuckoo[i0]? = some w ∧
      (w = 0 ∨ w % 2 ^ P.KEYSHIFT = u % 2 ^ P.KEYSHIFT)) :
    ∃ i, ProbeStop P c u i := by
  classical
  obtain ⟨i0, w0, hw0, hs0⟩ := h
  have hi0 : i0 < P.CUCKOO_SIZE := by
    rw [← hlen]; exact (List.getElem?_eq_some.1 hw0).1
  let stop : Nat → Prop := fun j =>
    ∃ w, c.cuckoo[(u >>> P.IDXSHIFT + j) % P.CUCKOO_SIZE]? = some w ∧
      (w = 0 ∨ w % 2 ^ P.KEYSHIFT = u % 2 ^ P.KEYSHIFT)
  have hex : ∃ j, stop j := by
    by_cases hle : u >>> P.IDXSHIFT ≤ i0
    · refine ⟨i0 - u >>> P.IDXSHIFT, w0, ?_, hs0⟩
      have : u >>> P.IDXSHIFT + (i0 - u >>> P.IDXSHIFT) = i0 := by omega
      rw [this, Nat.mod_eq_of_lt hi0]; exact hw0
    · refine ⟨i0 + P.CUCKOO_SIZE - u >>> P.IDXSHIFT, w0, ?_, hs0⟩
      have : u >>> P.IDXSHIFT + (i0 + P.CUCKOO_SIZE - u >>> P.IDXSHIFT) =
          i0 + P.CUCKOO_SIZE := by omega
      rw [this, Nat.add_mod_right, Nat.mod_eq_of_lt hi0]; exact hw0
  refine ⟨(u >>> P.IDXSHIFT + Nat.find hex) % P.CUCKOO_SIZE, Nat.find hex, rfl,
    Nat.find_spec hex, fun j1 hj1 => ?_⟩
  have hns : ¬ stop j1 := Nat.find_min hex hj1
  have hin : (u >>> P.IDXSHIFT + j1) % P.CUCKOO_SIZE < c.cuckoo.length := by
    rw [hlen]; exact Nat.mod_lt _ (by omega)
  refine ⟨c.cuckoo[(u >>> P.IDXSHIFT + j1) % P.CUCKOO_SIZE], List.getElem?_eq_getElem hin,
    fun h0 => hns ⟨_, List.getElem?_eq_getElem hin, Or.inl h0⟩,
    fun hk => hns ⟨_, List.getElem?_eq_getElem hin, Or.inr hk⟩⟩

theorem set_of_stop {P : Params} (hP : P.Valid) {c : cuckoo_hash} {u v fuel i : Nat}
    (hstop : ProbeStop P c u i) (hhome : u >>> P.IDXSHIFT < P.CUCKOO_SIZE)
    (hlen : c.cuckoo.length = P.CUCKOO_SIZE) (hf : P.CUCKOO_SIZE ≤ fuel) :
    c.set P fuel u v = some { cuckoo := c.cuckoo.set i (niew P u v) } := by
  unfold cuckoo_hash.set
  rw [setLoop_eq_probe, hstop.probeLoop hP hhome hlen hf]
  rfl

theorem set_stop {P : Params} (hP : P.Valid) {c c1 : cuckoo_hash} {u v fuel : Nat}
    (hhome : u >>> P.IDXSHIFT < P.CUCKOO_SIZE) (h : c.set P fuel u v = some c1) :
    ∃ i, ProbeStop P c u i ∧ c1 = { cuckoo := c.cuckoo.set i (niew P u v) } := by
  unfold cuckoo_hash.set at h
  rw [setLoop_eq_probe] at h
  cases hp : probeLoop P c u fuel (u >>> P.IDXSHIFT) with
  | none => simp [hp] at h
  | some i =>
    rw [hp] at h
    simp only [Option.map_some', Option.some.injEq] at h
    exact ⟨i, probeLoop_stop hP hp hhome, h.symm⟩

/-- Writing the key `u` at the slot where its probe stops keeps the probing invariant,
stores the value for `u` and leaves the value of every other key. -/
theorem write_at_stop {P : Params} (hP : P.Valid) {S : Nat → Prop} (hS : KeySet P S)
    {c : cuckoo_hash} (hc : TableInv P S c) {u v i : Nat} (hu : S u) (hv : v < W32)
    (hv0 : v ≠ 0) (hstop : ProbeStop P c u i) :
    TableInv P S { cuckoo := c.cuckoo.set i (niew P u v) } ∧
      lookup P { cuckoo := c.cuckoo.set i (niew P u v) } u = v ∧
      ∀ u1, S u1 → u1 ≠ u →
        lookup P { cuckoo := c.cuckoo.set i (niew P u v) } u1 = lookup P c u1 := by
  have hstop1 := hstop
  obtain ⟨j, hij, ⟨w, hwi, hs⟩, hb⟩ := hstop1
  have hilt : i < c.cuckoo.length := (List.getElem?_eq_some.1 hwi).1
  have hnk := niew_key P hP u v hv
  have hn0 := niew_ne_zero P hP u v hv hv0
  have hnew : (c.cuckoo.set i (niew P u v))[i]? = some (niew P u v) :=
    List.getElem?_set_self hilt
  have hinv : TableInv P S { cuckoo := c.cuckoo.set i (niew P u v) } := by
    refine ⟨by simp [hc.len], ?_⟩
    intro u1 hu1 i1 w1 hw1 h10 hk1
    simp only at hw1
    by_cases hi1 : i1 = i
    · subst hi1
      rw [hnew] at hw1
      cases hw1
      have hu1u : u1 = u := hS.inj u1 u hu1 hu (by rw [← hk1, hnk])
      subst hu1u
      refine ⟨j, hij, fun j1 hj1 => ?_⟩
      obtain ⟨w2, hw2, h20, hk2⟩ := hb j1 hj1
      have hne : (u1 >>> P.IDXSHIFT + j1) % P.CUCKOO_SIZE ≠ i1 := by
        intro he
        rw [he, hwi] at hw2
        cases hw2
        rcases hs with h | h
        · exact h20 h
        · exact hk2 h
      exact ⟨w2, by simp only; rw [List.getElem?_set_ne hne.symm]; exact hw2, h20, hk2⟩
    · rw [List.getElem?_set_ne (fun h => hi1 h.symm)] at hw1
      obtain ⟨j2, hi2, hb2⟩ := hc.first u1 hu1 i1 w1 hw1 h10 hk1
      refine ⟨j2, hi2, fun j1 hj1 => ?_⟩
      obtain ⟨w2, hw2, h20, hk2⟩ := hb2 j1 hj1
      by_cases he : (u1 >>> P.IDXSHIFT + j1) % P.CUCKOO_SIZE = i
      · refine ⟨niew P u v, by simp only; rw [he]; exact hnew, hn0, ?_⟩
        rw [hnk]
        intro hkk
        have hu1u : u1 = u := hS.inj u1 u hu1 hu hkk.symm
        subst hu1u
        exact hi1 ((hc.stored_stop hu1 hw1 h10 hk1).unique hstop)
      · exact ⟨w2, by simp only; rw [List.getElem?_set_ne (fun h => he h.symm)]; exact hw2,
          h20, hk2⟩
  refine ⟨hinv, ?_, ?_⟩
  · rw [lookup_stored hinv hu hnew hn0 hnk, niew_val P hP u v hv]
  · intro u1 hu1 hne
    have hkne : u1 % 2 ^ P.KEYSHIFT ≠ u % 2 ^ P.KEYSHIFT :=
      fun h => hne (hS.inj u1 u hu1 hu h)
    by_cases hst : ∃ (i1 w1 : Nat), c.cuckoo[i1]? = some w1 ∧ w1 ≠ 0 ∧
        w1 % 2 ^ P.KEYSHIFT = u1 % 2 ^ P.KEYSHIFT
    · obtain ⟨i1, w1, hw1, h10, hk1⟩ := hst
      have hi1 : i1 ≠ i := by
        intro he
        subst he
        rw [hwi] at hw1
        cases hw1
        rcases hs with h | h
        · exact h10 h
        · exact hkne (hk1.symm.trans h)
      have hw1' : (c.cuckoo.set i (niew P u v))[i1]? = some w1 := by
        rw [List.getElem?_set_ne (fun h => hi1 h.symm)]; exact hw1
      rw [lookup_stored hinv hu1 hw1' h10 hk1, lookup_stored hc hu1 hw1 h10 hk1]
    · have habs : lookup P c u1 = 0 := by
        apply lookup_absent
        intro i1 w1 hw1 h10 hk1
        exact hst ⟨i1, w1, hw1, h10, hk1⟩
      rw [habs]
      apply lookup_absent
      intro i1 w1 hw1 h10 hk1
      simp only at hw1
      by_cases hi1 : i1 = i
      · subst hi1
        rw [hnew] at hw1
        cases hw1
        exact hkne (hk1.symm.trans hnk)
      · rw [List.getElem?_set_ne (fun h => hi1 h.symm)] at hw1
        exact hst ⟨i1, w1, hw1, h10, hk1⟩

/-- `set(u, v)` keeps the probing invariant, stores `v` for `u` and changes the value of
no other key. -/
theorem set_sound {P : Params} (hP : P.Valid) {S : Nat → Prop} (hS : KeySet P S)
    {c c1 : cuckoo_hash} (hc : TableInv P S c) {u v fuel : Nat} (hu : S u) (hv : v < W32)
    (hv0 : v ≠ 0) (h : c.set P fuel u v = some c1) :
    TableInv P S c1 ∧ lookup P c1 u = v ∧
      ∀ u1, S u1 → u1 ≠ u → lookup P c1 u1 = lookup P c u1 := by
  obtain ⟨i, hstop, rfl⟩ := set_stop hP (hS.home u hu) h
  exact write_at_stop hP hS hc hu hv hv0 hstop

/-! ## The table as a map -/

theorem used_set (l : List Nat) : ∀ (i w nw : Nat), l[i]? = some w → nw ≠ 0 →
    ((l.set i nw).filter fun x => x != 0).length =
      (l.filter fun x => x != 0).length + (if w = 0 then 1 else 0) := by
  induction l with
  | nil => intro i w nw h; simp at h
  | cons x rest ih =>
    intro i w nw h hnw
    cases i with
    | zero =>
      simp only [List.getElem?_cons_zero, Option.some.injEq] at h
      subst h
      simp only [List.set_cons_zero, List.filter_cons]
      by_cases hx : x = 0
      · simp [hx, hnw]
      · simp [hx, hnw]
    | succ i =>
      simp only [List.getElem?_cons_succ] at h
      have := ih i w nw h hnw
      simp only [List.set_cons_succ, List.filter_cons]
      by_cases hx : (x != 0) = true
      · simp only [hx, if_true, List.length_cons]; omega
      · simp only [hx, if_false]; exact this

theorem exists_empty_of_used_lt {c : cuckoo_hash} (h : c.used < c.cuckoo.length) :
    ∃ i0 : Nat, c.cuckoo[i0]? = some 0 := by
  unfold cuckoo_hash.used at h
  by_contra hne
  have hall : ∀ x ∈ c.cuckoo, (x != 0) = true := by
    intro x hx
    obtain ⟨i, hi⟩ := List.mem_iff_getElem?.1 hx
    have : x ≠ 0 := fun h0 => hne ⟨i, by rw [hi, h0]⟩
    simpa using this
  rw [List.filter_eq_self.2 hall] at h
  omega

theorem lastValue_append (ops : List (Nat × Nat)) (k v u : Nat) :
    lastValue (ops ++ [(k, v)]) u = if k = u then v else lastValue ops u := by
  unfold lastValue
  rw [List.foldl_append]
  rfl

theorem lastValue_ne_zero (ops : List (Nat × Nat)) (hv : ∀ kv ∈ ops, kv.2 ≠ 0) (u : Nat)
    (hu : u ∈ ops.map Prod.fst) : lastValue ops u ≠ 0 := by
  induction ops using List.reverseRecOn with
  | nil => simp at hu
  | append_singleton ops kv ih =>
    obtain ⟨k, v⟩ := kv
    rw [lastValue_append]
    by_cases hk : k = u
    · rw [if_pos hk]; exact hv (k, v) (by simp)
    · rw [if_neg hk]
      apply ih (fun kv h => hv kv (by simp [h]))
      simp only [List.map_append, List.map_cons, List.map_nil, List.mem_append,
        List.mem_singleton] at hu
      rcases hu with h | h
      · exact h
      · exact absurd h.symm hk

theorem lookup_ne_zero_stored {P : Params} {c : cuckoo_hash} {u : Nat}
    (h : lookup P c u ≠ 0) :
    ∃ (i w : Nat), c.cuckoo[i]? = some w ∧ w ≠ 0 ∧ w % 2 ^ P.KEYSHIFT = u % 2 ^ P.KEYSHIFT := by
  by_contra hne
  apply h
  apply lookup_absent
  intro i w hw h0 hk
  exact hne ⟨i, w, hw, h0, hk⟩

theorem new_TableInv (P : Params) (S : Nat → Prop) : TableInv P S (cuckoo_hash.new P) := by
  refine ⟨by simp [cuckoo_hash.new], ?_⟩
  intro u _ i w hw h0 _
  simp only [cuckoo_hash.new, List.getElem?_replicate] at hw
  split at hw
  · cases hw; exact absurd rfl h0
  · cases hw

theorem lookup_new (P : Params) (u : Nat) : lookup P (cuckoo_hash.new P) u = 0 := by
  apply lookup_absent
  intro i w hw h0 _
  simp only [cuckoo_hash.new, List.getElem?_replicate] at hw
  split at hw
  · cases hw; exact absurd rfl h0
  · cases hw

theorem used_new (P : Params) : (cuckoo_hash.new P).used = 0 := by
  unfold cuckoo_hash.used cuckoo_hash.new
  simp [List.filter_eq_nil_iff]

theorem applySets_spec (P : Params) (hP : P.Valid) (S : Nat → Prop) (hS : KeySet P S)
    (fuel : Nat) (hf : P.CUCKOO_SIZE ≤ fuel) (ops : List (Nat × Nat)) :
    ∀ (pre : List (Nat × Nat)) (c : cuckoo_hash), TableInv P S c →
      (∀ u, S u → lookup P c u = lastValue pre u) →
      c.used ≤ (pre.map Prod.fst).toFinset.card →
      (∀ kv ∈ pre, kv.2 ≠ 0) →
      (∀ kv ∈ ops, S kv.1 ∧ kv.2 ≠ 0 ∧ kv.2 < W32) →
      ((pre ++ ops).map Prod.fst).toFinset.card < P.CUCKOO_SIZE →
      ∃ c1, applySets P fuel c ops = some c1 ∧ TableInv P S c1 ∧
        (∀ u, S u → lookup P c1 u = lastValue (pre ++ ops) u) ∧
        c1.used ≤ ((pre ++ ops).map Prod.fst).toFinset.card := by
  induction ops with
  | nil =>
    intro pre c hc hl hused _ _ _
    exact ⟨c, rfl, hc, by simpa using hl, by simpa using hused⟩
  | cons kv rest ih =>
    intro pre c hc hl hused hpre hops hcard
    obtain ⟨k, v⟩ := kv
    obtain ⟨hk, hv0, hv⟩ := hops (k, v) (by simp)
    have hsub : ((pre ++ [(k, v)]).map Prod.fst).toFinset ⊆
        ((pre ++ (k, v) :: rest).map Prod.fst).toFinset := by
      intro x hx
      simp only [List.map_append, List.map_cons, List.map_nil, List.toFinset_append,
        List.toFinset_cons, List.toFinset_nil, Finset.mem_union, List.mem_toFinset,
        Finset.mem_insert, Finset.not_mem_empty, or_false] at hx ⊢
      rcases hx with h | h
      · exact Or.inl h
      · exact Or.inr (Or.inl h)
    have hcard1 : ((pre ++ [(k, v)]).map Prod.fst).toFinset.card < P.CUCKOO_SIZE :=
      lt_of_le_of_lt (Finset.card_le_card hsub) hcard
    have hpresub : (pre.map Prod.fst).toFinset ⊆ ((pre ++ [(k, v)]).map Prod.fst).toFinset := by
      intro x hx
      simp only [List.map_append, List.toFinset_append, Finset.mem_union]
      exact Or.inl hx
    -- the probe for `k` stops somewhere
    have hstopex : ∃ i, ProbeStop P c k i := by
      apply exists_probeStop hc.len (hS.home k hk)
      by_cases hst : lookup P c k ≠ 0
      · obtain ⟨i, w, hw, -, hkk⟩ := lookup_ne_zero_stored hst
        exact ⟨i, w, hw, Or.inr hkk⟩
      · have hlt : c.used < c.cuckoo.length := by
          rw [hc.len]
          exact lt_of_le_of_lt (le_trans hused (Finset.card_le_card hpresub)) hcard1
        obtain ⟨i0, h0⟩ := exists_empty_of_used_lt hlt
        exact ⟨i0, 0, h0, Or.inl rfl⟩
    obtain ⟨i, hstop⟩ := hstopex
    have hset := set_of_stop (v := v) hP hstop (hS.home k hk) hc.len hf
    obtain ⟨hinv1, hlk, hlo⟩ := write_at_stop hP hS hc hk hv hv0 hstop
    have hstop1 := hstop
    obtain ⟨j, -, ⟨w, hwi, hs⟩, -⟩ := hstop1
    have hused1 : (cuckoo_hash.mk (c.cuckoo.set i (niew P k v))).used ≤
        ((pre ++ [(k, v)]).map Prod.fst).toFinset.card := by
      unfold cuckoo_hash.used
      rw [used_set c.cuckoo i w _ hwi (niew_ne_zero P hP k v hv hv0)]
      by_cases hw0 : w = 0
      · rw [if_pos hw0]
        have hknot : k ∉ (pre.map Prod.fst).toFinset := by
          intro hmem
          rw [List.mem_toFinset] at hmem
          have hne := lastValue_ne_zero pre hpre k hmem
          rw [← hl k hk] at hne
          obtain ⟨i1, w1, hw1, h10, hk1⟩ := lookup_ne_zero_stored hne
          have := (hc.stored_stop hk hw1 h10 hk1).unique hstop
          subst this
          rw [hwi] at hw1
          cases hw1
          exact h10 hw0
        have : ((pre ++ [(k, v)]).map Prod.fst).toFinset = insert k (pre.map Prod.fst).toFinset := by
          ext x
          simp only [List.map_append, List.map_cons, List.map_nil, List.toFinset_append,
            List.toFinset_cons, List.toFinset_nil, Finset.mem_union, List.mem_toFinset,
            Finset.mem_insert, Finset.not_mem_empty, or_false]
          exact or_comm
        rw [this, Finset.card_insert_of_not_mem hknot]
        unfold cuckoo_hash.used at hused
        omega
      · rw [if_neg hw0, Nat.add_zero]
        unfold cuckoo_hash.used at hused
        exact le_trans hused (Finset.card_le_card hpresub)
    obtain ⟨c2, h2, hinv2, hl2, hu2⟩ := ih (pre ++ [(k, v)]) _ hinv1
      (fun u hu => by
        rw [lastValue_append]
        by_cases hku : k = u
        · subst hku; rw [if_pos rfl]; exact hlk
        · rw [if_neg hku, hlo u hu (fun h => hku h.symm)]; exact hl u hu)
      hused1
      (fun kv h => by
        rcases List.mem_append.1 h with h | h
        · exact hpre kv h
        · simp only [List.mem_singleton] at h; subst h; exact hv0)
      (fun kv h => hops kv (by simp [h]))
      (by simpa using hcard)
    refine ⟨c2, ?_, hinv2, by simpa using hl2, by simpa using hu2⟩
    simp only [applySets, hset]
    exact h2

/-- `get` returns when the key is stored or the table has an empty slot. -/
theorem get_total {P : Params} (hP : P.Valid) {S : Nat → Prop} (hS : KeySet P S)
    {c : cuckoo_hash} (hc : TableInv P S c) {u fuel : Nat} (hu : S u)
    (hf : P.CUCKOO_SIZE ≤ fuel) (hused : c.used < P.CUCKOO_SIZE) :
    c.get P fuel u = some (lookup P c u) := by
  have hlt : c.used < c.cuckoo.length := by rw [hc.len]; exact hused
  obtain ⟨i0, h0⟩ := exists_empty_of_used_lt hlt
  obtain ⟨i, hstop⟩ := exists_probeStop hc.len (hS.home u hu) ⟨i0, 0, h0, Or.inl rfl⟩
  unfold cuckoo_hash.get
  rw [getLoop_eq_probe, hstop.probeLoop hP (hS.home u hu) hc.len hf, Option.some_bind]
  exact get_of_stop hc hu hstop

/-- C3: starting from the all-zero table, after any sequence of calls `set(u_i, v_i)` with
non-zero values and keys from a set whose members have their start slot in the table and
differ modulo `2^KEYSHIFT`, with fewer than `CUCKOO_SIZE` distinct keys, every call
returns, and `get(u)` for a key of the set returns the value of the most recent
`set(u, .)`, and 0 if there is none. -/
theorem cuckoo_hash_is_map (P : Params) (hP : P.Valid) (S : Nat → Prop) (hS : KeySet P S)
    (ops : List (Nat × Nat)) (hops : ∀ kv ∈ ops, S kv.1 ∧ kv.2 ≠ 0 ∧ kv.2 < W32)
    (hcard : (ops.map Prod.fst).dedup.length < P.CUCKOO_SIZE)
    (fuel : Nat) (hf : P.CUCKOO_SIZE ≤ fuel) :
    ∃ c, applySets P fuel (cuckoo_hash.new P) ops = some c ∧
      ∀ u, S u → c.get P fuel u = some (lastValue ops u) := by
  have hcard1 : (([] ++ ops).map Prod.fst).toFinset.card < P.CUCKOO_SIZE := by
    rw [List.nil_append, List.card_toFinset]; exact hcard
  obtain ⟨c, h1, hinv, hl, hused⟩ := applySets_spec P hP S hS fuel hf ops [] (cuckoo_hash.new P)
    (new_TableInv P S) (fun u _ => lookup_new P u) (by rw [used_new]; exact Nat.zero_le _)
    (fun kv h => by simp at h) hops hcard1
  refine ⟨c, h1, fun u hu => ?_⟩
  rw [get_total hP hS hinv hu hf (lt_of_le_of_lt hused hcard1)]
  rw [hl u hu]
  rfl

theorem exParams_Valid : exParams.Valid := ⟨by decide, by decide⟩

theorem exParams_KeySet : KeySet exParams (fun u => u ≤ 512) := by
  have hk : exParams.KEYSHIFT = 15 := by decide
  have hi : exParams.IDXSHIFT = 6 := by decide
  have hc : exParams.CUCKOO_SIZE = 9 := by decide
  refine ⟨fun u hu => ?_, fun a b ha hb h => ?_⟩
  · rw [hi, hc, Nat.shiftRight_eq_div_pow]
    have : (2 : Nat) ^ 6 = 64 := by decide
    rw [this]
    omega
  · rw [hk] at h
    have : (2 : Nat) ^ 15 = 32768 := by decide
    rw [this] at h
    omega

theorem cuckoo_hash_is_map_witness :
    exParams.Valid ∧ KeySet exParams (fun u => u ≤ 512) ∧
    (∀ kv ∈ [(1, 257), (257, 2), (1, 258)], kv.1 ≤ 512 ∧ kv.2 ≠ 0 ∧ kv.2 < W32) ∧
    (([(1, 257), (257, 2), (1, 258)] : List (Nat × Nat)).map Prod.fst).dedup.length
      < exParams.CUCKOO_SIZE ∧
    exParams.CUCKOO_SIZE ≤ 9 ∧
    ∃ c, applySets exParams 9 (cuckoo_hash.new exParams) [(1, 257), (257, 2), (1, 258)]
        = some c ∧
      ∀ u, u ≤ 512 → c.get exParams 9 u = some (lastValue [(1, 257), (257, 2), (1, 258)] u) :=
  ⟨exParams_Valid, exParams_KeySet, by decide, by decide, by decide,
    cuckoo_hash_is_map exParams exParams_Valid (fun u => u ≤ 512) exParams_KeySet
      [(1, 257), (257, 2), (1, 258)] (by decide) (by decide) 9 (by decide)⟩

/-! ## The scan of `solution` -/

theorem writeSol_spec {sols sols1 : List (List Nat)} {soli n nonce : Nat}
    (h : writeSol sols soli n nonce = some sols1) :
    ∃ row, sols[soli]? = some row ∧ n < row.length ∧ sols1 = sols.set soli (row.set n nonce) := by
  unfold writeSol at h
  split at h
  · cases h
  · rename_i row hrow
    split at h
    · rename_i hn
      simp only [Option.some.injEq] at h
      exact ⟨row, hrow, hn, h.symm⟩
    · cases h

theorem take_set_succ (row : List Nat) (n x : Nat) (hn : n < row.length) :
    (row.set n x).take (n + 1) = row.take n ++ [x] := by
  induction row generalizing n with
  | nil => simp at hn
  | cons y rest ih =>
    cases n with
    | zero => simp
    | succ n =>
      simp only [List.length_cons, Nat.add_lt_add_iff_right] at hn
      simp only [List.set_cons_succ, List.take_succ_cons, List.cons_append, ih n hn]

theorem writtenRow_writeSol {sols sols1 : List (List Nat)} {soli n nonce : Nat}
    (h : writeSol sols soli n nonce = some sols1) :
    writtenRow sols1 soli (n + 1) = writtenRow sols soli n ++ [nonce] := by
  obtain ⟨row, hrow, hn, rfl⟩ := writeSol_spec h
  have hlt : soli < sols.length := (List.getElem?_eq_some.1 hrow).1
  unfold writtenRow
  rw [List.getElem?_set_self hlt, hrow]
  simp only [Option.getD_some]
  exact take_set_succ row n nonce hn

/-- Facts that hold between the start and the end of a scan over the nonces `l`: the
written part of the row grows by a sublist `new` of `l` of live nonces whose edges were
in the cycle set, and those edges together with what is left make up the cycle set. -/
theorem scanNonces_spec (P : Params) (h : Nat → Nat) (alive : shrinkingset) (soli : Nat)
    (l : List Nat) : ∀ (st0 st : ScanState), scanNonces P h alive soli l st0 = some st →
      ∃ new : List Nat, new.Sublist l ∧ st.n = st0.n + new.length ∧
        writtenRow st.sols soli st.n = writtenRow st0.sols soli st0.n ++ new ∧
        (∀ x ∈ new, alive.test x = some true) ∧
        (new.map (nonceEdge P h) ++ st.cycle).Perm st0.cycle := by
  induction l with
  | nil =>
    intro st0 st hs
    simp only [scanNonces, Option.some.injEq] at hs
    subst hs
    exact ⟨[], List.Sublist.refl _, rfl, by simp, by intro x hx; simp at hx, by simp⟩
  | cons x rest ih =>
    intro st0 st hs
    simp only [scanNonces] at hs
    cases h1 : scanStep P h alive soli st0 x with
    | none => simp [h1] at hs
    | some st1 =>
      simp only [h1] at hs
      obtain ⟨new, hsub, hn, hw, hlive, hperm⟩ := ih st1 st hs
      unfold scanStep at h1
      cases ht : alive.test x with
      | none => simp [ht] at h1
      | some b =>
        cases b with
        | false =>
          simp only [ht, Option.some.injEq] at h1
          subst h1
          exact ⟨new, hsub.cons x, hn, hw, hlive, hperm⟩
        | true =>
          simp only [ht] at h1
          by_cases he : nonceEdge P h x ∈ st0.cycle
          · rw [if_pos he] at h1
            cases hws : writeSol st0.sols soli st0.n x with
            | none => simp [hws] at h1
            | some sols1 =>
              simp only [hws, Option.some.injEq] at h1
              subst h1
              simp only at hn hw hperm
              refine ⟨x :: new, hsub.cons₂ x, ?_, ?_, ?_, ?_⟩
              · rw [hn, List.length_cons]; omega
              · rw [hw, writtenRow_writeSol hws, List.append_assoc]; rfl
              · intro y hy
                rcases List.mem_cons.1 hy with rfl | hy
                · exact ht
                · exact hlive y hy
              · simp only [List.map_cons, List.cons_append]
                exact (List.Perm.cons _ hperm).trans (List.perm_cons_erase he).symm
          · rw [if_neg he] at h1
            simp only [Option.some.injEq] at h1
            subst h1
            exact ⟨new, hsub.cons x, hn, hw, hlive, hperm⟩

theorem range_pairwise_lt (n : Nat) : (List.range n).Pairwise (· < ·) := by
  rw [List.range_eq_range']
  exact List.pairwise_lt_range' 0 n

/-- C5: the nonces that a call of `solution` writes to `sols[soli][0..n)` are strictly
ascending, each is a live nonce below `easiness`, and the edge of each one belonged to
the cycle set built from `us` and `vs`. -/
theorem solution_order (P : Params) (h : Nat → Nat) (ctx ctx1 : cuckoo_ctx)
    (us vs : Nat → Nat) (nu nv : Nat) (hsol : solution P h ctx us nu vs nv = some ctx1) :
    ∃ cyc st, cycleSet us nu vs nv = some cyc ∧
      scanNonces P h ctx.alive ctx.nsols (List.range ctx.easiness)
        { sols := ctx.sols, n := 0, cycle := cyc } = some st ∧
      ctx1.sols = st.sols ∧
      (writtenRow ctx1.sols ctx.nsols st.n).length = st.n ∧
      (writtenRow ctx1.sols ctx.nsols st.n).Pairwise (· < ·) ∧
      ∀ x ∈ writtenRow ctx1.sols ctx.nsols st.n,
        x < ctx.easiness ∧ ctx.alive.test x = some true ∧ nonceEdge P h x ∈ cyc := by
  unfold solution at hsol
  cases hc : cycleSet us nu vs nv with
  | none => simp [hc] at hsol
  | some cyc =>
    simp only [hc] at hsol
    cases hs : scanNonces P h ctx.alive ctx.nsols (List.range ctx.easiness)
        { sols := ctx.sols, n := 0, cycle := cyc } with
    | none => simp [hs] at hsol
    | some st =>
      simp only [hs, Option.some.injEq] at hsol
      subst hsol
      obtain ⟨new, hsub, hn, hw, hlive, hperm⟩ := scanNonces_spec P h _ _ _ _ _ hs
      simp only [writtenRow, List.take_zero, List.nil_append, Nat.zero_add] at hn hw
      refine ⟨cyc, st, rfl, hs, rfl, ?_, ?_, ?_⟩
      · simp only [writtenRow]; rw [hw]; exact hn.symm
      · simp only [writtenRow]; rw [hw]
        exact (range_pairwise_lt _).sublist hsub
      · intro x hx
        simp only [writtenRow] at hx
        rw [hw] at hx
        refine ⟨List.mem_range.1 (hsub.subset hx), hlive x hx, ?_⟩
        have : nonceEdge P h x ∈ new.map (nonceEdge P h) ++ st.cycle :=
          List.mem_append_left _ (List.mem_map_of_mem _ hx)
        exact hperm.subset this

theorem solution_order_witness :
    solution exParams exHash exCtx (fun i => [1, 257, 2, 258].getD i 0) 3
        (fun i => [258].getD i 0) 0 =
      some { exCtx with sols := [[0, 1, 2, 3], [0, 0, 0, 0]], nsols := 1 } ∧
    ∃ cyc st, cycleSet (fun i => [1, 257, 2, 258].getD i 0) 3 (fun i => [258].getD i 0) 0
        = some cyc ∧
      scanNonces exParams exHash exCtx.alive exCtx.nsols (List.range exCtx.easiness)
        { sols := exCtx.sols, n := 0, cycle := cyc } = some st ∧
      [[0, 1, 2, 3], [0, 0, 0, 0]] = st.sols ∧
      (writtenRow [[0, 1, 2, 3], [0, 0, 0, 0]] exCtx.nsols st.n).length = st.n ∧
      (writtenRow [[0, 1, 2, 3], [0, 0, 0, 0]] exCtx.nsols st.n).Pairwise (· < ·) ∧
      ∀ x ∈ writtenRow [[0, 1, 2, 3], [0, 0, 0, 0]] exCtx.nsols st.n,
        x < exCtx.easiness ∧ exCtx.alive.test x = some true ∧
          nonceEdge exParams exHash x ∈ cyc :=
  ⟨by decide,
    solution_order exParams exHash exCtx
      { exCtx with sols := [[0, 1, 2, 3], [0, 0, 0, 0]], nsols := 1 }
      (fun i => [1, 257, 2, 258].getD i 0) (fun i => [258].getD i 0) 3 0 (by decide)⟩

/-! ## Graph nodes and edges -/

theorem KeysDistinct.nodes_le {P : Params} (hk : KeysDistinct P) : P.SIZE ≤ 2 ^ P.KEYSHIFT := by
  by_contra hlt
  have hpos : 0 < 2 ^ P.KEYSHIFT := Nat.pow_pos (by decide)
  have hsz : 2 ≤ P.SIZE := by
    unfold Params.SIZE Params.HALFSIZE
    have : 0 < 2 ^ P.EDGEBITS := Nat.pow_pos (by decide)
    omega
  have := hk 1 (2 ^ P.KEYSHIFT + 1) ⟨le_refl _, by omega⟩ ⟨by omega, by omega⟩
    (by rw [Nat.add_mod_left])
  omega

theorem KeysDistinct.size_lt_W32 {P : Params} (hP : P.Valid) (hk : KeysDistinct P) :
    P.SIZE < W32 := by
  have h1 := hk.nodes_le
  have h2 : 2 ^ P.KEYSHIFT ≤ 2 ^ 30 := Nat.pow_le_pow_right (by decide) hP.keyshift_le
  have h3 : (2 : Nat) ^ 30 = 1073741824 := by decide
  rw [W32_eq]
  omega

theorem graph_KeySet {P : Params} (hk : KeysDistinct P) : KeySet P (GraphNode P) := by
  refine ⟨fun u hu => ?_, hk⟩
  rw [CUCKOO_SIZE_eq, Nat.shiftRight_eq_div_pow]
  have : u / 2 ^ P.IDXSHIFT ≤ P.SIZE / 2 ^ P.IDXSHIFT := Nat.div_le_div_right hu.2
  omega

theorem nodeU_spec {P : Params} (hP : P.Valid) (hk : KeysDistinct P) (h : Nat → Nat) (n : Nat) :
    nodeU P h n = sipedge_u P h n + 1 ∧ 1 ≤ nodeU P h n ∧ nodeU P h n ≤ P.HALFSIZE := by
  have h1 := sipedge_u_lt P h n
  have h2 := hk.size_lt_W32 hP
  have h3 : P.SIZE = 2 * P.HALFSIZE := rfl
  have e : nodeU P h n = sipedge_u P h n + 1 := by
    unfold nodeU; exact Nat.mod_eq_of_lt (by omega)
  rw [e]
  exact ⟨rfl, by omega, by omega⟩

theorem nodeV_spec {P : Params} (hP : P.Valid) (hk : KeysDistinct P) (h : Nat → Nat) (n : Nat) :
    nodeV P h n = sipedge_v P h n + (1 + P.HALFSIZE) ∧ P.HALFSIZE < nodeV P h n ∧
      nodeV P h n ≤ P.SIZE := by
  have h1 := sipedge_v_lt P h n
  have h2 := hk.size_lt_W32 hP
  have h3 : P.SIZE = 2 * P.HALFSIZE := rfl
  have e : nodeV P h n = sipedge_v P h n + (1 + P.HALFSIZE) := by
    unfold nodeV; exact Nat.mod_eq_of_lt (by omega)
  rw [e]
  exact ⟨rfl, by omega, by omega⟩

theorem nodeU_graph {P : Params} (hP : P.Valid) (hk : KeysDistinct P) (h : Nat → Nat) (n : Nat) :
    GraphNode P (nodeU P h n) := by
  obtain ⟨-, h1, h2⟩ := nodeU_spec hP hk h n
  have h3 : P.SIZE = 2 * P.HALFSIZE := rfl
  exact ⟨h1, by omega⟩

theorem nodeV_graph {P : Params} (hP : P.Valid) (hk : KeysDistinct P) (h : Nat → Nat) (n : Nat) :
    GraphNode P (nodeV P h n) := by
  obtain ⟨-, h1, h2⟩ := nodeV_spec hP hk h n
  exact ⟨by omega, h2⟩

theorem nonceEdge_eq (P : Params) (h : Nat → Nat) (n : Nat) :
    nonceEdge P h n = edge.mk (nodeU P h n) (nodeV P h n) := by
  unfold nonceEdge nodeU nodeV
  rw [Nat.add_comm 1 (sipedge_u P h n), Nat.add_comm (1 + P.HALFSIZE)]

theorem orient_comm (P : Params) {x y : Nat} (hxy : x ≤ P.HALFSIZE ↔ P.HALFSIZE < y) :
    orient P x y = orient P y x := by
  unfold orient
  by_cases hx : x ≤ P.HALFSIZE
  · have hy : ¬ y ≤ P.HALFSIZE := by have := hxy.1 hx; omega
    rw [if_pos hx, if_neg hy]
  · have hy : y ≤ P.HALFSIZE := by
      by_contra hc
      exact hx (hxy.2 (by omega))
    rw [if_neg hx, if_pos hy]

theorem orient_joins (P : Params) (x y : Nat) : joins (orient P x y) x y := by
  unfold orient joins
  by_cases hx : x ≤ P.HALFSIZE
  · rw [if_pos hx]; exact Or.inl ⟨rfl, rfl⟩
  · rw [if_neg hx]; exact Or.inr ⟨rfl, rfl⟩

theorem GoodPointer.symm {P : Params} {h : Nat → Nat} {alive : shrinkingset}
    {easiness x y : Nat} (hg : GoodPointer P h alive easiness x y) (hx : GraphNode P x) :
    GoodPointer P h alive easiness y x := by
  obtain ⟨-, halt, n, hn, hl, he⟩ := hg
  refine ⟨hx, ?_, n, hn, hl, ?_⟩
  · constructor
    · intro hy
      by_contra hc
      have := halt.1 (by omega)
      omega
    · intro hxx
      by_contra hc
      have : x ≤ P.HALFSIZE := halt.2 (by omega)
      omega
  · rw [he, orient_comm P halt]

/-- The pointer written for the edge of a live nonce, from its U node to its V node. -/
theorem goodPointer_nonce_uv {P : Params} (hP : P.Valid) (hk : KeysDistinct P) (h : Nat → Nat)
    (alive : shrinkingset) {easiness n : Nat} (hn : n < easiness)
    (hl : alive.test n = some true) :
    GoodPointer P h alive easiness (nodeU P h n) (nodeV P h n) := by
  obtain ⟨-, -, hu⟩ := nodeU_spec hP hk h n
  obtain ⟨-, hv, -⟩ := nodeV_spec hP hk h n
  refine ⟨nodeV_graph hP hk h n, ⟨fun _ => hv, fun _ => hu⟩, n, hn, hl, ?_⟩
  rw [nonceEdge_eq]
  unfold orient
  rw [if_pos hu]

/-! ## Path walks -/

theorem MapInv.next_node {P : Params} {h : Nat → Nat} {alive : shrinkingset} {easiness : Nat}
    {c : cuckoo_hash} (hc : MapInv P h alive easiness c) {x : Nat} (hx : GraphNode P x) :
    lookup P c x = 0 ∨ GraphNode P (lookup P c x) := by
  by_cases h0 : lookup P c x = 0
  · exact Or.inl h0
  · exact Or.inr (hc.good x hx h0).1

theorem pathLoop_spec {P : Params} (hP : P.Valid) (hk : KeysDistinct P) {h : Nat → Nat}
    {alive : shrinkingset} {easiness : Nat} {c : cuckoo_hash}
    (hc : MapInv P h alive easiness c) (gfuel : Nat) :
    ∀ (fuel u : Nat) (us : Nat → Nat) (nu nu1 : Nat) (us1 : Nat → Nat),
      (u = 0 ∨ GraphNode P u) →
      pathLoop P c gfuel fuel u us nu = some (PathResult.ret nu1 us1) →
      nu ≤ nu1 ∧ (nu1 = nu ∨ nu1 < MAXPATHLEN) ∧ (∀ i, i ≤ nu → us1 i = us i) ∧
        (∀ i, nu1 < i → us1 i = us i) ∧ (nu1 = nu → u = 0) ∧
        (nu < nu1 → us1 (nu + 1) = u ∧ (∀ i, nu < i → i ≤ nu1 → GraphNode P (us1 i)) ∧
          (∀ i, nu < i → i < nu1 → lookup P c (us1 i) = us1 (i + 1)) ∧
          lookup P c (us1 nu1) = 0) := by
  intro fuel
  induction fuel with
  | zero => intro u us nu nu1 us1 _ h; simp [pathLoop] at h
  | succ fuel ih =>
    intro u us nu nu1 us1 hu hp
    unfold pathLoop at hp
    by_cases h0 : u = 0
    · rw [if_pos h0] at hp
      simp only [Option.some.injEq, PathResult.ret.injEq] at hp
      obtain ⟨rfl, rfl⟩ := hp
      exact ⟨le_refl _, Or.inl rfl, fun _ _ => rfl, fun _ _ => rfl, fun _ => h0,
        fun hlt => absurd hlt (lt_irrefl _)⟩
    · rw [if_neg h0] at hp
      have hug : GraphNode P u := by
        rcases hu with h | h
        · exact absurd h h0
        · exact h
      by_cases hmax : nu + 1 ≥ MAXPATHLEN
      · rw [if_pos hmax] at hp; cases hp
      · rw [if_neg hmax] at hp
        cases hg : c.get P gfuel u with
        | none => simp [hg] at hp
        | some u1 =>
          simp only [hg] at hp
          have hu1 : u1 = lookup P c u := get_sound hP (graph_KeySet hk) hc.table hug hg
          have hu1g : u1 = 0 ∨ GraphNode P u1 := by rw [hu1]; exact hc.next_node hug
          obtain ⟨hle, hbound, hlow, hhigh, hz, hrest⟩ :=
            ih u1 (Function.update us (nu + 1) u) (nu + 1) nu1 us1 hu1g hp
          have hat : us1 (nu + 1) = u := by
            rw [hlow (nu + 1) (le_refl _)]; simp
          refine ⟨by omega, Or.inr ?_, ?_, ?_, ?_, ?_⟩
          · rcases hbound with h | h
            · rw [h]; omega
            · exact h
          · intro i hi
            rw [hlow i (by omega)]
            simp [Function.update, show i ≠ nu + 1 by omega]
          · intro i hi
            rw [hhigh i hi]
            simp [Function.update, show i ≠ nu + 1 by omega]
          · intro he; omega
          · intro _
            refine ⟨hat, ?_, ?_, ?_⟩
            · intro i h1 h2
              by_cases hi : i = nu + 1
              · rw [hi, hat]; exact hug
              · exact (hrest (by omega)).2.1 i (by omega) h2
            · intro i h1 h2
              by_cases hi : i = nu + 1
              · rw [hi, hat, ← hu1]
                exact ((hrest (by omega)).1).symm
              · exact (hrest (by omega)).2.2.1 i (by omega) h2
            · by_cases he : nu1 = nu + 1
              · rw [he, hat, ← hu1]; exact hz he
              · exact (hrest (by omega)).2.2.2

/-- The walk of `path` from `lookup u0`, with `us[0] = u0` stored by the caller, leaves a
pointer path `us[0..nu]` that ends at a root. -/
theorem path_isPath {P : Params} (hP : P.Valid) (hk : KeysDistinct P) {h : Nat → Nat}
    {alive : shrinkingset} {easiness : Nat} {c : cuckoo_hash}
    (hc : MapInv P h alive easiness c) {fuel u0 nu : Nat} {us0 us : Nat → Nat}
    (hu0 : GraphNode P u0)
    (hp : path P fuel c (lookup P c u0) (Function.update us0 0 u0) = some (PathResult.ret nu us)) :
    IsPath P c us nu ∧ us 0 = u0 := by
  unfold path at hp
  obtain ⟨-, hbound, hlow, -, hz, hrest⟩ := pathLoop_spec hP hk hc fuel fuel _ _ 0 nu us
    (hc.next_node hu0) hp
  have h0 : us 0 = u0 := by rw [hlow 0 (le_refl _)]; simp
  refine ⟨⟨?_, ?_, ?_, ?_⟩, h0⟩
  · rcases hbound with h | h
    · rw [h]; decide
    · exact h
  · intro i hi
    by_cases hi0 : i = 0
    · rw [hi0, h0]; exact hu0
    · exact (hrest (by omega)).2.1 i (by omega) hi
  · intro i hi
    by_cases hi0 : i = 0
    · rw [hi0, h0, (hrest (by omega)).1]
    · exact (hrest (by omega)).2.2.1 i (by omega) hi
  · by_cases hn : nu = 0
    · rw [hn, h0]; exact hz hn
    · exact (hrest (by omega)).2.2.2

/-- Two pointer paths that share a node share its distance to the root. -/
theorem IsPath.same_depth {P : Params} {c : cuckoo_hash} {us vs : Nat → Nat} {nu nv : Nat}
    (hu : IsPath P c us nu) (hv : IsPath P c vs nv) :
    ∀ d i j, nu - i = d → i ≤ nu → j ≤ nv → us i = vs j → nu - i = nv - j := by
  intro d
  induction d with
  | zero =>
    intro i j hd hi hj he
    have hin : i = nu := by omega
    subst hin
    by_contra hne
    have hjlt : j < nv := by omega
    have h1 := hv.2.2.1 j hjlt
    rw [← he, hu.2.2.2] at h1
    have := (hv.2.1 (j + 1) (by omega)).1
    omega
  | succ d ih =>
    intro i j hd hi hj he
    have hilt : i < nu := by omega
    have h1 := hu.2.2.1 i hilt
    by_cases hjn : j = nv
    · subst hjn
      rw [he, hv.2.2.2] at h1
      have := (hu.2.1 (i + 1) (by omega)).1
      omega
    · have hjlt : j < nv := by omega
      have h2 := hv.2.2.1 j hjlt
      rw [he, h2] at h1
      have := ih (i + 1) (j + 1) (by omega) (by omega) (by omega) h1.symm
      omega

theorem IsPath.injective {P : Params} {c : cuckoo_hash} {us : Nat → Nat} {nu : Nat}
    (hu : IsPath P c us nu) {i j : Nat} (hi : i ≤ nu) (hj : j ≤ nu) (he : us i = us j) :
    i = j := by
  have := hu.same_depth hu (nu - i) i j rfl hi hj he
  omega

/-! ## Index arithmetic of `solution` -/

theorem and_not_one_eq (x : Nat) (hx : x < W32) : x &&& (W32 - 2) = 2 * (x / 2) := by
  apply Nat.eq_of_testBit_eq
  intro k
  have h2 : W32 - 2 = 2 ^ 32 - (1 + 1) := by decide
  have hpow : (2 * (x / 2)) = 2 ^ 1 * (x / 2) := by rw [Nat.pow_one]
  rw [Nat.testBit_and, h2, Nat.testBit_two_pow_sub_succ (by decide), hpow,
    Nat.testBit_mul_pow_two]
  cases k with
  | zero => simp
  | succ k =>
    have h1 : Nat.testBit 1 (k + 1) = false := by
      cases hb : Nat.testBit 1 (k + 1)
      · rfl
      · have := Nat.testBit_one_eq_true_iff_self_eq_zero.1 hb
        omega
    rw [h1]
    simp only [Bool.not_false, Bool.and_true, ge_iff_le, Nat.le_add_left, decide_True,
      Nat.add_sub_cancel, Bool.true_and, Nat.testBit_add_one]
    by_cases hk : k + 1 < 32
    · simp [hk]
    · simp only [hk, decide_False, Bool.and_false]
      symm
      rw [← Nat.testBit_add_one]
      apply Nat.testBit_lt_two_pow
      have : (2 : Nat) ^ 32 ≤ 2 ^ (k + 1) := Nat.pow_le_pow_right (by decide) (by omega)
      rw [W32_eq] at hx
      have h32 : (2 : Nat) ^ 32 = 4294967296 := by decide
      omega

theorem or_one_eq (x : Nat) : x ||| 1 = 2 * (x / 2) + 1 := by
  apply Nat.eq_of_testBit_eq
  intro k
  have hpow : 2 * (x / 2) + 1 = 2 ^ 1 * (x / 2) + 1 := by rw [Nat.pow_one]
  rw [Nat.testBit_or, hpow, Nat.testBit_mul_pow_two_add _ (by decide)]
  cases k with
  | zero => simp
  | succ k =>
    have h1 : Nat.testBit 1 (k + 1) = false := by
      cases hb : Nat.testBit 1 (k + 1)
      · rfl
      · have := Nat.testBit_one_eq_true_iff_self_eq_zero.1 hb
        omega
    rw [h1]
    simp [Nat.testBit_add_one]

theorem even_index (i : Nat) (hi : i + 1 < W32) (he : i % 2 = 0) :
    (i + 1) &&& (W32 - 2) = i ∧ i ||| 1 = i + 1 := by
  rw [and_not_one_eq _ hi, or_one_eq]
  omega

theorem odd_index (i : Nat) (hi : i + 1 < W32) (he : i % 2 = 1) :
    (i + 1) &&& (W32 - 2) = i + 1 ∧ i ||| 1 = i := by
  rw [and_not_one_eq _ hi, or_one_eq]
  omega

/-! ## The cycle set -/

theorem cycleInsertU_spec (us : Nat → Nat) :
    ∀ (n : Nat) (cyc cyc1 : List edge), cycleInsertU us n cyc = some cyc1 → cyc.Nodup →
      cyc1.Nodup ∧ ∀ e, e ∈ cyc1 ↔
        e ∈ cyc ∨ ∃ i, i < n ∧ e = edge.mk (us ((i + 1) &&& (W32 - 2))) (us (i ||| 1)) := by
  intro n
  induction n with
  | zero =>
    intro cyc cyc1 h hnd
    simp only [cycleInsertU, Option.some.injEq] at h
    subst h
    exact ⟨hnd, fun e => ⟨fun h => Or.inl h, fun h => h.elim id (fun ⟨i, hi, _⟩ => by omega)⟩⟩
  | succ n ih =>
    intro cyc cyc1 h hnd
    unfold cycleInsertU rdPath at h
    by_cases h1 : (n + 1) &&& (W32 - 2) < MAXPATHLEN
    · by_cases h2 : n ||| 1 < MAXPATHLEN
      · rw [if_pos h1, if_pos h2] at h
        obtain ⟨hnd1, hmem⟩ := ih _ cyc1 h (hnd.insert)
        refine ⟨hnd1, fun e => ?_⟩
        rw [hmem e, List.mem_insert_iff]
        constructor
        · rintro ((he | he) | ⟨i, hi, he⟩)
          · exact Or.inr ⟨n, by omega, he⟩
          · exact Or.inl he
          · exact Or.inr ⟨i, by omega, he⟩
        · rintro (he | ⟨i, hi, he⟩)
          · exact Or.inl (Or.inr he)
          · by_cases hin : i = n
            · subst hin; exact Or.inl (Or.inl he)
            · exact Or.inr ⟨i, by omega, he⟩
      · rw [if_pos h1, if_neg h2] at h; cases h
    · rw [if_neg h1] at h; cases h

theorem cycleInsertV_spec (us : Nat → Nat) :
    ∀ (n : Nat) (cyc cyc1 : List edge), cycleInsertV us n cyc = some cyc1 → cyc.Nodup →
      cyc1.Nodup ∧ ∀ e, e ∈ cyc1 ↔
        e ∈ cyc ∨ ∃ i, i < n ∧ e = edge.mk (us (i ||| 1)) (us ((i + 1) &&& (W32 - 2))) := by
  intro n
  induction n with
  | zero =>
    intro cyc cyc1 h hnd
    simp only [cycleInsertV, Option.some.injEq] at h
    subst h
    exact ⟨hnd, fun e => ⟨fun h => Or.inl h, fun h => h.elim id (fun ⟨i, hi, _⟩ => by omega)⟩⟩
  | succ n ih =>
    intro cyc cyc1 h hnd
    unfold cycleInsertV rdPath at h
    by_cases h1 : n ||| 1 < MAXPATHLEN
    · by_cases h2 : (n + 1) &&& (W32 - 2) < MAXPATHLEN
      · rw [if_pos h1, if_pos h2] at h
        obtain ⟨hnd1, hmem⟩ := ih _ cyc1 h (hnd.insert)
        refine ⟨hnd1, fun e => ?_⟩
        rw [hmem e, List.mem_insert_iff]
        constructor
        · rintro ((he | he) | ⟨i, hi, he⟩)
          · exact Or.inr ⟨n, by omega, he⟩
          · exact Or.inl he
          · exact Or.inr ⟨i, by omega, he⟩
        · rintro (he | ⟨i, hi, he⟩)
          · exact Or.inl (Or.inr he)
          · by_cases hin : i = n
            · subst hin; exact Or.inl (Or.inl he)
            · exact Or.inr ⟨i, by omega, he⟩
      · rw [if_pos h1, if_neg h2] at h; cases h
    · rw [if_neg h1] at h; cases h

/-- The edge set built by `solution`. -/
theorem cycleSet_spec (us vs : Nat → Nat) (nu nv : Nat) (cyc : List edge)
    (h : cycleSet us nu vs nv = some cyc) :
    cyc.Nodup ∧ ∀ e, e ∈ cyc ↔
      e = edge.mk (us 0) (vs 0) ∨
      (∃ i, i < nu ∧ e = edge.mk (us ((i + 1) &&& (W32 - 2))) (us (i ||| 1))) ∨
      (∃ i, i < nv ∧ e = edge.mk (vs (i ||| 1)) (vs ((i + 1) &&& (W32 - 2)))) := by
  unfold cycleSet rdPath at h
  have hmax : 0 < MAXPATHLEN := by decide
  simp only [if_pos hmax] at h
  cases h1 : cycleInsertU us nu [edge.mk (us 0) (vs 0)] with
  | none => rw [h1] at h; cases h
  | some cyc0 =>
    rw [h1] at h
    change cycleInsertV vs nv cyc0 = some cyc at h
    obtain ⟨hnd0, hm0⟩ := cycleInsertU_spec us nu _ cyc0 h1 (List.nodup_singleton _)
    obtain ⟨hnd1, hm1⟩ := cycleInsertV_spec vs nv _ cyc h hnd0
    refine ⟨hnd1, fun e => ?_⟩
    rw [hm1 e, hm0 e, List.mem_singleton]
    constructor
    · rintro ((he | he) | he)
      · exact Or.inl he
      · exact Or.inr (Or.inl he)
      · exact Or.inr (Or.inr he)
    · rintro (he | he | he)
      · exact Or.inl (Or.inl he)
      · exact Or.inl (Or.inr he)
      · exact Or.inr he

/-! ## Paths alternate between the two sides -/

theorem IsPath.good {P : Params} {h : Nat → Nat} {alive : shrinkingset} {easiness : Nat}
    {c : cuckoo_hash} (hc : MapInv P h alive easiness c) {us : Nat → Nat} {nu : Nat}
    (hu : IsPath P c us nu) {i : Nat} (hi : i < nu) :
    GoodPointer P h alive easiness (us i) (us (i + 1)) := by
  have h1 := hu.2.2.1 i hi
  have h2 := (hu.2.1 (i + 1) (by omega)).1
  have := hc.good (us i) (hu.2.1 i (by omega)) (by rw [h1]; omega)
  rw [h1] at this
  exact this

theorem IsPath.parity_U {P : Params} {h : Nat → Nat} {alive : shrinkingset} {easiness : Nat}
    {c : cuckoo_hash} (hc : MapInv P h alive easiness c) {us : Nat → Nat} {nu : Nat}
    (hu : IsPath P c us nu) (h0 : us 0 ≤ P.HALFSIZE) :
    ∀ i, i ≤ nu → (us i ≤ P.HALFSIZE ↔ i % 2 = 0) := by
  intro i
  induction i with
  | zero => intro _; simp [h0]
  | succ i ih =>
    intro hi
    have hg := (hu.good hc (i := i) (by omega)).2.1
    have := ih (by omega)
    constructor
    · intro hle
      by_contra hne
      have h1 : i % 2 = 0 := by omega
      have := hg.1 (this.2 h1)
      omega
    · intro hodd
      by_contra hgt
      have h1 : us i ≤ P.HALFSIZE := hg.2 (by omega)
      have := this.1 h1
      omega

theorem IsPath.parity_V {P : Params} {h : Nat → Nat} {alive : shrinkingset} {easiness : Nat}
    {c : cuckoo_hash} (hc : MapInv P h alive easiness c) {vs : Nat → Nat} {nv : Nat}
    (hv : IsPath P c vs nv) (h0 : P.HALFSIZE < vs 0) :
    ∀ i, i ≤ nv → (vs i ≤ P.HALFSIZE ↔ i % 2 = 1) := by
  intro i
  induction i with
  | zero => intro _; simp; omega
  | succ i ih =>
    intro hi
    have hg := (hv.good hc (i := i) (by omega)).2.1
    have := ih (by omega)
    constructor
    · intro hle
      by_contra hne
      have h1 : i % 2 = 1 := by omega
      have := hg.1 (this.2 h1)
      omega
    · intro hodd
      by_contra hgt
      have h1 : vs i ≤ P.HALFSIZE := hg.2 (by omega)
      have := this.1 h1
      omega

theorem IsPath.edge_U {P : Params} {h : Nat → Nat} {alive : shrinkingset} {easiness : Nat}
    {c : cuckoo_hash} (hc : MapInv P h alive easiness c) {us : Nat → Nat} {nu : Nat}
    (hu : IsPath P c us nu) (h0 : us 0 ≤ P.HALFSIZE) {i : Nat} (hi : i < nu) :
    edge.mk (us ((i + 1) &&& (W32 - 2))) (us (i ||| 1)) = orient P (us i) (us (i + 1)) := by
  have hmax : MAXPATHLEN = 8192 := rfl
  have hw := W32_eq
  have hnu := hu.1
  have hpar := hu.parity_U hc h0 i (by omega)
  unfold orient
  by_cases he : i % 2 = 0
  · obtain ⟨e1, e2⟩ := even_index i (by omega) he
    rw [e1, e2, if_pos (hpar.2 he)]
  · obtain ⟨e1, e2⟩ := odd_index i (by omega) (by omega)
    rw [e1, e2, if_neg (fun hle => he (hpar.1 hle))]

theorem IsPath.edge_V {P : Params} {h : Nat → Nat} {alive : shrinkingset} {easiness : Nat}
    {c : cuckoo_hash} (hc : MapInv P h alive easiness c) {vs : Nat → Nat} {nv : Nat}
    (hv : IsPath P c vs nv) (h0 : P.HALFSIZE < vs 0) {i : Nat} (hi : i < nv) :
    edge.mk (vs (i ||| 1)) (vs ((i + 1) &&& (W32 - 2))) = orient P (vs i) (vs (i + 1)) := by
  have hmax : MAXPATHLEN = 8192 := rfl
  have hw := W32_eq
  have hnv := hv.1
  have hpar := hv.parity_V hc h0 i (by omega)
  unfold orient
  by_cases he : i % 2 = 0
  · obtain ⟨e1, e2⟩ := even_index i (by omega) he
    rw [e1, e2, if_neg (fun hle => by have := hpar.1 hle; omega)]
  · obtain ⟨e1, e2⟩ := odd_index i (by omega) (by omega)
    rw [e1, e2, if_pos (hpar.2 (by omega))]

/-! ## The alignment loop -/

theorem alignLoop_spec (us vs : Nat → Nat) :
    ∀ (fuel a b nu1 nv1 : Nat), alignLoop us vs fuel a b = some (nu1, nv1) →
      ∃ k, nu1 = a + k ∧ nv1 = b + k ∧ us nu1 = vs nv1 ∧
        ∀ k1, k1 < k → us (a + k1) ≠ vs (b + k1) := by
  intro fuel
  induction fuel with
  | zero => intro a b nu1 nv1 h; simp [alignLoop] at h
  | succ fuel ih =>
    intro a b nu1 nv1 h
    unfold alignLoop rdPath at h
    by_cases ha : a < MAXPATHLEN
    · by_cases hb : b < MAXPATHLEN
      · simp only [if_pos ha, if_pos hb] at h
        by_cases he : us a ≠ vs b
        · rw [if_pos he] at h
          obtain ⟨k, h1, h2, h3, h4⟩ := ih _ _ _ _ h
          refine ⟨k + 1, by omega, by omega, h3, fun k1 hk1 => ?_⟩
          by_cases hk0 : k1 = 0
          · subst hk0; exact he
          · have := h4 (k1 - 1) (by omega)
            have e1 : a + 1 + (k1 - 1) = a + k1 := by omega
            have e2 : b + 1 + (k1 - 1) = b + k1 := by omega
            rw [e1, e2] at this
            exact this
        · rw [if_neg he] at h
          simp only [Option.some.injEq, Prod.mk.injEq] at h
          obtain ⟨rfl, rfl⟩ := h
          exact ⟨0, rfl, rfl, by simpa using he, fun k1 hk1 => by omega⟩
      · simp only [if_pos ha, if_neg hb] at h; cases h
    · simp only [if_neg ha] at h; cases h

/-- The alignment loop of `worker` on two paths with a common root stops at their first
common node. -/
theorem align_first_common {P : Params} {c : cuckoo_hash} {us vs : Nat → Nat}
    {nu nv fuel nu1 nv1 : Nat} (hu : IsPath P c us nu) (hv : IsPath P c vs nv)
    (hroot : us nu = vs nv)
    (h : alignLoop us vs fuel (nu - (if nu < nv then nu else nv))
      (nv - (if nu < nv then nu else nv)) = some (nu1, nv1)) :
    nu1 ≤ nu ∧ nv1 ≤ nv ∧ us nu1 = vs nv1 ∧
      ∀ i j, i ≤ nu1 → j < nv1 → us i ≠ vs j := by
  have hm : (if nu < nv then nu else nv) ≤ nu ∧ (if nu < nv then nu else nv) ≤ nv ∧
      ((if nu < nv then nu else nv) = nu ∨ (if nu < nv then nu else nv) = nv) := by
    split <;> omega
  generalize (if nu < nv then nu else nv) = m at h hm
  obtain ⟨k, h1, h2, h3, h4⟩ := alignLoop_spec us vs _ _ _ _ _ h
  have hk : k ≤ m := by
    by_contra hlt
    have hne := h4 m (by omega)
    have e1 : nu - m + m = nu := by omega
    have e2 : nv - m + m = nv := by omega
    rw [e1, e2] at hne
    exact hne hroot
  refine ⟨by omega, by omega, h3, ?_⟩
  intro i j hi hj heq
  have hd := hu.same_depth hv (nu - i) i j rfl (by omega) (by omega) heq
  by_cases hin : i = nu1
  · subst hin
    rw [h3] at heq
    have := hv.injective (by omega) (by omega) heq
    omega
  · have hne := h4 (i - (nu - m)) (by omega)
    have e1 : nu - m + (i - (nu - m)) = i := by omega
    have e2 : nv - m + (i - (nu - m)) = j := by omega
    rw [e1, e2] at hne
    exact hne heq

/-! ## What the scan leaves -/

theorem scanStep_frame {P : Params} {h : Nat → Nat} {alive : shrinkingset} {soli x : Nat}
    {st0 st : ScanState} (hs : scanStep P h alive soli st0 x = some st) :
    st.sols.length = st0.sols.length ∧
      (∀ r, r ≠ soli → st.sols[r]? = st0.sols[r]?) ∧
      (∀ row, st0.sols[soli]? = some row →
        ∃ row1, st.sols[soli]? = some row1 ∧ row1.length = row.length) ∧
      st.cycle.Sublist st0.cycle ∧
      (alive.test x = some true → st0.cycle.Nodup → nonceEdge P h x ∉ st.cycle) := by
  unfold scanStep at hs
  cases ht : alive.test x with
  | none => simp [ht] at hs
  | some b =>
    cases b with
    | false =>
      simp only [ht, Option.some.injEq] at hs
      subst hs
      exact ⟨rfl, fun _ _ => rfl, fun row hr => ⟨row, hr, rfl⟩, List.Sublist.refl _,
        fun hc => by cases hc⟩
    | true =>
      simp only [ht] at hs
      by_cases he : nonceEdge P h x ∈ st0.cycle
      · rw [if_pos he] at hs
        cases hws : writeSol st0.sols soli st0.n x with
        | none => simp [hws] at hs
        | some sols1 =>
          simp only [hws, Option.some.injEq] at hs
          subst hs
          obtain ⟨row, hrow, hn, rfl⟩ := writeSol_spec hws
          have hlt : soli < st0.sols.length := (List.getElem?_eq_some.1 hrow).1
          refine ⟨by simp, fun r hr => ?_, fun row0 hr0 => ?_, List.erase_sublist _ _,
            fun _ hnd => ?_⟩
          · simp only
            rw [List.getElem?_set_ne (fun h => hr h.symm)]
          · simp only
            rw [List.getElem?_set_self hlt]
            rw [hrow] at hr0
            cases hr0
            exact ⟨_, rfl, by simp⟩
          · simp only
            exact fun hmem => (List.Nodup.mem_erase_iff hnd).1 hmem |>.1 rfl
      · rw [if_neg he] at hs
        simp only [Option.some.injEq] at hs
        subst hs
        exact ⟨rfl, fun _ _ => rfl, fun row hr => ⟨row, hr, rfl⟩, List.Sublist.refl _,
          fun _ _ => he⟩

theorem scanNonces_frame (P : Params) (h : Nat → Nat) (alive : shrinkingset) (soli : Nat)
    (l : List Nat) : ∀ (st0 st : ScanState), scanNonces P h alive soli l st0 = some st →
      st.sols.length = st0.sols.length ∧
      (∀ r, r ≠ soli → st.sols[r]? = st0.sols[r]?) ∧
      (∀ row, st0.sols[soli]? = some row →
        ∃ row1, st.sols[soli]? = some row1 ∧ row1.length = row.length) ∧
      st.cycle.Sublist st0.cycle ∧
      (st0.cycle.Nodup → ∀ x ∈ l, alive.test x = some true → nonceEdge P h x ∉ st.cycle) := by
  induction l with
  | nil =>
    intro st0 st hs
    simp only [scanNonces, Option.some.injEq] at hs
    subst hs
    exact ⟨rfl, fun _ _ => rfl, fun row hr => ⟨row, hr, rfl⟩, List.Sublist.refl _,
      fun _ x hx => by simp at hx⟩
  | cons x rest ih =>
    intro st0 st hs
    simp only [scanNonces] at hs
    cases h1 : scanStep P h alive soli st0 x with
    | none => simp [h1] at hs
    | some st1 =>
      simp only [h1] at hs
      obtain ⟨a1, a2, a3, a4, a5⟩ := scanStep_frame h1
      obtain ⟨b1, b2, b3, b4, b5⟩ := ih st1 st hs
      refine ⟨b1.trans a1, fun r hr => (b2 r hr).trans (a2 r hr), fun row hr => ?_,
        b4.trans a4, fun hnd y hy hl => ?_⟩
      · obtain ⟨row1, hr1, hl1⟩ := a3 row hr
        obtain ⟨row2, hr2, hl2⟩ := b3 row1 hr1
        exact ⟨row2, hr2, hl2.trans hl1⟩
      · rcases List.mem_cons.1 hy with rfl | hy
        · exact fun hmem => a5 hl hnd (b4.subset hmem)
        · exact b5 (hnd.sublist a4) y hy hl

/-- When every edge of the (duplicate-free) cycle set is the edge of a live nonce of the
list, the scan empties the set and the edges of the written nonces are the cycle set. -/
theorem scanNonces_all_found (P : Params) (h : Nat → Nat) (alive : shrinkingset) (soli : Nat)
    (l : List Nat) (st0 st : ScanState) (hs : scanNonces P h alive soli l st0 = some st)
    (hnd : st0.cycle.Nodup)
    (hall : ∀ e ∈ st0.cycle, ∃ x ∈ l, alive.test x = some true ∧ nonceEdge P h x = e) :
    ∃ new : List Nat, new.Sublist l ∧ st.n = st0.n + new.length ∧
      writtenRow st.sols soli st.n = writtenRow st0.sols soli st0.n ++ new ∧
      (∀ x ∈ new, alive.test x = some true) ∧
      (new.map (nonceEdge P h)).Perm st0.cycle := by
  obtain ⟨new, hsub, hn, hw, hlive, hperm⟩ := scanNonces_spec P h alive soli l st0 st hs
  obtain ⟨-, -, -, hsubl, hnot⟩ := scanNonces_frame P h alive soli l st0 st hs
  have hempty : st.cycle = [] := by
    apply List.eq_nil_iff_forall_not_mem.2
    intro e he
    obtain ⟨x, hx, hl, hxe⟩ := hall e (hsubl.subset he)
    exact hnot hnd x hx hl (hxe ▸ he)
  rw [hempty, List.append_nil] at hperm
  exact ⟨new, hsub, hn, hw, hlive, hperm⟩

/-! ## The cycle closed by an edge -/

theorem joins_symm {e : edge} {a b : Nat} (h : joins e a b) : joins e b a := by
  rcases h with h | h
  · exact Or.inr h
  · exact Or.inl h

theorem joins_two {e : edge} {a b a1 b1 : Nat} (h : joins e a b) (h1 : joins e a1 b1) :
    (a = a1 ∧ b = b1) ∨ (a = b1 ∧ b = a1) := by
  rcases h with ⟨h2, h3⟩ | ⟨h2, h3⟩ <;> rcases h1 with ⟨h4, h5⟩ | ⟨h4, h5⟩
  · exact Or.inl ⟨h2.symm.trans h4, h3.symm.trans h5⟩
  · exact Or.inr ⟨h2.symm.trans h4, h3.symm.trans h5⟩
  · exact Or.inr ⟨h3.symm.trans h5, h2.symm.trans h4⟩
  · exact Or.inl ⟨h3.symm.trans h5, h2.symm.trans h4⟩

theorem succ_mod_cases (i L : Nat) (hi : i < L) :
    ((i + 1) % L = i + 1 ∧ i + 1 < L) ∨ ((i + 1) % L = 0 ∧ i + 1 = L) := by
  by_cases h : i + 1 = L
  · right; exact ⟨by rw [h, Nat.mod_self], h⟩
  · left; exact ⟨Nat.mod_eq_of_lt (by omega), by omega⟩

/-- The two path prefixes up to their first common node, closed by the edge between
their start nodes, form a simple cycle; `solution` builds exactly its edge set. -/
theorem cycle_geometry {P : Params} {h : Nat → Nat} {alive : shrinkingset} {easiness : Nat}
    {c : cuckoo_hash} (hc : MapInv P h alive easiness c) {us vs : Nat → Nat}
    {nu nv nu1 nv1 : Nat} (hu : IsPath P c us nu) (hv : IsPath P c vs nv)
    (hu0 : us 0 ≤ P.HALFSIZE) (hv0 : P.HALFSIZE < vs 0)
    (hd1 : lookup P c (us 0) ≠ vs 0) (hd2 : lookup P c (vs 0) ≠ us 0)
    (hnu1 : nu1 ≤ nu) (hnv1 : nv1 ≤ nv) (hmeet : us nu1 = vs nv1)
    (hdisj : ∀ i j, i ≤ nu1 → j < nv1 → us i ≠ vs j)
    {cyc : List edge} (hcyc : cycleSet us nu1 vs nv1 = some cyc) :
    cyc.Nodup ∧ cyc.length = nu1 + nv1 + 1 ∧
      (∀ e ∈ cyc, e = edge.mk (us 0) (vs 0) ∨
        ∃ n, n < easiness ∧ alive.test n = some true ∧ nonceEdge P h n = e) ∧
      ∀ edges : List edge, edges.Perm cyc → SimpleCycle edges := by
  obtain ⟨hnd, hmem⟩ := cycleSet_spec us vs nu1 nv1 cyc hcyc
  -- the cycle has at least three edges
  have hL3 : 3 ≤ nu1 + nv1 + 1 := by
    by_contra hlt
    have h1 : nu1 + nv1 ≤ 1 := by omega
    by_cases ha : nu1 = 0
    · by_cases hb : nv1 = 0
      · rw [ha, hb] at hmeet; omega
      · have hb1 : nv1 = 1 := by omega
        rw [ha, hb1] at hmeet
        exact hd2 ((hv.2.2.1 0 (by omega)).trans hmeet.symm)
    · have ha1 : nu1 = 1 := by omega
      have hb : nv1 = 0 := by omega
      rw [ha1, hb] at hmeet
      exact hd1 ((hu.2.2.1 0 (by omega)).trans hmeet)
  -- edges and nodes by position on the cycle
  let E : Nat → edge := fun i =>
    if i < nu1 then orient P (us i) (us (i + 1))
    else if i < nu1 + nv1 then orient P (vs (nu1 + nv1 - i - 1)) (vs (nu1 + nv1 - i))
    else edge.mk (us 0) (vs 0)
  let node : Nat → Nat := fun i => if i ≤ nu1 then us i else vs (nu1 + nv1 - i)
  have hEmem : ∀ e, e ∈ cyc ↔ ∃ i, i < nu1 + nv1 + 1 ∧ e = E i := by
    intro e
    rw [hmem e]
    constructor
    · rintro (he | ⟨i, hi, he⟩ | ⟨i, hi, he⟩)
      · exact ⟨nu1 + nv1, by omega, by
          simp only [E, if_neg (show ¬ nu1 + nv1 < nu1 by omega),
            if_neg (lt_irrefl (nu1 + nv1))]; exact he⟩
      · refine ⟨i, by omega, ?_⟩
        simp only [E, if_pos hi]
        rw [he, hu.edge_U hc hu0 (by omega)]
      · refine ⟨nu1 + nv1 - i - 1, by omega, ?_⟩
        have e1 : nu1 + nv1 - (nu1 + nv1 - i - 1) - 1 = i := by omega
        have e2 : nu1 + nv1 - (nu1 + nv1 - i - 1) = i + 1 := by omega
        simp only [E, if_neg (show ¬ nu1 + nv1 - i - 1 < nu1 by omega),
          if_pos (show nu1 + nv1 - i - 1 < nu1 + nv1 by omega), e1, e2, Nat.add_sub_cancel]
        rw [he, hv.edge_V hc hv0 (by omega)]
    · rintro ⟨i, hi, he⟩
      by_cases h1 : i < nu1
      · right; left
        refine ⟨i, h1, ?_⟩
        rw [he, hu.edge_U hc hu0 (by omega)]
        simp only [E, if_pos h1]
      · by_cases h2 : i < nu1 + nv1
        · right; right
          refine ⟨nu1 + nv1 - i - 1, by omega, ?_⟩
          rw [he, hv.edge_V hc hv0 (by omega)]
          have e2 : nu1 + nv1 - i - 1 + 1 = nu1 + nv1 - i := by omega
          simp only [E, if_neg h1, if_pos h2, e2]
        · left
          rw [he]
          simp only [E, if_neg h1, if_neg h2]
  have hjoin : ∀ i, i < nu1 + nv1 + 1 →
      joins (E i) (node i) (node ((i + 1) % (nu1 + nv1 + 1))) := by
    intro i hi
    by_cases h1 : i < nu1
    · have hm : (i + 1) % (nu1 + nv1 + 1) = i + 1 := Nat.mod_eq_of_lt (by omega)
      simp only [E, node, if_pos h1, hm, if_pos (show i ≤ nu1 by omega),
        if_pos (show i + 1 ≤ nu1 by omega)]
      exact orient_joins P _ _
    · by_cases h2 : i < nu1 + nv1
      · have hm : (i + 1) % (nu1 + nv1 + 1) = i + 1 := Nat.mod_eq_of_lt (by omega)
        have hni : node i = vs (nu1 + nv1 - i) := by
          by_cases h3 : i = nu1
          · simp only [node, h3, le_refl, if_true]
            rw [hmeet]; congr 1; omega
          · simp only [node, if_neg (show ¬ i ≤ nu1 by omega)]
        have hni1 : node (i + 1) = vs (nu1 + nv1 - i - 1) := by
          simp only [node, if_neg (show ¬ i + 1 ≤ nu1 by omega)]
          congr 1
        rw [hm, hni, hni1]
        simp only [E, if_neg h1, if_pos h2]
        have hj := orient_joins P (vs (nu1 + nv1 - i - 1)) (vs (nu1 + nv1 - i))
        exact joins_symm hj
      · have hiL : i = nu1 + nv1 := by omega
        have hm : (i + 1) % (nu1 + nv1 + 1) = 0 := by rw [hiL, Nat.mod_self]
        have hni : node i = vs 0 := by
          by_cases h3 : nv1 = 0
          · have : i = nu1 := by omega
            simp only [node, this, le_refl, if_true]
            rw [hmeet, h3]
          · simp only [node, if_neg (show ¬ i ≤ nu1 by omega)]
            congr 1; omega
        rw [hm, hni]
        simp only [E, node, if_neg h1, if_neg h2, Nat.zero_le, if_true]
        exact Or.inr ⟨rfl, rfl⟩
  have hninj : ∀ i j, i < nu1 + nv1 + 1 → j < nu1 + nv1 + 1 → node i = node j → i = j := by
    intro i j hi hj he
    by_cases h1 : i ≤ nu1
    · by_cases h2 : j ≤ nu1
      · simp only [node, if_pos h1, if_pos h2] at he
        exact hu.injective (by omega) (by omega) he
      · simp only [node, if_pos h1, if_neg h2] at he
        exact absurd he (hdisj i _ h1 (by omega))
    · by_cases h2 : j ≤ nu1
      · simp only [node, if_neg h1, if_pos h2] at he
        exact absurd he.symm (hdisj j _ h2 (by omega))
      · simp only [node, if_neg h1, if_neg h2] at he
        have := hv.injective (by omega) (by omega) he
        omega
  have hEinj : ∀ i j, i < nu1 + nv1 + 1 → j < nu1 + nv1 + 1 → E i = E j → i = j := by
    intro i j hi hj he
    have h1 := hjoin i hi
    have h2 := hjoin j hj
    rw [he] at h1
    have hmi : (i + 1) % (nu1 + nv1 + 1) < nu1 + nv1 + 1 := Nat.mod_lt _ (by omega)
    have hmj : (j + 1) % (nu1 + nv1 + 1) < nu1 + nv1 + 1 := Nat.mod_lt _ (by omega)
    rcases joins_two h1 h2 with ⟨h3, -⟩ | ⟨h3, h4⟩
    · exact hninj i j hi hj h3
    · have e1 := hninj _ _ hi hmj h3
      have e2 := hninj _ _ hmi hj h4
      rcases succ_mod_cases i _ hi with ⟨a1, a2⟩ | ⟨a1, a2⟩ <;>
        rcases succ_mod_cases j _ hj with ⟨b1, b2⟩ | ⟨b1, b2⟩ <;> omega
  have hperm : cyc.Perm ((List.range (nu1 + nv1 + 1)).map E) := by
    apply (List.perm_ext_iff_of_nodup hnd _).2
    · intro e
      rw [hEmem e, List.mem_map]
      constructor
      · rintro ⟨i, hi, he⟩; exact ⟨i, List.mem_range.2 hi, he.symm⟩
      · rintro ⟨i, hi, he⟩; exact ⟨i, List.mem_range.1 hi, he.symm⟩
    · apply List.Nodup.map_on _ (List.nodup_range _)
      intro x hx y hy hxy
      exact hEinj x y (List.mem_range.1 hx) (List.mem_range.1 hy) hxy
  have hlen : cyc.length = nu1 + nv1 + 1 := by
    rw [hperm.length_eq, List.length_map, List.length_range]
  refine ⟨hnd, hlen, ?_, ?_⟩
  · intro e he
    obtain ⟨i, hi, rfl⟩ := (hEmem e).1 he
    by_cases h1 : i < nu1
    · right
      obtain ⟨-, -, n, hn, hl, hne⟩ := hu.good hc (i := i) (by omega)
      exact ⟨n, hn, hl, by simp only [E, if_pos h1]; exact hne⟩
    · by_cases h2 : i < nu1 + nv1
      · right
        obtain ⟨-, -, n, hn, hl, hne⟩ := hv.good hc (i := nu1 + nv1 - i - 1) (by omega)
        refine ⟨n, hn, hl, ?_⟩
        have e2 : nu1 + nv1 - i - 1 + 1 = nu1 + nv1 - i := by omega
        rw [e2] at hne
        simp only [E, if_neg h1, if_pos h2]
        exact hne
      · left
        simp only [E, if_neg h1, if_neg h2]
  · intro edges hp
    have hel : edges.length = nu1 + nv1 + 1 := by rw [hp.length_eq, hlen]
    refine ⟨node, ?_, ?_, ?_⟩
    · rw [hel]; exact hninj
    · rw [hel]
      intro i hi
      exact ⟨E i, hp.symm.subset ((hEmem _).2 ⟨i, hi, rfl⟩), hjoin i hi⟩
    · rw [hel]
      intro e he
      obtain ⟨i, hi, rfl⟩ := (hEmem e).1 (hp.subset he)
      exact ⟨i, hi, hjoin i hi⟩

/-! ## Attaching a path keeps the map invariant -/

theorem GraphNode.lt_W32 {P : Params} (hP : P.Valid) (hk : KeysDistinct P) {x : Nat}
    (hx : GraphNode P x) : x < W32 :=
  lt_of_le_of_lt hx.2 (hk.size_lt_W32 hP)

theorem set_MapInv {P : Params} (hP : P.Valid) (hk : KeysDistinct P) {h : Nat → Nat}
    {alive : shrinkingset} {easiness : Nat} {c c1 : cuckoo_hash}
    (hc : MapInv P h alive easiness c) {k v fuel : Nat} (hkn : GraphNode P k)
    (hg : GoodPointer P h alive easiness k v) (hs : c.set P fuel k v = some c1) :
    MapInv P h alive easiness c1 ∧ lookup P c1 k = v ∧
      ∀ x, GraphNode P x → x ≠ k → lookup P c1 x = lookup P c x := by
  have hv := hg.1
  obtain ⟨hinv, hlk, hlo⟩ := set_sound hP (graph_KeySet hk) hc.table hkn (hv.lt_W32 hP hk)
    (by have := hv.1; omega) hs
  refine ⟨⟨hinv, fun x hx hne => ?_⟩, hlk, hlo⟩
  by_cases hxk : x = k
  · subst hxk; rw [hlk]; exact hg
  · rw [hlo x hx hxk] at hne ⊢
    exact hc.good x hx hne

theorem reversePath_MapInv {P : Params} (hP : P.Valid) (hk : KeysDistinct P) {h : Nat → Nat}
    {alive : shrinkingset} {easiness : Nat} (fuel : Nat) (us : Nat → Nat) :
    ∀ (n : Nat) (c c1 : cuckoo_hash), MapInv P h alive easiness c →
      (∀ i, i < n → GraphNode P (us (i + 1)) ∧
        GoodPointer P h alive easiness (us (i + 1)) (us i)) →
      reversePath P fuel us n c = some c1 → MapInv P h alive easiness c1 := by
  intro n
  induction n with
  | zero =>
    intro c c1 hc _ hr
    simp only [reversePath, Option.some.injEq] at hr
    subst hr
    exact hc
  | succ n ih =>
    intro c c1 hc hgood hr
    unfold reversePath rdPath at hr
    by_cases h1 : n + 1 < MAXPATHLEN
    · have h2 : n < MAXPATHLEN := by omega
      simp only [if_pos h1, if_pos h2] at hr
      cases hs : c.set P fuel (us (n + 1)) (us n) with
      | none => simp [hs] at hr
      | some c2 =>
        simp only [hs] at hr
        obtain ⟨hg1, hg2⟩ := hgood n (by omega)
        have hc2 := (set_MapInv hP hk hc hg1 hg2 hs).1
        exact ih c2 c1 hc2 (fun i hi => hgood i (by omega)) hr
    · simp only [if_neg h1] at hr
      cases hr

/-- The attach branch of a cycle-finder step keeps the map invariant. -/
theorem attach_MapInv {P : Params} (hP : P.Valid) (hk : KeysDistinct P) {h : Nat → Nat}
    {alive : shrinkingset} {easiness : Nat} {c c1 : cuckoo_hash}
    (hc : MapInv P h alive easiness c) {us : Nat → Nat} {nu fuel k v : Nat}
    (hu : IsPath P c us nu) (hkn : GraphNode P k)
    (hg : GoodPointer P h alive easiness k v)
    (hr : (reversePath P fuel us nu c).bind (fun c => c.set P fuel k v) = some c1) :
    MapInv P h alive easiness c1 ∧ lookup P c1 k = v := by
  cases h1 : reversePath P fuel us nu c with
  | none => simp [h1] at hr
  | some c2 =>
    rw [h1, Option.some_bind] at hr
    have hc2 := reversePath_MapInv hP hk fuel us nu c c2 hc (fun i hi =>
      ⟨hu.2.1 (i + 1) (by omega), (hu.good hc hi).symm (hu.2.1 i (by omega))⟩) h1
    obtain ⟨h3, h4, -⟩ := set_MapInv hP hk hc2 hkn hg hr
    exact ⟨h3, h4⟩

/-! ## Slots used by the cycle finder -/

/-- A `set` fills at most one empty slot, and none when the key is stored. -/
theorem set_used {P : Params} (hP : P.Valid) {S : Nat → Prop} (hS : KeySet P S)
    {c c1 : cuckoo_hash} (hc : TableInv P S c) {u v fuel : Nat} (hu : S u) (hv : v < W32)
    (hv0 : v ≠ 0) (h : c.set P fuel u v = some c1) :
    c1.used ≤ c.used + 1 ∧ (lookup P c u ≠ 0 → c1.used = c.used) := by
  obtain ⟨i, hstop, rfl⟩ := set_stop hP (hS.home u hu) h
  have hstop1 := hstop
  obtain ⟨j, -, ⟨w, hwi, hs⟩, -⟩ := hstop1
  have hn0 := niew_ne_zero P hP u v hv hv0
  have hused := used_set c.cuckoo i w (niew P u v) hwi hn0
  unfold cuckoo_hash.used
  simp only
  rw [hused]
  constructor
  · split <;> omega
  · intro hl
    obtain ⟨i1, w1, hw1, h10, hk1⟩ := lookup_ne_zero_stored hl
    have hi := (hc.stored_stop hu hw1 h10 hk1).unique hstop
    subst hi
    rw [hwi] at hw1
    cases hw1
    rw [if_neg h10, Nat.add_zero]

theorem reversePath_used {P : Params} (hP : P.Valid) (hk : KeysDistinct P) {h : Nat → Nat}
    {alive : shrinkingset} {easiness : Nat} (fuel : Nat) (us : Nat → Nat) :
    ∀ (n : Nat) (c c1 : cuckoo_hash), MapInv P h alive easiness c →
      (∀ i, i < n → GraphNode P (us (i + 1)) ∧
        GoodPointer P h alive easiness (us (i + 1)) (us i)) →
      (∀ i j, i ≤ n → j ≤ n → us i = us j → i = j) →
      (∀ i, 1 ≤ i → i ≤ n → lookup P c (us i) ≠ 0) →
      reversePath P fuel us n c = some c1 →
      c1.used = c.used ∧
        ∀ x, GraphNode P x → (∀ i, 1 ≤ i → i ≤ n → x ≠ us i) →
          lookup P c1 x = lookup P c x := by
  intro n
  induction n with
  | zero =>
    intro c c1 hc _ _ _ hr
    simp only [reversePath, Option.some.injEq] at hr
    subst hr
    exact ⟨rfl, fun _ _ _ => rfl⟩
  | succ n ih =>
    intro c c1 hc hgood hinj hst hr
    unfold reversePath rdPath at hr
    by_cases h1 : n + 1 < MAXPATHLEN
    · have h2 : n < MAXPATHLEN := by omega
      simp only [if_pos h1, if_pos h2] at hr
      cases hs : c.set P fuel (us (n + 1)) (us n) with
      | none => simp [hs] at hr
      | some c2 =>
        simp only [hs] at hr
        obtain ⟨hg1, hg2⟩ := hgood n (by omega)
        obtain ⟨hc2, -, hlo⟩ := set_MapInv hP hk hc hg1 hg2 hs
        have hv := hg2.1
        have hu2 := (set_used hP (graph_KeySet hk) hc.table hg1 (hv.lt_W32 hP hk)
          (by have := hv.1; omega) hs).2 (hst (n + 1) (by omega) (by omega))
        have hnode : ∀ i, 1 ≤ i → i ≤ n → GraphNode P (us i) := by
          intro i h1i hin
          have := (hgood (i - 1) (by omega)).1
          rwa [Nat.sub_add_cancel h1i] at this
        have hst2 : ∀ i, 1 ≤ i → i ≤ n → lookup P c2 (us i) ≠ 0 := by
          intro i h1i hin
          have hne : us i ≠ us (n + 1) := fun he => by
            have := hinj i (n + 1) (by omega) (by omega) he
            omega
          rw [hlo (us i) (hnode i h1i hin) hne]
          exact hst i h1i (by omega)
        obtain ⟨hu3, hlo3⟩ := ih c2 c1 hc2 (fun i hi => hgood i (by omega))
          (fun i j hi hj he => hinj i j (by omega) (by omega) he) hst2 hr
        refine ⟨hu3.trans hu2, fun x hx hxn => ?_⟩
        rw [hlo3 x hx (fun i h1i hin => hxn i h1i (by omega))]
        exact hlo x hx (hxn (n + 1) (by omega) (by omega))
    · simp only [if_neg h1] at hr
      cases hr

/-- The attach branch of a cycle-finder step fills at most one empty slot: the reversed
pointers overwrite stored keys except for the root of the path. -/
theorem attach_used {P : Params} (hP : P.Valid) (hk : KeysDistinct P) {h : Nat → Nat}
    {alive : shrinkingset} {easiness : Nat} {c c1 : cuckoo_hash}
    (hc : MapInv P h alive easiness c) {us : Nat → Nat} {nu fuel k v : Nat}
    (hu : IsPath P c us nu) (hk0 : us 0 = k)
    (hg : GoodPointer P h alive easiness k v)
    (hr : (reversePath P fuel us nu c).bind (fun c => c.set P fuel k v) = some c1) :
    c1.used ≤ c.used + 1 := by
  have hS := graph_KeySet hk
  have hkn : GraphNode P k := by rw [← hk0]; exact hu.2.1 0 (Nat.zero_le _)
  have hv := hg.1
  have hvlt := hv.lt_W32 hP hk
  have hv0 : v ≠ 0 := by have := hv.1; omega
  have hgood : ∀ i, i < nu → GraphNode P (us (i + 1)) ∧
      GoodPointer P h alive easiness (us (i + 1)) (us i) := fun i hi =>
    ⟨hu.2.1 (i + 1) (by omega), (hu.good hc hi).symm (hu.2.1 i (by omega))⟩
  have hstored : ∀ i, i < nu → lookup P c (us i) ≠ 0 := by
    intro i hi
    rw [hu.2.2.1 i hi]
    have := (hu.2.1 (i + 1) (by omega)).1
    omega
  cases nu with
  | zero =>
    simp only [reversePath, Option.some_bind] at hr
    exact (set_used hP hS hc.table hkn hvlt hv0 hr).1
  | succ n =>
    cases h1 : reversePath P fuel us (n + 1) c with
    | none => simp [h1] at hr
    | some c3 =>
      rw [h1, Option.some_bind] at hr
      have hc3 := reversePath_MapInv hP hk fuel us (n + 1) c c3 hc hgood h1
      unfold reversePath rdPath at h1
      have hb1 : n + 1 < MAXPATHLEN := hu.1
      have hb2 : n < MAXPATHLEN := by omega
      simp only [if_pos hb1, if_pos hb2] at h1
      cases hs : c.set P fuel (us (n + 1)) (us n) with
      | none => simp [hs] at h1
      | some c2 =>
        simp only [hs] at h1
        obtain ⟨hg1, hg2⟩ := hgood n (by omega)
        obtain ⟨hc2, -, hlo⟩ := set_MapInv hP hk hc hg1 hg2 hs
        have hvn := hg2.1
        have hu2 := (set_used hP hS hc.table hg1 (hvn.lt_W32 hP hk)
          (by have := hvn.1; omega) hs).1
        have hne : ∀ i, i ≤ n → us i ≠ us (n + 1) := fun i hi he => by
          have := hu.injective (by omega) (Nat.le_refl _) he
          omega
        have hst2 : ∀ i, 1 ≤ i → i ≤ n → lookup P c2 (us i) ≠ 0 := by
          intro i _ hin
          rw [hlo (us i) (hu.2.1 i (by omega)) (hne i hin)]
          exact hstored i (by omega)
        obtain ⟨hu3, hlo3⟩ := reversePath_used hP hk fuel us n c2 c3 hc2
          (fun i hi => hgood i (by omega))
          (fun i j hi hj he => hu.injective (by omega) (by omega) he) hst2 h1
        have hk3 : lookup P c3 k ≠ 0 := by
          rw [← hk0, hlo3 (us 0) (hu.2.1 0 (Nat.zero_le _)) (fun i h1i hin he => by
            have := hu.injective (Nat.zero_le _) (by omega) he
            omega), hlo (us 0) (hu.2.1 0 (Nat.zero_le _)) (hne 0 (Nat.zero_le _))]
          exact hstored 0 (by omega)
        have hu4 := (set_used hP hS hc3.table hkn hvlt hv0 hr).2 hk3
        omega

/-! ## A reported cycle is a valid solution -/

theorem solution_valid {P : Params} (hP : P.Valid) (hk : KeysDistinct P) {h : Nat → Nat}
    {c : cuckoo_hash} {ctx ctx1 : cuckoo_ctx} (hc : MapInv P h ctx.alive ctx.easiness c)
    {nonce : Nat} (hn : nonce < ctx.easiness) (hlive : ctx.alive.test nonce = some true)
    {us vs : Nat → Nat} {nu nv nu1 nv1 : Nat}
    (hu : IsPath P c us nu) (hv : IsPath P c vs nv)
    (hu0 : us 0 = nodeU P h nonce) (hv0 : vs 0 = nodeV P h nonce)
    (hd1 : lookup P c (us 0) ≠ vs 0) (hd2 : lookup P c (vs 0) ≠ us 0)
    (hnu1 : nu1 ≤ nu) (hnv1 : nv1 ≤ nv) (hmeet : us nu1 = vs nv1)
    (hdisj : ∀ i j, i ≤ nu1 → j < nv1 → us i ≠ vs j)
    (hlen : nu1 + nv1 + 1 = P.PROOFSIZE)
    (hrow : ∃ row, ctx.sols[ctx.nsols]? = some row ∧ row.length = P.PROOFSIZE)
    (hsol : solution P h ctx us nu1 vs nv1 = some ctx1) :
    ∃ sols1, ctx1 = { ctx with nsols := (ctx.nsols + 1) % W32, sols := sols1 } ∧
      sols1.length = ctx.sols.length ∧
      (∀ r, r ≠ ctx.nsols → sols1[r]? = ctx.sols[r]?) ∧
      ∃ row, sols1[ctx.nsols]? = some row ∧ ValidRow P h ctx.alive ctx.easiness row := by
  unfold solution at hsol
  cases hcs : cycleSet us nu1 vs nv1 with
  | none => simp [hcs] at hsol
  | some cyc =>
    simp only [hcs] at hsol
    cases hs : scanNonces P h ctx.alive ctx.nsols (List.range ctx.easiness)
        { sols := ctx.sols, n := 0, cycle := cyc } with
    | none => simp [hs] at hsol
    | some st =>
      simp only [hs, Option.some.injEq] at hsol
      have hUl := (nodeU_spec hP hk h nonce).2.2
      have hVl := (nodeV_spec hP hk h nonce).2.1
      obtain ⟨hnd, hclen, hedges, hcycle⟩ := cycle_geometry hc hu hv (by rw [hu0]; exact hUl)
        (by rw [hv0]; exact hVl) hd1 hd2 hnu1 hnv1 hmeet hdisj hcs
      have hall : ∀ e ∈ cyc, ∃ x ∈ List.range ctx.easiness,
          ctx.alive.test x = some true ∧ nonceEdge P h x = e := by
        intro e he
        rcases hedges e he with h1 | ⟨n, hn1, hl1, he1⟩
        · refine ⟨nonce, List.mem_range.2 hn, hlive, ?_⟩
          rw [h1, hu0, hv0, nonceEdge_eq]
        · exact ⟨n, List.mem_range.2 hn1, hl1, he1⟩
      obtain ⟨new, hsub, hnn, hw, hnl, hperm⟩ :=
        scanNonces_all_found P h ctx.alive ctx.nsols _ _ st hs hnd hall
      obtain ⟨f1, f2, f3, -, -⟩ := scanNonces_frame P h ctx.alive ctx.nsols _ _ st hs
      simp only at f1 f2 f3 hnn hw hperm
      obtain ⟨row0, hrow0, hrl0⟩ := hrow
      obtain ⟨row1, hrow1, hrl1⟩ := f3 row0 hrow0
      have hnewlen : new.length = P.PROOFSIZE := by
        have := hperm.length_eq
        rw [List.length_map] at this
        rw [this, hclen, hlen]
      have hrow1new : row1 = new := by
        have e1 : writtenRow st.sols ctx.nsols st.n = row1 := by
          unfold writtenRow
          rw [hrow1, hnn, Nat.zero_add, hnewlen]
          simp only [Option.getD_some]
          exact List.take_of_length_le (by omega)
        rw [← e1, hw]
        simp [writtenRow]
      refine ⟨st.sols, hsol.symm, f1, f2, row1, hrow1, ?_⟩
      rw [hrow1new]
      refine ⟨hnewlen, (range_pairwise_lt _).sublist hsub, fun n hn1 => ?_, ?_, ?_⟩
      · exact ⟨List.mem_range.1 (hsub.subset hn1), hnl n hn1⟩
      · exact hperm.nodup_iff.2 hnd
      · exact hcycle _ hperm

/-! ## One step of the cycle finder -/

theorem rdPath_of_lt {us : Nat → Nat} {i : Nat} (hi : i < MAXPATHLEN) :
    rdPath us i = some (us i) := by
  unfold rdPath; rw [if_pos hi]

/-- The outcomes of a cycle-finder step from a state that satisfies the invariant: a skip
of a duplicate edge, an end without any write to the context (abort in `path`, or a
cycle that is not reported), a reported cycle whose row is a valid solution, or an
attached edge. -/
theorem cycleBody_cases {P : Params} (hP : P.Valid) (hk : KeysDistinct P) {h : Nat → Nat}
    {alive : shrinkingset} {easiness : Nat} {w : WorkerState}
    (hw : WorkerInv P h alive easiness w) {fuel nonce : Nat} {r : Step WorkerState}
    (hn : nonce < easiness) (hlive : alive.test nonce = some true)
    (hstep : cycleBody P h fuel nonce w = some r) :
    ∃ c, w.ctx.cuckoo = some c ∧ MapInv P h alive easiness c ∧
      ((r = Step.next w ∧ (lookup P c (nodeU P h nonce) = nodeV P h nonce ∨
          lookup P c (nodeV P h nonce) = nodeU P h nonce)) ∨
       (r.state.ctx = w.ctx ∧ lookup P c (nodeU P h nonce) ≠ nodeV P h nonce ∧
          lookup P c (nodeV P h nonce) ≠ nodeU P h nonce) ∨
       (∃ sols1 us vs, r = Step.next
            { ctx := { w.ctx with nsols := (w.ctx.nsols + 1) % W32, sols := sols1 },
              us := us, vs := vs } ∧
          w.ctx.nsols < w.ctx.maxsols ∧ sols1.length = w.ctx.sols.length ∧
          (∀ i, i ≠ w.ctx.nsols → sols1[i]? = w.ctx.sols[i]?) ∧
          ∃ row, sols1[w.ctx.nsols]? = some row ∧ ValidRow P h alive easiness row) ∨
       (∃ c1 us vs, r = Step.next
            { ctx := { w.ctx with cuckoo := some c1 }, us := us, vs := vs } ∧
          MapInv P h alive easiness c1 ∧
          (lookup P c1 (nodeU P h nonce) = nodeV P h nonce ∨
            lookup P c1 (nodeV P h nonce) = nodeU P h nonce) ∧
          lookup P c (nodeU P h nonce) ≠ nodeV P h nonce ∧
          lookup P c (nodeV P h nonce) ≠ nodeU P h nonce ∧ c1.used ≤ c.used + 1)) := by
  obtain ⟨c, hcu, hc⟩ := hw.map
  refine ⟨c, hcu, hc, ?_⟩
  have hug := nodeU_graph hP hk h nonce
  have hvg := nodeV_graph hP hk h nonce
  have hS := graph_KeySet hk
  have hUdef : (sipedge_u P h nonce + 1) % W32 = nodeU P h nonce := rfl
  have hVdef : (sipedge_v P h nonce + (1 + P.HALFSIZE)) % W32 = nodeV P h nonce := rfl
  unfold cycleBody at hstep
  rw [hcu] at hstep
  simp only [hUdef, hVdef] at hstep
  cases hgu : c.get P fuel (nodeU P h nonce) with
  | none => rw [hgu] at hstep; cases hstep
  | some u =>
    cases hgv : c.get P fuel (nodeV P h nonce) with
    | none => rw [hgu, hgv] at hstep; cases hstep
    | some v =>
      rw [hgu, hgv] at hstep
      simp only at hstep
      have hu : u = lookup P c (nodeU P h nonce) := get_sound hP hS hc.table hug hgu
      have hv : v = lookup P c (nodeV P h nonce) := get_sound hP hS hc.table hvg hgv
      by_cases hdup : u = nodeV P h nonce ∨ v = nodeU P h nonce
      · rw [if_pos hdup] at hstep
        simp only [Option.some.injEq] at hstep
        left
        exact ⟨hstep.symm, by rw [← hu, ← hv]; exact hdup⟩
      · rw [if_neg hdup] at hstep
        have hd1 : lookup P c (nodeU P h nonce) ≠ nodeV P h nonce :=
          fun he => hdup (Or.inl (hu.trans he))
        have hd2 : lookup P c (nodeV P h nonce) ≠ nodeU P h nonce :=
          fun he => hdup (Or.inr (hv.trans he))
        cases hp1 : path P fuel c u (Function.update w.us 0 (nodeU P h nonce)) with
        | none => rw [hp1] at hstep; cases hstep
        | some r1 =>
          rw [hp1] at hstep
          cases r1 with
          | aborted =>
            simp only [Option.some.injEq] at hstep
            right; left
            rw [← hstep]
            exact ⟨rfl, hd1, hd2⟩
          | ret nu us =>
            simp only at hstep
            cases hp2 : path P fuel c v (Function.update w.vs 0 (nodeV P h nonce)) with
            | none => rw [hp2] at hstep; cases hstep
            | some r2 =>
              rw [hp2] at hstep
              cases r2 with
              | aborted =>
                simp only [Option.some.injEq] at hstep
                right; left
                rw [← hstep]
                exact ⟨rfl, hd1, hd2⟩
              | ret nv vs =>
                simp only at hstep
                rw [hu] at hp1
                rw [hv] at hp2
                obtain ⟨hpu, hu0⟩ := path_isPath hP hk hc hug hp1
                obtain ⟨hpv, hv0⟩ := path_isPath hP hk hc hvg hp2
                rw [rdPath_of_lt hpu.1, rdPath_of_lt hpv.1] at hstep
                simp only at hstep
                by_cases hroot : us nu = vs nv
                · rw [if_pos hroot] at hstep
                  cases hal : alignLoop us vs fuel (nu - if nu < nv then nu else nv)
                      (nv - if nu < nv then nu else nv) with
                  | none => rw [hal] at hstep; cases hstep
                  | some pr =>
                    obtain ⟨nu1, nv1⟩ := pr
                    rw [hal] at hstep
                    simp only at hstep
                    obtain ⟨hnu1, hnv1, hmeet, hdisj⟩ := align_first_common hpu hpv hroot hal
                    by_cases hrep : nu1 + nv1 + 1 = P.PROOFSIZE ∧ w.ctx.nsols < w.ctx.maxsols
                    · rw [if_pos hrep] at hstep
                      cases hsol : solution P h w.ctx us nu1 vs nv1 with
                      | none => rw [hsol] at hstep; cases hstep
                      | some ctx1 =>
                        rw [hsol] at hstep
                        simp only [Option.some.injEq] at hstep
                        have hrowex : ∃ row, w.ctx.sols[w.ctx.nsols]? = some row ∧
                            row.length = P.PROOFSIZE := by
                          have hlt : w.ctx.nsols < w.ctx.sols.length := by
                            rw [hw.sols_len]; exact hrep.2
                          exact ⟨_, List.getElem?_eq_getElem hlt,
                            hw.rows_len _ (List.getElem_mem _)⟩
                        have hc1 : MapInv P h w.ctx.alive w.ctx.easiness c := by
                          rw [hw.alive_eq, hw.easiness_eq]; exact hc
                        obtain ⟨sols1, e1, e2, e3, row, e4, e5⟩ := solution_valid hP hk hc1
                          (show nonce < w.ctx.easiness by rw [hw.easiness_eq]; exact hn)
                          (by rw [hw.alive_eq]; exact hlive) hpu hpv hu0 hv0
                          (by rw [hu0, hv0]; exact hd1) (by rw [hu0, hv0]; exact hd2)
                          hnu1 hnv1 hmeet hdisj hrep.1 hrowex hsol
                        right; right; left
                        refine ⟨sols1, us, vs, ?_, hrep.2, e2, e3, row, e4, ?_⟩
                        · rw [← hstep, e1]
                        · rw [hw.alive_eq, hw.easiness_eq] at e5; exact e5
                    · rw [if_neg hrep] at hstep
                      simp only [Option.some.injEq] at hstep
                      right; left
                      rw [← hstep]
                      exact ⟨rfl, hd1, hd2⟩
                · rw [if_neg hroot] at hstep
                  have hguv := goodPointer_nonce_uv hP hk h alive hn hlive
                  by_cases hlt : nu < nv
                  · rw [if_pos hlt] at hstep
                    cases hat : (reversePath P fuel us nu c).bind
                        (fun c => c.set P fuel (nodeU P h nonce) (nodeV P h nonce)) with
                    | none => rw [hat] at hstep; cases hstep
                    | some c1 =>
                      rw [hat] at hstep
                      simp only [Option.some.injEq] at hstep
                      obtain ⟨hc1, hl1⟩ := attach_MapInv hP hk hc hpu hug hguv hat
                      right; right; right
                      exact ⟨c1, us, vs, hstep.symm, hc1, Or.inl hl1, hd1, hd2,
                        attach_used hP hk hc hpu hu0 hguv hat⟩
                  · rw [if_neg hlt] at hstep
                    cases hat : (reversePath P fuel vs nv c).bind
                        (fun c => c.set P fuel (nodeV P h nonce) (nodeU P h nonce)) with
                    | none => rw [hat] at hstep; cases hstep
                    | some c1 =>
                      rw [hat] at hstep
                      simp only [Option.some.injEq] at hstep
                      obtain ⟨hc1, hl1⟩ := attach_MapInv hP hk hc hpv hvg (hguv.symm hug) hat
                      right; right; right
                      exact ⟨c1, us, vs, hstep.symm, hc1, Or.inr hl1, hd1, hd2,
                        attach_used hP hk hc hpv hv0 (hguv.symm hug) hat⟩

/-! ## The invariant through the cycle finder -/

theorem WorkerInv.of_ctx_eq {P : Params} {h : Nat → Nat} {alive : shrinkingset}
    {easiness : Nat} {w w1 : WorkerState} (hw : WorkerInv P h alive easiness w)
    (he : w1.ctx = w.ctx) : WorkerInv P h alive easiness w1 := by
  obtain ⟨a1, a2, a3, a4, a5, a6, a7, a8⟩ := hw
  refine ⟨?_, ?_, ?_, ?_, ?_, ?_, ?_, ?_⟩ <;> rw [he] <;> assumption

/-- A cycle-finder step keeps the invariant of the worker. -/
theorem cycleBody_inv {P : Params} (hP : P.Valid) (hk : KeysDistinct P) {h : Nat → Nat}
    {alive : shrinkingset} {easiness : Nat} {w : WorkerState}
    (hw : WorkerInv P h alive easiness w) {fuel nonce : Nat} {r : Step WorkerState}
    (hn : nonce < easiness) (hlive : alive.test nonce = some true)
    (hstep : cycleBody P h fuel nonce w = some r) :
    WorkerInv P h alive easiness r.state := by
  obtain ⟨c, hcu, hc, hcases⟩ := cycleBody_cases hP hk hw hn hlive hstep
  rcases hcases with ⟨rfl, -⟩ | ⟨he, -, -⟩ | ⟨sols1, us, vs, rfl, hlt, e2, e3, row, e4, e5⟩ |
    ⟨c1, us, vs, rfl, hc1, -, -, -⟩
  · exact hw
  · exact hw.of_ctx_eq he
  · have hmax := hw.maxsols_lt
    have hmod : (w.ctx.nsols + 1) % W32 = w.ctx.nsols + 1 := Nat.mod_eq_of_lt (by omega)
    refine ⟨hw.alive_eq, hw.easiness_eq, hw.map, ?_, ?_, ?_, hw.maxsols_lt, ?_⟩
    · simp only [Step.state]; rw [e2]; exact hw.sols_len
    · intro row1 hrow1
      simp only [Step.state] at hrow1
      obtain ⟨i, hi⟩ := List.mem_iff_getElem?.1 hrow1
      by_cases hin : i = w.ctx.nsols
      · subst hin
        rw [e4] at hi
        cases hi
        exact e5.1
      · rw [e3 i hin] at hi
        exact hw.rows_len _ (List.getElem?_mem hi)
    · simp only [Step.state]; rw [hmod]; omega
    · intro i hi
      simp only [Step.state] at hi ⊢
      rw [hmod] at hi
      by_cases hin : i = w.ctx.nsols
      · subst hin; exact ⟨row, e4, e5⟩
      · rw [e3 i hin]
        exact hw.rows_valid i (by omega)
  · exact ⟨hw.alive_eq, hw.easiness_eq, ⟨c1, rfl, hc1⟩, hw.sols_len, hw.rows_len,
      hw.nsols_le, hw.maxsols_lt, hw.rows_valid⟩

theorem cyclePhase_inv {P : Params} (hP : P.Valid) (hk : KeysDistinct P) {h : Nat → Nat}
    {w : WorkerState} (hw : WorkerInv P h w.ctx.alive w.ctx.easiness w) {id fuel : Nat}
    {out : Outcome} {ctx1 : cuckoo_ctx} (hrun : cyclePhase P h id fuel w = some (out, ctx1)) :
    ∃ w1 : WorkerState, w1.ctx = ctx1 ∧ WorkerInv P h w.ctx.alive w.ctx.easiness w1 := by
  unfold cyclePhase at hrun
  cases hl : FORALL_LIVE_NONCES (fun w : WorkerState => w.ctx.alive) (cycleBody P h fuel)
      w.ctx.easiness w.ctx.nthreads id fuel w with
  | none => rw [hl] at hrun; cases hrun
  | some r =>
    have hinv := FORALL_LIVE_NONCES_invariant (fun w : WorkerState => w.ctx.alive)
      (cycleBody P h fuel) w.ctx.easiness w.ctx.nthreads id fuel
      (fun a b => WorkerInv P h w.ctx.alive w.ctx.easiness a →
        WorkerInv P h w.ctx.alive w.ctx.easiness b)
      (fun _ ha => ha) (fun _ _ _ h1 h2 ha => h2 (h1 ha))
      (fun n s r1 hn hlive hb ha =>
        cycleBody_inv hP hk ha hn (by rw [← ha.alive_eq]; exact hlive) hb) w r hl hw
    rw [hl] at hrun
    cases r with
    | next w1 =>
      simp only [Option.some.injEq, Prod.mk.injEq] at hrun
      exact ⟨w1, hrun.2, hinv⟩
    | exit w1 =>
      simp only [Option.some.injEq, Prod.mk.injEq] at hrun
      exact ⟨w1, hrun.2, hinv⟩

/-! ## Trimming leaves the frame of the context alone -/

theorem trimSetBody_frame {P : Params} {side : Nat → Nat} {part n : Nat} {c : cuckoo_ctx}
    {r : Step cuckoo_ctx} (h : trimSetBody P side part n c = some r) :
    c.SameFrame r.state := by
  unfold trimSetBody at h
  simp only at h
  split at h
  · split at h
    · cases h
    · split at h
      · cases h
      · simp only [Option.some.injEq] at h; subst h
        exact ⟨rfl, rfl, rfl, rfl, rfl, rfl, rfl⟩
  · simp only [Option.some.injEq] at h; subst h; exact cuckoo_ctx.SameFrame.refl _

theorem trimKillBody_frame {P : Params} {side : Nat → Nat} {part id n : Nat}
    {c : cuckoo_ctx} {r : Step cuckoo_ctx} (h : trimKillBody P side part id n c = some r) :
    c.SameFrame r.state := by
  unfold trimKillBody at h
  simp only at h
  split at h
  · split at h
    · cases h
    · split at h
      · cases h
      · split at h
        · split at h
          · cases h
          · simp only [Option.some.injEq] at h; subst h
            exact ⟨rfl, rfl, rfl, rfl, rfl, rfl, rfl⟩
        · simp only [Option.some.injEq] at h; subst h; exact cuckoo_ctx.SameFrame.refl _
  · simp only [Option.some.injEq] at h; subst h; exact cuckoo_ctx.SameFrame.refl _

theorem trimHalf_frame {P : Params} {side : Nat → Nat} {part id fuel : Nat}
    {c c1 : cuckoo_ctx} (h : trimHalf P side part id fuel c = some c1) : c.SameFrame c1 := by
  have hrefl : ∀ s : cuckoo_ctx, s.SameFrame s := fun s => cuckoo_ctx.SameFrame.refl s
  have htrans : ∀ a b c : cuckoo_ctx, a.SameFrame b → b.SameFrame c → a.SameFrame c :=
    fun a b c h1 h2 => cuckoo_ctx.SameFrame.trans h1 h2
  unfold trimHalf at h
  simp only at h
  split at h
  · cases h
  · rename_i c0 hc0
    have h0 : c.SameFrame c0 := by
      split at hc0
      · split at hc0
        · cases hc0
        · rename_i nl hnl
          cases hr : nl.reset P with
          | none => simp [hr] at hc0
          | some nl1 =>
            simp only [hr, Option.map_some', Option.some.injEq] at hc0
            subst hc0
            exact ⟨rfl, rfl, rfl, rfl, rfl, rfl, rfl⟩
      · simp only [Option.some.injEq] at hc0; subst hc0; exact hrefl c
    split at h
    · cases h
    · rename_i r1 hr1
      split at h
      · cases h
      · rename_i r2 hr2
        simp only [Option.some.injEq] at h
        subst h
        have h1 : c0.SameFrame r1.state :=
          FORALL_LIVE_NONCES_invariant _ _ _ _ _ _ cuckoo_ctx.SameFrame hrefl htrans
            (fun n s r _ _ hb => trimSetBody_frame hb) _ _ hr1
        have h2 : r1.state.SameFrame r2.state :=
          FORALL_LIVE_NONCES_invariant _ _ _ _ _ _ cuckoo_ctx.SameFrame hrefl htrans
            (fun n s r _ _ hb => trimKillBody_frame hb) _ _ hr2
        exact htrans _ _ _ h0 (htrans _ _ _ h1 h2)

theorem trim_edges_frame {P : Params} {h : Nat → Nat} {id part fuel : Nat}
    {c c1 : cuckoo_ctx} (ht : trim_edges P h id part fuel c = some c1) : c.SameFrame c1 := by
  unfold trim_edges at ht
  cases h1 : trimHalf P (sipedge_u P h) part id fuel c with
  | none => simp [h1] at ht
  | some cm =>
    simp only [h1, Option.some_bind] at ht
    exact cuckoo_ctx.SameFrame.trans (trimHalf_frame h1) (trimHalf_frame ht)

theorem trimParts_frame {P : Params} {h : Nat → Nat} {id fuel : Nat} :
    ∀ (parts : List Nat) {c c1 : cuckoo_ctx},
      trimParts P h id fuel parts c = some c1 → c.SameFrame c1
  | [], c, c1, ht => by
    simp only [trimParts, Option.some.injEq] at ht; subst ht
    exact cuckoo_ctx.SameFrame.refl _
  | part :: rest, c, c1, ht => by
    simp only [trimParts] at ht
    cases h1 : trim_edges P h id part fuel c with
    | none => simp [h1] at ht
    | some cm =>
      simp only [h1] at ht
      exact cuckoo_ctx.SameFrame.trans (trim_edges_frame h1) (trimParts_frame rest ht)

theorem trimRounds_frame {P : Params} {h : Nat → Nat} {id fuel : Nat} :
    ∀ (rounds : Nat) {c c1 : cuckoo_ctx} {load load1 : Int},
      trimRounds P h id fuel rounds c load = some (c1, load1) → c.SameFrame c1
  | 0, c, c1, load, load1, ht => by
    simp only [trimRounds, Option.some.injEq, Prod.mk.injEq] at ht
    obtain ⟨rfl, -⟩ := ht
    exact cuckoo_ctx.SameFrame.refl _
  | rounds + 1, c, c1, load, load1, ht => by
    simp only [trimRounds] at ht
    cases h1 : trimParts P h id fuel (List.range (P.PART_MASK + 1)) c with
    | none => simp [h1] at ht
    | some cm =>
      simp only [h1] at ht
      exact cuckoo_ctx.SameFrame.trans (trimParts_frame _ h1) (trimRounds_frame rounds ht)

/-! ## Degrees on a simple cycle -/

theorem joins_unique {H : Nat} {e e1 : edge} {a b : Nat} (he : e.first ≤ H ∧ H < e.second)
    (he1 : e1.first ≤ H ∧ H < e1.second) (hj : joins e a b) (hj1 : joins e1 a b) : e = e1 := by
  cases e with
  | mk f s =>
    cases e1 with
    | mk f1 s1 =>
      simp only [joins] at hj hj1
      simp only at he he1
      simp only [edge.mk.injEq]
      rcases hj with ⟨h1, h2⟩ | ⟨h1, h2⟩ <;> rcases hj1 with ⟨h3, h4⟩ | ⟨h3, h4⟩ <;> omega

/-- On a simple cycle of pairwise different edges of a bipartite graph every node that
is an endpoint of an edge is an endpoint of exactly two of the edges. -/
theorem simpleCycle_degree {H : Nat} {edges : List edge} (hnd : edges.Nodup)
    (hbip : ∀ e ∈ edges, e.first ≤ H ∧ H < e.second) (hc : SimpleCycle edges) (x : Nat)
    (hx : ∃ e ∈ edges, e.first = x ∨ e.second = x) : degree edges x = 2 := by
  obtain ⟨node, hinj, hjoin, hcov⟩ := hc
  -- every endpoint is a node of the sequence
  have hnode : ∀ e ∈ edges, ∀ y, (e.first = y ∨ e.second = y) →
      ∃ i, i < edges.length ∧ joins e (node i) (node ((i + 1) % edges.length)) ∧
        (y = node i ∨ y = node ((i + 1) % edges.length)) := by
    intro e he y hy
    obtain ⟨i, hi, hj⟩ := hcov e he
    refine ⟨i, hi, hj, ?_⟩
    rcases hj with ⟨h1, h2⟩ | ⟨h1, h2⟩ <;> rcases hy with hy | hy <;> omega
  have hne : ∀ e ∈ edges, ∀ a b, joins e a b → a ≠ b := by
    intro e he a b hj
    have := hbip e he
    rcases hj with ⟨h1, h2⟩ | ⟨h1, h2⟩ <;> omega
  obtain ⟨e0, he0, hx0⟩ := hx
  have hLpos : 0 < edges.length := List.length_pos_of_mem he0
  have hmodlt : ∀ i, (i + 1) % edges.length < edges.length := fun i => Nat.mod_lt _ hLpos
  obtain ⟨k, hk, hxk⟩ : ∃ k, k < edges.length ∧ x = node k := by
    obtain ⟨i, hi, -, hy⟩ := hnode e0 he0 x hx0
    rcases hy with hy | hy
    · exact ⟨i, hi, hy⟩
    · exact ⟨_, hmodlt i, hy⟩
  -- the length is at least three
  have hL1 : edges.length ≠ 1 := by
    intro h1
    obtain ⟨e, he, hj⟩ := hjoin 0 (by omega)
    rw [h1] at hj
    exact hne e he _ _ hj rfl
  have hL2 : edges.length ≠ 2 := by
    intro h2
    obtain ⟨a, b, hab⟩ := List.length_eq_two.1 h2
    have key : ∀ e ∈ edges, joins e (node 0) (node 1) := by
      intro e he
      obtain ⟨i, hi, hj⟩ := hcov e he
      rw [h2] at hi hj
      have : i = 0 ∨ i = 1 := by omega
      rcases this with rfl | rfl
      · exact hj
      · exact joins_symm hj
    have ha : a ∈ edges := by rw [hab]; simp
    have hb : b ∈ edges := by rw [hab]; simp
    have := joins_unique (hbip a ha) (hbip b hb) (key a ha) (key b hb)
    rw [hab, this] at hnd
    simp at hnd
  have hL3 : 3 ≤ edges.length := by omega
  -- the two edges at `node k`
  obtain ⟨pk, hpk, hpk1, hpkne⟩ : ∃ pk, pk < edges.length ∧ (pk + 1) % edges.length = k ∧
      pk ≠ k ∧ (k + 1) % edges.length ≠ pk := by
    by_cases hk0 : k = 0
    · refine ⟨edges.length - 1, by omega, ?_, by omega, ?_⟩
      · have : edges.length - 1 + 1 = edges.length := by omega
        rw [this, Nat.mod_self, hk0]
      · rw [hk0, Nat.mod_eq_of_lt (by omega)]; omega
    · refine ⟨k - 1, by omega, ?_, by omega, ?_⟩
      · have : k - 1 + 1 = k := by omega
        rw [this, Nat.mod_eq_of_lt hk]
      · rcases succ_mod_cases k _ hk with ⟨h1, h2⟩ | ⟨h1, h2⟩ <;> omega
  obtain ⟨hpkne, hk1ne⟩ := hpkne
  obtain ⟨eA, heA, hjA⟩ := hjoin k hk
  obtain ⟨eB, heB, hjB⟩ := hjoin pk hpk
  rw [hpk1] at hjB
  have hk1k : (k + 1) % edges.length ≠ k := by
    rcases succ_mod_cases k _ hk with ⟨h1, h2⟩ | ⟨h1, h2⟩ <;> omega
  have hAB : eA ≠ eB := by
    intro hab
    rw [← hab] at hjB
    rcases joins_two hjA hjB with ⟨h1, h2⟩ | ⟨h1, h2⟩
    · exact hpkne (hinj _ _ hk hpk h1).symm
    · exact hk1ne (hinj _ _ (hmodlt k) hpk h2)
  -- the edges at `x` are exactly these two
  have hmem : ∀ e, e ∈ (edges.filter fun e => e.first == x || e.second == x) ↔
      e ∈ [eA, eB] := by
    intro e
    simp only [List.mem_filter, Bool.or_eq_true, beq_iff_eq, List.mem_cons, List.mem_singleton,
      List.not_mem_nil, or_false]
    constructor
    · rintro ⟨he, hex⟩
      obtain ⟨i, hi, hj, hy⟩ := hnode e he x hex
      rcases hy with hy | hy
      · have hik : i = k := hinj _ _ hi hk (by rw [← hy, hxk])
        subst hik
        exact Or.inl (joins_unique (hbip e he) (hbip eA heA) hj hjA)
      · have hik : (i + 1) % edges.length = k := hinj _ _ (hmodlt i) hk (by rw [← hy, hxk])
        have hip : i = pk := by
          rcases succ_mod_cases i _ hi with ⟨h1, h2⟩ | ⟨h1, h2⟩ <;>
            rcases succ_mod_cases pk _ hpk with ⟨h3, h4⟩ | ⟨h3, h4⟩ <;> omega
        subst hip
        rw [hik] at hj
        exact Or.inr (joins_unique (hbip e he) (hbip eB heB) hj hjB)
    · rintro (rfl | rfl)
      · refine ⟨heA, ?_⟩
        rcases hjA with ⟨h1, h2⟩ | ⟨h1, h2⟩
        · exact Or.inl (by rw [h1, hxk])
        · exact Or.inr (by rw [h2, hxk])
      · refine ⟨heB, ?_⟩
        rcases hjB with ⟨h1, h2⟩ | ⟨h1, h2⟩
        · exact Or.inr (by rw [h2, hxk])
        · exact Or.inl (by rw [h1, hxk])
  have hnd2 : [eA, eB].Nodup := by simp [hAB]
  have hperm := (List.perm_ext_iff_of_nodup (hnd.filter _) hnd2).2 hmem
  unfold degree
  rw [hperm.length_eq]
  rfl

/-! ## Solution validity -/

/-- C1: in a run of `worker` by the single thread 0, with the endpoint functions into
`[0, HALFSIZE)` and no two graph nodes agreeing modulo `2^KEYSHIFT`, every row written to
`sols` (the rows below the final `nsols`) holds exactly `PROOFSIZE` nonces, all below
`easiness` and live, ascending, whose edges `(1+U(n), 1+HALFSIZE+V(n))` are pairwise
different and form a simple cycle: a cyclic sequence of `PROOFSIZE` different nodes whose
consecutive nodes are joined by the edges, every node on it being an endpoint of exactly
two of the edges. -/
theorem solution_validity (P : Params) (h : Nat → Nat) (fuel : Nat) (ctx : cuckoo_ctx)
    (us0 vs0 : Nat → Nat) (out : Outcome) (ctx1 : cuckoo_ctx)
    (hP : P.Valid) (hk : KeysDistinct P) (hthreads : ctx.nthreads = 1)
    (hlen : ctx.sols.length = ctx.maxsols)
    (hrows : ∀ row ∈ ctx.sols, row.length = P.PROOFSIZE)
    (hmax : ctx.maxsols < W32) (hns : ctx.nsols = 0)
    (hrun : worker P h 0 fuel ctx us0 vs0 = some (out, ctx1)) :
    ∀ r, r < ctx1.nsols → ∃ row, ctx1.sols[r]? = some row ∧
      row.length = P.PROOFSIZE ∧ row.Pairwise (· < ·) ∧
      (∀ n ∈ row, n < ctx1.easiness ∧ ctx1.alive.test n = some true ∧
        nonceEdge P h n = edge.mk (1 + sipedge_u P h n) (1 + P.HALFSIZE + sipedge_v P h n)) ∧
      (row.map (nonceEdge P h)).Nodup ∧ (row.map (nonceEdge P h)).length = P.PROOFSIZE ∧
      SimpleCycle (row.map (nonceEdge P h)) ∧
      ∀ x, (∃ e ∈ row.map (nonceEdge P h), e.first = x ∨ e.second = x) →
        degree (row.map (nonceEdge P h)) x = 2 := by
  have _ := hthreads
  unfold worker at hrun
  cases ht : trimRounds P h 0 fuel ctx.ntrims ctx 100 with
  | none => rw [ht] at hrun; cases hrun
  | some p =>
    obtain ⟨c1, load⟩ := p
    rw [ht] at hrun
    simp only [true_and, if_true] at hrun
    obtain ⟨f1, f2, f3, f4, f5, f6, f7⟩ := trimRounds_frame _ ht
    split at hrun
    · simp only [Option.some.injEq, Prod.mk.injEq] at hrun
      obtain ⟨-, rfl⟩ := hrun
      intro r hr
      rw [f5, hns] at hr
      cases hr
    · have hw0 : WorkerInv P h c1.alive c1.easiness
          { ctx := { c1 with nonleaf := none, cuckoo := some (cuckoo_hash.new P) },
            us := us0, vs := vs0 } := by
        refine ⟨rfl, rfl, ⟨_, rfl, ⟨new_TableInv P _, fun x _ hne =>
          absurd (lookup_new P x) hne⟩⟩, ?_, ?_, ?_, ?_, ?_⟩
        · show c1.sols.length = c1.maxsols
          rw [f3, f4]; exact hlen
        · show ∀ row ∈ c1.sols, row.length = P.PROOFSIZE
          rw [f3]; exact hrows
        · show c1.nsols ≤ c1.maxsols
          rw [f5, hns]; exact Nat.zero_le _
        · show c1.maxsols < W32
          rw [f4]; exact hmax
        · intro r hr
          have : r < c1.nsols := hr
          rw [f5, hns] at this
          cases this
      obtain ⟨w1, he, hinv⟩ := cyclePhase_inv hP hk hw0 hrun
      subst he
      intro r hr
      obtain ⟨row, hrow, hl, hpw, hlive, hnd, hcyc⟩ := hinv.rows_valid r hr
      have hal : w1.ctx.alive = c1.alive := hinv.alive_eq
      have hea : w1.ctx.easiness = c1.easiness := hinv.easiness_eq
      refine ⟨row, hrow, hl, hpw, ?_, hnd, by rw [List.length_map, hl], hcyc, ?_⟩
      · intro n hn
        obtain ⟨h1, h2⟩ := hlive n hn
        refine ⟨by rw [hea]; exact h1, by rw [hal]; exact h2, ?_⟩
        rw [nonceEdge_eq, (nodeU_spec hP hk h n).1, (nodeV_spec hP hk h n).1]
        simp only [edge.mk.injEq]
        omega
      · have hb : ∀ e ∈ row.map (nonceEdge P h), e.first ≤ P.HALFSIZE ∧ P.HALFSIZE < e.second := by
          intro e he
          obtain ⟨n, -, rfl⟩ := List.mem_map.1 he
          rw [nonceEdge_eq]
          exact ⟨(nodeU_spec hP hk h n).2.2, (nodeV_spec hP hk h n).2.1⟩
        exact simpleCycle_degree hnd hb hcyc

theorem exParams_KeysDistinct : KeysDistinct exParams := by
  intro a b ha hb h
  have hk : exParams.KEYSHIFT = 15 := by decide
  have hs : exParams.SIZE = 512 := by decide
  unfold GraphNode at ha hb
  rw [hs] at ha hb
  rw [hk] at h
  have : (2 : Nat) ^ 15 = 32768 := by decide
  rw [this] at h
  omega

theorem solution_validity_witness :
    ∃ ctx1, worker exParams exHash 0 4 exCtx (fun _ => 0) (fun _ => 0) =
        some (Outcome.finished, ctx1) ∧ ctx1.nsols = 1 ∧ ctx1.sols[0]? = some [0, 1, 2, 3] ∧
      ∀ r, r < ctx1.nsols → ∃ row, ctx1.sols[r]? = some row ∧
        row.length = exParams.PROOFSIZE ∧ row.Pairwise (· < ·) ∧
        (∀ n ∈ row, n < ctx1.easiness ∧ ctx1.alive.test n = some true ∧
          nonceEdge exParams exHash n =
            edge.mk (1 + sipedge_u exParams exHash n)
              (1 + exParams.HALFSIZE + sipedge_v exParams exHash n)) ∧
        (row.map (nonceEdge exParams exHash)).Nodup ∧
        (row.map (nonceEdge exParams exHash)).length = exParams.PROOFSIZE ∧
        SimpleCycle (row.map (nonceEdge exParams exHash)) ∧
        ∀ x, (∃ e ∈ row.map (nonceEdge exParams exHash), e.first = x ∨ e.second = x) →
          degree (row.map (nonceEdge exParams exHash)) x = 2 :=
  ⟨{ easiness := 6, alive := { bits := [16], cnt := [5] }, nonleaf := none,
     cuckoo := some { cuckoo := [8421378, 0, 0, 0, 33025, 65794, 0, 0, 0] },
     sols := [[0, 1, 2, 3], [0, 0, 0, 0]], maxsols := 2, nsols := 1, nthreads := 1,
     ntrims := 1 },
   by decide, rfl, rfl,
   solution_validity exParams exHash 4 exCtx (fun _ => 0) (fun _ => 0) Outcome.finished _
     exParams_Valid exParams_KeysDistinct rfl rfl (by decide) (by decide) rfl (by decide)⟩

/-! ## Duplicate edges -/

theorem cycleBody_skip (P : Params) (h : Nat → Nat) (fuel nonce : Nat) (w : WorkerState)
    (c : cuckoo_hash) (u v : Nat) (hc : w.ctx.cuckoo = some c)
    (hu : c.get P fuel (nodeU P h nonce) = some u)
    (hv : c.get P fuel (nodeV P h nonce) = some v)
    (hd : u = nodeV P h nonce ∨ v = nodeU P h nonce) :
    cycleBody P h fuel nonce w = some (Step.next w) := by
  unfold cycleBody
  have hUdef : (sipedge_u P h nonce + 1) % W32 = nodeU P h nonce := rfl
  have hVdef : (sipedge_v P h nonce + (1 + P.HALFSIZE)) % W32 = nodeV P h nonce := rfl
  simp only [hc, hUdef, hVdef, hu, hv]
  rw [if_pos hd]

theorem cycleBody_gets {P : Params} {h : Nat → Nat} {fuel nonce : Nat} {w : WorkerState}
    {r : Step WorkerState} (hstep : cycleBody P h fuel nonce w = some r) :
    ∃ c u v, w.ctx.cuckoo = some c ∧ c.get P fuel (nodeU P h nonce) = some u ∧
      c.get P fuel (nodeV P h nonce) = some v := by
  unfold cycleBody at hstep
  have hUdef : (sipedge_u P h nonce + 1) % W32 = nodeU P h nonce := rfl
  have hVdef : (sipedge_v P h nonce + (1 + P.HALFSIZE)) % W32 = nodeV P h nonce := rfl
  simp only [hUdef, hVdef] at hstep
  cases hc : w.ctx.cuckoo with
  | none => simp [hc] at hstep
  | some c =>
    cases hu : c.get P fuel (nodeU P h nonce) with
    | none => simp [hc, hu] at hstep
    | some u =>
      cases hv : c.get P fuel (nodeV P h nonce) with
      | none => simp [hc, hu, hv] at hstep
      | some v => exact ⟨c, u, v, rfl, hu, hv⟩

/-- After a step that changed the map, the new map holds the edge of the nonce in one of
the two directions. -/
theorem cycleBody_attached {P : Params} (hP : P.Valid) (hk : KeysDistinct P) {h : Nat → Nat}
    {alive : shrinkingset} {easiness : Nat} {w w1 : WorkerState}
    (hw : WorkerInv P h alive easiness w) {fuel n : Nat}
    (hn : n < easiness) (hlive : alive.test n = some true)
    (hstep : cycleBody P h fuel n w = some (Step.next w1))
    (hatt : w1.ctx.cuckoo ≠ w.ctx.cuckoo) :
    ∃ c1, w1.ctx.cuckoo = some c1 ∧ MapInv P h alive easiness c1 ∧
      (lookup P c1 (nodeU P h n) = nodeV P h n ∨ lookup P c1 (nodeV P h n) = nodeU P h n) := by
  obtain ⟨c, hcu, hc, hcases⟩ := cycleBody_cases hP hk hw hn hlive hstep
  rcases hcases with ⟨he, -⟩ | ⟨he, -, -⟩ | ⟨sols1, us, vs, he, -⟩ | ⟨c1, us, vs, he, hc1, hl, -, -⟩
  · cases he; exact absurd rfl hatt
  · exact absurd (by rw [← he]; rfl) hatt
  · cases he; exact absurd rfl hatt
  · cases he; exact ⟨c1, rfl, hc1, hl⟩

/-! ## Room in the map during a run -/

theorem cycleBody_used {P : Params} (hP : P.Valid) (hk : KeysDistinct P) {h : Nat → Nat}
    {alive : shrinkingset} {easiness : Nat} {w : WorkerState}
    (hw : WorkerInv P h alive easiness w) {fuel nonce : Nat} {r : Step WorkerState}
    (hn : nonce < easiness) (hlive : alive.test nonce = some true)
    (hstep : cycleBody P h fuel nonce w = some r) :
    ∃ c c1, w.ctx.cuckoo = some c ∧ r.state.ctx.cuckoo = some c1 ∧ c1.used ≤ c.used + 1 := by
  obtain ⟨c, hcu, hc, hcases⟩ := cycleBody_cases hP hk hw hn hlive hstep
  rcases hcases with ⟨rfl, -⟩ | ⟨he, -, -⟩ | ⟨sols1, us, vs, rfl, -⟩ |
    ⟨c1, us, vs, rfl, -, -, -, -, hused⟩
  · exact ⟨c, c, hcu, hcu, Nat.le_succ _⟩
  · exact ⟨c, c, hcu, by rw [he]; exact hcu, Nat.le_succ _⟩
  · exact ⟨c, c, hcu, hcu, Nat.le_succ _⟩
  · exact ⟨c, c1, hcu, rfl, hused⟩

/-- Running the cycle finder over a list of nonces fills at most one slot per live nonce
of the list, and keeps the invariant. -/
theorem foldNonces_used {P : Params} (hP : P.Valid) (hk : KeysDistinct P) {h : Nat → Nat}
    {alive : shrinkingset} {easiness : Nat} (fuel : Nat) :
    ∀ (l : List Nat) (w : WorkerState) (r : Step WorkerState),
      WorkerInv P h alive easiness w → (∀ x ∈ l, x < easiness) →
      foldNonces (fun w : WorkerState => w.ctx.alive) (cycleBody P h fuel) l w = some r →
      WorkerInv P h alive easiness r.state ∧
        ∃ c c1, w.ctx.cuckoo = some c ∧ r.state.ctx.cuckoo = some c1 ∧
          c1.used ≤ c.used + (l.filter fun x => alive.test x == some true).length := by
  intro l
  induction l with
  | nil =>
    intro w r hw _ hr
    simp only [foldNonces, Option.some.injEq] at hr
    subst hr
    obtain ⟨c, hcu, -⟩ := hw.map
    exact ⟨hw, c, c, hcu, hcu, Nat.le_add_right _ _⟩
  | cons n rest ih =>
    intro w r hw hl hr
    have hn : n < easiness := hl n (List.mem_cons_self _ _)
    have hrest : ∀ x ∈ rest, x < easiness := fun x hx => hl x (List.mem_cons_of_mem _ hx)
    simp only [foldNonces, hw.alive_eq] at hr
    cases ht : alive.test n with
    | none => rw [ht] at hr; cases hr
    | some b =>
      rw [ht] at hr
      cases b with
      | false =>
        simp only at hr
        obtain ⟨h1, c, c1, h2, h3, h4⟩ := ih w r hw hrest hr
        refine ⟨h1, c, c1, h2, h3, ?_⟩
        rw [List.filter_cons_of_neg (by rw [ht]; decide)]
        exact h4
      | true =>
        simp only at hr
        have hfl : ((n :: rest).filter fun x => alive.test x == some true).length =
            (rest.filter fun x => alive.test x == some true).length + 1 := by
          rw [List.filter_cons_of_pos (by rw [ht]; rfl), List.length_cons]
        cases hb : cycleBody P h fuel n w with
        | none => rw [hb] at hr; cases hr
        | some r1 =>
          rw [hb] at hr
          have hinv := cycleBody_inv hP hk hw hn ht hb
          obtain ⟨c, c1, hc, hc1, hu1⟩ := cycleBody_used hP hk hw hn ht hb
          cases r1 with
          | exit s1 =>
            simp only [Option.some.injEq] at hr
            subst hr
            exact ⟨hinv, c, c1, hc, hc1, by rw [hfl]; omega⟩
          | next s1 =>
            simp only at hr
            obtain ⟨h1, c2, c3, h2, h3, h4⟩ := ih s1 r hinv hrest hr
            have : c2 = c1 := by
              have hc1s : s1.ctx.cuckoo = some c1 := hc1
              rw [h2] at hc1s
              exact Option.some.inj hc1s
            subst this
            exact ⟨h1, c, c3, hc, h3, by rw [hfl]; omega⟩

theorem live_filter_le (a : shrinkingset) (size : Nat) (l : List Nat) (hnd : l.Nodup)
    (hl : ∀ x ∈ l, x < size) :
    (l.filter fun x => a.test x == some true).length ≤ liveCount a size := by
  unfold liveCount
  apply List.Subperm.length_le
  apply List.subperm_of_subset (hnd.filter _)
  intro x hx
  rw [List.mem_filter] at hx ⊢
  exact ⟨List.mem_range.2 (hl x hx.1), hx.2⟩

theorem workerInv_start (P : Params) (h : Nat → Nat) (c : cuckoo_ctx) (us vs : Nat → Nat)
    (hc : c.cuckoo = some (cuckoo_hash.new P))
    (hlen : c.sols.length = c.maxsols) (hrows : ∀ row ∈ c.sols, row.length = P.PROOFSIZE)
    (hmax : c.maxsols < W32) (hns : c.nsols = 0) :
    WorkerInv P h c.alive c.easiness { ctx := c, us := us, vs := vs } := by
  refine ⟨rfl, rfl, ⟨_, hc, ⟨new_TableInv P _, fun x _ hne =>
    absurd (lookup_new P x) hne⟩⟩, hlen, hrows, ?_, hmax, ?_⟩
  · show c.nsols ≤ c.maxsols
    rw [hns]; exact Nat.zero_le _
  · intro r hr
    have : r < c.nsols := hr
    rw [hns] at this
    cases this

/-! ## The probe of `set` has no drift bound -/

theorem bigParams_Valid : bigParams.Valid := ⟨by decide, by decide⟩

theorem bigTable_low (j : Nat) (hj : j < 513) :
    bigTable.cuckoo[j]? = some (niew bigParams (j + 2) 1) := by
  unfold bigTable
  simp only
  rw [List.getElem?_append_left (by simp; exact hj), List.getElem?_map,
    List.getElem?_range hj]
  rfl

theorem bigTable_high (j : Nat) (h1 : 513 ≤ j) (h2 : j < 1025) :
    bigTable.cuckoo[j]? = some 0 := by
  unfold bigTable
  simp only
  rw [List.getElem?_append_right (by simp; exact h1)]
  simp only [List.length_map, List.length_range, List.getElem?_replicate]
  rw [if_pos (by omega)]

theorem bigTable_occupied (j : Nat) (hj : j < 513) :
    ∃ w, bigTable.cuckoo[(1 >>> bigParams.IDXSHIFT + j) % bigParams.CUCKOO_SIZE]? = some w ∧
      w ≠ 0 ∧ w % 2 ^ bigParams.KEYSHIFT ≠ 1 % 2 ^ bigParams.KEYSHIFT := by
  have hc : bigParams.CUCKOO_SIZE = 1025 := by decide
  have hi : 1 >>> bigParams.IDXSHIFT = 0 := by decide
  have hk : bigParams.KEYSHIFT = 15 := by decide
  have hW : (1 : Nat) < W32 := by decide
  rw [hc, hi, Nat.zero_add, Nat.mod_eq_of_lt (by omega)]
  refine ⟨_, bigTable_low j hj, niew_ne_zero bigParams bigParams_Valid _ 1 hW (by decide), ?_⟩
  rw [niew_key bigParams bigParams_Valid _ 1 hW, hk]
  have : (2 : Nat) ^ 15 = 32768 := by decide
  rw [this]
  omega

/-- In `bigTable` the call `set(1, 1)` starts at slot 0 and finds the slots 0..512
occupied by other keys: 513 probes do not end it, and with the 514th probe it stores
at slot 513, a drift of 513 > `1 << CLUMPSHIFT` = 512, and returns normally. -/
theorem probe_beyond_clump :
    1 <<< CLUMPSHIFT = 512 ∧ 1 >>> bigParams.IDXSHIFT = 0 ∧
      cuckoo_hash.set bigParams 513 bigTable 1 1 = none ∧
      cuckoo_hash.set bigParams 514 bigTable 1 1 =
        some { cuckoo := bigTable.cuckoo.set 513 (niew bigParams 1 1) } := by
  have hc : bigParams.CUCKOO_SIZE = 1025 := by decide
  have hi : 1 >>> bigParams.IDXSHIFT = 0 := by decide
  have hstart : 1 >>> bigParams.IDXSHIFT =
      (1 >>> bigParams.IDXSHIFT + 0) % bigParams.CUCKOO_SIZE := by rw [hi, hc]
  refine ⟨by decide, hi, ?_, ?_⟩
  · unfold cuckoo_hash.set
    rw [setLoop_eq_probe]
    cases hp : probeLoop bigParams bigTable 1 513 (1 >>> bigParams.IDXSHIFT) with
    | none => rfl
    | some i =>
      rw [hstart] at hp
      obtain ⟨j, -, hj, hij, ⟨w, hw, hs⟩, -⟩ :=
        probe_sound bigParams bigParams_Valid bigTable 1 _ 513 0 i hp
      obtain ⟨w1, hw1, h0, hk⟩ := bigTable_occupied j (by omega)
      rw [← hij, hw] at hw1
      cases hw1
      rcases hs with hs | hs
      · exact absurd hs h0
      · exact absurd hs hk
  · unfold cuckoo_hash.set
    rw [setLoop_eq_probe, hstart]
    have h513 : (1 >>> bigParams.IDXSHIFT + 513) % bigParams.CUCKOO_SIZE = 513 := by
      rw [hi, hc]
    have hp := probe_complete bigParams bigParams_Valid bigTable 1
      (1 >>> bigParams.IDXSHIFT) 514 0 513 (Nat.zero_le _) (by omega)
      ⟨0, by rw [h513]; exact bigTable_high 513 (Nat.le_refl _) (by omega), Or.inl rfl⟩
      (fun j1 _ hj1 => bigTable_occupied j1 hj1)
    rw [hp, h513]
    rfl

/-- C11, as amended: on a table of `CUCKOO_SIZE` slots, `set(u, v)` with its start slot
`u >> IDXSHIFT` in the table examines the slots from the start slot on, wrapping at
`CUCKOO_SIZE`, and stores at the first one that is empty or holds the key bits of `u`, at
most `CUCKOO_SIZE - 1` positions past the start; it returns whenever there is such a slot
(within `CUCKOO_SIZE` probes) and never returns when there is none.  There is no bound
`1 << CLUMPSHIFT` on the drift and no failure exit. -/
theorem set_probes_to_first_free (P : Params) (hP : P.Valid) (c : cuckoo_hash) (u v : Nat)
    (hlen : c.cuckoo.length = P.CUCKOO_SIZE) (hhome : u >>> P.IDXSHIFT < P.CUCKOO_SIZE) :
    (∀ fuel c1, c.set P fuel u v = some c1 →
      ∃ j, j < fuel ∧ j < P.CUCKOO_SIZE ∧
        c1 = { cuckoo := c.cuckoo.set ((u >>> P.IDXSHIFT + j) % P.CUCKOO_SIZE) (niew P u v) } ∧
        (∃ w, c.cuckoo[(u >>> P.IDXSHIFT + j) % P.CUCKOO_SIZE]? = some w ∧
          (w = 0 ∨ (u ^^^ w) &&& P.KEYMASK = 0)) ∧
        ∀ j1, j1 < j → ∃ w, c.cuckoo[(u >>> P.IDXSHIFT + j1) % P.CUCKOO_SIZE]? = some w ∧
          w ≠ 0 ∧ (u ^^^ w) &&& P.KEYMASK ≠ 0) ∧
    ((∃ (i w : Nat), c.cuckoo[i]? = some w ∧ (w = 0 ∨ (u ^^^ w) &&& P.KEYMASK = 0)) →
      ∀ fuel, P.CUCKOO_SIZE ≤ fuel → ∃ c1, c.set P fuel u v = some c1) ∧
    ((∀ (i w : Nat), c.cuckoo[i]? = some w → w ≠ 0 ∧ (u ^^^ w) &&& P.KEYMASK ≠ 0) →
      ∀ fuel, c.set P fuel u v = none) := by
  have hstart : u >>> P.IDXSHIFT = (u >>> P.IDXSHIFT + 0) % P.CUCKOO_SIZE := by
    rw [Nat.add_zero, Nat.mod_eq_of_lt hhome]
  have hsound : ∀ fuel c1, c.set P fuel u v = some c1 →
      ∃ j, j < fuel ∧ j < P.CUCKOO_SIZE ∧
        c1 = { cuckoo := c.cuckoo.set ((u >>> P.IDXSHIFT + j) % P.CUCKOO_SIZE) (niew P u v) } ∧
        (∃ w, c.cuckoo[(u >>> P.IDXSHIFT + j) % P.CUCKOO_SIZE]? = some w ∧
          (w = 0 ∨ w % 2 ^ P.KEYSHIFT = u % 2 ^ P.KEYSHIFT)) ∧
        ∀ j1, j1 < j → ∃ w, c.cuckoo[(u >>> P.IDXSHIFT + j1) % P.CUCKOO_SIZE]? = some w ∧
          w ≠ 0 ∧ w % 2 ^ P.KEYSHIFT ≠ u % 2 ^ P.KEYSHIFT := by
    intro fuel c1 hs
    unfold cuckoo_hash.set at hs
    rw [setLoop_eq_probe] at hs
    cases hp : probeLoop P c u fuel (u >>> P.IDXSHIFT) with
    | none => rw [hp] at hs; cases hs
    | some i =>
      rw [hp] at hs
      simp only [Option.map_some', Option.some.injEq] at hs
      rw [hstart] at hp
      obtain ⟨j, -, hj, hij, hslot, hb⟩ := probe_sound P hP c u _ fuel 0 i hp
      have hjc : j < P.CUCKOO_SIZE := by
        by_contra hge
        obtain ⟨w1, hw1, h0, hk⟩ := hb (j - P.CUCKOO_SIZE) (Nat.zero_le _)
          (by have := CUCKOO_SIZE_pos P; omega)
        have e : (u >>> P.IDXSHIFT + (j - P.CUCKOO_SIZE)) % P.CUCKOO_SIZE =
            (u >>> P.IDXSHIFT + j) % P.CUCKOO_SIZE := by
          have e1 : u >>> P.IDXSHIFT + j =
              u >>> P.IDXSHIFT + (j - P.CUCKOO_SIZE) + P.CUCKOO_SIZE := by omega
          rw [e1, Nat.add_mod_right]
        obtain ⟨w, hw, hs2⟩ := hslot
        rw [e, ← hij, hw] at hw1
        cases hw1
        rcases hs2 with hs2 | hs2
        · exact h0 hs2
        · exact hk hs2
      refine ⟨j, by omega, hjc, ?_, ?_, fun j1 hj1 => hb j1 (Nat.zero_le _) hj1⟩
      · rw [← hij]; exact hs.symm
      · rw [← hij]; exact hslot
  refine ⟨?_, ?_, ?_⟩
  · intro fuel c1 hs
    obtain ⟨j, h1, h2, h3, ⟨w, hw, hsw⟩, hb⟩ := hsound fuel c1 hs
    refine ⟨j, h1, h2, h3, ⟨w, hw, ?_⟩, fun j1 hj1 => ?_⟩
    · rw [key_match_iff]; exact hsw
    · obtain ⟨w1, hw1, h0, hk⟩ := hb j1 hj1
      exact ⟨w1, hw1, h0, fun hm => hk ((key_match_iff P u w1).1 hm)⟩
  · rintro ⟨i, w, hw, hsw⟩ fuel hf
    rw [key_match_iff] at hsw
    obtain ⟨i1, hstop⟩ := exists_probeStop hlen hhome ⟨i, w, hw, hsw⟩
    exact ⟨_, set_of_stop hP hstop hhome hlen hf⟩
  · intro hall fuel
    cases hs : c.set P fuel u v with
    | none => rfl
    | some c1 =>
      obtain ⟨j, -, -, -, ⟨w, hw, hsw⟩, -⟩ := hsound fuel c1 hs
      obtain ⟨h0, hk⟩ := hall _ w hw
      rcases hsw with hsw | hsw
      · exact absurd hsw h0
      · exact absurd ((key_match_iff P u w).2 hsw) hk

theorem set_probes_to_first_free_witness :
    exParams.Valid ∧ (cuckoo_hash.new exParams).cuckoo.length = exParams.CUCKOO_SIZE ∧
      70 >>> exParams.IDXSHIFT < exParams.CUCKOO_SIZE ∧
      ∃ c1, (cuckoo_hash.new exParams).set exParams 9 70 3 = some c1 :=
  ⟨exParams_Valid, by decide, by decide,
    (set_probes_to_first_free exParams exParams_Valid (cuckoo_hash.new exParams) 70 3
      (by decide) (by decide)).2.1 ⟨0, 0, by decide, Or.inl rfl⟩ 9 (by decide)⟩

/-! ## Node biasing -/

/-- For `EDGEBITS <= 30` the biased nodes of every nonce are non-zero and different. -/
theorem node_bias_below_31 (P : Params) (h : Nat → Nat) (n : Nat) (hE : P.EDGEBITS ≤ 30) :
    nodeU P h n = sipedge_u P h n + 1 ∧ nodeV P h n = sipedge_v P h n + 1 + P.HALFSIZE ∧
      nodeU P h n ≠ 0 ∧ nodeV P h n ≠ 0 ∧ nodeU P h n ≠ nodeV P h n := by
  have h1 := sipedge_u_lt P h n
  have h2 := sipedge_v_lt P h n
  have h3 : P.HALFSIZE ≤ 2 ^ 30 := Nat.pow_le_pow_right (by decide) hE
  have h4 : (2 : Nat) ^ 30 = 1073741824 := by decide
  have eU : nodeU P h n = sipedge_u P h n + 1 := by
    unfold nodeU; exact Nat.mod_eq_of_lt (by rw [W32_eq]; omega)
  have eV : nodeV P h n = sipedge_v P h n + 1 + P.HALFSIZE := by
    unfold nodeV
    rw [Nat.mod_eq_of_lt (by rw [W32_eq]; omega)]
    omega
  rw [eU, eV]
  exact ⟨rfl, rfl, by omega, by omega, by omega⟩

/-- For `EDGEBITS <= 31` the biased U node is non-zero and differs from the biased V
node. -/
theorem node_bias_u (P : Params) (h : Nat → Nat) (n : Nat) (hE : P.EDGEBITS ≤ 31) :
    nodeU P h n ≠ 0 ∧ nodeU P h n ≠ nodeV P h n := by
  have h1 := sipedge_u_lt P h n
  have h2 := sipedge_v_lt P h n
  have h3 : P.HALFSIZE ≤ 2 ^ 31 := Nat.pow_le_pow_right (by decide) hE
  have h4 : (2 : Nat) ^ 31 = 2147483648 := by decide
  have eU : nodeU P h n = sipedge_u P h n + 1 := by
    unfold nodeU; exact Nat.mod_eq_of_lt (by rw [W32_eq]; omega)
  rw [eU]
  refine ⟨by omega, ?_⟩
  unfold nodeV
  rw [W32_eq]
  by_cases hw : sipedge_v P h n + (1 + P.HALFSIZE) < 4294967296
  · rw [Nat.mod_eq_of_lt hw]; omega
  · have : sipedge_v P h n + (1 + P.HALFSIZE) = 4294967296 := by omega
    rw [this]
    omega

/-- C12: with `EDGEBITS = 31` a nonce whose V endpoint is `NNODES - 1 = 2^31 - 1` gets the
biased node `v0 = (2^31 - 1) + 1 + 2^31 = 2^32`, which is 0 in 32-bit arithmetic: the
empty sentinel. -/
theorem node_bias_wraps_at_31 :
    sipedge_v { EDGEBITS := 31, PROOFSIZE := 42, PART_BITS := 0 } (fun _ => 2147483647) 0 =
        2147483647 ∧
      2147483647 < Params.HALFSIZE { EDGEBITS := 31, PROOFSIZE := 42, PART_BITS := 0 } ∧
      nodeV { EDGEBITS := 31, PROOFSIZE := 42, PART_BITS := 0 } (fun _ => 2147483647) 0 = 0 := by
  decide

/-! ## `cuckoo_is_queue_under_limit` -/

/-- What the function computes: 1 iff no quit is requested and the queue holds at most
`MAX_QUEUE_SIZE` items. -/
theorem queue_under_limit_iff (should_quit : Bool) (size : Nat) :
    cuckoo_is_queue_under_limit should_quit size = 1 ↔
      should_quit = false ∧ size ≤ MAX_QUEUE_SIZE := by
  unfold cuckoo_is_queue_under_limit
  cases should_quit with
  | true => simp
  | false =>
    by_cases h : size ≤ MAX_QUEUE_SIZE
    · simp [h]
    · simp [h]

/-- C13: with no quit requested and exactly `MAX_QUEUE_SIZE` = 1000 items in the input
queue the function returns 1, though the queue does not hold fewer than `MAX_QUEUE_SIZE`
items. -/
theorem queue_at_limit_reported_under :
    cuckoo_is_queue_under_limit false MAX_QUEUE_SIZE = 1 ∧ ¬ (MAX_QUEUE_SIZE < MAX_QUEUE_SIZE) := by
  decide

/-! ## `get_properties_as_json` -/

/-- C14: with one registered property whose object has 74 characters, the text
`[` + object + `]` and its NUL need 77 bytes.  Called with a buffer of 76 bytes the
function passes both `remaining` tests and stores the final NUL at index 76, outside the
buffer, on its way to `PROPERTY_RETURN_OK`; with 75 bytes `snprintf` is given the size 75
at position 1 and stores its NUL at index 75, outside the buffer.  With no property and
a buffer of 3 bytes, which holds `[]` and the NUL, it reports the buffer too small.  With
77 bytes it returns `PROPERTY_RETURN_OK` and the length 76. -/
theorem json_writes_past_buffer :
    (property_json exProp).length = 74 ∧
      get_properties_as_json [exProp] (List.replicate 76 NUL) = none ∧
      get_properties_as_json [exProp] (List.replicate 75 NUL) = none ∧
      (get_properties_as_json [] (List.replicate 3 NUL)).map (fun r => r.1) =
        some PROPERTY_RETURN_BUFFER_TOO_SMALL ∧
      (get_properties_as_json [exProp] (List.replicate 77 NUL)).map (fun r => (r.1, r.2.2)) =
        some (PROPERTY_RETURN_OK, 76) := by
  decide

/-! ## Trimming keeps every cycle -/

theorem trimHalf_keeps (P : Params) (side : Nat → Nat) (hside : ∀ n, side n < P.HALFSIZE)
    (part fuel : Nat) (ctx : cuckoo_ctx) (S : Nat → Prop) (hctx : ctx.TrimReady P)
    (hfuel : ctx.easiness / 32 + 2 ≤ fuel)
    (hS : ∀ n, S n → n < ctx.easiness ∧ ctx.alive.live n)
    (hsh : ∀ n, S n → ∃ m, S m ∧ m ≠ n ∧ side m = side n) :
    ∃ c1, trimHalf P side part 0 fuel ctx = some c1 ∧ c1.TrimReady P ∧ ctx.SameFrame c1 ∧
      ∀ n, S n → n < c1.easiness ∧ c1.alive.live n := by
  obtain ⟨c1, h1, h2, h3, -, -, -, h4⟩ := trimHalf_spec P side hside part fuel ctx hctx hfuel
  refine ⟨c1, h1, h2, h3, fun n hn => ?_⟩
  obtain ⟨hlt, hlive⟩ := hS n hn
  refine ⟨by rw [h3.1]; exact hlt, (h4 n hlt).2 ⟨hlive, Or.inr ?_⟩⟩
  obtain ⟨m, hm, hne, he⟩ := hsh n hn
  exact ⟨m, (hS m hm).1, hne, (hS m hm).2, he⟩

theorem trim_edges_keeps (P : Params) (h : Nat → Nat) (part fuel : Nat) (ctx : cuckoo_ctx)
    (S : Nat → Prop) (hctx : ctx.TrimReady P) (hfuel : ctx.easiness / 32 + 2 ≤ fuel)
    (hS : ∀ n, S n → n < ctx.easiness ∧ ctx.alive.live n)
    (hU : ∀ n, S n → ∃ m, S m ∧ m ≠ n ∧ sipedge_u P h m = sipedge_u P h n)
    (hV : ∀ n, S n → ∃ m, S m ∧ m ≠ n ∧ sipedge_v P h m = sipedge_v P h n) :
    ∃ c1, trim_edges P h 0 part fuel ctx = some c1 ∧ c1.TrimReady P ∧ ctx.SameFrame c1 ∧
      ∀ n, S n → n < c1.easiness ∧ c1.alive.live n := by
  obtain ⟨cm, h1, h2, h3, h4⟩ :=
    trimHalf_keeps P (sipedge_u P h) (sipedge_u_lt P h) part fuel ctx S hctx hfuel hS hU
  obtain ⟨c1, h5, h6, h7, h8⟩ :=
    trimHalf_keeps P (sipedge_v P h) (sipedge_v_lt P h) part fuel cm S h2
      (by rw [h3.1]; exact hfuel) h4 hV
  refine ⟨c1, ?_, h6, h3.trans h7, h8⟩
  unfold trim_edges
  rw [h1, Option.some_bind, h5]

theorem trimParts_keeps (P : Params) (h : Nat → Nat) (fuel : Nat) (S : Nat → Prop)
    (hU : ∀ n, S n → ∃ m, S m ∧ m ≠ n ∧ sipedge_u P h m = sipedge_u P h n)
    (hV : ∀ n, S n → ∃ m, S m ∧ m ≠ n ∧ sipedge_v P h m = sipedge_v P h n)
    (parts : List Nat) :
    ∀ ctx : cuckoo_ctx, ctx.TrimReady P → ctx.easiness / 32 + 2 ≤ fuel →
      (∀ n, S n → n < ctx.easiness ∧ ctx.alive.live n) →
      ∃ c1, trimParts P h 0 fuel parts ctx = some c1 ∧ c1.TrimReady P ∧ ctx.SameFrame c1 ∧
        ∀ n, S n → n < c1.easiness ∧ c1.alive.live n := by
  induction parts with
  | nil => intro ctx hctx _ hS; exact ⟨ctx, rfl, hctx, cuckoo_ctx.SameFrame.refl ctx, hS⟩
  | cons p rest ih =>
    intro ctx hctx hfuel hS
    obtain ⟨c1, h1, h2, h3, h4⟩ := trim_edges_keeps P h p fuel ctx S hctx hfuel hS hU hV
    obtain ⟨c2, h5, h6, h7, h8⟩ := ih c1 h2 (by rw [h3.1]; exact hfuel) h4
    refine ⟨c2, ?_, h6, h3.trans h7, h8⟩
    simp only [trimParts, h1]
    exact h5

theorem trimRounds_keeps (P : Params) (h : Nat → Nat) (fuel : Nat) (S : Nat → Prop)
    (hU : ∀ n, S n → ∃ m, S m ∧ m ≠ n ∧ sipedge_u P h m = sipedge_u P h n)
    (hV : ∀ n, S n → ∃ m, S m ∧ m ≠ n ∧ sipedge_v P h m = sipedge_v P h n)
    (rounds : Nat) :
    ∀ (ctx : cuckoo_ctx) (load : Int), ctx.TrimReady P → ctx.easiness / 32 + 2 ≤ fuel →
      (∀ n, S n → n < ctx.easiness ∧ ctx.alive.live n) →
      ∃ c1 load1, trimRounds P h 0 fuel rounds ctx load = some (c1, load1) ∧
        ∀ n, S n → n < c1.easiness ∧ c1.alive.live n := by
  induction rounds with
  | zero => intro ctx load _ _ hS; exact ⟨ctx, load, rfl, hS⟩
  | succ k ih =>
    intro ctx load hctx hfuel hS
    obtain ⟨c1, h1, h2, h3, h4⟩ :=
      trimParts_keeps P h fuel S hU hV (List.range (P.PART_MASK + 1)) ctx hctx hfuel hS
    obtain ⟨c2, load2, h5, h6⟩ := ih c1 (if (0 : Nat) = 0 then loadOf P c1.alive else load) h2
      (by rw [h3.1]; exact hfuel) h4
    refine ⟨c2, load2, ?_, h6⟩
    simp only [trimRounds, h1]
    exact h5

/-- C15: run by one thread on a context that holds a live set over `easiness` nonces,
`trim_edges(part)` for every partition, and the trim rounds of `worker` for every number
of rounds, return and leave live every nonce of a set `S` of live nonces in which each
nonce shares its U endpoint with another nonce of `S` and its V endpoint with another
nonce of `S`. -/
theorem trimming_keeps_cycles (P : Params) (h : Nat → Nat) (fuel : Nat) (ctx : cuckoo_ctx)
    (S : Nat → Prop) (hctx : ctx.TrimReady P) (hfuel : ctx.easiness / 32 + 2 ≤ fuel)
    (hS : ∀ n, S n → n < ctx.easiness ∧ ctx.alive.live n)
    (hU : ∀ n, S n → ∃ m, S m ∧ m ≠ n ∧ sipedge_u P h m = sipedge_u P h n)
    (hV : ∀ n, S n → ∃ m, S m ∧ m ≠ n ∧ sipedge_v P h m = sipedge_v P h n) :
    (∀ part, ∃ c1, trim_edges P h 0 part fuel ctx = some c1 ∧ ∀ n, S n → c1.alive.live n) ∧
    (∀ (rounds : Nat) (load : Int), ∃ c1 load1,
      trimRounds P h 0 fuel rounds ctx load = some (c1, load1) ∧
        ∀ n, S n → c1.alive.live n) := by
  constructor
  · intro part
    obtain ⟨c1, h1, -, -, h4⟩ := trim_edges_keeps P h part fuel ctx S hctx hfuel hS hU hV
    exact ⟨c1, h1, fun n hn => (h4 n hn).2⟩
  · intro rounds load
    obtain ⟨c1, load1, h1, h2⟩ := trimRounds_keeps P h fuel S hU hV rounds ctx load hctx hfuel hS
    exact ⟨c1, load1, h1, fun n hn => (h2 n hn).2⟩

theorem exCycle_live (n : Nat) (hn : n < 4) : n < exCtx.easiness ∧ exCtx.alive.live n := by
  unfold shrinkingset.live
  interval_cases n <;> decide

theorem exCycle_U (n : Nat) (hn : n < 4) :
    ∃ m, m < 4 ∧ m ≠ n ∧ sipedge_u exParams exHash m = sipedge_u exParams exHash n := by
  interval_cases n
  · exact ⟨3, by decide, by decide, by decide⟩
  · exact ⟨2, by decide, by decide, by decide⟩
  · exact ⟨1, by decide, by decide, by decide⟩
  · exact ⟨0, by decide, by decide, by decide⟩

theorem exCycle_V (n : Nat) (hn : n < 4) :
    ∃ m, m < 4 ∧ m ≠ n ∧ sipedge_v exParams exHash m = sipedge_v exParams exHash n := by
  interval_cases n
  · exact ⟨1, by decide, by decide, by decide⟩
  · exact ⟨0, by decide, by decide, by decide⟩
  · exact ⟨3, by decide, by decide, by decide⟩
  · exact ⟨2, by decide, by decide, by decide⟩

theorem trimming_keeps_cycles_witness :
    exCtx.TrimReady exParams ∧ exCtx.easiness / 32 + 2 ≤ 2 ∧
      (∀ part, ∃ c1, trim_edges exParams exHash 0 part 2 exCtx = some c1 ∧
        ∀ n, n < 4 → c1.alive.live n) ∧
      (∀ (rounds : Nat) (load : Int), ∃ c1 load1,
        trimRounds exParams exHash 0 2 rounds exCtx load = some (c1, load1) ∧
          ∀ n, n < 4 → c1.alive.live n) :=
  ⟨exCtx_TrimReady, by decide,
    trimming_keeps_cycles exParams exHash 2 exCtx (fun n => n < 4) exCtx_TrimReady (by decide)
      exCycle_live exCycle_U exCycle_V⟩

/-! ## Cycle length from two paths -/

theorem Walk.walk_same_depth {f : Nat → Nat} {us vs : Nat → Nat} {nu nv : Nat}
    (hu : Walk f us nu) (hv : Walk f vs nv) :
    ∀ d i j, nu - i = d → i ≤ nu → j ≤ nv → us i = vs j → nu - i = nv - j := by
  intro d
  induction d with
  | zero =>
    intro i j hd hi hj he
    have hin : i = nu := by omega
    subst hin
    by_contra hne
    have hjlt : j < nv := by omega
    have h1 := hv.2.1 j hjlt
    rw [← he, hu.2.2] at h1
    exact hv.1 (j + 1) (by omega) h1
  | succ d ih =>
    intro i j hd hi hj he
    have hilt : i < nu := by omega
    have h1 := hu.2.1 i hilt
    by_cases hjn : j = nv
    · subst hjn
      rw [he, hv.2.2] at h1
      exact absurd h1 (hu.1 (i + 1) (by omega))
    · have hjlt : j < nv := by omega
      have h2 := hv.2.1 j hjlt
      rw [he, ← h2] at h1
      have := ih (i + 1) (j + 1) (by omega) (by omega) (by omega) h1
      omega

theorem Walk.walk_injective {f : Nat → Nat} {us : Nat → Nat} {nu : Nat} (hu : Walk f us nu)
    {i j : Nat} (hi : i ≤ nu) (hj : j ≤ nu) (he : us i = us j) : i = j := by
  have := hu.walk_same_depth hu (nu - i) i j rfl hi hj he
  omega

theorem alignLoop_total (us vs : Nat → Nat) :
    ∀ (fuel a b k : Nat), k < fuel → a + k < MAXPATHLEN → b + k < MAXPATHLEN →
      us (a + k) = vs (b + k) → ∃ r, alignLoop us vs fuel a b = some r := by
  intro fuel
  induction fuel with
  | zero => intro a b k hk; omega
  | succ fuel ih =>
    intro a b k hk ha hb he
    unfold alignLoop rdPath
    rw [if_pos (by omega : a < MAXPATHLEN), if_pos (by omega : b < MAXPATHLEN)]
    simp only
    by_cases hne : us a ≠ vs b
    · rw [if_pos hne]
      have hk0 : k ≠ 0 := by
        intro h0
        subst h0
        exact hne he
      apply ih (a + 1) (b + 1) (k - 1) (by omega) (by omega) (by omega)
      have e1 : a + 1 + (k - 1) = a + k := by omega
      have e2 : b + 1 + (k - 1) = b + k := by omega
      rw [e1, e2]
      exact he
    · rw [if_neg hne]
      exact ⟨_, rfl⟩

/-- C16: for two walks `us[0..nu]`, `vs[0..nv]` of one pointer function that end at the
same root, inside the arrays, the alignment loop of `worker` returns indices `nu1 <= nu`,
`nv1 <= nv` with `us[nu1] == vs[nv1]`, that node is the first common node (no node of
`us[0..nu1]` equals a node of `vs[0..nv1]` except at `(nu1, nv1)`), and the length it
computes is `nu1 + nv1 + 1`. -/
theorem cycle_length_from_paths (f : Nat → Nat) (us vs : Nat → Nat) (nu nv fuel : Nat)
    (hu : Walk f us nu) (hv : Walk f vs nv) (hnu : nu < MAXPATHLEN) (hnv : nv < MAXPATHLEN)
    (hroot : us nu = vs nv) (hf : (if nu < nv then nu else nv) < fuel) :
    ∃ nu1 nv1, alignPaths us vs fuel nu nv = some (nu1, nv1, nu1 + nv1 + 1) ∧
      nu1 ≤ nu ∧ nv1 ≤ nv ∧ us nu1 = vs nv1 ∧
      (∀ i j, i < nu1 → j < nv1 → us i ≠ vs j) ∧
      (∀ i j, i ≤ nu1 → j ≤ nv1 → us i = vs j → i = nu1 ∧ j = nv1) := by
  unfold alignPaths
  simp only
  have hm : (if nu < nv then nu else nv) ≤ nu ∧ (if nu < nv then nu else nv) ≤ nv ∧
      ((if nu < nv then nu else nv) = nu ∨ (if nu < nv then nu else nv) = nv) := by
    split <;> omega
  generalize (if nu < nv then nu else nv) = m at hf hm
  obtain ⟨r, hr⟩ := alignLoop_total us vs fuel (nu - m) (nv - m) m hf (by omega) (by omega)
    (by
      have e1 : nu - m + m = nu := by omega
      have e2 : nv - m + m = nv := by omega
      rw [e1, e2]; exact hroot)
  obtain ⟨nu1, nv1⟩ := r
  rw [hr]
  obtain ⟨k, h1, h2, h3, h4⟩ := alignLoop_spec us vs _ _ _ _ _ hr
  have hk : k ≤ m := by
    by_contra hlt
    have hne := h4 m (by omega)
    have e1 : nu - m + m = nu := by omega
    have e2 : nv - m + m = nv := by omega
    rw [e1, e2] at hne
    exact hne hroot
  have hfirst : ∀ i j, i ≤ nu1 → j ≤ nv1 → us i = vs j → i = nu1 ∧ j = nv1 := by
    intro i j hi hj heq
    have hd := hu.walk_same_depth hv (nu - i) i j rfl (by omega) (by omega) heq
    by_cases hin : i = nu1
    · refine ⟨hin, ?_⟩
      have e3 : nu - i = m - k := by omega
      have e4 : nv - j = m - k := by omega
      have e5 : j ≤ nv := by omega
      omega
    have hilt : i < nu1 := by omega
    exfalso
    have hne := h4 (i - (nu - m)) (by omega)
    have e1 : nu - m + (i - (nu - m)) = i := by omega
    have e2 : nv - m + (i - (nu - m)) = j := by omega
    rw [e1, e2] at hne
    exact hne heq
  refine ⟨nu1, nv1, rfl, by omega, by omega, h3, fun i j hi hj he => ?_, hfirst⟩
  have := hfirst i j (by omega) (by omega) he
  omega

theorem exWalk_us : Walk (fun x => [0, 4, 4, 0, 3].getD x 0) (fun i => [1, 4, 3].getD i 0) 2 := by
  refine ⟨fun i hi => ?_, fun i hi => ?_, by decide⟩
  · interval_cases i <;> decide
  · interval_cases i <;> decide

theorem exWalk_vs : Walk (fun x => [0, 4, 4, 0, 3].getD x 0) (fun i => [2, 4, 3].getD i 0) 2 := by
  refine ⟨fun i hi => ?_, fun i hi => ?_, by decide⟩
  · interval_cases i <;> decide
  · interval_cases i <;> decide

theorem cycle_length_from_paths_witness :
    Walk (fun x => [0, 4, 4, 0, 3].getD x 0) (fun i => [1, 4, 3].getD i 0) 2 ∧
      Walk (fun x => [0, 4, 4, 0, 3].getD x 0) (fun i => [2, 4, 3].getD i 0) 2 ∧
      alignPaths (fun i => [1, 4, 3].getD i 0) (fun i => [2, 4, 3].getD i 0) 3 2 2 =
        some (1, 1, 3) ∧
      ∃ nu1 nv1, alignPaths (fun i => [1, 4, 3].getD i 0) (fun i => [2, 4, 3].getD i 0) 3 2 2 =
          some (nu1, nv1, nu1 + nv1 + 1) ∧
        nu1 ≤ 2 ∧ nv1 ≤ 2 ∧ [1, 4, 3].getD nu1 0 = [2, 4, 3].getD nv1 0 ∧
        (∀ i j, i < nu1 → j < nv1 → [1, 4, 3].getD i 0 ≠ [2, 4, 3].getD j 0) ∧
        (∀ i j, i ≤ nu1 → j ≤ nv1 → [1, 4, 3].getD i 0 = [2, 4, 3].getD j 0 →
          i = nu1 ∧ j = nv1) :=
  ⟨exWalk_us, exWalk_vs, by decide,
    cycle_length_from_paths (fun x => [0, 4, 4, 0, 3].getD x 0) (fun i => [1, 4, 3].getD i 0)
      (fun i => [2, 4, 3].getD i 0) 2 2 3 exWalk_us exWalk_vs (by decide) (by decide)
      (by decide) (by decide)⟩

/-! ## The walk of `path` and its cap -/

theorem pathLoop_returns (P : Params) (c : cuckoo_hash) (gfuel : Nat) (chain : Nat → Nat)
    (hget : ∀ i, chain i ≠ 0 → c.get P gfuel (chain i) = some (chain (i + 1))) (k : Nat)
    (hk : k < MAXPATHLEN) (hz : chain k = 0) :
    ∀ (d fuel j : Nat) (us : Nat → Nat), k - j = d → j ≤ k → d < fuel →
      (∀ i, j ≤ i → i < k → chain i ≠ 0) →
      ∃ us1, pathLoop P c gfuel fuel (chain j) us j = some (PathResult.ret k us1) ∧
        (∀ i, j < i → i ≤ k → us1 i = chain (i - 1)) ∧
        (∀ i, i ≤ j ∨ k < i → us1 i = us i) := by
  intro d
  induction d with
  | zero =>
    intro fuel j us hd hj hf _
    have hjk : j = k := by omega
    subst hjk
    obtain ⟨f, rfl⟩ : ∃ f, fuel = f + 1 := ⟨fuel - 1, by omega⟩
    refine ⟨us, ?_, fun i h1 h2 => by omega, fun _ _ => rfl⟩
    unfold pathLoop
    rw [if_pos hz]
  | succ d ih =>
    intro fuel j us hd hj hf hnz
    obtain ⟨f, rfl⟩ : ∃ f, fuel = f + 1 := ⟨fuel - 1, by omega⟩
    have hj0 : chain j ≠ 0 := hnz j (Nat.le_refl _) (by omega)
    unfold pathLoop
    rw [if_neg hj0, if_neg (by omega : ¬ (j + 1 ≥ MAXPATHLEN)), hget j hj0]
    simp only
    obtain ⟨us1, h1, h2, h3⟩ := ih f (j + 1) (Function.update us (j + 1) (chain j))
      (by omega) (by omega) (by omega) (fun i hi1 hi2 => hnz i (by omega) hi2)
    refine ⟨us1, h1, fun i hi1 hi2 => ?_, fun i hi => ?_⟩
    · by_cases hij : i = j + 1
      · subst hij
        rw [h3 (j + 1) (Or.inl (Nat.le_refl _)), Function.update_same]
        rfl
      · exact h2 i (by omega) hi2
    · rw [h3 i (by omega), Function.update_noteq (by omega)]

theorem pathLoop_aborts (P : Params) (c : cuckoo_hash) (gfuel : Nat) (chain : Nat → Nat)
    (hget : ∀ i, chain i ≠ 0 → c.get P gfuel (chain i) = some (chain (i + 1)))
    (hnz : ∀ i, i < MAXPATHLEN → chain i ≠ 0) :
    ∀ (d fuel j : Nat) (us : Nat → Nat), MAXPATHLEN - 1 - j = d → j < MAXPATHLEN → d < fuel →
      pathLoop P c gfuel fuel (chain j) us j = some PathResult.aborted := by
  intro d
  induction d with
  | zero =>
    intro fuel j us hd hj hf
    obtain ⟨f, rfl⟩ : ∃ f, fuel = f + 1 := ⟨fuel - 1, by omega⟩
    unfold pathLoop
    rw [if_neg (hnz j hj), if_pos (by omega : j + 1 ≥ MAXPATHLEN)]
  | succ d ih =>
    intro fuel j us hd hj hf
    obtain ⟨f, rfl⟩ : ∃ f, fuel = f + 1 := ⟨fuel - 1, by omega⟩
    unfold pathLoop
    rw [if_neg (hnz j hj), if_neg (by omega : ¬ (j + 1 ≥ MAXPATHLEN)), hget j (hnz j hj)]
    exact ih f (j + 1) _ (by omega) (by omega) (by omega)

/-- C19: let `chain` be the pointer chain of `u` in the map, `chain 0 = u` and
`get(chain i) = chain (i+1)` wherever `chain i` is non-zero.  If exactly the first `k`
nodes of the chain are non-zero and `k < MAXPATHLEN`, then `path` returns `k` and has
written `us[i] = chain (i-1)` for `1 <= i <= k` and nothing else (`us[0]` and the entries
above `k` are as before).  And `path` ends the thread iff the first `MAXPATHLEN` nodes of
the chain are all non-zero. -/
theorem path_walk_and_cap (P : Params) (c : cuckoo_hash) (fuel u : Nat) (us : Nat → Nat)
    (chain : Nat → Nat) (h0 : chain 0 = u)
    (hget : ∀ i, chain i ≠ 0 → c.get P fuel (chain i) = some (chain (i + 1)))
    (hf : MAXPATHLEN ≤ fuel) :
    (∀ k, k < MAXPATHLEN → (∀ i, i < k → chain i ≠ 0) → chain k = 0 →
      ∃ us1, path P fuel c u us = some (PathResult.ret k us1) ∧
        (∀ i, 1 ≤ i → i ≤ k → us1 i = chain (i - 1)) ∧
        (∀ i, i = 0 ∨ k < i → us1 i = us i)) ∧
    (path P fuel c u us = some PathResult.aborted ↔ ∀ i, i < MAXPATHLEN → chain i ≠ 0) := by
  have hret : ∀ k, k < MAXPATHLEN → (∀ i, i < k → chain i ≠ 0) → chain k = 0 →
      ∃ us1, path P fuel c u us = some (PathResult.ret k us1) ∧
        (∀ i, 1 ≤ i → i ≤ k → us1 i = chain (i - 1)) ∧
        (∀ i, i = 0 ∨ k < i → us1 i = us i) := by
    intro k hk hnz hz
    obtain ⟨us1, h1, h2, h3⟩ := pathLoop_returns P c fuel chain hget k hk hz k fuel 0 us
      (by omega) (Nat.zero_le _) (by omega) (fun i _ hi => hnz i hi)
    rw [h0] at h1
    exact ⟨us1, h1, fun i hi1 hi2 => h2 i (by omega) hi2,
      fun i hi => h3 i (by omega)⟩
  refine ⟨hret, ?_, ?_⟩
  · intro hab
    by_contra hcon
    have hex : ∃ i, i < MAXPATHLEN ∧ chain i = 0 := by
      by_contra hne
      apply hcon
      intro i hi hz
      exact hne ⟨i, hi, hz⟩
    classical
    have hk := Nat.find_spec hex
    have hmin : ∀ i, i < Nat.find hex → chain i ≠ 0 := by
      intro i hi hz
      exact Nat.find_min hex hi ⟨lt_trans hi hk.1, hz⟩
    obtain ⟨us1, h1, -, -⟩ := hret (Nat.find hex) hk.1 hmin hk.2
    rw [h1] at hab
    cases hab
  · intro hnz
    have hM : 0 < MAXPATHLEN := by decide
    have := pathLoop_aborts P c fuel chain hget hnz (MAXPATHLEN - 1) fuel 0 us (by omega)
      hM (by omega)
    rw [h0] at this
    exact this

theorem exChain_get (i : Nat) (hi : [258, 2, 257, 1].getD i 0 ≠ 0) :
    cuckoo_hash.get exParams 8192 { cuckoo := [8421378, 0, 0, 0, 33025, 65794, 0, 0, 0] }
      ([258, 2, 257, 1].getD i 0) = some ([258, 2, 257, 1].getD (i + 1) 0) := by
  by_cases h : i < 4
  · interval_cases i <;> decide
  · exfalso
    apply hi
    have h4 : 4 ≤ i := by omega
    obtain ⟨j, rfl⟩ : ∃ j, i = j + 4 := ⟨i - 4, by omega⟩
    rfl

theorem exChain_nonzero (i : Nat) (hi : i < 4) : [258, 2, 257, 1].getD i 0 ≠ 0 := by
  interval_cases i <;> decide

theorem path_walk_and_cap_witness :
    MAXPATHLEN ≤ 8192 ∧
      ∃ us1, path exParams 8192 { cuckoo := [8421378, 0, 0, 0, 33025, 65794, 0, 0, 0] } 258
          (fun _ => 0) = some (PathResult.ret 4 us1) ∧
        (∀ i, 1 ≤ i → i ≤ 4 → us1 i = [258, 2, 257, 1].getD (i - 1) 0) ∧
        (∀ i, i = 0 ∨ 4 < i → us1 i = 0) :=
  ⟨by decide,
    (path_walk_and_cap exParams { cuckoo := [8421378, 0, 0, 0, 33025, 65794, 0, 0, 0] } 8192
      258 (fun _ => 0) (fun i => [258, 2, 257, 1].getD i 0) rfl exChain_get (by decide)).1 4
      (by decide) exChain_nonzero rfl⟩

/-! ## The cycle finder on a table of pointers -/

theorem MapInv.pointerTable {P : Params} {h : Nat → Nat} {alive : shrinkingset}
    {easiness : Nat} {c : cuckoo_hash} (hc : MapInv P h alive easiness c) :
    PointerTable P c :=
  ⟨hc.table, fun x hx hne => (hc.good x hx hne).1⟩

theorem new_pointerTable (P : Params) : PointerTable P (cuckoo_hash.new P) :=
  ⟨new_TableInv P _, fun x _ hne => absurd (lookup_new P x) hne⟩

theorem PointerTable.ptr_next_node {P : Params} {c : cuckoo_hash} (hc : PointerTable P c)
    {x : Nat} (hx : GraphNode P x) : lookup P c x = 0 ∨ GraphNode P (lookup P c x) := by
  by_cases h0 : lookup P c x = 0
  · exact Or.inl h0
  · exact Or.inr (hc.2 x hx h0)

theorem pathLoop_walk {P : Params} (hP : P.Valid) (hk : KeysDistinct P) {c : cuckoo_hash}
    (hc : PointerTable P c) (gfuel : Nat) :
    ∀ (fuel u : Nat) (us : Nat → Nat) (nu nu1 : Nat) (us1 : Nat → Nat),
      (u = 0 ∨ GraphNode P u) →
      pathLoop P c gfuel fuel u us nu = some (PathResult.ret nu1 us1) →
      nu ≤ nu1 ∧ (nu1 = nu ∨ nu1 < MAXPATHLEN) ∧ (∀ i, i ≤ nu → us1 i = us i) ∧
        (∀ i, nu1 < i → us1 i = us i) ∧ (nu1 = nu → u = 0) ∧
        (nu < nu1 → us1 (nu + 1) = u ∧ (∀ i, nu < i → i ≤ nu1 → GraphNode P (us1 i)) ∧
          (∀ i, nu < i → i < nu1 → lookup P c (us1 i) = us1 (i + 1)) ∧
          lookup P c (us1 nu1) = 0) := by
  intro fuel
  induction fuel with
  | zero => intro u us nu nu1 us1 _ h; simp [pathLoop] at h
  | succ fuel ih =>
    intro u us nu nu1 us1 hu hp
    unfold pathLoop at hp
    by_cases h0 : u = 0
    · rw [if_pos h0] at hp
      simp only [Option.some.injEq, PathResult.ret.injEq] at hp
      obtain ⟨rfl, rfl⟩ := hp
      exact ⟨le_refl _, Or.inl rfl, fun _ _ => rfl, fun _ _ => rfl, fun _ => h0,
        fun hlt => absurd hlt (lt_irrefl _)⟩
    · rw [if_neg h0] at hp
      have hug : GraphNode P u := by
        rcases hu with h | h
        · exact absurd h h0
        · exact h
      by_cases hmax : nu + 1 ≥ MAXPATHLEN
      · rw [if_pos hmax] at hp; cases hp
      · rw [if_neg hmax] at hp
        cases hg : c.get P gfuel u with
        | none => simp [hg] at hp
        | some u1 =>
          simp only [hg] at hp
          have hu1 : u1 = lookup P c u := get_sound hP (graph_KeySet hk) hc.1 hug hg
          have hu1g : u1 = 0 ∨ GraphNode P u1 := by rw [hu1]; exact hc.ptr_next_node hug
          obtain ⟨hle, hbound, hlow, hhigh, hz, hrest⟩ :=
            ih u1 (Function.update us (nu + 1) u) (nu + 1) nu1 us1 hu1g hp
          have hat : us1 (nu + 1) = u := by
            rw [hlow (nu + 1) (le_refl _)]; simp
          refine ⟨by omega, Or.inr ?_, ?_, ?_, ?_, ?_⟩
          · rcases hbound with h | h
            · rw [h]; omega
            · exact h
          · intro i hi
            rw [hlow i (by omega)]
            simp [Function.update, show i ≠ nu + 1 by omega]
          · intro i hi
            rw [hhigh i hi]
            simp [Function.update, show i ≠ nu + 1 by omega]
          · intro he; omega
          · intro _
            refine ⟨hat, ?_, ?_, ?_⟩
            · intro i h1 h2
              by_cases hi : i = nu + 1
              · rw [hi, hat]; exact hug
              · exact (hrest (by omega)).2.1 i (by omega) h2
            · intro i h1 h2
              by_cases hi : i = nu + 1
              · rw [hi, hat, ← hu1]
                exact ((hrest (by omega)).1).symm
              · exact (hrest (by omega)).2.2.1 i (by omega) h2
            · by_cases he : nu1 = nu + 1
              · rw [he, hat, ← hu1]; exact hz he
              · exact (hrest (by omega)).2.2.2

/-- On a table of pointers the walk of `path` from `get(u0)`, with `us[0] = u0` stored
by the caller, leaves a pointer path `us[0..nu]` that ends at a root, and touches no
entry above `nu`. -/
theorem path_walk {P : Params} (hP : P.Valid) (hk : KeysDistinct P) {c : cuckoo_hash}
    (hc : PointerTable P c) {fuel u0 nu : Nat} {us0 us : Nat → Nat}
    (hu0 : GraphNode P u0)
    (hp : path P fuel c (lookup P c u0) (Function.update us0 0 u0) =
      some (PathResult.ret nu us)) :
    IsPath P c us nu ∧ us 0 = u0 := by
  unfold path at hp
  obtain ⟨-, hbound, hlow, -, hz, hrest⟩ := pathLoop_walk hP hk hc fuel fuel _ _ 0 nu us
    (hc.ptr_next_node hu0) hp
  have h0 : us 0 = u0 := by rw [hlow 0 (le_refl _)]; simp
  refine ⟨⟨?_, ?_, ?_, ?_⟩, h0⟩
  · rcases hbound with h | h
    · rw [h]; decide
    · exact h
  · intro i hi
    by_cases hi0 : i = 0
    · rw [hi0, h0]; exact hu0
    · exact (hrest (by omega)).2.1 i (by omega) hi
  · intro i hi
    by_cases hi0 : i = 0
    · rw [hi0, h0, (hrest (by omega)).1]
    · exact (hrest (by omega)).2.2.1 i (by omega) hi
  · by_cases hn : nu = 0
    · rw [hn, h0]; exact hz hn
    · exact (hrest (by omega)).2.2.2

theorem solution_cuckoo {P : Params} {h : Nat → Nat} {ctx ctx1 : cuckoo_ctx}
    {us vs : Nat → Nat} {nu nv : Nat} (hs : solution P h ctx us nu vs nv = some ctx1) :
    ctx1.cuckoo = ctx.cuckoo := by
  unfold solution at hs
  cases hcs : cycleSet us nu vs nv with
  | none => rw [hcs] at hs; cases hs
  | some cyc =>
    rw [hcs] at hs
    simp only at hs
    cases hsc : scanNonces P h ctx.alive ctx.nsols (List.range ctx.easiness)
        { sols := ctx.sols, n := 0, cycle := cyc } with
    | none => rw [hsc] at hs; cases hs
    | some st =>
      rw [hsc] at hs
      simp only [Option.some.injEq] at hs
      rw [← hs]

/-- The branches of a cycle-finder step on a table of pointers: the step leaves the map
as it is (skip, cycle found, or the thread ended by `path`), or it is the attach branch on
the two paths that `path` walked. -/
theorem cycleBody_shape {P : Params} (hP : P.Valid) (hk : KeysDistinct P) {h : Nat → Nat}
    {w : WorkerState} {c : cuckoo_hash} (hcu : w.ctx.cuckoo = some c)
    (hc : PointerTable P c) {fuel nonce : Nat} {r : Step WorkerState}
    (hstep : cycleBody P h fuel nonce w = some r) :
    r.state.ctx.cuckoo = some c ∨
    ∃ (us vs : Nat → Nat) (nu nv : Nat) (c1 : cuckoo_hash),
      IsPath P c us nu ∧ IsPath P c vs nv ∧ us 0 = nodeU P h nonce ∧
      vs 0 = nodeV P h nonce ∧ us nu ≠ vs nv ∧
      lookup P c (nodeU P h nonce) ≠ nodeV P h nonce ∧
      lookup P c (nodeV P h nonce) ≠ nodeU P h nonce ∧
      path P fuel c (lookup P c (nodeU P h nonce)) (Function.update w.us 0 (nodeU P h nonce)) =
        some (PathResult.ret nu us) ∧
      path P fuel c (lookup P c (nodeV P h nonce)) (Function.update w.vs 0 (nodeV P h nonce)) =
        some (PathResult.ret nv vs) ∧
      (if nu < nv then
          (reversePath P fuel us nu c).bind
            (fun c => c.set P fuel (nodeU P h nonce) (nodeV P h nonce))
        else
          (reversePath P fuel vs nv c).bind
            (fun c => c.set P fuel (nodeV P h nonce) (nodeU P h nonce))) = some c1 ∧
      r = Step.next { ctx := { w.ctx with cuckoo := some c1 }, us := us, vs := vs } := by
  have hug := nodeU_graph hP hk h nonce
  have hvg := nodeV_graph hP hk h nonce
  have hS := graph_KeySet hk
  have hUdef : (sipedge_u P h nonce + 1) % W32 = nodeU P h nonce := rfl
  have hVdef : (sipedge_v P h nonce + (1 + P.HALFSIZE)) % W32 = nodeV P h nonce := rfl
  unfold cycleBody at hstep
  rw [hcu] at hstep
  simp only [hUdef, hVdef] at hstep
  cases hgu : c.get P fuel (nodeU P h nonce) with
  | none => rw [hgu] at hstep; cases hstep
  | some u =>
    cases hgv : c.get P fuel (nodeV P h nonce) with
    | none => rw [hgu, hgv] at hstep; cases hstep
    | some v =>
      rw [hgu, hgv] at hstep
      simp only at hstep
      have hu : u = lookup P c (nodeU P h nonce) := get_sound hP hS hc.1 hug hgu
      have hv : v = lookup P c (nodeV P h nonce) := get_sound hP hS hc.1 hvg hgv
      by_cases hdup : u = nodeV P h nonce ∨ v = nodeU P h nonce
      · rw [if_pos hdup] at hstep
        simp only [Option.some.injEq] at hstep
        left
        rw [← hstep]
        exact hcu
      · rw [if_neg hdup] at hstep
        have hd1 : lookup P c (nodeU P h nonce) ≠ nodeV P h nonce :=
          fun he => hdup (Or.inl (hu.trans he))
        have hd2 : lookup P c (nodeV P h nonce) ≠ nodeU P h nonce :=
          fun he => hdup (Or.inr (hv.trans he))
        cases hp1 : path P fuel c u (Function.update w.us 0 (nodeU P h nonce)) with
        | none => rw [hp1] at hstep; cases hstep
        | some r1 =>
          rw [hp1] at hstep
          cases r1 with
          | aborted =>
            simp only [Option.some.injEq] at hstep
            left
            rw [← hstep]
            exact hcu
          | ret nu us =>
            simp only at hstep
            cases hp2 : path P fuel c v (Function.update w.vs 0 (nodeV P h nonce)) with
            | none => rw [hp2] at hstep; cases hstep
            | some r2 =>
              rw [hp2] at hstep
              cases r2 with
              | aborted =>
                simp only [Option.some.injEq] at hstep
                left
                rw [← hstep]
                exact hcu
              | ret nv vs =>
                simp only at hstep
                rw [hu] at hp1
                rw [hv] at hp2
                obtain ⟨hpu, hu0⟩ := path_walk hP hk hc hug hp1
                obtain ⟨hpv, hv0⟩ := path_walk hP hk hc hvg hp2
                rw [rdPath_of_lt hpu.1, rdPath_of_lt hpv.1] at hstep
                simp only at hstep
                by_cases hroot : us nu = vs nv
                · rw [if_pos hroot] at hstep
                  left
                  cases hal : alignLoop us vs fuel (nu - if nu < nv then nu else nv)
                      (nv - if nu < nv then nu else nv) with
                  | none => rw [hal] at hstep; cases hstep
                  | some p =>
                    obtain ⟨nu1, nv1⟩ := p
                    rw [hal] at hstep
                    simp only at hstep
                    split at hstep
                    · cases hsol : solution P h w.ctx us nu1 vs nv1 with
                      | none => rw [hsol] at hstep; cases hstep
                      | some ctx1 =>
                        rw [hsol] at hstep
                        simp only [Option.some.injEq] at hstep
                        rw [← hstep]
                        show ctx1.cuckoo = some c
                        rw [solution_cuckoo hsol]
                        exact hcu
                    · simp only [Option.some.injEq] at hstep
                      rw [← hstep]
                      exact hcu
                · rw [if_neg hroot] at hstep
                  right
                  by_cases hlt : nu < nv
                  · rw [if_pos hlt] at hstep
                    cases hat : (reversePath P fuel us nu c).bind
                        (fun c => c.set P fuel (nodeU P h nonce) (nodeV P h nonce)) with
                    | none => rw [hat] at hstep; cases hstep
                    | some c1 =>
                      rw [hat] at hstep
                      simp only [Option.some.injEq] at hstep
                      exact ⟨us, vs, nu, nv, c1, hpu, hpv, hu0, hv0, hroot, hd1, hd2, hp1, hp2,
                        by rw [if_pos hlt]; exact hat, hstep.symm⟩
                  · rw [if_neg hlt] at hstep
                    cases hat : (reversePath P fuel vs nv c).bind
                        (fun c => c.set P fuel (nodeV P h nonce) (nodeU P h nonce)) with
                    | none => rw [hat] at hstep; cases hstep
                    | some c1 =>
                      rw [hat] at hstep
                      simp only [Option.some.injEq] at hstep
                      exact ⟨us, vs, nu, nv, c1, hpu, hpv, hu0, hv0, hroot, hd1, hd2, hp1, hp2,
                        by rw [if_neg hlt]; exact hat, hstep.symm⟩

/-! ## Reversing a path on a table of pointers -/

theorem set_pointerTable {P : Params} (hP : P.Valid) (hk : KeysDistinct P) {c c1 : cuckoo_hash}
    (hc : PointerTable P c) {k v fuel : Nat} (hkn : GraphNode P k) (hv : GraphNode P v)
    (hs : c.set P fuel k v = some c1) :
    PointerTable P c1 ∧ lookup P c1 k = v ∧
      ∀ x, GraphNode P x → x ≠ k → lookup P c1 x = lookup P c x := by
  obtain ⟨hinv, hlk, hlo⟩ := set_sound hP (graph_KeySet hk) hc.1 hkn (hv.lt_W32 hP hk)
    (by have := hv.1; omega) hs
  refine ⟨⟨hinv, fun x hx hne => ?_⟩, hlk, hlo⟩
  by_cases hxk : x = k
  · subst hxk; rw [hlk]; exact hv
  · rw [hlo x hx hxk] at hne ⊢
    exact hc.2 x hx hne

/-- `set` returns when the key is stored or the table has an empty slot. -/
theorem set_total {P : Params} (hP : P.Valid) (hk : KeysDistinct P) {c : cuckoo_hash}
    (hc : PointerTable P c) {k fuel : Nat} (v : Nat) (hkn : GraphNode P k)
    (hf : P.CUCKOO_SIZE ≤ fuel) (hroom : lookup P c k ≠ 0 ∨ c.used < P.CUCKOO_SIZE) :
    ∃ c1, c.set P fuel k v = some c1 := by
  have hhome := (graph_KeySet hk).home k hkn
  have hslot : ∃ (i0 w : Nat), c.cuckoo[i0]? = some w ∧
      (w = 0 ∨ w % 2 ^ P.KEYSHIFT = k % 2 ^ P.KEYSHIFT) := by
    rcases hroom with hst | hr
    · obtain ⟨i, w, hw, -, hkey⟩ := lookup_ne_zero_stored hst
      exact ⟨i, w, hw, Or.inr hkey⟩
    · obtain ⟨i0, h0⟩ := exists_empty_of_used_lt (by rw [hc.1.len]; exact hr)
      exact ⟨i0, 0, h0, Or.inl rfl⟩
  obtain ⟨i, hstop⟩ := exists_probeStop hc.1.len hhome hslot
  exact ⟨_, set_of_stop hP hstop hhome hc.1.len hf⟩

/-- `get` of a stored key returns its value, also on a full table. -/
theorem get_stored {P : Params} (hP : P.Valid) (hk : KeysDistinct P) {c : cuckoo_hash}
    (hc : PointerTable P c) {x fuel : Nat} (hx : GraphNode P x)
    (hf : P.CUCKOO_SIZE ≤ fuel) (hst : lookup P c x ≠ 0) :
    c.get P fuel x = some (lookup P c x) := by
  have hhome := (graph_KeySet hk).home x hx
  obtain ⟨i, w, hw, h0, hkey⟩ := lookup_ne_zero_stored hst
  have hstop := hc.1.stored_stop hx hw h0 hkey
  unfold cuckoo_hash.get
  rw [getLoop_eq_probe, hstop.probeLoop hP hhome hc.1.len hf, Option.some_bind]
  exact get_of_stop hc.1 hx hstop

theorem reversePath_table {P : Params} (hP : P.Valid) (hk : KeysDistinct P) (fuel : Nat)
    (us : Nat → Nat) :
    ∀ (n : Nat) (c c1 : cuckoo_hash), PointerTable P c →
      (∀ i, i ≤ n → GraphNode P (us i)) →
      (∀ i j, i ≤ n → j ≤ n → us i = us j → i = j) →
      reversePath P fuel us n c = some c1 →
      PointerTable P c1 ∧ (∀ i, i < n → lookup P c1 (us (i + 1)) = us i) ∧
        ∀ x, GraphNode P x → (∀ i, 1 ≤ i → i ≤ n → x ≠ us i) →
          lookup P c1 x = lookup P c x := by
  intro n
  induction n with
  | zero =>
    intro c c1 hc _ _ hr
    simp only [reversePath, Option.some.injEq] at hr
    subst hr
    exact ⟨hc, fun i hi => by omega, fun _ _ _ => rfl⟩
  | succ n ih =>
    intro c c1 hc hnode hinj hr
    unfold reversePath rdPath at hr
    by_cases h1 : n + 1 < MAXPATHLEN
    · have h2 : n < MAXPATHLEN := by omega
      simp only [if_pos h1, if_pos h2] at hr
      cases hs : c.set P fuel (us (n + 1)) (us n) with
      | none => simp [hs] at hr
      | some c2 =>
        simp only [hs] at hr
        obtain ⟨hc2, hlk, hlo⟩ := set_pointerTable hP hk hc (hnode (n + 1) (Nat.le_refl _))
          (hnode n (by omega)) hs
        obtain ⟨hc1, hl1, hlo1⟩ := ih c2 c1 hc2 (fun i hi => hnode i (by omega))
          (fun i j hi hj he => hinj i j (by omega) (by omega) he) hr
        refine ⟨hc1, fun i hi => ?_, fun x hx hxn => ?_⟩
        · by_cases hin : i = n
          · subst hin
            rw [hlo1 (us (i + 1)) (hnode (i + 1) (Nat.le_refl _)) (fun j h1j hj he => by
              have := hinj (i + 1) j (Nat.le_refl _) (by omega) he
              omega)]
            exact hlk
          · exact hl1 i (by omega)
        · rw [hlo1 x hx (fun i h1i hin => hxn i h1i (by omega))]
          exact hlo x hx (hxn (n + 1) (by omega) (Nat.le_refl _))
    · simp only [if_neg h1] at hr
      cases hr

theorem reversePath_total {P : Params} (hP : P.Valid) (hk : KeysDistinct P) (fuel : Nat)
    (hf : P.CUCKOO_SIZE ≤ fuel) (us : Nat → Nat) :
    ∀ (n : Nat) (c : cuckoo_hash), PointerTable P c → n < MAXPATHLEN →
      (∀ i, i ≤ n → GraphNode P (us i)) →
      (∀ i j, i ≤ n → j ≤ n → us i = us j → i = j) →
      (∀ i, 1 ≤ i → i < n → lookup P c (us i) ≠ 0) →
      (1 ≤ n → lookup P c (us n) ≠ 0 ∨ c.used < P.CUCKOO_SIZE) →
      ∃ c1, reversePath P fuel us n c = some c1 := by
  intro n
  induction n with
  | zero => intro c _ _ _ _ _ _; exact ⟨c, rfl⟩
  | succ n ih =>
    intro c hc hlt hnode hinj hst hroot
    obtain ⟨c2, hs⟩ := set_total hP hk hc (us n) (hnode (n + 1) (Nat.le_refl _)) hf
      (hroot (by omega))
    obtain ⟨hc2, -, hlo⟩ := set_pointerTable hP hk hc (hnode (n + 1) (Nat.le_refl _))
      (hnode n (by omega)) hs
    have hst2 : ∀ i, 1 ≤ i → i ≤ n → lookup P c2 (us i) ≠ 0 := by
      intro i h1i hin
      rw [hlo (us i) (hnode i (by omega)) (fun he => by
        have := hinj i (n + 1) (by omega) (Nat.le_refl _) he
        omega)]
      exact hst i h1i (by omega)
    obtain ⟨c1, hr⟩ := ih c2 hc2 (by omega) (fun i hi => hnode i (by omega))
      (fun i j hi hj he => hinj i j (by omega) (by omega) he)
      (fun i h1i hin => hst2 i h1i (by omega))
      (fun h1n => Or.inl (hst2 n h1n (Nat.le_refl _)))
    refine ⟨c1, ?_⟩
    unfold reversePath rdPath
    rw [if_pos hlt, if_pos (by omega : n < MAXPATHLEN)]
    simp only [hs]
    exact hr

/-- What the attach branch leaves: the pointers along the path are reversed, the start
node points to the other endpoint, every other node keeps its pointer. -/
theorem attach_table {P : Params} (hP : P.Valid) (hk : KeysDistinct P) {c c1 : cuckoo_hash}
    (hc : PointerTable P c) {us : Nat → Nat} {nu fuel k v : Nat}
    (hu : IsPath P c us nu) (hk0 : us 0 = k) (hv : GraphNode P v)
    (hr : (reversePath P fuel us nu c).bind (fun c => c.set P fuel k v) = some c1) :
    PointerTable P c1 ∧ (∀ i, i < nu → lookup P c1 (us (i + 1)) = us i) ∧
      lookup P c1 k = v ∧
      ∀ x, GraphNode P x → (∀ i, i ≤ nu → x ≠ us i) → lookup P c1 x = lookup P c x := by
  cases h1 : reversePath P fuel us nu c with
  | none => simp [h1] at hr
  | some c2 =>
    rw [h1, Option.some_bind] at hr
    obtain ⟨hc2, hl2, hlo2⟩ := reversePath_table hP hk fuel us nu c c2 hc hu.2.1
      (fun i j hi hj he => hu.injective hi hj he) h1
    have hkn : GraphNode P k := by rw [← hk0]; exact hu.2.1 0 (Nat.zero_le _)
    obtain ⟨hc1, hlk, hlo⟩ := set_pointerTable hP hk hc2 hkn hv hr
    refine ⟨hc1, fun i hi => ?_, hlk, fun x hx hxn => ?_⟩
    · rw [hlo (us (i + 1)) (hu.2.1 (i + 1) (by omega)) (fun he => by
        rw [← hk0] at he
        have := hu.injective (by omega) (Nat.zero_le _) he
        omega)]
      exact hl2 i hi
    · rw [hlo x hx (by rw [← hk0]; exact hxn 0 (Nat.zero_le _))]
      exact hlo2 x hx (fun i _ hin => hxn i hin)

/-- The attach branch returns when the table has an empty slot. -/
theorem attach_total {P : Params} (hP : P.Valid) (hk : KeysDistinct P) {c : cuckoo_hash}
    (hc : PointerTable P c) {us : Nat → Nat} {nu fuel k : Nat} (v : Nat)
    (hu : IsPath P c us nu) (hk0 : us 0 = k) (hroom : c.used < P.CUCKOO_SIZE)
    (hf : P.CUCKOO_SIZE ≤ fuel) :
    ∃ c1, (reversePath P fuel us nu c).bind (fun c => c.set P fuel k v) = some c1 := by
  have hstored : ∀ i, i < nu → lookup P c (us i) ≠ 0 := by
    intro i hi
    rw [hu.2.2.1 i hi]
    have := (hu.2.1 (i + 1) (by omega)).1
    omega
  have hinj : ∀ i j, i ≤ nu → j ≤ nu → us i = us j → i = j :=
    fun i j hi hj he => hu.injective hi hj he
  obtain ⟨c2, h1⟩ := reversePath_total hP hk fuel hf us nu c hc hu.1 hu.2.1 hinj
    (fun i _ hi => hstored i hi) (fun _ => Or.inr hroom)
  obtain ⟨hc2, -, hlo2⟩ := reversePath_table hP hk fuel us nu c c2 hc hu.2.1 hinj h1
  have hkn : GraphNode P k := by rw [← hk0]; exact hu.2.1 0 (Nat.zero_le _)
  have hroom2 : lookup P c2 k ≠ 0 ∨ c2.used < P.CUCKOO_SIZE := by
    by_cases hn : nu = 0
    · subst hn
      simp only [reversePath, Option.some.injEq] at h1
      subst h1
      exact Or.inr hroom
    · left
      rw [← hk0, hlo2 (us 0) (hu.2.1 0 (Nat.zero_le _)) (fun i h1i hin he => by
        have := hu.injective (Nat.zero_le _) hin he
        omega)]
      exact hstored 0 (by omega)
  obtain ⟨c1, hs⟩ := set_total hP hk hc2 v hkn hf hroom2
  exact ⟨c1, by rw [h1, Option.some_bind]; exact hs⟩

/-- The results of `get` after the attach branch. -/
theorem attach_gets {P : Params} (hP : P.Valid) (hk : KeysDistinct P) {c c1 : cuckoo_hash}
    (hc : PointerTable P c) {us : Nat → Nat} {nu fuel k v : Nat}
    (hu : IsPath P c us nu) (hk0 : us 0 = k) (hv : GraphNode P v)
    (hroom : c.used < P.CUCKOO_SIZE) (hf : P.CUCKOO_SIZE ≤ fuel)
    (hr : (reversePath P fuel us nu c).bind (fun c => c.set P fuel k v) = some c1) :
    (∀ i, i < nu → c1.get P fuel (us (i + 1)) = some (us i)) ∧
      c1.get P fuel k = some v ∧
      ∀ x, GraphNode P x → (∀ i, i ≤ nu → x ≠ us i) →
        lookup P c1 x = lookup P c x ∧ c.get P fuel x = some (lookup P c x) ∧
        (lookup P c1 x ≠ 0 ∨ c1.used < P.CUCKOO_SIZE → c1.get P fuel x = c.get P fuel x) := by
  obtain ⟨hc1, hl, hlk, hlo⟩ := attach_table hP hk hc hu hk0 hv hr
  have hS := graph_KeySet hk
  have hkn : GraphNode P k := by rw [← hk0]; exact hu.2.1 0 (Nat.zero_le _)
  refine ⟨fun i hi => ?_, ?_, fun x hx hxn => ?_⟩
  · have hst : lookup P c1 (us (i + 1)) ≠ 0 := by
      rw [hl i hi]
      have := (hu.2.1 i (by omega)).1
      omega
    rw [get_stored hP hk hc1 (hu.2.1 (i + 1) (by omega)) hf hst, hl i hi]
  · have hst : lookup P c1 k ≠ 0 := by
      rw [hlk]
      have := hv.1
      omega
    rw [get_stored hP hk hc1 hkn hf hst, hlk]
  · have e := hlo x hx hxn
    have hg := get_total hP hS hc.1 hx hf hroom
    refine ⟨e, hg, fun h1 => ?_⟩
    rw [hg, ← e]
    rcases h1 with h1 | h1
    · exact get_stored hP hk hc1 hx hf h1
    · exact get_total hP hS hc1.1 hx hf h1

/-- C17: a cycle-finder step on a table of pointers (keys injective modulo `2^KEYSHIFT`)
with an empty slot, whose edge is no duplicate and whose two paths `us[0..nu]`,
`vs[0..nv]` end at different roots, returns with a new map.  If `nu < nv` then afterwards
`get(us[i+1]) == us[i]` for every `i < nu` and `get(u0) == v0`; otherwise
`get(vs[i+1]) == vs[i]` for every `i < nv` and `get(v0) == u0`.  Every graph node that is
not on the reversed path keeps its pointer, and `get` of it returns what it returned
before (when it is stored or the new map still has an empty slot, so that `get` returns
at all). -/
theorem attach_reverses_shorter_path (P : Params) (h : Nat → Nat) (hP : P.Valid)
    (hk : KeysDistinct P) (w : WorkerState) (c : cuckoo_hash) (fuel nonce nu nv : Nat)
    (us vs : Nat → Nat) (hcu : w.ctx.cuckoo = some c) (hc : PointerTable P c)
    (hroom : c.used < P.CUCKOO_SIZE) (hf : P.CUCKOO_SIZE ≤ fuel)
    (hd1 : lookup P c (nodeU P h nonce) ≠ nodeV P h nonce)
    (hd2 : lookup P c (nodeV P h nonce) ≠ nodeU P h nonce)
    (hp1 : path P fuel c (lookup P c (nodeU P h nonce))
      (Function.update w.us 0 (nodeU P h nonce)) = some (PathResult.ret nu us))
    (hp2 : path P fuel c (lookup P c (nodeV P h nonce))
      (Function.update w.vs 0 (nodeV P h nonce)) = some (PathResult.ret nv vs))
    (hroot : us nu ≠ vs nv) :
    ∃ c1, cycleBody P h fuel nonce w =
        some (Step.next { ctx := { w.ctx with cuckoo := some c1 }, us := us, vs := vs }) ∧
      us 0 = nodeU P h nonce ∧ vs 0 = nodeV P h nonce ∧
      (nu < nv →
        (∀ i, i < nu → c1.get P fuel (us (i + 1)) = some (us i)) ∧
        c1.get P fuel (nodeU P h nonce) = some (nodeV P h nonce) ∧
        ∀ x, GraphNode P x → (∀ i, i ≤ nu → x ≠ us i) →
          lookup P c1 x = lookup P c x ∧ c.get P fuel x = some (lookup P c x) ∧
          (lookup P c1 x ≠ 0 ∨ c1.used < P.CUCKOO_SIZE →
            c1.get P fuel x = c.get P fuel x)) ∧
      (nv ≤ nu →
        (∀ i, i < nv → c1.get P fuel (vs (i + 1)) = some (vs i)) ∧
        c1.get P fuel (nodeV P h nonce) = some (nodeU P h nonce) ∧
        ∀ x, GraphNode P x → (∀ i, i ≤ nv → x ≠ vs i) →
          lookup P c1 x = lookup P c x ∧ c.get P fuel x = some (lookup P c x) ∧
          (lookup P c1 x ≠ 0 ∨ c1.used < P.CUCKOO_SIZE →
            c1.get P fuel x = c.get P fuel x)) := by
  have hug := nodeU_graph hP hk h nonce
  have hvg := nodeV_graph hP hk h nonce
  have hS := graph_KeySet hk
  obtain ⟨hpu, hu0⟩ := path_walk hP hk hc hug hp1
  obtain ⟨hpv, hv0⟩ := path_walk hP hk hc hvg hp2
  have hgu := get_total hP hS hc.1 hug hf hroom
  have hgv := get_total hP hS hc.1 hvg hf hroom
  have hUdef : (sipedge_u P h nonce + 1) % W32 = nodeU P h nonce := rfl
  have hVdef : (sipedge_v P h nonce + (1 + P.HALFSIZE)) % W32 = nodeV P h nonce := rfl
  have hdup : ¬ (lookup P c (nodeU P h nonce) = nodeV P h nonce ∨
      lookup P c (nodeV P h nonce) = nodeU P h nonce) := by
    rintro (h1 | h1)
    · exact hd1 h1
    · exact hd2 h1
  by_cases hlt : nu < nv
  · obtain ⟨c1, hat⟩ := attach_total hP hk hc (nodeV P h nonce) hpu hu0 hroom hf
    refine ⟨c1, ?_, hu0, hv0, fun _ => attach_gets hP hk hc hpu hu0 hvg hroom hf hat,
      fun hge => absurd hlt (by omega)⟩
    unfold cycleBody
    rw [hcu]
    simp only [hUdef, hVdef, hgu, hgv, if_neg hdup, hp1, hp2, rdPath_of_lt hpu.1,
      rdPath_of_lt hpv.1, if_neg hroot, if_pos hlt, hat]
  · obtain ⟨c1, hat⟩ := attach_total hP hk hc (nodeU P h nonce) hpv hv0 hroom hf
    refine ⟨c1, ?_, hu0, hv0, fun h1 => absurd h1 hlt,
      fun _ => attach_gets hP hk hc hpv hv0 hug hroom hf hat⟩
    unfold cycleBody
    rw [hcu]
    simp only [hUdef, hVdef, hgu, hgv, if_neg hdup, hp1, hp2, rdPath_of_lt hpu.1,
      rdPath_of_lt hpv.1, if_neg hroot, if_neg hlt, hat]

/-! ## The pointers stay a forest -/

theorem reaches_step {P : Params} {c : cuckoo_hash} {x : Nat}
    (h : Reaches P c (lookup P c x)) : Reaches P c x := by
  obtain ⟨k, hk⟩ := h
  exact ⟨k + 1, by rw [Function.iterate_succ_apply]; exact hk⟩

theorem reaches_new (P : Params) (x : Nat) : Reaches P (cuckoo_hash.new P) x :=
  ⟨1, by rw [Function.iterate_one]; exact lookup_new P x⟩

/-- Two pointer paths that share a node end at the same root. -/
theorem IsPath.meet_root {P : Params} {c : cuckoo_hash} {us vs : Nat → Nat} {nu nv : Nat}
    (hu : IsPath P c us nu) (hv : IsPath P c vs nv) :
    ∀ d i j, nu - i = d → i ≤ nu → j ≤ nv → us i = vs j → us nu = vs nv := by
  intro d
  induction d with
  | zero =>
    intro i j hd hi hj he
    have hdep := hu.same_depth hv (nu - i) i j rfl hi hj he
    have hin : i = nu := by omega
    have hjn : j = nv := by omega
    rw [← hin, ← hjn]
    exact he
  | succ d ih =>
    intro i j hd hi hj he
    have hdep := hu.same_depth hv (nu - i) i j rfl hi hj he
    have h1 := hu.2.2.1 i (by omega)
    have h2 := hv.2.2.1 j (by omega)
    rw [he, h2] at h1
    exact ih (i + 1) (j + 1) (by omega) (by omega) (by omega) h1.symm

/-- Attaching a reversed path to a node of another tree leaves a forest. -/
theorem forest_attach {P : Params} {c c1 : cuckoo_hash} (hc : PointerTable P c)
    (hfo : Forest P c) {us vs : Nat → Nat} {nu nv k v : Nat}
    (hu : IsPath P c us nu) (hv : IsPath P c vs nv) (hroot : us nu ≠ vs nv)
    (hk0 : us 0 = k) (hv0 : vs 0 = v)
    (hl : ∀ i, i < nu → lookup P c1 (us (i + 1)) = us i) (hlk : lookup P c1 k = v)
    (hlo : ∀ x, GraphNode P x → (∀ i, i ≤ nu → x ≠ us i) → lookup P c1 x = lookup P c x) :
    Forest P c1 := by
  -- the other path is untouched
  have hvs : ∀ j, j ≤ nv → lookup P c1 (vs j) = lookup P c (vs j) := by
    intro j hj
    apply hlo (vs j) (hv.2.1 j hj)
    intro i hi he
    exact hroot (hu.meet_root hv (nu - i) i j rfl hi hj he.symm)
  have hrv : ∀ d j, nv - j = d → j ≤ nv → Reaches P c1 (vs j) := by
    intro d
    induction d with
    | zero =>
      intro j hd hj
      have hjn : j = nv := by omega
      subst hjn
      exact ⟨1, by rw [Function.iterate_one, hvs j hj]; exact hv.2.2.2⟩
    | succ d ih =>
      intro j hd hj
      apply reaches_step
      rw [hvs j hj, hv.2.2.1 j (by omega)]
      exact ih (j + 1) (by omega) (by omega)
  have hru : ∀ i, i ≤ nu → Reaches P c1 (us i) := by
    intro i
    induction i with
    | zero =>
      intro _
      apply reaches_step
      rw [hk0, hlk, ← hv0]
      exact hrv nv 0 rfl (Nat.zero_le _)
    | succ i ih =>
      intro hi
      apply reaches_step
      rw [hl i (by omega)]
      exact ih (by omega)
  have hall : ∀ m x, GraphNode P x → (lookup P c)^[m] x = 0 → Reaches P c1 x := by
    intro m
    induction m with
    | zero =>
      intro x hx h0
      rw [Function.iterate_zero, id] at h0
      exact ⟨0, h0⟩
    | succ m ih =>
      intro x hx hm
      rw [Function.iterate_succ_apply] at hm
      by_cases hon : ∃ i, i ≤ nu ∧ x = us i
      · obtain ⟨i, hi, rfl⟩ := hon
        exact hru i hi
      · have hoff : ∀ i, i ≤ nu → x ≠ us i := fun i hi he => hon ⟨i, hi, he⟩
        have e := hlo x hx hoff
        apply reaches_step
        rw [e]
        rcases hc.ptr_next_node hx with h0 | hg
        · exact ⟨0, h0⟩
        · exact ih _ hg hm
  intro x hx
  obtain ⟨m, hm⟩ := hfo x hx
  exact hall m x hx hm

/-- A cycle-finder step on a table of pointers without pointer cycle leaves such a
table. -/
theorem cycleBody_forest {P : Params} (hP : P.Valid) (hk : KeysDistinct P) {h : Nat → Nat}
    {w : WorkerState} {c : cuckoo_hash} (hcu : w.ctx.cuckoo = some c)
    (hc : PointerTable P c) (hfo : Forest P c) {fuel nonce : Nat} {r : Step WorkerState}
    (hstep : cycleBody P h fuel nonce w = some r) :
    ∃ c1, r.state.ctx.cuckoo = some c1 ∧ PointerTable P c1 ∧ Forest P c1 := by
  rcases cycleBody_shape hP hk hcu hc hstep with hsame |
    ⟨us, vs, nu, nv, c1, hpu, hpv, hu0, hv0, hroot, -, -, -, -, hat, rfl⟩
  · exact ⟨c, hsame, hc, hfo⟩
  · refine ⟨c1, rfl, ?_⟩
    by_cases hlt : nu < nv
    · rw [if_pos hlt] at hat
      obtain ⟨hc1, hl, hlk, hlo⟩ := attach_table hP hk hc hpu hu0 (nodeV_graph hP hk h nonce) hat
      exact ⟨hc1, forest_attach hc hfo hpu hpv hroot hu0 hv0 hl hlk hlo⟩
    · rw [if_neg hlt] at hat
      obtain ⟨hc1, hl, hlk, hlo⟩ := attach_table hP hk hc hpv hv0 (nodeU_graph hP hk h nonce) hat
      exact ⟨hc1, forest_attach hc hfo hpv hpu (fun he => hroot he.symm) hv0 hu0 hl hlk hlo⟩

theorem foldNonces_forest {P : Params} (hP : P.Valid) (hk : KeysDistinct P) {h : Nat → Nat}
    (fuel : Nat) :
    ∀ (l : List Nat) (w : WorkerState) (r : Step WorkerState),
      (∃ c, w.ctx.cuckoo = some c ∧ PointerTable P c ∧ Forest P c) →
      foldNonces (fun w : WorkerState => w.ctx.alive) (cycleBody P h fuel) l w = some r →
      ∃ c1, r.state.ctx.cuckoo = some c1 ∧ PointerTable P c1 ∧ Forest P c1 := by
  intro l
  induction l with
  | nil =>
    intro w r hw hr
    simp only [foldNonces, Option.some.injEq] at hr
    subst hr
    exact hw
  | cons n rest ih =>
    intro w r hw hr
    simp only [foldNonces] at hr
    cases ht : w.ctx.alive.test n with
    | none => rw [ht] at hr; cases hr
    | some b =>
      rw [ht] at hr
      cases b with
      | false => exact ih w r hw hr
      | true =>
        simp only at hr
        cases hb : cycleBody P h fuel n w with
        | none => rw [hb] at hr; cases hr
        | some r1 =>
          rw [hb] at hr
          obtain ⟨c, hcu, hc, hfo⟩ := hw
          have hinv := cycleBody_forest hP hk hcu hc hfo hb
          cases r1 with
          | exit s1 =>
            simp only [Option.some.injEq] at hr
            subst hr
            exact hinv
          | next s1 =>
            simp only at hr
            exact ih s1 r hinv hr

/-- C18: with keys injective modulo `2^KEYSHIFT`, a cycle-finder step on a table of
pointers in which every pointer chain reaches 0 leaves such a table, whichever branch it
takes (skip, cycle found, thread ended by `path`, attach).  So from the freshly allocated
map on, the map after the steps over any list of nonces, and the map at the end of the
cycle finder, has no pointer cycle. -/
theorem path_graph_stays_forest (P : Params) (h : Nat → Nat) (hP : P.Valid)
    (hk : KeysDistinct P) (fuel : Nat) :
    (∀ (w : WorkerState) (c : cuckoo_hash) (nonce : Nat) (r : Step WorkerState),
      w.ctx.cuckoo = some c → PointerTable P c → Forest P c →
      cycleBody P h fuel nonce w = some r →
      ∃ c1, r.state.ctx.cuckoo = some c1 ∧ PointerTable P c1 ∧ Forest P c1) ∧
    (∀ (w : WorkerState) (l : List Nat) (r : Step WorkerState),
      w.ctx.cuckoo = some (cuckoo_hash.new P) →
      foldNonces (fun w : WorkerState => w.ctx.alive) (cycleBody P h fuel) l w = some r →
      ∃ c1, r.state.ctx.cuckoo = some c1 ∧ PointerTable P c1 ∧ Forest P c1) ∧
    (∀ (w : WorkerState) (id : Nat) (out : Outcome) (ctx1 : cuckoo_ctx),
      w.ctx.cuckoo = some (cuckoo_hash.new P) →
      cyclePhase P h id fuel w = some (out, ctx1) →
      ∃ c1, ctx1.cuckoo = some c1 ∧ PointerTable P c1 ∧ Forest P c1) := by
  refine ⟨fun w c nonce r hcu hc hfo hstep => cycleBody_forest hP hk hcu hc hfo hstep,
    fun w l r hcu hr => foldNonces_forest hP hk fuel l w r
      ⟨_, hcu, new_pointerTable P, fun x _ => reaches_new P x⟩ hr, ?_⟩
  intro w id out ctx1 hcu hrun
  have hw : ∃ c, w.ctx.cuckoo = some c ∧ PointerTable P c ∧ Forest P c :=
    ⟨_, hcu, new_pointerTable P, fun x _ => reaches_new P x⟩
  unfold cyclePhase at hrun
  cases hl : FORALL_LIVE_NONCES (fun w : WorkerState => w.ctx.alive) (cycleBody P h fuel)
      w.ctx.easiness w.ctx.nthreads id fuel w with
  | none => rw [hl] at hrun; cases hrun
  | some r =>
    have hinv := FORALL_LIVE_NONCES_invariant (fun w : WorkerState => w.ctx.alive)
      (cycleBody P h fuel) w.ctx.easiness w.ctx.nthreads id fuel
      (fun a b => (∃ c, a.ctx.cuckoo = some c ∧ PointerTable P c ∧ Forest P c) →
        ∃ c, b.ctx.cuckoo = some c ∧ PointerTable P c ∧ Forest P c)
      (fun _ ha => ha) (fun _ _ _ h1 h2 ha => h2 (h1 ha))
      (fun n s r1 _ _ hb ha => by
        obtain ⟨c, hcu1, hc, hfo⟩ := ha
        exact cycleBody_forest hP hk hcu1 hc hfo hb) w r hl hw
    rw [hl] at hrun
    cases r with
    | next w1 =>
      simp only [Option.some.injEq, Prod.mk.injEq] at hrun
      rw [← hrun.2]
      exact hinv
    | exit w1 =>
      simp only [Option.some.injEq, Prod.mk.injEq] at hrun
      rw [← hrun.2]
      exact hinv

theorem path_graph_stays_forest_witness :
    exParams.Valid ∧ KeysDistinct exParams ∧
      exStartB.ctx.cuckoo = some (cuckoo_hash.new exParams) ∧
      foldNonces (fun w : WorkerState => w.ctx.alive) (cycleBody exParams exHashB 9) [0, 1]
        exStartB = some (Step.next exMidB) ∧
      ∃ c1, exMidB.ctx.cuckoo = some c1 ∧ PointerTable exParams c1 ∧ Forest exParams c1 :=
  ⟨exParams_Valid, exParams_KeysDistinct, rfl, rfl,
    (path_graph_stays_forest exParams exHashB exParams_Valid exParams_KeysDistinct 9).2.1
      exStartB [0, 1] (Step.next exMidB) rfl rfl⟩

theorem exMapC_pointerTable : PointerTable exParams exMapC := by
  obtain ⟨c1, h1, h2, -⟩ := foldNonces_forest (h := exHashC) exParams_Valid exParams_KeysDistinct 9 [0, 1, 2]
    exStartC (Step.next exMidC)
    ⟨_, rfl, new_pointerTable exParams, fun x _ => reaches_new exParams x⟩ rfl
  have e : exMidC.ctx.cuckoo = some exMapC := by decide
  have h3 : (Step.next exMidC).state.ctx.cuckoo = exMidC.ctx.cuckoo := rfl
  rw [h3, e] at h1
  cases h1
  exact h2

theorem attach_reverses_shorter_path_witness :
    exMidC.ctx.cuckoo = some exMapC ∧ exMapC.used < exParams.CUCKOO_SIZE ∧
      nodeU exParams exHashC 3 = 2 ∧ nodeV exParams exHashC 3 = 257 ∧
      (List.range 3).map exUsC = [2, 258, 3] ∧ (List.range 2).map exVsC = [257, 1] ∧
      ∃ c1, cycleBody exParams exHashC 9 3 exMidC =
          some (Step.next { ctx := { exMidC.ctx with cuckoo := some c1 },
                            us := exUsC, vs := exVsC }) ∧
        exUsC 0 = nodeU exParams exHashC 3 ∧ exVsC 0 = nodeV exParams exHashC 3 ∧
        (2 < 1 →
          (∀ i, i < 2 → c1.get exParams 9 (exUsC (i + 1)) = some (exUsC i)) ∧
          c1.get exParams 9 (nodeU exParams exHashC 3) = some (nodeV exParams exHashC 3) ∧
          ∀ x, GraphNode exParams x → (∀ i, i ≤ 2 → x ≠ exUsC i) →
            lookup exParams c1 x = lookup exParams exMapC x ∧
            exMapC.get exParams 9 x = some (lookup exParams exMapC x) ∧
            (lookup exParams c1 x ≠ 0 ∨ c1.used < exParams.CUCKOO_SIZE →
              c1.get exParams 9 x = exMapC.get exParams 9 x)) ∧
        (1 ≤ 2 →
          (∀ i, i < 1 → c1.get exParams 9 (exVsC (i + 1)) = some (exVsC i)) ∧
          c1.get exParams 9 (nodeV exParams exHashC 3) = some (nodeU exParams exHashC 3) ∧
          ∀ x, GraphNode exParams x → (∀ i, i ≤ 1 → x ≠ exVsC i) →
            lookup exParams c1 x = lookup exParams exMapC x ∧
            exMapC.get exParams 9 x = some (lookup exParams exMapC x) ∧
            (lookup exParams c1 x ≠ 0 ∨ c1.used < exParams.CUCKOO_SIZE →
              c1.get exParams 9 x = exMapC.get exParams 9 x)) :=
  ⟨by decide, by decide, by decide, by decide, by decide, by decide,
    attach_reverses_shorter_path exParams exHashC exParams_Valid exParams_KeysDistinct exMidC
      exMapC 9 3 2 1 exUsC exVsC (by decide) exMapC_pointerTable (by decide) (by decide)
      (by decide) (by decide) rfl rfl (by decide)⟩

/-! ## The load check and the room in the map -/

/-- When the quotient `100 * count / CUCKOO_SIZE` fits `int`, a load below 90 means
fewer live nonces than slots. -/
theorem load_below_90_bounds_count (P : Params) (a : shrinkingset) (size : Nat)
    (hsize : size < W32) (hc : a.Counted size)
    (hq : 100 * a.count / P.CUCKOO_SIZE < 2 ^ 31) (hl : loadOf P a < 90) :
    a.count < P.CUCKOO_SIZE := by
  rw [loadOf_eq_floor P a size hsize hc hq] at hl
  have h1 : 100 * a.count / P.CUCKOO_SIZE < 90 := by exact_mod_cast hl
  have hpos := CUCKOO_SIZE_pos P
  have h2 := (Nat.div_lt_iff_lt_mul hpos).1 h1
  omega

/-- In a run of the single-threaded cycle finder from the freshly allocated map, after a
load check passed with a quotient that fits `int`, the map has an empty slot after the
steps over any list of different nonces: its non-zero slots are at most the live nonces
of the list, fewer than `CUCKOO_SIZE`. -/
theorem run_has_room {P : Params} (hP : P.Valid) (hk : KeysDistinct P) {h : Nat → Nat}
    (c : cuckoo_ctx) (us0 vs0 : Nat → Nat) (fuel : Nat) (l : List Nat)
    (r : Step WorkerState) (hc : c.cuckoo = some (cuckoo_hash.new P))
    (hlen : c.sols.length = c.maxsols) (hrows : ∀ row ∈ c.sols, row.length = P.PROOFSIZE)
    (hmax : c.maxsols < W32) (hns : c.nsols = 0) (hsize : c.easiness < W32)
    (hcnt : c.alive.Counted c.easiness)
    (hq : 100 * c.alive.count / P.CUCKOO_SIZE < 2 ^ 31) (hl : loadOf P c.alive < 90)
    (hnd : l.Nodup) (hlt : ∀ x ∈ l, x < c.easiness)
    (hrun : foldNonces (fun w : WorkerState => w.ctx.alive) (cycleBody P h fuel) l
      { ctx := c, us := us0, vs := vs0 } = some r) :
    ∃ cw, r.state.ctx.cuckoo = some cw ∧
      cw.used ≤ (l.filter fun x => c.alive.test x == some true).length ∧
      cw.used < P.CUCKOO_SIZE := by
  have hw0 := workerInv_start P h c us0 vs0 hc hlen hrows hmax hns
  obtain ⟨-, c0, cw, hc0, hcw, hused⟩ := foldNonces_used hP hk fuel l _ _ hw0 hlt hrun
  have hc0 : c.cuckoo = some c0 := hc0
  have e0 : c0 = cuckoo_hash.new P := by
    rw [hc] at hc0
    exact (Option.some.inj hc0).symm
  subst e0
  rw [used_new, Nat.zero_add] at hused
  have h1 := live_filter_le c.alive c.easiness l hnd hlt
  have h2 := load_below_90_bounds_count P c.alive c.easiness hsize hcnt hq hl
  have h3 : c.alive.count = liveCount c.alive c.easiness := hcnt
  exact ⟨cw, hcw, hused, by omega⟩

/-- On a table in which every slot holds another key, `get(u)` never returns. -/
theorem get_never_returns (P : Params) (hP : P.Valid) (c : cuckoo_hash) (u : Nat)
    (hhome : u >>> P.IDXSHIFT < P.CUCKOO_SIZE)
    (hall : ∀ (i w : Nat), c.cuckoo[i]? = some w →
      w ≠ 0 ∧ w % 2 ^ P.KEYSHIFT ≠ u % 2 ^ P.KEYSHIFT) :
    ∀ fuel, c.get P fuel u = none := by
  intro fuel
  unfold cuckoo_hash.get
  rw [getLoop_eq_probe]
  cases hp : probeLoop P c u fuel (u >>> P.IDXSHIFT) with
  | none => rfl
  | some i =>
    have hstart : u >>> P.IDXSHIFT = (u >>> P.IDXSHIFT + 0) % P.CUCKOO_SIZE := by
      rw [Nat.add_zero, Nat.mod_eq_of_lt hhome]
    rw [hstart] at hp
    obtain ⟨j, -, -, -, ⟨w, hw, hs⟩, -⟩ := probe_sound P hP c u _ fuel 0 i hp
    obtain ⟨h0, hk⟩ := hall i w hw
    rcases hs with hs | hs
    · exact absurd hs h0
    · exact absurd hs hk

theorem exFull_taken (i w : Nat) (hw : exFull.cuckoo[i]? = some w) :
    w ≠ 0 ∧ w % 2 ^ exParams.KEYSHIFT ≠ 9 % 2 ^ exParams.KEYSHIFT := by
  have hlen : exFull.cuckoo.length = 9 := rfl
  have hi : i < 9 := by
    rw [← hlen]; exact (List.getElem?_eq_some.1 hw).1
  have hk : exParams.KEYSHIFT = 15 := by decide
  rw [hk]
  unfold exFull at hw
  interval_cases i <;> simp at hw <;> subst hw <;> decide

/-- C20: for `EDGEBITS = 8` (`CUCKOO_SIZE = 9`) and 193273529 live nonces the quotient
`100 * 193273529 / 9 = 2147483655` does not fit `int`; the cast gives `-2147483641`, so
`load >= 90` is false and the overload check passes with far more live nonces than
slots.  Nine attached edges `(j, j)` then fill the table (`exFull`), and on it `get(9)`,
the first probe of a step on a nonce with the endpoints `(8, 8)`, never returns. -/
theorem load_check_passes_overfull :
    shrinkingset.new 193273529 1 = some exHuge ∧ exHuge.count = 193273529 ∧
      exParams.CUCKOO_SIZE = 9 ∧ 100 * exHuge.count / exParams.CUCKOO_SIZE = 2147483655 ∧
      loadOf exParams exHuge = -2147483641 ∧ ¬ (loadOf exParams exHuge ≥ 90) ∧
      ¬ (exHuge.count < exParams.CUCKOO_SIZE) ∧
      applySets exParams 9 (cuckoo_hash.new exParams)
        [(257, 1), (258, 2), (259, 3), (260, 4), (261, 5), (262, 6), (263, 7), (264, 8),
          (265, 9)] = some exFull ∧
      exFull.used = exParams.CUCKOO_SIZE ∧
      ∀ fuel, exFull.get exParams fuel 9 = none := by
  refine ⟨rfl, by decide, by decide, by decide, by decide, by decide, by decide, by decide,
    by decide, ?_⟩
  exact get_never_returns exParams exParams_Valid exFull 9 (by decide) exFull_taken

/-! ## The index range of the cycle set -/

theorem cycleInsertU_total (us : Nat → Nat) :
    ∀ (n : Nat) (cyc : List edge), n < MAXPATHLEN →
      ∃ cyc1, cycleInsertU us n cyc = some cyc1 := by
  intro n
  induction n with
  | zero => intro cyc _; exact ⟨cyc, rfl⟩
  | succ n ih =>
    intro cyc hn
    have h1 : (n + 1) &&& (W32 - 2) < MAXPATHLEN :=
      Nat.lt_of_le_of_lt Nat.and_le_left hn
    have h2 : n ||| 1 < MAXPATHLEN := by rw [or_one_eq]; omega
    unfold cycleInsertU rdPath
    rw [if_pos h1, if_pos h2]
    exact ih _ (by omega)

theorem cycleInsertV_total (vs : Nat → Nat) :
    ∀ (n : Nat) (cyc : List edge), n < MAXPATHLEN →
      ∃ cyc1, cycleInsertV vs n cyc = some cyc1 := by
  intro n
  induction n with
  | zero => intro cyc _; exact ⟨cyc, rfl⟩
  | succ n ih =>
    intro cyc hn
    have h1 : (n + 1) &&& (W32 - 2) < MAXPATHLEN :=
      Nat.lt_of_le_of_lt Nat.and_le_left hn
    have h2 : n ||| 1 < MAXPATHLEN := by rw [or_one_eq]; omega
    unfold cycleInsertV rdPath
    rw [if_pos h2, if_pos h1]
    exact ih _ (by omega)

theorem cycleSet_total (us vs : Nat → Nat) (nu nv : Nat) (hnu : nu < MAXPATHLEN)
    (hnv : nv < MAXPATHLEN) : ∃ cyc, cycleSet us nu vs nv = some cyc := by
  obtain ⟨c0, h0⟩ := cycleInsertU_total us nu [edge.mk (us 0) (vs 0)] hnu
  obtain ⟨c1, h1⟩ := cycleInsertV_total vs nv c0 hnv
  refine ⟨c1, ?_⟩
  unfold cycleSet rdPath
  have hmax : 0 < MAXPATHLEN := by decide
  simp only [if_pos hmax]
  rw [h0]
  exact h1

/-- C21: on the two paths of a 4-cycle (`nu = 3`, `nv = 0`) `solution` builds the edges
(1,257), (2,257), (2,258), (1,258).  The edge (1,257) = (us[0], us[1]) comes from index
0 and from no index i between 1 and nu; the pair named for i = nu, (us[4], us[3]) =
(0,258), reads past the end of the path and is not in the set. -/
theorem cycle_set_starts_at_index_zero :
    cycleSet exCycleUs 3 exCycleVs 0 =
      some [edge.mk 1 257, edge.mk 2 257, edge.mk 2 258, edge.mk 1 258] ∧
    edge.mk 1 257 = edge.mk (exCycleUs ((0 + 1) &&& (W32 - 2))) (exCycleUs (0 ||| 1)) ∧
    edge.mk 1 257 ≠ edge.mk (exCycleUs 0) (exCycleVs 0) ∧
    (¬ ∃ i, 1 ≤ i ∧ i ≤ 3 ∧
      edge.mk 1 257 = edge.mk (exCycleUs ((i + 1) &&& (W32 - 2))) (exCycleUs (i ||| 1))) ∧
    (¬ ∃ i, 1 ≤ i ∧ i ≤ 0 ∧
      edge.mk 1 257 = edge.mk (exCycleVs (i ||| 1)) (exCycleVs ((i + 1) &&& (W32 - 2)))) ∧
    edge.mk (exCycleUs ((3 + 1) &&& (W32 - 2))) (exCycleUs (3 ||| 1)) = edge.mk 0 258 ∧
    edge.mk 0 258 ∉ [edge.mk 1 257, edge.mk 2 257, edge.mk 2 258, edge.mk 1 258] := by
  refine ⟨by decide, by decide, by decide, ?_, ?_, by decide, by decide⟩
  · rintro ⟨i, h1, h2, h⟩
    interval_cases i
    · revert h; decide
    · revert h; decide
    · revert h; decide
  · rintro ⟨i, h1, h2, _⟩
    omega

/-- C21, as amended: for `nu, nv < MAXPATHLEN` the set is built without a read outside the
arrays, has no repetition, and holds exactly (us[0], vs[0]), the pairs
(us[(i+1) & ~1], us[i | 1]) for i from nu-1 down to 0 and the pairs
(vs[i | 1], vs[(i+1) & ~1]) for i from nv-1 down to 0; `solution` scans the nonces
against that set. -/
theorem solution_cycle_set (us vs : Nat → Nat) (nu nv : Nat) (hnu : nu < MAXPATHLEN)
    (hnv : nv < MAXPATHLEN) :
    ∃ cyc, cycleSet us nu vs nv = some cyc ∧ cyc.Nodup ∧
      (∀ e, e ∈ cyc ↔
        e = edge.mk (us 0) (vs 0) ∨
        (∃ i, i < nu ∧ e = edge.mk (us ((i + 1) &&& (W32 - 2))) (us (i ||| 1))) ∨
        (∃ i, i < nv ∧ e = edge.mk (vs (i ||| 1)) (vs ((i + 1) &&& (W32 - 2))))) ∧
      ∀ (P : Params) (h : Nat → Nat) (ctx : cuckoo_ctx),
        solution P h ctx us nu vs nv =
          (scanNonces P h ctx.alive ctx.nsols (List.range ctx.easiness)
            { sols := ctx.sols, n := 0, cycle := cyc }).map
            fun st => { ctx with nsols := (ctx.nsols + 1) % W32, sols := st.sols } := by
  obtain ⟨cyc, hc⟩ := cycleSet_total us vs nu nv hnu hnv
  obtain ⟨hnd, hmem⟩ := cycleSet_spec us vs nu nv cyc hc
  refine ⟨cyc, hc, hnd, hmem, fun P h ctx => ?_⟩
  unfold solution
  rw [hc]
  simp only
  cases scanNonces P h ctx.alive ctx.nsols (List.range ctx.easiness)
      { sols := ctx.sols, n := 0, cycle := cyc } <;> rfl

theorem solution_cycle_set_witness :
    3 < MAXPATHLEN ∧ 0 < MAXPATHLEN ∧
    ∃ cyc, cycleSet exCycleUs 3 exCycleVs 0 = some cyc ∧ cyc.Nodup ∧
      (∀ e, e ∈ cyc ↔
        e = edge.mk (exCycleUs 0) (exCycleVs 0) ∨
        (∃ i, i < 3 ∧
          e = edge.mk (exCycleUs ((i + 1) &&& (W32 - 2))) (exCycleUs (i ||| 1))) ∨
        (∃ i, i < 0 ∧
          e = edge.mk (exCycleVs (i ||| 1)) (exCycleVs ((i + 1) &&& (W32 - 2))))) ∧
      ∀ (P : Params) (h : Nat → Nat) (ctx : cuckoo_ctx),
        solution P h ctx exCycleUs 3 exCycleVs 0 =
          (scanNonces P h ctx.alive ctx.nsols (List.range ctx.easiness)
            { sols := ctx.sols, n := 0, cycle := cyc }).map
            fun st => { ctx with nsols := (ctx.nsols + 1) % W32, sols := st.sols } :=
  ⟨by decide, by decide, solution_cycle_set exCycleUs exCycleVs 3 0 (by decide) (by decide)⟩

/-! ## The strides of `FORALL_LIVE_NONCES` -/

theorem stride_mod_other {nthreads id : Nat} (hid : id < nthreads) (q j : Nat)
    (hq : q % nthreads = id) (h0 : 0 < j) (hj : j < nthreads) :
    (q + j) % nthreads ≠ id := by
  rw [Nat.add_mod, hq]
  rw [Nat.mod_eq_of_lt hj]
  by_cases hlt : id + j < nthreads
  · rw [Nat.mod_eq_of_lt hlt]; omega
  · rw [Nat.mod_eq_sub_mod (by omega), Nat.mod_eq_of_lt (by omega)]; omega

theorem range'_split (s a b : Nat) :
    List.range' s (a + b) = List.range' s a ++ List.range' (s + a) b := by
  rw [List.range'_append_1]
  congr 1
  omega

theorem stride_block (easiness nthreads id q : Nat) (hid : id < nthreads)
    (hq : q % nthreads = id) :
    (List.range' (32 * q) (easiness - 32 * q)).filter
        (fun n => decide ((n / 32) % nthreads = id)) =
      List.range' (32 * q) (min (32 * q + 32) easiness - 32 * q) ++
        (List.range' (32 * (q + nthreads)) (easiness - 32 * (q + nthreads))).filter
          (fun n => decide ((n / 32) % nthreads = id)) := by
  have hsplit : easiness - 32 * q =
      (min (32 * q + 32) easiness - 32 * q) +
        ((min (32 * (q + nthreads)) easiness - min (32 * q + 32) easiness) +
          (easiness - 32 * (q + nthreads))) := by omega
  rw [hsplit, range'_split, range'_split, List.filter_append, List.filter_append]
  have h1 : (List.range' (32 * q) (min (32 * q + 32) easiness - 32 * q)).filter
      (fun n => decide ((n / 32) % nthreads = id)) =
      List.range' (32 * q) (min (32 * q + 32) easiness - 32 * q) := by
    rw [List.filter_eq_self]
    intro n hn
    rw [List.mem_range'_1] at hn
    have : n / 32 = q := by omega
    rw [this]
    exact decide_eq_true hq
  have h2 : (List.range' (32 * q + (min (32 * q + 32) easiness - 32 * q))
      (min (32 * (q + nthreads)) easiness - min (32 * q + 32) easiness)).filter
      (fun n => decide ((n / 32) % nthreads = id)) = [] := by
    rw [List.filter_eq_nil_iff]
    intro n hn
    rw [List.mem_range'_1] at hn
    have hj : ∃ j, 0 < j ∧ j < nthreads ∧ n / 32 = q + j := by
      refine ⟨n / 32 - q, ?_, ?_, ?_⟩ <;> omega
    obtain ⟨j, h0, hj, hn32⟩ := hj
    rw [hn32]
    simpa using stride_mod_other hid q j hq h0 hj
  have h3 : List.range' (32 * q + (min (32 * q + 32) easiness - 32 * q) +
        (min (32 * (q + nthreads)) easiness - min (32 * q + 32) easiness))
        (easiness - 32 * (q + nthreads)) =
      List.range' (32 * (q + nthreads)) (easiness - 32 * (q + nthreads)) := by
    by_cases hc : easiness - 32 * (q + nthreads) = 0
    · rw [hc]; rfl
    · congr 1
      omega
  rw [h1, h2, h3, List.nil_append]

theorem forallBlocks_stride {σ : Type} (alive : σ → shrinkingset)
    (body : Nat → σ → Option (Step σ)) (easiness nthreads id : Nat) (hid : id < nthreads)
    (hE : easiness + 32 * nthreads ≤ W32) :
    ∀ fuel q s, q % nthreads = id → (easiness - 32 * q + 31) / 32 < fuel →
      forallBlocks alive body easiness nthreads fuel (32 * q) s =
        foldNonces alive body
          ((List.range' (32 * q) (easiness - 32 * q)).filter
            (fun n => decide ((n / 32) % nthreads = id))) s := by
  intro fuel
  induction fuel with
  | zero => intro q s _ h; omega
  | succ fuel ih =>
    intro q s hq hf
    unfold forallBlocks
    by_cases hc : 32 * q < easiness
    · rw [if_pos hc]
      have hmod : (32 * q + 32) % W32 = 32 * q + 32 := Nat.mod_eq_of_lt (by omega)
      have hmod2 : (32 * q + nthreads * 32) % W32 = 32 * (q + nthreads) := by
        rw [Nat.mod_eq_of_lt (by omega)]; omega
      rw [hmod, hmod2, forallNonces_eq alive body easiness (32 * q + 32) (by omega) 33
        (32 * q) s (by omega), stride_block easiness nthreads id q hid hq, foldNonces_append]
      have hq1 : (q + nthreads) % nthreads = id := by
        rw [Nat.add_mod_right]; exact hq
      cases foldNonces alive body
          (List.range' (32 * q) (min (32 * q + 32) easiness - 32 * q)) s with
      | none => rfl
      | some r =>
        cases r with
        | exit s1 => rfl
        | next s1 =>
          simp only
          exact ih (q + nthreads) s1 hq1 (by omega)
    · rw [if_neg hc]
      have hm : easiness - 32 * q = 0 := by omega
      rw [hm]
      rfl

/-- The thread `id` of `nthreads` runs the body at the live nonces `n < easiness` with
`(n / 32) % nthreads = id`, in ascending order. -/
theorem FORALL_LIVE_NONCES_stride {σ : Type} (alive : σ → shrinkingset)
    (body : Nat → σ → Option (Step σ)) (easiness nthreads id fuel : Nat) (s : σ)
    (hid : id < nthreads) (hE : easiness + 32 * nthreads ≤ W32)
    (hf : easiness / 32 + 2 ≤ fuel) :
    FORALL_LIVE_NONCES alive body easiness nthreads id fuel s =
      foldNonces alive body
        ((List.range easiness).filter (fun n => decide ((n / 32) % nthreads = id))) s := by
  unfold FORALL_LIVE_NONCES
  have h0 : (id * 32) % W32 = 32 * id := by
    rw [Nat.mod_eq_of_lt (by omega)]; omega
  rw [h0, forallBlocks_stride alive body easiness nthreads id hid hE fuel id s
    (Nat.mod_eq_of_lt hid) (by omega)]
  congr 1
  have hlow : ∀ m, (List.range' 0 m).filter (fun n => decide ((n / 32) % nthreads = id)) = []
      ∨ 32 * id < m := by
    intro m
    by_cases hm : 32 * id < m
    · exact Or.inr hm
    · left
      rw [List.filter_eq_nil_iff]
      intro n hn
      rw [List.mem_range'_1] at hn
      have h1 : n / 32 < id := by omega
      have h2 : (n / 32) % nthreads = n / 32 := Nat.mod_eq_of_lt (by omega)
      rw [h2]
      simpa using (by omega : n / 32 ≠ id)
  rw [List.range_eq_range']
  by_cases hle : 32 * id ≤ easiness
  · have hs : easiness = 32 * id + (easiness - 32 * id) := by omega
    conv_rhs => rw [hs, range'_split, List.filter_append]
    rcases hlow (32 * id) with h | h
    · rw [h, List.nil_append, Nat.zero_add]
    · omega
  · have hz : easiness - 32 * id = 0 := by omega
    rw [hz]
    rcases hlow easiness with h | h
    · rw [h]; rfl
    · omega

theorem foldNonces_visit (a : shrinkingset) :
    ∀ (l seen : List Nat), (∀ n ∈ l, a.test n = some true) →
      foldNonces (fun _ => a) visitBody l seen = some (Step.next (seen ++ l)) := by
  intro l
  induction l with
  | nil => intro seen _; simp [foldNonces]
  | cons n rest ih =>
    intro seen hl
    have h1 := hl n (List.mem_cons_self _ _)
    simp only [foldNonces, h1, visitBody]
    rw [ih _ (fun m hm => hl m (List.mem_cons_of_mem _ hm))]
    simp

/-- C22: for `nthreads >= 1` and `easiness + 32*nthreads <= 2^32`, on the live set the
constructor builds (every nonce live), each thread `id < nthreads` completes its
`FORALL_LIVE_NONCES` and runs the body exactly at the nonces `n < easiness` with
`(n / 32) % nthreads = id`, each once and in ascending order.  The sets of two threads
are disjoint, together they cover `[0, easiness)`, and the nonces of one 32-bit word
belong to one thread.  With any live set and any body the thread runs over the same
nonces, testing each one for liveness. -/
theorem nonce_strides_partition (easiness nthreads fuel : Nat) (a : shrinkingset)
    (hn : 1 ≤ nthreads) (hE : easiness + 32 * nthreads ≤ W32)
    (ha : shrinkingset.new easiness nthreads = some a) (hf : easiness / 32 + 2 ≤ fuel) :
    ∃ vis : Nat → List Nat,
      (∀ id, id < nthreads → visited a easiness nthreads id fuel = some (vis id)) ∧
      (∀ id, id < nthreads → (vis id).Pairwise (· < ·)) ∧
      (∀ id n, id < nthreads → (n ∈ vis id ↔ n < easiness ∧ (n / 32) % nthreads = id)) ∧
      (∀ i j n, i < nthreads → j < nthreads → n ∈ vis i → n ∈ vis j → i = j) ∧
      (∀ n, n < easiness ↔ ∃ id, id < nthreads ∧ n ∈ vis id) ∧
      (∀ id n m, id < nthreads → n ∈ vis id → m < easiness → m / 32 = n / 32 →
        m ∈ vis id) ∧
      (∀ (σ : Type) (alive : σ → shrinkingset) (body : Nat → σ → Option (Step σ)) (s : σ)
        (id : Nat), id < nthreads →
        FORALL_LIVE_NONCES alive body easiness nthreads id fuel s =
          foldNonces alive body (vis id) s) := by
  have hmem : ∀ id n, n ∈ (List.range easiness).filter
      (fun n => decide ((n / 32) % nthreads = id)) ↔
      n < easiness ∧ (n / 32) % nthreads = id := by
    intro id n
    rw [List.mem_filter, List.mem_range, decide_eq_true_eq]
  obtain ⟨a1, ha1, _, hlive, _, _⟩ := shrinkingset.new_spec easiness nthreads (by omega) hn
  rw [ha, Option.some.injEq] at ha1
  subst ha1
  refine ⟨fun id => (List.range easiness).filter
    (fun n => decide ((n / 32) % nthreads = id)), ?_, ?_, ?_, ?_, ?_, ?_, ?_⟩
  · intro id hid
    unfold visited
    rw [FORALL_LIVE_NONCES_stride _ _ easiness nthreads id fuel [] hid hE hf,
      foldNonces_visit a _ [] (fun n hn => hlive n ((hmem id n).1 hn).1)]
    rfl
  · intro id _
    have hr : (List.range easiness).Pairwise (· < ·) := by
      rw [List.range_eq_range']
      exact List.pairwise_lt_range' 0 easiness
    exact hr.filter _
  · intro id n _
    exact hmem id n
  · intro i j n _ _ hi hj
    rw [← ((hmem i n).1 hi).2, ← ((hmem j n).1 hj).2]
  · intro n
    constructor
    · intro h
      exact ⟨(n / 32) % nthreads, Nat.mod_lt _ (by omega), (hmem _ n).2 ⟨h, rfl⟩⟩
    · rintro ⟨id, _, h⟩
      exact ((hmem id n).1 h).1
  · intro id n m _ hn hm h32
    exact (hmem id m).2 ⟨hm, by rw [h32]; exact ((hmem id n).1 hn).2⟩
  · intro σ alive body s id hid
    exact FORALL_LIVE_NONCES_stride alive body easiness nthreads id fuel s hid hE hf

theorem nonce_strides_partition_witness :
    (1 ≤ 2 ∧ 70 + 32 * 2 ≤ W32 ∧ shrinkingset.new 70 2 = some exLive ∧ 70 / 32 + 2 ≤ 4) ∧
    visited exLive 70 2 0 4 = some (List.range' 0 32 ++ List.range' 64 6) ∧
    visited exLive 70 2 1 4 = some (List.range' 32 32) ∧
    ∃ vis : Nat → List Nat,
      (∀ id, id < 2 → visited exLive 70 2 id 4 = some (vis id)) ∧
      (∀ id, id < 2 → (vis id).Pairwise (· < ·)) ∧
      (∀ id n, id < 2 → (n ∈ vis id ↔ n < 70 ∧ (n / 32) % 2 = id)) ∧
      (∀ i j n, i < 2 → j < 2 → n ∈ vis i → n ∈ vis j → i = j) ∧
      (∀ n, n < 70 ↔ ∃ id, id < 2 ∧ n ∈ vis id) ∧
      (∀ id n m, id < 2 → n ∈ vis id → m < 70 → m / 32 = n / 32 → m ∈ vis id) ∧
      (∀ (σ : Type) (alive : σ → shrinkingset) (body : Nat → σ → Option (Step σ)) (s : σ)
        (id : Nat), id < 2 →
        FORALL_LIVE_NONCES alive body 70 2 id 4 s = foldNonces alive body (vis id) s) :=
  ⟨⟨by decide, by decide, by decide, by decide⟩, by decide, by decide,
    nonce_strides_partition 70 2 4 exLive (by decide) (by decide) (by decide) (by decide)⟩

/-! ## The map without an assumption on the keys -/

theorem used_write (l : List Nat) : ∀ (i w nw : Nat), l[i]? = some w →
    ((l.set i nw).filter fun x => x != 0).length + (if w = 0 then 0 else 1) =
      (l.filter fun x => x != 0).length + (if nw = 0 then 0 else 1) := by
  induction l with
  | nil => intro i w nw h; simp at h
  | cons x rest ih =>
    intro i w nw h
    cases i with
    | zero =>
      simp only [List.getElem?_cons_zero, Option.some.injEq] at h
      subst h
      simp only [List.set_cons_zero, List.filter_cons]
      by_cases hx : x = 0 <;> by_cases hnw : nw = 0 <;> simp [hx, hnw]
    | succ i =>
      simp only [List.getElem?_cons_succ] at h
      have := ih i w nw h
      simp only [List.set_cons_succ, List.filter_cons]
      by_cases hx : (x != 0) = true
      · simp only [hx, if_true, List.length_cons]; omega
      · simp only [hx, if_false]; exact this

theorem probeLoop_home {P : Params} {c : cuckoo_hash} {u fuel ui i : Nat}
    (h : probeLoop P c u fuel ui = some i) : ui < c.cuckoo.length := by
  cases fuel with
  | zero => simp [probeLoop] at h
  | succ fuel =>
    unfold probeLoop at h
    cases hw : c.cuckoo[ui]? with
    | none => rw [hw] at h; cases h
    | some w => exact (List.getElem?_eq_some.1 hw).1

theorem set_home {P : Params} {c c1 : cuckoo_hash} {u v fuel : Nat}
    (h : c.set P fuel u v = some c1) : u >>> P.IDXSHIFT < c.cuckoo.length := by
  unfold cuckoo_hash.set at h
  rw [setLoop_eq_probe] at h
  cases hp : probeLoop P c u fuel (u >>> P.IDXSHIFT) with
  | none => simp [hp] at h
  | some i => exact probeLoop_home hp

theorem get_home {P : Params} {c : cuckoo_hash} {u y fuel : Nat}
    (h : c.get P fuel u = some y) : u >>> P.IDXSHIFT < c.cuckoo.length := by
  unfold cuckoo_hash.get at h
  rw [getLoop_eq_probe] at h
  cases hp : probeLoop P c u fuel (u >>> P.IDXSHIFT) with
  | none => simp [hp] at h
  | some i => exact probeLoop_home hp

theorem set_length {P : Params} {c c1 : cuckoo_hash} {u v fuel : Nat}
    (h : c.set P fuel u v = some c1) : c1.cuckoo.length = c.cuckoo.length := by
  unfold cuckoo_hash.set at h
  rw [setLoop_eq_probe] at h
  cases hp : probeLoop P c u fuel (u >>> P.IDXSHIFT) with
  | none => simp [hp] at h
  | some i =>
    rw [hp] at h
    simp only [Option.map_some', Option.some.injEq] at h
    rw [← h]
    simp

theorem reversePath_length {P : Params} (fuel : Nat) (us : Nat → Nat) :
    ∀ (n : Nat) (c c1 : cuckoo_hash), reversePath P fuel us n c = some c1 →
      c1.cuckoo.length = c.cuckoo.length := by
  intro n
  induction n with
  | zero =>
    intro c c1 h
    simp only [reversePath, Option.some.injEq] at h
    rw [h]
  | succ n ih =>
    intro c c1 h
    unfold reversePath at h
    cases h1 : rdPath us (n + 1) with
    | none => simp [h1] at h
    | some a =>
      cases h2 : rdPath us n with
      | none => simp [h1, h2] at h
      | some b =>
        simp only [h1, h2] at h
        cases hs : c.set P fuel a b with
        | none => simp [hs] at h
        | some c2 =>
          simp only [hs] at h
          rw [ih c2 c1 h, set_length hs]

/-- A `get` that returns a non-zero value stopped at a slot that is not empty. -/
theorem get_occupied {P : Params} (hP : P.Valid) {c : cuckoo_hash} {u y fuel : Nat}
    (hlen : c.cuckoo.length = P.CUCKOO_SIZE) (h : c.get P fuel u = some y) (hy : y ≠ 0) :
    Occupied P c u := by
  have hhome : u >>> P.IDXSHIFT < P.CUCKOO_SIZE := by rw [← hlen]; exact get_home h
  unfold cuckoo_hash.get at h
  rw [getLoop_eq_probe] at h
  cases hp : probeLoop P c u fuel (u >>> P.IDXSHIFT) with
  | none => simp [hp] at h
  | some i =>
    rw [hp, Option.some_bind] at h
    cases hw : c.cuckoo[i]? with
    | none => simp [hw] at h
    | some w =>
      rw [hw] at h
      simp only [Option.map_some', Option.some.injEq] at h
      refine ⟨i, w, probeLoop_stop hP hp hhome, hw, fun h0 => hy ?_⟩
      rw [← h, if_pos h0]

/-- The slot written by `set(u, v)` is where the probe for `u` stops afterwards. -/
theorem stop_after_write {P : Params} (hP : P.Valid) {c : cuckoo_hash} {u v i : Nat}
    (hv : v < W32) (hstop : ProbeStop P c u i) :
    ProbeStop P { cuckoo := c.cuckoo.set i (niew P u v) } u i := by
  obtain ⟨j, hi, ⟨w, hw, hs⟩, hb⟩ := hstop
  have hil : i < c.cuckoo.length := (List.getElem?_eq_some.1 hw).1
  refine ⟨j, hi, ⟨niew P u v, ?_, Or.inr (niew_key P hP u v hv)⟩, fun j1 hj1 => ?_⟩
  · simp [List.getElem?_set, hil]
  · obtain ⟨w2, hw2, h0, hk⟩ := hb j1 hj1
    have hne : i ≠ (u >>> P.IDXSHIFT + j1) % P.CUCKOO_SIZE := by
      intro he
      rw [← he, hw] at hw2
      cases hw2
      rcases hs with h | h
      · exact h0 h
      · exact hk h
    refine ⟨w2, ?_, h0, hk⟩
    simp only
    rw [List.getElem?_set_ne hne]
    exact hw2

/-- After `set(u, v)` a `get(u)` that returns, returns `v`; with a probe budget of
`CUCKOO_SIZE` it returns. -/
theorem get_after_set {P : Params} (hP : P.Valid) {c c1 : cuckoo_hash} {u v fuel : Nat}
    (hlen : c.cuckoo.length = P.CUCKOO_SIZE) (hv : v < W32)
    (hs : c.set P fuel u v = some c1) (fuel2 : Nat) :
    (∀ y, c1.get P fuel2 u = some y → y = v) ∧
      (P.CUCKOO_SIZE ≤ fuel2 → c1.get P fuel2 u = some v) := by
  have hhome : u >>> P.IDXSHIFT < P.CUCKOO_SIZE := by rw [← hlen]; exact set_home hs
  obtain ⟨i, hstop, rfl⟩ := set_stop hP hhome hs
  have hstop1 := stop_after_write hP hv hstop
  obtain ⟨j, hi, ⟨w, hw, -⟩, -⟩ := hstop
  have hil : i < c.cuckoo.length := (List.getElem?_eq_some.1 hw).1
  have hval : ((({ cuckoo := c.cuckoo.set i (niew P u v) } : cuckoo_hash).cuckoo[i]?).map
      fun w => if w = 0 then 0 else (w >>> P.KEYSHIFT) % W32) = some v := by
    simp only [List.getElem?_set, hil, if_true, Option.map_some', Option.some.injEq]
    by_cases h0 : niew P u v = 0
    · rw [if_pos h0]
      rw [niew_eq P hP u v hv] at h0
      have hpos : 0 < 2 ^ P.KEYSHIFT := Nat.pow_pos (by decide)
      have : 2 ^ P.KEYSHIFT * v = 0 := by omega
      rcases Nat.mul_eq_zero.1 this with h | h
      · omega
      · exact h.symm
    · rw [if_neg h0]
      exact niew_val P hP u v hv
  constructor
  · intro y hy
    unfold cuckoo_hash.get at hy
    rw [getLoop_eq_probe] at hy
    cases hp : probeLoop P { cuckoo := c.cuckoo.set i (niew P u v) } u fuel2
        (u >>> P.IDXSHIFT) with
    | none => simp [hp] at hy
    | some i1 =>
      rw [hp, Option.some_bind] at hy
      have := (probeLoop_stop hP hp hhome).unique hstop1
      subst this
      rw [hval] at hy
      exact (Option.some.inj hy).symm
  · intro hf
    unfold cuckoo_hash.get
    rw [getLoop_eq_probe, hstop1.probeLoop hP hhome (by simpa using hlen) hf, Option.some_bind]
    exact hval

/-- With an empty slot in the table and a probe budget of `CUCKOO_SIZE`, `get` returns. -/
theorem get_returns {P : Params} (hP : P.Valid) {c : cuckoo_hash} {u fuel : Nat}
    (hlen : c.cuckoo.length = P.CUCKOO_SIZE) (hhome : u >>> P.IDXSHIFT < P.CUCKOO_SIZE)
    (hf : P.CUCKOO_SIZE ≤ fuel) (hused : c.used < P.CUCKOO_SIZE) :
    ∃ y, c.get P fuel u = some y := by
  have hlt : c.used < c.cuckoo.length := by rw [hlen]; exact hused
  obtain ⟨i0, h0⟩ := exists_empty_of_used_lt hlt
  obtain ⟨i, hstop⟩ := exists_probeStop hlen hhome ⟨i0, 0, h0, Or.inl rfl⟩
  unfold cuckoo_hash.get
  rw [getLoop_eq_probe, hstop.probeLoop hP hhome hlen hf, Option.some_bind]
  obtain ⟨j, hi, ⟨w, hw, -⟩, -⟩ := hstop
  rw [hw]
  exact ⟨_, rfl⟩

theorem niew_zero {P : Params} (hP : P.Valid) {u v : Nat} (hv : v < W32)
    (h0 : niew P u v = 0) : v = 0 := by
  rw [niew_eq P hP u v hv] at h0
  have : 2 ^ P.KEYSHIFT * v = 0 := by omega
  rcases Nat.mul_eq_zero.1 this with h | h
  · have hpos : 0 < 2 ^ P.KEYSHIFT := Nat.pow_pos (by decide)
    omega
  · exact h

/-- One call of `set` on a table of `CUCKOO_SIZE` slots, whatever the keys are: at most one
slot is filled, none when the probe for the key stops at an occupied slot, and a word
that is not zero leaves every probe that stopped at an occupied slot where it was. -/
theorem set_room {P : Params} (hP : P.Valid) {c c1 : cuckoo_hash} {u v fuel : Nat}
    (hlen : c.cuckoo.length = P.CUCKOO_SIZE) (hv : v < W32)
    (hs : c.set P fuel u v = some c1) :
    c1.cuckoo.length = P.CUCKOO_SIZE ∧ c1.used ≤ c.used + 1 ∧
      (Occupied P c u → c1.used ≤ c.used) ∧
      (niew P u v = 0 → c1.used ≤ c.used ∧ (Occupied P c u → c1.used + 1 = c.used)) ∧
      (niew P u v ≠ 0 → ∀ x, Occupied P c x → Occupied P c1 x) := by
  have hhome : u >>> P.IDXSHIFT < P.CUCKOO_SIZE := by rw [← hlen]; exact set_home hs
  have hl1 : c1.cuckoo.length = P.CUCKOO_SIZE := by rw [set_length hs, hlen]
  obtain ⟨i, hstop, rfl⟩ := set_stop hP hhome hs
  obtain ⟨j, hi, ⟨w, hw, hsw⟩, hb⟩ := id hstop
  have hil : i < c.cuckoo.length := (List.getElem?_eq_some.1 hw).1
  have hwr := used_write c.cuckoo i w (niew P u v) hw
  have hocc : Occupied P c u → w ≠ 0 := by
    rintro ⟨i1, w1, hs1, hw1, hne⟩
    have := hs1.unique hstop
    subst this
    rw [hw] at hw1
    cases hw1
    exact hne
  unfold cuckoo_hash.used
  simp only
  refine ⟨hl1, ?_, ?_, ?_, ?_⟩
  · split_ifs at hwr <;> omega
  · intro ho
    have hw0 := hocc ho
    rw [if_neg hw0] at hwr
    split_ifs at hwr <;> omega
  · intro h0
    rw [if_pos h0] at hwr
    refine ⟨by split_ifs at hwr <;> omega, fun ho => ?_⟩
    have hw0 := hocc ho
    rw [if_neg hw0] at hwr
    omega
  · intro hn0 x hx
    have hslot : ∀ (s ws : Nat), c.cuckoo[s]? = some ws → ws ≠ 0 →
        ∃ ws1 : Nat, (List.set c.cuckoo i (niew P u v))[s]? = some ws1 ∧ ws1 ≠ 0 ∧
          ws1 % 2 ^ P.KEYSHIFT = ws % 2 ^ P.KEYSHIFT := by
      intro s ws hws hne
      by_cases hsi : i = s
      · subst hsi
        rw [hw] at hws
        cases hws
        refine ⟨niew P u v, by simp [List.getElem?_set, hil], hn0, ?_⟩
        rw [niew_key P hP u v hv]
        rcases hsw with h | h
        · exact absurd h hne
        · exact h.symm
      · exact ⟨ws, by rw [List.getElem?_set_ne hsi]; exact hws, hne, rfl⟩
    obtain ⟨ix, wx, ⟨jx, hix, ⟨wx1, hwx1, hsx⟩, hbx⟩, hwx, hnx⟩ := hx
    rw [hwx] at hwx1
    cases hwx1
    have hkx : wx % 2 ^ P.KEYSHIFT = x % 2 ^ P.KEYSHIFT := by
      rcases hsx with h | h
      · exact absurd h hnx
      · exact h
    obtain ⟨ws1, h1, h2, h3⟩ := hslot ix wx hwx hnx
    refine ⟨ix, ws1, ⟨jx, hix, ⟨ws1, h1, Or.inr (h3.trans hkx)⟩, fun j1 hj1 => ?_⟩, h1, h2⟩
    obtain ⟨w2, hw2, h0, hk⟩ := hbx j1 hj1
    obtain ⟨ws2, g1, g2, g3⟩ := hslot _ w2 hw2 h0
    exact ⟨ws2, g1, g2, by rw [g3]; exact hk⟩

theorem get_lt_W32 {P : Params} {c : cuckoo_hash} {u y fuel : Nat}
    (h : c.get P fuel u = some y) : y < W32 := by
  unfold cuckoo_hash.get at h
  rw [getLoop_eq_probe] at h
  cases hp : probeLoop P c u fuel (u >>> P.IDXSHIFT) with
  | none => simp [hp] at h
  | some i =>
    rw [hp, Option.some_bind] at h
    cases hw : c.cuckoo[i]? with
    | none => simp [hw] at h
    | some w =>
      rw [hw] at h
      simp only [Option.map_some', Option.some.injEq] at h
      rw [← h]
      split_ifs
      · decide
      · exact Nat.mod_lt _ (by decide)

/-- What `path` leaves in the array, read off the calls of `get` alone. -/
theorem pathLoop_gets (P : Params) (c : cuckoo_hash) (gfuel : Nat) :
    ∀ (fuel u : Nat) (us : Nat → Nat) (nu nu1 : Nat) (us1 : Nat → Nat), u < W32 →
      pathLoop P c gfuel fuel u us nu = some (PathResult.ret nu1 us1) →
      nu ≤ nu1 ∧ (nu1 = nu ∨ nu1 < MAXPATHLEN) ∧ (∀ i, i ≤ nu → us1 i = us i) ∧
        (nu < nu1 → us1 (nu + 1) = u) ∧
        (∀ i, nu < i → i ≤ nu1 → us1 i ≠ 0 ∧ us1 i < W32) ∧
        (∀ i, nu < i → i < nu1 → c.get P gfuel (us1 i) = some (us1 (i + 1))) := by
  intro fuel
  induction fuel with
  | zero => intro u us nu nu1 us1 _ h; simp [pathLoop] at h
  | succ fuel ih =>
    intro u us nu nu1 us1 hu h
    unfold pathLoop at h
    by_cases hu0 : u = 0
    · rw [if_pos hu0] at h
      simp only [Option.some.injEq, PathResult.ret.injEq] at h
      obtain ⟨rfl, rfl⟩ := h
      exact ⟨Nat.le_refl _, Or.inl rfl, fun _ _ => rfl, fun hlt => absurd hlt (Nat.lt_irrefl _),
        fun i h1 h2 => by omega, fun i h1 h2 => by omega⟩
    · rw [if_neg hu0] at h
      by_cases hcap : nu + 1 ≥ MAXPATHLEN
      · rw [if_pos hcap] at h; cases h
      · rw [if_neg hcap] at h
        cases hg : c.get P gfuel u with
        | none => rw [hg] at h; cases h
        | some u1 =>
          rw [hg] at h
          simp only at h
          obtain ⟨h1, h2, h3, h4, h5, h6⟩ := ih u1 _ (nu + 1) nu1 us1 (get_lt_W32 hg) h
          have hself : us1 (nu + 1) = u := by
            rw [h3 (nu + 1) (Nat.le_refl _), Function.update_same]
          refine ⟨by omega, Or.inr (by omega), fun i hi => ?_, fun _ => hself,
            fun i hi1 hi2 => ?_, fun i hi1 hi2 => ?_⟩
          · rw [h3 i (by omega), Function.update_noteq (by omega)]
          · by_cases hin : i = nu + 1
            · rw [hin, hself]; exact ⟨hu0, hu⟩
            · exact h5 i (by omega) hi2
          · by_cases hin : i = nu + 1
            · rw [hin, hself, h4 (by omega)]; exact hg
            · exact h6 i (by omega) hi2

/-- The path that `path` walked from `get(u0)`: the first entry is `u0`, the entries
`1..nu` are non-zero values of `get`, and the probe of every entry before the last stops
at an occupied slot. -/
theorem path_gets {P : Params} (hP : P.Valid) {c : cuckoo_hash} {fuel u0 u nu : Nat}
    {us0 us : Nat → Nat} (hlen : c.cuckoo.length = P.CUCKOO_SIZE)
    (hg : c.get P fuel u0 = some u)
    (hp : path P fuel c u (Function.update us0 0 u0) = some (PathResult.ret nu us)) :
    nu < MAXPATHLEN ∧ us 0 = u0 ∧ (∀ i, 1 ≤ i → i ≤ nu → us i ≠ 0 ∧ us i < W32) ∧
      (∀ i, i < nu → Occupied P c (us i)) := by
  unfold path at hp
  obtain ⟨-, h2, h3, h4, h5, h6⟩ := pathLoop_gets P c fuel fuel u _ 0 nu us (get_lt_W32 hg) hp
  have hM : 0 < MAXPATHLEN := by decide
  have h0 : us 0 = u0 := by rw [h3 0 (Nat.le_refl _), Function.update_same]
  refine ⟨by omega, h0, fun i hi1 hi2 => h5 i (by omega) hi2, fun i hi => ?_⟩
  by_cases hi0 : i = 0
  · subst hi0
    rw [h0]
    have h1 : us 1 = u := h4 hi
    exact get_occupied hP hlen hg (by rw [← h1]; exact (h5 1 (by omega) (by omega)).1)
  · exact get_occupied hP hlen (h6 i (by omega) hi) (h5 (i + 1) (by omega) (by omega)).1

theorem reversePath_succ {P : Params} {fuel : Nat} {us : Nat → Nat} {n : Nat}
    {c c1 : cuckoo_hash} (h : reversePath P fuel us (n + 1) c = some c1) :
    ∃ c2, c.set P fuel (us (n + 1)) (us n) = some c2 ∧ reversePath P fuel us n c2 = some c1 := by
  unfold reversePath rdPath at h
  by_cases h1 : n + 1 < MAXPATHLEN
  · rw [if_pos h1, if_pos (by omega : n < MAXPATHLEN)] at h
    simp only at h
    cases hs : c.set P fuel (us (n + 1)) (us n) with
    | none => rw [hs] at h; cases h
    | some c2 =>
      rw [hs] at h
      exact ⟨c2, rfl, h⟩
  · rw [if_neg h1] at h
    cases h

/-- Reversing a path all of whose keys stop at occupied slots fills no slot. -/
theorem reversePath_occupied {P : Params} (hP : P.Valid) (fuel : Nat) (us : Nat → Nat) :
    ∀ (n : Nat) (c c1 : cuckoo_hash), c.cuckoo.length = P.CUCKOO_SIZE →
      (∀ i, i < n → us i < W32) → (∀ i, 1 ≤ i → i < n → us i ≠ 0) →
      (∀ i, 1 ≤ i → i ≤ n → Occupied P c (us i)) →
      reversePath P fuel us n c = some c1 →
      c1.used ≤ c.used ∧ ∀ x, Occupied P c x → (Occupied P c1 x ∨ c1.used + 1 ≤ c.used) := by
  intro n
  induction n with
  | zero =>
    intro c c1 _ _ _ _ h
    simp only [reversePath, Option.some.injEq] at h
    subst h
    exact ⟨Nat.le_refl _, fun x hx => Or.inl hx⟩
  | succ n ih =>
    intro c c1 hlen hv hv0 hocc h
    obtain ⟨c2, hs, hr⟩ := reversePath_succ h
    obtain ⟨hl2, -, hb, hz, hpres⟩ := set_room hP hlen (hv n (by omega)) hs
    have hle := hb (hocc (n + 1) (by omega) (Nat.le_refl _))
    by_cases h0 : niew P (us (n + 1)) (us n) = 0
    · have hn : n = 0 := by
        by_contra hne
        exact hv0 n (by omega) (by omega) (niew_zero hP (hv n (by omega)) h0)
      subst hn
      simp only [reversePath, Option.some.injEq] at hr
      subst hr
      have := (hz h0).2 (hocc 1 (by omega) (by omega))
      exact ⟨hle, fun x _ => Or.inr (by omega)⟩
    · have hp := hpres h0
      obtain ⟨h1, h2⟩ := ih c2 c1 hl2 (fun i hi => hv i (by omega))
        (fun i hi1 hi2 => hv0 i hi1 (by omega))
        (fun i hi1 hi2 => hp _ (hocc i hi1 (by omega))) hr
      refine ⟨by omega, fun x hx => ?_⟩
      rcases h2 x (hp x hx) with h3 | h3
      · exact Or.inl h3
      · exact Or.inr (by omega)

/-- Reversing a path whose keys past the first stop at occupied slots fills at most one
slot. -/
theorem reversePath_room {P : Params} (hP : P.Valid) (fuel : Nat) (us : Nat → Nat)
    (n : Nat) (c c1 : cuckoo_hash) (hlen : c.cuckoo.length = P.CUCKOO_SIZE)
    (hv : ∀ i, i < n → us i < W32) (hv0 : ∀ i, 1 ≤ i → i < n → us i ≠ 0)
    (hocc : ∀ i, 1 ≤ i → i < n → Occupied P c (us i))
    (h : reversePath P fuel us n c = some c1) :
    c1.cuckoo.length = P.CUCKOO_SIZE ∧ c1.used ≤ c.used + 1 ∧
      ∀ x, Occupied P c x → (Occupied P c1 x ∨ c1.used ≤ c.used) := by
  have hl1 : c1.cuckoo.length = P.CUCKOO_SIZE := by rw [reversePath_length fuel us n c c1 h, hlen]
  refine ⟨hl1, ?_⟩
  cases n with
  | zero =>
    simp only [reversePath, Option.some.injEq] at h
    subst h
    exact ⟨Nat.le_succ _, fun x hx => Or.inl hx⟩
  | succ k =>
    obtain ⟨c2, hs, hr⟩ := reversePath_succ h
    obtain ⟨hl2, ha, -, hz, hpres⟩ := set_room hP hlen (hv k (by omega)) hs
    by_cases h0 : niew P (us (k + 1)) (us k) = 0
    · have hk : k = 0 := by
        by_contra hne
        exact hv0 k (by omega) (by omega) (niew_zero hP (hv k (by omega)) h0)
      subst hk
      simp only [reversePath, Option.some.injEq] at hr
      subst hr
      have := (hz h0).1
      exact ⟨by omega, fun x _ => Or.inr this⟩
    · have hp := hpres h0
      obtain ⟨h1, h2⟩ := reversePath_occupied hP fuel us k c2 c1 hl2 (fun i hi => hv i (by omega))
        (fun i hi1 hi2 => hv0 i hi1 (by omega))
        (fun i hi1 hi2 => hp _ (hocc i hi1 (by omega))) hr
      refine ⟨by omega, fun x hx => ?_⟩
      rcases h2 x (hp x hx) with h3 | h3
      · exact Or.inl h3
      · exact Or.inr (by omega)

/-- The attach of an edge, whatever the keys are: it fills at most one slot, and its last
store is `set(k, v)`. -/
theorem attach_room {P : Params} (hP : P.Valid) {fuel : Nat} {us : Nat → Nat} {n k v : Nat}
    {c c1 : cuckoo_hash} (hlen : c.cuckoo.length = P.CUCKOO_SIZE)
    (hv : ∀ i, i < n → us i < W32) (hv0 : ∀ i, 1 ≤ i → i < n → us i ≠ 0)
    (hocc : ∀ i, 1 ≤ i → i < n → Occupied P c (us i)) (hvv : v < W32)
    (hk : 1 ≤ n → Occupied P c k)
    (h : (reversePath P fuel us n c).bind (fun c => c.set P fuel k v) = some c1) :
    c1.cuckoo.length = P.CUCKOO_SIZE ∧ c1.used ≤ c.used + 1 ∧
      ∃ c2 : cuckoo_hash, c2.cuckoo.length = P.CUCKOO_SIZE ∧ c2.set P fuel k v = some c1 := by
  cases hr : reversePath P fuel us n c with
  | none => rw [hr] at h; cases h
  | some c2 =>
    rw [hr, Option.some_bind] at h
    obtain ⟨hl2, hu2, hpres⟩ := reversePath_room hP fuel us n c c2 hlen hv hv0 hocc hr
    obtain ⟨hl1, ha, hb, -, -⟩ := set_room hP hl2 hvv h
    refine ⟨hl1, ?_, c2, hl2, h⟩
    by_cases hn : n = 0
    · subst hn
      simp only [reversePath, Option.some.injEq] at hr
      subst hr
      exact ha
    · rcases hpres k (hk (by omega)) with h3 | h3
      · have := hb h3
        omega
      · omega

theorem solution_alive {P : Params} {h : Nat → Nat} {ctx ctx1 : cuckoo_ctx}
    {us vs : Nat → Nat} {nu nv : Nat} (hs : solution P h ctx us nu vs nv = some ctx1) :
    ctx1.alive = ctx.alive := by
  unfold solution at hs
  cases hcs : cycleSet us nu vs nv with
  | none => rw [hcs] at hs; cases hs
  | some cyc =>
    rw [hcs] at hs
    simp only at hs
    cases hsc : scanNonces P h ctx.alive ctx.nsols (List.range ctx.easiness)
        { sols := ctx.sols, n := 0, cycle := cyc } with
    | none => rw [hsc] at hs; cases hs
    | some st =>
      rw [hsc] at hs
      simp only [Option.some.injEq] at hs
      rw [← hs]

/-- A cycle-finder step on a map of `CUCKOO_SIZE` slots, whatever the keys are: the live
set is not touched, and the step leaves the map as it is or it is the attach, which
fills at most one slot and ends with `set(u0, v0)` or `set(v0, u0)`. -/
theorem cycleBody_room {P : Params} (hP : P.Valid) {h : Nat → Nat} {w : WorkerState}
    {c : cuckoo_hash} (hcu : w.ctx.cuckoo = some c) (hlen : c.cuckoo.length = P.CUCKOO_SIZE)
    {fuel nonce : Nat} {r : Step WorkerState}
    (hstep : cycleBody P h fuel nonce w = some r) :
    r.state.ctx.alive = w.ctx.alive ∧
    (r.state.ctx.cuckoo = some c ∨
      ∃ c1 c2 : cuckoo_hash, r.state.ctx.cuckoo = some c1 ∧
        c1.cuckoo.length = P.CUCKOO_SIZE ∧ c1.used ≤ c.used + 1 ∧
        c2.cuckoo.length = P.CUCKOO_SIZE ∧
        (c2.set P fuel (nodeU P h nonce) (nodeV P h nonce) = some c1 ∨
          c2.set P fuel (nodeV P h nonce) (nodeU P h nonce) = some c1)) := by
  have hUdef : (sipedge_u P h nonce + 1) % W32 = nodeU P h nonce := rfl
  have hVdef : (sipedge_v P h nonce + (1 + P.HALFSIZE)) % W32 = nodeV P h nonce := rfl
  have hUlt : nodeU P h nonce < W32 := Nat.mod_lt _ (by decide)
  have hVlt : nodeV P h nonce < W32 := Nat.mod_lt _ (by decide)
  unfold cycleBody at hstep
  rw [hcu] at hstep
  simp only [hUdef, hVdef] at hstep
  cases hgu : c.get P fuel (nodeU P h nonce) with
  | none => rw [hgu] at hstep; cases hstep
  | some u =>
    cases hgv : c.get P fuel (nodeV P h nonce) with
    | none => rw [hgu, hgv] at hstep; cases hstep
    | some v =>
      rw [hgu, hgv] at hstep
      simp only at hstep
      by_cases hdup : u = nodeV P h nonce ∨ v = nodeU P h nonce
      · rw [if_pos hdup] at hstep
        simp only [Option.some.injEq] at hstep
        rw [← hstep]
        exact ⟨rfl, Or.inl hcu⟩
      · rw [if_neg hdup] at hstep
        cases hp1 : path P fuel c u (Function.update w.us 0 (nodeU P h nonce)) with
        | none => rw [hp1] at hstep; cases hstep
        | some r1 =>
          rw [hp1] at hstep
          cases r1 with
          | aborted =>
            simp only [Option.some.injEq] at hstep
            rw [← hstep]
            exact ⟨rfl, Or.inl hcu⟩
          | ret nu us =>
            simp only at hstep
            cases hp2 : path P fuel c v (Function.update w.vs 0 (nodeV P h nonce)) with
            | none => rw [hp2] at hstep; cases hstep
            | some r2 =>
              rw [hp2] at hstep
              cases r2 with
              | aborted =>
                simp only [Option.some.injEq] at hstep
                rw [← hstep]
                exact ⟨rfl, Or.inl hcu⟩
              | ret nv vs =>
                simp only at hstep
                obtain ⟨hnu, hu0, huv, huo⟩ := path_gets hP hlen hgu hp1
                obtain ⟨hnv, hv0, hvv, hvo⟩ := path_gets hP hlen hgv hp2
                rw [rdPath_of_lt hnu, rdPath_of_lt hnv] at hstep
                simp only at hstep
                by_cases hroot : us nu = vs nv
                · rw [if_pos hroot] at hstep
                  cases hal : alignLoop us vs fuel (nu - if nu < nv then nu else nv)
                      (nv - if nu < nv then nu else nv) with
                  | none => rw [hal] at hstep; cases hstep
                  | some p =>
                    obtain ⟨nu1, nv1⟩ := p
                    rw [hal] at hstep
                    simp only at hstep
                    split at hstep
                    · cases hsol : solution P h w.ctx us nu1 vs nv1 with
                      | none => rw [hsol] at hstep; cases hstep
                      | some ctx1 =>
                        rw [hsol] at hstep
                        simp only [Option.some.injEq] at hstep
                        rw [← hstep]
                        refine ⟨solution_alive hsol, Or.inl ?_⟩
                        show ctx1.cuckoo = some c
                        rw [solution_cuckoo hsol]
                        exact hcu
                    · simp only [Option.some.injEq] at hstep
                      rw [← hstep]
                      exact ⟨rfl, Or.inl hcu⟩
                · rw [if_neg hroot] at hstep
                  by_cases hlt : nu < nv
                  · rw [if_pos hlt] at hstep
                    cases hat : (reversePath P fuel us nu c).bind
                        (fun c => c.set P fuel (nodeU P h nonce) (nodeV P h nonce)) with
                    | none => rw [hat] at hstep; cases hstep
                    | some c1 =>
                      rw [hat] at hstep
                      simp only [Option.some.injEq] at hstep
                      rw [← hstep]
                      obtain ⟨hl1, hus, c2, hl2, hs2⟩ := attach_room hP hlen
                        (fun i hi => by
                          by_cases hi0 : i = 0
                          · rw [hi0, hu0]; exact hUlt
                          · exact (huv i (by omega) (by omega)).2)
                        (fun i hi1 hi2 => (huv i hi1 (by omega)).1)
                        (fun i hi1 hi2 => huo i hi2) hVlt
                        (fun hn => by rw [← hu0]; exact huo 0 (by omega)) hat
                      exact ⟨rfl, Or.inr ⟨c1, c2, rfl, hl1, hus, hl2, Or.inl hs2⟩⟩
                  · rw [if_neg hlt] at hstep
                    cases hat : (reversePath P fuel vs nv c).bind
                        (fun c => c.set P fuel (nodeV P h nonce) (nodeU P h nonce)) with
                    | none => rw [hat] at hstep; cases hstep
                    | some c1 =>
                      rw [hat] at hstep
                      simp only [Option.some.injEq] at hstep
                      rw [← hstep]
                      obtain ⟨hl1, hus, c2, hl2, hs2⟩ := attach_room hP hlen
                        (fun i hi => by
                          by_cases hi0 : i = 0
                          · rw [hi0, hv0]; exact hVlt
                          · exact (hvv i (by omega) (by omega)).2)
                        (fun i hi1 hi2 => (hvv i hi1 (by omega)).1)
                        (fun i hi1 hi2 => hvo i hi2) hUlt
                        (fun hn => by rw [← hv0]; exact hvo 0 (by omega)) hat
                      exact ⟨rfl, Or.inr ⟨c1, c2, rfl, hl1, hus, hl2, Or.inr hs2⟩⟩

/-- Running the cycle finder over a list of nonces fills at most one slot per live nonce
of the list, whatever the keys are. -/
theorem foldNonces_room {P : Params} (hP : P.Valid) {h : Nat → Nat} (fuel : Nat) :
    ∀ (l : List Nat) (w : WorkerState) (r : Step WorkerState) (c : cuckoo_hash),
      w.ctx.cuckoo = some c → c.cuckoo.length = P.CUCKOO_SIZE →
      foldNonces (fun w : WorkerState => w.ctx.alive) (cycleBody P h fuel) l w = some r →
      r.state.ctx.alive = w.ctx.alive ∧
        ∃ c1 : cuckoo_hash, r.state.ctx.cuckoo = some c1 ∧
          c1.cuckoo.length = P.CUCKOO_SIZE ∧
          c1.used ≤ c.used + (l.filter fun x => w.ctx.alive.test x == some true).length := by
  intro l
  induction l with
  | nil =>
    intro w r c hcu hlen hr
    simp only [foldNonces, Option.some.injEq] at hr
    subst hr
    exact ⟨rfl, c, hcu, hlen, Nat.le_add_right _ _⟩
  | cons n rest ih =>
    intro w r c hcu hlen hr
    simp only [foldNonces] at hr
    cases ht : w.ctx.alive.test n with
    | none => rw [ht] at hr; cases hr
    | some b =>
      rw [ht] at hr
      cases b with
      | false =>
        simp only at hr
        obtain ⟨h1, c1, h2, h3, h4⟩ := ih w r c hcu hlen hr
        refine ⟨h1, c1, h2, h3, ?_⟩
        rw [List.filter_cons_of_neg (by rw [ht]; decide)]
        exact h4
      | true =>
        simp only at hr
        have hfl : ((n :: rest).filter fun x => w.ctx.alive.test x == some true).length =
            (rest.filter fun x => w.ctx.alive.test x == some true).length + 1 := by
          rw [List.filter_cons_of_pos (by rw [ht]; rfl), List.length_cons]
        cases hb : cycleBody P h fuel n w with
        | none => rw [hb] at hr; cases hr
        | some r1 =>
          rw [hb] at hr
          obtain ⟨hal, hmap⟩ := cycleBody_room hP hcu hlen hb
          have hstate : ∃ c1 : cuckoo_hash, r1.state.ctx.cuckoo = some c1 ∧
              c1.cuckoo.length = P.CUCKOO_SIZE ∧ c1.used ≤ c.used + 1 := by
            rcases hmap with h0 | ⟨c1, c2, h1, h2, h3, -, -⟩
            · exact ⟨c, h0, hlen, Nat.le_succ _⟩
            · exact ⟨c1, h1, h2, h3⟩
          obtain ⟨c1, hc1, hl1, hu1⟩ := hstate
          cases r1 with
          | exit s1 =>
            simp only [Option.some.injEq] at hr
            subst hr
            exact ⟨hal, c1, hc1, hl1, by rw [hfl]; omega⟩
          | next s1 =>
            simp only at hr
            have hal1 : s1.ctx.alive = w.ctx.alive := hal
            have hc1s : s1.ctx.cuckoo = some c1 := hc1
            obtain ⟨h1, c3, h2, h3, h4⟩ := ih s1 r c1 hc1s hl1 hr
            rw [hal1] at h1 h4
            exact ⟨h1, c3, h2, h3, by rw [hfl]; omega⟩

/-- C10: a cycle-finder step on a nonce with endpoints `(u0, v0)` for which
`get(u0) == v0` or `get(v0) == u0` is the `continue`: it returns the state it was given,
so the map and the solutions are unchanged.  And in a single-threaded run of the cycle
finder from the freshly allocated map (the steps on the nonces of `l`, then the step on
the nonce `n`), whatever the keys of the nodes are, if the step on `n` attached its edge
(it changed the map, which only the attach branch does), then a step that follows at once
on a nonce `m` with the same endpoints can only end as that skip; and it does end so, with
`get(u0) == v0` or `get(v0) == u0`, when the live nonces are fewer than the slots of the
map (which the load check provides) and the probe budget covers the table.  So the edge is
not inserted again and no solution is written for it. -/
theorem duplicate_edge_skip (P : Params) (h : Nat → Nat) :
    (∀ (fuel nonce : Nat) (w : WorkerState) (c : cuckoo_hash) (u v : Nat),
      w.ctx.cuckoo = some c → c.get P fuel (nodeU P h nonce) = some u →
      c.get P fuel (nodeV P h nonce) = some v →
      (u = nodeV P h nonce ∨ v = nodeU P h nonce) →
      cycleBody P h fuel nonce w = some (Step.next w)) ∧
    (P.Valid →
      ∀ (c : cuckoo_ctx) (us0 vs0 : Nat → Nat) (fuel : Nat) (l : List Nat) (n m : Nat)
        (w w1 : WorkerState),
      c.cuckoo = some (cuckoo_hash.new P) →
      foldNonces (fun w : WorkerState => w.ctx.alive) (cycleBody P h fuel) l
        { ctx := c, us := us0, vs := vs0 } = some (Step.next w) →
      cycleBody P h fuel n w = some (Step.next w1) → w1.ctx.cuckoo ≠ w.ctx.cuckoo →
      nonceEdge P h m = nonceEdge P h n →
      ∀ fuel2 : Nat,
        (∀ r, cycleBody P h fuel2 m w1 = some r → r = Step.next w1) ∧
        ((l ++ [n, m]).Nodup → (∀ x ∈ l, x < c.easiness) → n < c.easiness →
          m < c.easiness → c.alive.test n = some true → c.alive.test m = some true →
          liveCount c.alive c.easiness < P.CUCKOO_SIZE → P.CUCKOO_SIZE ≤ fuel2 →
          ∃ c1 u v, w1.ctx.cuckoo = some c1 ∧
            c1.get P fuel2 (nodeU P h m) = some u ∧
            c1.get P fuel2 (nodeV P h m) = some v ∧
            (u = nodeV P h m ∨ v = nodeU P h m) ∧
            cycleBody P h fuel2 m w1 = some (Step.next w1))) := by
  refine ⟨fun fuel nonce w c u v hc hu hv hd => cycleBody_skip P h fuel nonce w c u v hc hu hv hd,
    ?_⟩
  intro hP c us0 vs0 fuel l n m w w1 hc hrun hstep hatt hsame fuel2
  have hlen0 : (cuckoo_hash.new P).cuckoo.length = P.CUCKOO_SIZE := by
    simp [cuckoo_hash.new]
  obtain ⟨-, cw, hcw, hlw, huw⟩ := foldNonces_room hP fuel l _ _ _ hc hlen0 hrun
  have hcw : w.ctx.cuckoo = some cw := hcw
  have huw : cw.used ≤ (cuckoo_hash.new P).used +
      (l.filter fun x => c.alive.test x == some true).length := huw
  obtain ⟨-, hmap⟩ := cycleBody_room hP hcw hlw hstep
  have hmap : w1.ctx.cuckoo = some cw ∨ ∃ c1 c2 : cuckoo_hash, w1.ctx.cuckoo = some c1 ∧
      c1.cuckoo.length = P.CUCKOO_SIZE ∧ c1.used ≤ cw.used + 1 ∧
      c2.cuckoo.length = P.CUCKOO_SIZE ∧
      (c2.set P fuel (nodeU P h n) (nodeV P h n) = some c1 ∨
        c2.set P fuel (nodeV P h n) (nodeU P h n) = some c1) := hmap
  rcases hmap with h0 | ⟨c1, c2, hc1, hl1, hu1, hl2, hset⟩
  · exact absurd (h0.trans hcw.symm) hatt
  rw [nonceEdge_eq, nonceEdge_eq, edge.mk.injEq] at hsame
  obtain ⟨hU, hV⟩ := hsame
  have hUlt : nodeU P h n < W32 := Nat.mod_lt _ (by decide)
  have hVlt : nodeV P h n < W32 := Nat.mod_lt _ (by decide)
  have hdup : ∀ u v, c1.get P fuel2 (nodeU P h m) = some u →
      c1.get P fuel2 (nodeV P h m) = some v → u = nodeV P h m ∨ v = nodeU P h m := by
    intro u v hu hv
    rw [hU] at hu
    rw [hV] at hv
    rw [hU, hV]
    rcases hset with hs | hs
    · exact Or.inl ((get_after_set hP hl2 hVlt hs fuel2).1 u hu)
    · exact Or.inr ((get_after_set hP hl2 hUlt hs fuel2).1 v hv)
  constructor
  · intro r hr
    obtain ⟨c3, u, v, hc3, hu, hv⟩ := cycleBody_gets hr
    rw [hc1] at hc3
    cases hc3
    rw [cycleBody_skip P h fuel2 m w1 c1 u v hc1 hu hv (hdup u v hu hv)] at hr
    exact (Option.some.inj hr).symm
  · intro hnd hl hn hm hlive hlivem hcount hf
    have hroom : c1.used < P.CUCKOO_SIZE := by
      rw [used_new] at huw
      have hall : ∀ x ∈ l ++ [n, m], x < c.easiness := by
        intro x hx
        simp only [List.mem_append, List.mem_cons, List.mem_singleton, List.not_mem_nil,
          or_false] at hx
        rcases hx with hx | rfl | rfl
        · exact hl x hx
        · exact hn
        · exact hm
      have hle := live_filter_le c.alive c.easiness (l ++ [n, m]) hnd hall
      rw [List.filter_append, List.length_append,
        List.filter_cons_of_pos (by rw [hlive]; rfl),
        List.filter_cons_of_pos (by rw [hlivem]; rfl)] at hle
      simp only [List.filter_nil, List.length_cons, List.length_nil] at hle
      omega
    obtain ⟨c3, u3, v3, hc3, hgu, hgv⟩ := cycleBody_gets hstep
    rw [hcw] at hc3
    cases hc3
    have hhU : nodeU P h m >>> P.IDXSHIFT < P.CUCKOO_SIZE := by
      rw [hU, ← hlw]; exact get_home hgu
    have hhV : nodeV P h m >>> P.IDXSHIFT < P.CUCKOO_SIZE := by
      rw [hV, ← hlw]; exact get_home hgv
    obtain ⟨u, hu⟩ := get_returns hP hl1 hhU hf hroom
    obtain ⟨v, hv⟩ := get_returns hP hl1 hhV hf hroom
    have hd := hdup u v hu hv
    exact ⟨c1, u, v, hc1, hu, hv, hd, cycleBody_skip P h fuel2 m w1 c1 u v hc1 hu hv hd⟩

theorem bigParams_keys_collide : ¬ KeysDistinct bigParams := by
  intro hk
  have := hk 1 32769 ⟨by decide, by decide⟩ ⟨by decide, by decide⟩ (by decide)
  omega

set_option maxRecDepth 100000 in
theorem duplicate_edge_skip_witness :
    ((trimRounds exParams exHashB 0 9 exCtxB.ntrims exCtxB 100).map (fun p => p.1.alive) =
        some exStartB.ctx.alive ∧
      foldNonces (fun w : WorkerState => w.ctx.alive) (cycleBody exParams exHashB 9) [0, 1]
        exStartB = some (Step.next exMidB) ∧
      cycleBody exParams exHashB 9 2 exMidB = some (Step.next exAfterB) ∧
      exAfterB.ctx.cuckoo ≠ exMidB.ctx.cuckoo ∧
      nonceEdge exParams exHashB 3 = nonceEdge exParams exHashB 2 ∧
      (∀ r, cycleBody exParams exHashB 9 3 exAfterB = some r → r = Step.next exAfterB) ∧
      ∃ c1 u v, exAfterB.ctx.cuckoo = some c1 ∧
        c1.get exParams 9 (nodeU exParams exHashB 3) = some u ∧
        c1.get exParams 9 (nodeV exParams exHashB 3) = some v ∧
        (u = nodeV exParams exHashB 3 ∨ v = nodeU exParams exHashB 3) ∧
        cycleBody exParams exHashB 9 3 exAfterB = some (Step.next exAfterB)) ∧
    (¬ KeysDistinct bigParams ∧
      foldNonces (fun w : WorkerState => w.ctx.alive) (cycleBody bigParams exHashB 1025)
        [0, 1] exStartD = some (Step.next exMidD) ∧
      cycleBody bigParams exHashB 1025 2 exMidD = some (Step.next exAfterD) ∧
      exAfterD.ctx.cuckoo ≠ exMidD.ctx.cuckoo ∧
      nonceEdge bigParams exHashB 3 = nonceEdge bigParams exHashB 2 ∧
      (∀ r, cycleBody bigParams exHashB 1025 3 exAfterD = some r →
        r = Step.next exAfterD) ∧
      ∃ c1 u v, exAfterD.ctx.cuckoo = some c1 ∧
        c1.get bigParams 1025 (nodeU bigParams exHashB 3) = some u ∧
        c1.get bigParams 1025 (nodeV bigParams exHashB 3) = some v ∧
        (u = nodeV bigParams exHashB 3 ∨ v = nodeU bigParams exHashB 3) ∧
        cycleBody bigParams exHashB 1025 3 exAfterD = some (Step.next exAfterD)) :=
  ⟨⟨by decide, rfl, rfl, by decide, by decide,
    ((duplicate_edge_skip exParams exHashB).2 exParams_Valid
      exStartB.ctx (fun _ => 0) (fun _ => 0) 9 [0, 1] 2 3 exMidB exAfterB
      rfl rfl rfl (by decide) (by decide) 9).1,
    ((duplicate_edge_skip exParams exHashB).2 exParams_Valid
      exStartB.ctx (fun _ => 0) (fun _ => 0) 9 [0, 1] 2 3 exMidB exAfterB
      rfl rfl rfl (by decide) (by decide) 9).2
      (by decide) (by decide) (by decide) (by decide) (by decide) (by decide) (by decide)
      (by decide)⟩,
   ⟨bigParams_keys_collide, rfl, rfl, by decide, by decide,
    ((duplicate_edge_skip bigParams exHashB).2 bigParams_Valid
      exStartD.ctx (fun _ => 0) (fun _ => 0) 1025 [0, 1] 2 3 exMidD exAfterD
      rfl rfl rfl (by decide) (by decide) 1025).1,
    ((duplicate_edge_skip bigParams exHashB).2 bigParams_Valid
      exStartD.ctx (fun _ => 0) (fun _ => 0) 1025 [0, 1] 2 3 exMidD exAfterD
      rfl rfl rfl (by decide) (by decide) 1025).2
      (by decide) (by decide) (by decide) (by decide) (by decide) (by decide) (by decide)
      (by decide)⟩⟩

end Cuckoo
